import Mathlib

/-!
# Int8AABBRoINMS: quantized, class-aware non-maximum suppression

Two shallow embeddings of `Int8AABBRoINMSOp<CPUContext>::RunOnDevice`
(`caffe2/operators/quantized/int8_aabb_roi_nms_op.cc`) and of the operator
arguments declared in `caffe2/operators/aabb_roi_nms_op.h`.

The first embedding computes in exact rational arithmetic and treats the
score table as a value.  The second one (names ending in `_f32`) rounds every
`float` and `double` operation as IEEE 754 does, with infinities and NaN, and
keeps the input score buffer and the adjusted copy apart in a memory that is
read and written through `scores_ptr` and `scores_adjust_ptr`; statements
whose truth depends on rounding, on a division by zero or on which buffer is
written are made about the second.

Modelling conventions of the first embedding.

* `float` values are rationals: rounding of float arithmetic is not modelled.
  `0.125f` is `1/8`.  Division follows the field convention `x / 0 = 0`.
* `int`, `int32_t`, `size_t` index arithmetic is done in `Nat`/`Int` without
  wrap-around; `uint8_t` stores go through `% 256`.
* Raw buffers are lists read with `getD _ 0`; every read the operator performs
  is in bounds when the shape checks pass and the batch splits sum to the
  number of rows.
* `CAFFE_ENFORCE`, `CAFFE_THROW` and `DCHECK` failures are `Except.error`.
* Loops are folds over the iteration space; the `while` loop of the selector
  is a recursion on a round budget equal to the size of the initial pool,
  which `nms_loop_exits` shows to be enough.
-/

namespace caffe2

deriving instance DecidableEq for Except

/-! ## Tensors and operator arguments -/

/-- A dense tensor: its shape and its row-major element buffer. -/
structure Tensor where
  dims : List Nat
  data : List Nat
deriving DecidableEq, Repr

/-- Number of dimensions, `Tensor::dim()`. -/
def Tensor.dim (t : Tensor) : Nat := t.dims.length

/-- Extent of dimension `i`, `Tensor::size(i)`. -/
def Tensor.size (t : Tensor) (i : Nat) : Nat := t.dims.getD i 0

/-- An affine-quantized tensor, `int8::Int8TensorCPU`. -/
structure Int8TensorCPU where
  t : Tensor
  scale : ℚ
  zero_point : Int
deriving DecidableEq, Repr

def SOFT_NMS_NONE : Int := 0
def SOFT_NMS_LINEAR : Int := 1
def SOFT_NMS_GAUSSIAN : Int := 2

/-- Parsing of the `soft_nms_method` argument, `AABBRoINMSOp::GetSoftNmsMethod`. -/
def GetSoftNmsMethod (name : String) : Except String Int :=
  if name = "none" then .ok SOFT_NMS_NONE
  else if name = "linear" then .ok SOFT_NMS_LINEAR
  else if name = "gaussian" then .ok SOFT_NMS_GAUSSIAN
  else .error ("Unexpected soft_nms_method " ++ name)

/-- The members of `AABBRoINMSOp` that `RunOnDevice` reads. -/
structure AABBRoINMSOp where
  min_score : ℚ
  max_iou : ℚ
  max_objects : Int
  soft_nms_method : Int
  soft_nms_sigma : ℚ
  soft_nms_min_score : ℚ
deriving DecidableEq, Repr

/-- Library functions the operator calls and whose code is outside
`int8_aabb_roi_nms_op.cc`: `int8::QuantizeUint8` (`int8_utils.h`), `std::exp`
and `std::sort` with the comparator of the global merge.  `sort key` orders
`(class, roi)` pairs by decreasing `key`; the standard only promises a sorted
permutation, which the two proof fields record. -/
structure Lib where
  QuantizeUint8 : ℚ → Int → ℚ → Nat
  exp : ℚ → ℚ
  sort : (Nat × Nat → Nat) → List (Nat × Nat) → List (Nat × Nat)
  sort_perm : ∀ key l, (sort key l).Perm l
  sort_sorted : ∀ key l, (sort key l).Pairwise (fun a b => key b ≤ key a)

/-! ## Loops with early exit on error -/

/-- A `for` loop over `xs` whose body may throw. -/
def forE {σ α : Type} (body : σ → α → Except String σ) : List α → σ → Except String σ
  | [], s => .ok s
  | a :: as, s =>
    match body s a with
    | .ok s1 => forE body as s1
    | .error e => .error e

/-! ## Scores and boxes -/

/-- The dequantized score of RoI `i` for class `class_idx`:
`scores_scale * (int32_t(scores_ptr[i * num_classes + class_idx]) - scores_zero_point)`. -/
def score_at (scale : ℚ) (zp : Int) (scores : List Nat) (num_classes class_idx i : Nat) : ℚ :=
  scale * ((((scores.getD (i * num_classes + class_idx) 0 : Nat) : Int) - zp : Int) : ℚ)

/-- An axis-aligned box in pixels. -/
structure Box where
  x1 : ℚ
  y1 : ℚ
  x2 : ℚ
  y2 : ℚ
deriving DecidableEq, Repr

/-- One coordinate: `float(input_boxes_ptr[(p * num_classes + class_idx) * 4 + k]) * 0.125f`. -/
def box_coord (boxes : List Nat) (num_classes class_idx p k : Nat) : ℚ :=
  ((boxes.getD ((p * num_classes + class_idx) * 4 + k) 0 : Nat) : ℚ) * (1 / 8)

/-- The box of RoI `p` for class `class_idx`. -/
def load_box (boxes : List Nat) (num_classes class_idx p : Nat) : Box :=
  { x1 := box_coord boxes num_classes class_idx p 0
    y1 := box_coord boxes num_classes class_idx p 1
    x2 := box_coord boxes num_classes class_idx p 2
    y2 := box_coord boxes num_classes class_idx p 3 }

/-- Width times height (`p_area`, `i_area`). -/
def Box.area (b : Box) : ℚ := (b.x2 - b.x1) * (b.y2 - b.y1)

/-- Area of the intersection of `p` and `i`, with width and height clamped at 0. -/
def intersection_area (p i : Box) : ℚ :=
  let intersection_x1 := max p.x1 i.x1
  let intersection_y1 := max p.y1 i.y1
  let intersection_x2 := min p.x2 i.x2
  let intersection_y2 := min p.y2 i.y2
  let intersection_width := max (intersection_x2 - intersection_x1) 0
  let intersection_height := max (intersection_y2 - intersection_y1) 0
  intersection_width * intersection_height

/-- The union area: `i_area + p_area - intersection_area`. -/
def union_area (p i : Box) : ℚ :=
  i.area + p.area - intersection_area p i

/-! ## The per-class selector -/

/-- A candidate list under construction together with the running best:
`indices` / `new_indices`, `best_score`, `best_score_pos`, and the score table
that `scores_ptr` points to. -/
structure Pool where
  best_score_pos : Int
  best_score : ℚ
  indices : List Nat
  scores : List Nat
deriving DecidableEq, Repr

/-- The pool before any candidate is seen. -/
def Pool.init (scores : List Nat) : Pool :=
  { best_score_pos := -1, best_score := -1, indices := [], scores := scores }

/-- Record `score` as the running best when it is strictly higher, then push `idx`. -/
def Pool.push (pl : Pool) (score : ℚ) (idx : Nat) : Pool :=
  { best_score_pos := if score > pl.best_score then (pl.indices.length : Int) else pl.best_score_pos
    best_score := if score > pl.best_score then score else pl.best_score
    indices := pl.indices ++ [idx]
    scores := pl.scores }

/-- Body of the admission loop (lines 83-92). -/
def scan_step (op : AABBRoINMSOp) (scale : ℚ) (zp : Int) (num_classes class_idx : Nat)
    (pl : Pool) (i : Nat) : Pool :=
  let score := score_at scale zp pl.scores num_classes class_idx i
  if score > op.min_score then pl.push score i else pl

/-- The admission loop over the `num_boxes` rows of the image. -/
def scan (op : AABBRoINMSOp) (scale : ℚ) (zp : Int) (num_classes class_idx num_boxes : Nat)
    (scores : List Nat) : Pool :=
  (List.range num_boxes).foldl (scan_step op scale zp num_classes class_idx) (Pool.init scores)

/-- The store `scores_adjust_ptr[idx * num_classes + class_idx] = QuantizeUint8(...)`. -/
def store_score (lib : Lib) (scale : ℚ) (zp : Int) (num_classes class_idx idx : Nat)
    (score : ℚ) (scores : List Nat) : List Nat :=
  scores.set (idx * num_classes + class_idx) (lib.QuantizeUint8 scale zp score % 256)

/-- The decisions of one comparison (lines 117-174) for candidate `idx`
against the emitted RoI `p`, on the score table `scores`: the score under
which the candidate is pushed to `new_indices` (`none` when it is dropped) and
the score table after the stores of this comparison. -/
def compare_outcome (lib : Lib) (op : AABBRoINMSOp) (scale : ℚ) (zp : Int) (boxes : List Nat)
    (num_classes class_idx p : Nat) (scores : List Nat) (idx : Nat) :
    Except String (Option ℚ × List Nat) :=
  let pb := load_box boxes num_classes class_idx p
  let ib := load_box boxes num_classes class_idx idx
  let intersection := intersection_area pb ib
  let union := union_area pb ib
  if intersection ≤ op.max_iou * union then
    let score := score_at scale zp scores num_classes class_idx idx
    if op.soft_nms_method = SOFT_NMS_GAUSSIAN then
      let iou := intersection / union
      let score1 := score * lib.exp (-1 * iou * iou / op.soft_nms_sigma)
      .ok (some score, store_score lib scale zp num_classes class_idx idx score1 scores)
    else .ok (some score, scores)
  else if op.soft_nms_method ≠ SOFT_NMS_NONE then
    let score := score_at scale zp scores num_classes class_idx idx
    let rescored : Except String ℚ :=
      if op.soft_nms_method = SOFT_NMS_LINEAR then
        .ok (score * (1 - intersection / union))
      else if op.soft_nms_method = SOFT_NMS_GAUSSIAN then
        let iou := intersection / union
        .ok (score * lib.exp (-1 * iou * iou / op.soft_nms_sigma))
      else .error "Unknown soft nms method"
    match rescored with
    | .error e => .error e
    | .ok score1 =>
      let scores1 := store_score lib scale zp num_classes class_idx idx score1 scores
      if score1 ≥ op.soft_nms_min_score then .ok (some score1, scores1) else .ok (none, scores1)
  else .ok (none, scores)

/-- Body of the comparison loop: the outcome of the comparison applied to
the pool under construction. -/
def compare_step (lib : Lib) (op : AABBRoINMSOp) (scale : ℚ) (zp : Int) (boxes : List Nat)
    (num_classes class_idx p : Nat) (pl : Pool) (idx : Nat) : Except String Pool :=
  match compare_outcome lib op scale zp boxes num_classes class_idx p pl.scores idx with
  | .error e => .error e
  | .ok (none, scores1) => .ok { pl with scores := scores1 }
  | .ok (some score, scores1) => .ok (({ pl with scores := scores1 } : Pool).push score idx)

/-- `std::swap(v[i], v[j])` on a list. -/
def swap (v : List Nat) (i j : Nat) : List Nat :=
  (v.set i (v.getD j 0)).set j (v.getD i 0)

/-- Loop-carried state of the selector `while` loop: the pool and the
keep-list of the class. -/
structure Selector where
  pool : Pool
  keep : List Nat
deriving DecidableEq, Repr

/-- One round of the selector (lines 97-176), entered with a non-empty pool. -/
def nms_round (lib : Lib) (op : AABBRoINMSOp) (scale : ℚ) (zp : Int) (boxes : List Nat)
    (num_classes class_idx : Nat) (s : Selector) : Except String Selector :=
  if s.pool.best_score_pos < 0 then .error "DCHECK_GE(best_score_pos, 0)"
  else if ¬ (s.pool.best_score_pos < (s.pool.indices.length : Int)) then
    .error "DCHECK_LT(best_score_pos, indices.size())"
  else
    let indices := swap s.pool.indices 0 s.pool.best_score_pos.toNat
    let p := indices.getD 0 0
    match forE (compare_step lib op scale zp boxes num_classes class_idx p)
        (indices.drop 1) (Pool.init s.pool.scores) with
    | .error e => .error e
    | .ok pl => .ok { pool := pl, keep := s.keep ++ [p] }

/-- The selector loop
`while (indices.size() > 0 && keep.size() < max_post_nms_proposals)`,
run for at most `rounds` rounds. -/
def nms_loop (lib : Lib) (op : AABBRoINMSOp) (scale : ℚ) (zp : Int) (boxes : List Nat)
    (num_classes class_idx max_post_nms_proposals : Nat) :
    Nat → Selector → Except String Selector
  | 0, s => .ok s
  | rounds + 1, s =>
    if s.pool.indices.length > 0 ∧ s.keep.length < max_post_nms_proposals then
      match nms_round lib op scale zp boxes num_classes class_idx s with
      | .error e => .error e
      | .ok s1 => nms_loop lib op scale zp boxes num_classes class_idx max_post_nms_proposals rounds s1
    else .ok s

/-! ## The per-image merger -/

/-- Per-image state of the class loop: `keeps`, `total_keep_count` and the
working score table. -/
structure ImageState where
  keeps : List (List Nat)
  total_keep_count : Nat
  scores : List Nat
deriving DecidableEq, Repr

/-- `max_objects_ > 0 ? max_objects_ : num_boxes`. -/
def max_post_nms_proposals (op : AABBRoINMSOp) (num_boxes : Nat) : Nat :=
  if op.max_objects > 0 then op.max_objects.toNat else num_boxes

/-- Body of the class loop (lines 80-178). -/
def nms_class (lib : Lib) (op : AABBRoINMSOp) (scale : ℚ) (zp : Int) (boxes : List Nat)
    (num_classes num_boxes : Nat) (st : ImageState) (class_idx : Nat) : Except String ImageState :=
  let pl := scan op scale zp num_classes class_idx num_boxes st.scores
  match nms_loop lib op scale zp boxes num_classes class_idx (max_post_nms_proposals op num_boxes)
      pl.indices.length { pool := pl, keep := st.keeps.getD class_idx [] } with
  | .error e => .error e
  | .ok s =>
    .ok { keeps := st.keeps.set class_idx s.keep
          total_keep_count := st.total_keep_count + s.keep.length
          scores := s.pool.scores }

/-- The class indices visited: `for (class_idx = 1; class_idx < num_classes; class_idx++)`. -/
def class_range (num_classes : Nat) : List Nat :=
  (List.range (num_classes - 1)).map (fun c => c + 1)

/-- Flattening of the keep-lists into `(class, roi)` pairs (lines 190-194). -/
def all_objects (num_classes : Nat) (keeps : List (List Nat)) : List (Nat × Nat) :=
  (class_range num_classes).flatMap (fun i => (keeps.getD i []).map (fun ckv => (i, ckv)))

/-- The sort key of the global merge: the raw score `scores_ptr[second * num_classes + first]`. -/
def raw_key (scores : List Nat) (num_classes : Nat) (obj : Nat × Nat) : Nat :=
  scores.getD (obj.2 * num_classes + obj.1) 0

/-- Body of the rebuild loop (lines 213-215). -/
def rebuild_step (sorted : List (Nat × Nat)) (keeps : List (List Nat)) (i : Nat) :
    Except String (List (List Nat)) :=
  if ¬ (sorted.length > i) then .error "DCHECK_GT(all_objects.size(), i)"
  else
    let obj := sorted.getD i (0, 0)
    .ok (keeps.set obj.1 (keeps.getD obj.1 [] ++ [obj.2]))

/-- The global cap (lines 182-218). -/
def limit_objects (lib : Lib) (op : AABBRoINMSOp) (num_classes : Nat) (st : ImageState) :
    Except String ImageState :=
  if op.max_objects > 0 ∧ (st.total_keep_count : Int) > op.max_objects then
    let sorted := lib.sort (raw_key st.scores num_classes) (all_objects num_classes st.keeps)
    if ¬ ((sorted.length : Int) > op.max_objects) then
      .error "DCHECK_GT(all_objects.size(), max_objects_)"
    else
      match forE (rebuild_step sorted) (List.range op.max_objects.toNat)
          (st.keeps.map (fun _ => [])) with
      | .error e => .error e
      | .ok keeps =>
        .ok { keeps := keeps, total_keep_count := op.max_objects.toNat, scores := st.scores }
  else .ok st

/-! ## Writing the results -/

/-- The three growing output tensors and the write cursor `cur_out_idx`. -/
structure Writer where
  output_scores : List ℚ
  output_boxes : List Nat
  output_classes : List Nat
  cur_out_idx : Nat
deriving DecidableEq, Repr

/-- Body of the first inner write loop (lines 239-245): score and box of entry `k`. -/
def write_entry (scale : ℚ) (zp : Int) (scores boxes : List Nat) (num_classes class_idx : Nat)
    (cur_start_idx : Nat) (cur_keep : List Nat) (w : Writer) (k : Nat) : Writer :=
  let box_idx := cur_keep.getD k 0
  let pos := cur_start_idx + w.cur_out_idx + k
  { w with
    output_scores := w.output_scores.set pos
      (((((scores.getD (box_idx * num_classes + class_idx) 0 : Nat) : Int) - zp : Int) : ℚ) * scale)
    output_boxes := (List.range 4).foldl
      (fun out component_idx =>
        out.set (pos * 4 + component_idx)
          (boxes.getD ((box_idx * num_classes + class_idx) * 4 + component_idx) 0))
      w.output_boxes }

/-- Body of the second inner write loop (lines 247-249): class of entry `k`. -/
def write_class_id (class_idx cur_start_idx : Nat) (w : Writer) (k : Nat) : Writer :=
  { w with output_classes := w.output_classes.set (cur_start_idx + w.cur_out_idx + k) class_idx }

/-- Body of the outer write loop (lines 236-251). -/
def write_class (scale : ℚ) (zp : Int) (scores boxes : List Nat) (num_classes : Nat)
    (cur_start_idx : Nat) (keeps : List (List Nat)) (w : Writer) (class_idx : Nat) : Writer :=
  let cur_keep := keeps.getD class_idx []
  let w1 := (List.range cur_keep.length).foldl
    (write_entry scale zp scores boxes num_classes class_idx cur_start_idx cur_keep) w
  let w2 := (List.range cur_keep.length).foldl (write_class_id class_idx cur_start_idx) w1
  { w2 with cur_out_idx := w2.cur_out_idx + cur_keep.length }

/-- The loop-carried state of the batch loop: the score table `scores_ptr`
points to (the input buffer in mode NONE, where it is never written, and the
adjusted copy otherwise), the output tensors and `total_keep_per_batch`. -/
structure BatchState where
  scores : List Nat
  output_scores : List ℚ
  output_boxes : List Nat
  output_classes : List Nat
  total_keep_per_batch : List Nat
deriving DecidableEq, Repr

/-- Body of the batch loop (lines 73-254) for an image with `num_boxes` RoIs.
`roi_start` is advanced by the source but never read, so it is not carried. -/
def process_image (lib : Lib) (op : AABBRoINMSOp) (scale : ℚ) (zp : Int) (boxes : List Nat)
    (num_classes : Nat) (bs : BatchState) (num_boxes : Nat) : Except String BatchState :=
  match forE (nms_class lib op scale zp boxes num_classes num_boxes) (class_range num_classes)
      { keeps := List.replicate num_classes [], total_keep_count := 0, scores := bs.scores } with
  | .error e => .error e
  | .ok st =>
    match limit_objects lib op num_classes st with
    | .error e => .error e
    | .ok st1 =>
      let cur_start_idx := bs.output_scores.length
      let w0 : Writer :=
        { output_scores := bs.output_scores ++ List.replicate st1.total_keep_count 0
          output_boxes := bs.output_boxes ++ List.replicate (st1.total_keep_count * 4) 0
          output_classes := bs.output_classes ++ List.replicate st1.total_keep_count 0
          cur_out_idx := 0 }
      let w := (class_range num_classes).foldl
        (write_class scale zp st1.scores boxes num_classes cur_start_idx st1.keeps) w0
      .ok { scores := st1.scores
            output_scores := w.output_scores
            output_boxes := w.output_boxes
            output_classes := w.output_classes
            total_keep_per_batch := bs.total_keep_per_batch ++ [st1.total_keep_count] }

/-- The four outputs of the operator. -/
structure Outputs where
  output_batch_splits : List Nat
  output_scores : List ℚ
  output_boxes : List Nat
  output_classes : List Nat
deriving DecidableEq, Repr

/-- The shape checks of lines 14-39; `CAFFE_ENFORCE` failures are errors.  The
element types are fixed by the model, so the two `IsType` checks have no
counterpart. -/
def check_shapes (input_batch_splits : Tensor) (input_scores : Int8TensorCPU)
    (input_boxes : Tensor) : Except String Unit :=
  if input_scores.t.dim = 4 ∧ input_scores.t.size 1 ≠ 1 then .error "scores.size(1) == 1"
  else if input_scores.t.dim = 4 ∧ input_scores.t.size 2 ≠ 1 then .error "scores.size(2) == 1"
  else if input_scores.t.dim ≠ 4 ∧ input_scores.t.dim ≠ 2 then .error "scores.dim() == 2"
  else if input_boxes.dim = 4 ∧ input_boxes.size 1 ≠ 1 then .error "boxes.size(1) == 1"
  else if input_boxes.dim = 4 ∧ input_boxes.size 2 ≠ 1 then .error "boxes.size(2) == 1"
  else if input_boxes.dim ≠ 4 ∧ input_boxes.dim ≠ 2 then .error "boxes.dim() == 2"
  else if input_scores.t.size 0 ≠ input_boxes.size 0 then .error "num_rois == boxes.size(0)"
  else if input_scores.t.size 1 * 4 ≠ input_boxes.size 1 then
    .error "num_classes * 4 == boxes.size(1)"
  else if input_batch_splits.dim ≠ 1 then .error "batch_splits.dim() == 1"
  else .ok ()

/-- `Int8AABBRoINMSOp<CPUContext>::RunOnDevice`. -/
def RunOnDevice (lib : Lib) (op : AABBRoINMSOp) (input_batch_splits : Tensor)
    (input_scores : Int8TensorCPU) (input_boxes : Tensor) : Except String Outputs :=
  match check_shapes input_batch_splits input_scores input_boxes with
  | .error e => .error e
  | .ok _ =>
    let num_classes := input_scores.t.size 1
    let batch_size := input_batch_splits.size 0
    match forE
        (process_image lib op input_scores.scale input_scores.zero_point input_boxes.data num_classes)
        ((List.range batch_size).map (fun b => input_batch_splits.data.getD b 0))
        { scores := input_scores.t.data, output_scores := [], output_boxes := [],
          output_classes := [], total_keep_per_batch := [] } with
    | .error e => .error e
    | .ok bs =>
      .ok { output_batch_splits := bs.total_keep_per_batch
            output_scores := bs.output_scores
            output_boxes := bs.output_boxes
            output_classes := bs.output_classes }

/-! ## Concrete library functions used to run the model -/

/-- Modelled from the spec: `int8::QuantizeUint8` of `int8_utils.h`, which is
not part of the extract.  The value is divided by the scale, rounded to the
nearest integer, shifted by the zero point and clamped to `[0, 255]`. -/
def QuantizeUint8 (scale : ℚ) (zero_point : Int) (value : ℚ) : Nat :=
  (min (max (zero_point + ⌊value / scale + 1 / 2⌋) 0) 255).toNat

/-- Insertion of `a` into a list ordered by decreasing `key`, in front of the
first entry whose key is not larger than that of `a`. -/
def insert_desc (key : Nat × Nat → Nat) (a : Nat × Nat) : List (Nat × Nat) → List (Nat × Nat)
  | [] => [a]
  | b :: bs => if key a < key b then b :: insert_desc key a bs else a :: b :: bs

/-- A stable insertion sort by decreasing `key`, one admissible behaviour of `std::sort`. -/
def sort_desc (key : Nat × Nat → Nat) (l : List (Nat × Nat)) : List (Nat × Nat) :=
  l.foldr (insert_desc key) []

/-- A rational stand-in for `std::exp`: the Taylor polynomial of degree 15 at 0. -/
def exp_taylor (x : ℚ) : ℚ :=
  (List.range 16).foldl (fun acc k => acc + x ^ k / (Nat.factorial k : ℚ)) 0

/-- The library used to run the model on concrete inputs. -/
def std_lib : Lib where
  QuantizeUint8 := QuantizeUint8
  exp := exp_taylor
  sort := sort_desc
  sort_perm := by
    intro key l
    have hins : ∀ (a : Nat × Nat) (m : List (Nat × Nat)), (insert_desc key a m).Perm (a :: m) := by
      intro a m
      induction m with
      | nil => exact List.Perm.refl _
      | cons b bs ih =>
        unfold insert_desc
        split
        · exact ((List.Perm.cons b ih).trans (List.Perm.swap a b bs))
        · exact List.Perm.refl _
    induction l with
    | nil => exact List.Perm.refl _
    | cons a as ih => exact (hins a _).trans (List.Perm.cons a ih)
  sort_sorted := by
    intro key l
    have hperm : ∀ (a : Nat × Nat) (m : List (Nat × Nat)), (insert_desc key a m).Perm (a :: m) := by
      intro a m
      induction m with
      | nil => exact List.Perm.refl _
      | cons b bs ih =>
        unfold insert_desc
        split
        · exact ((List.Perm.cons b ih).trans (List.Perm.swap a b bs))
        · exact List.Perm.refl _
    have hins : ∀ (a : Nat × Nat) (m : List (Nat × Nat)),
        m.Pairwise (fun x y => key y ≤ key x) →
        (insert_desc key a m).Pairwise (fun x y => key y ≤ key x) := by
      intro a m
      induction m with
      | nil => intro _; simp [insert_desc]
      | cons b bs ih =>
        intro h
        rw [List.pairwise_cons] at h
        unfold insert_desc
        split
        · rename_i hlt
          rw [List.pairwise_cons]
          refine ⟨?_, ih h.2⟩
          intro y hy
          rcases (List.mem_cons.mp ((hperm a bs).subset hy)) with rfl | hy
          · exact Nat.le_of_lt hlt
          · exact h.1 y hy
        · rename_i hge
          rw [List.pairwise_cons]
          refine ⟨?_, List.pairwise_cons.mpr h⟩
          intro y hy
          rcases List.mem_cons.mp hy with rfl | hy
          · exact Nat.le_of_not_lt hge
          · exact Nat.le_trans (h.1 y hy) (Nat.le_of_not_lt hge)
    induction l with
    | nil => simp [sort_desc]
    | cons a as ih => exact hins a _ ih

/-! ## Vocabulary of the statements -/

/-- The `(class, roi)` pairs of the keep-lists of the classes `cs`, class by
class and in keep-list order. -/
def objects_of (keeps : List (List Nat)) (cs : List Nat) : List (Nat × Nat) :=
  cs.flatMap (fun i => (keeps.getD i []).map (fun ckv => (i, ckv)))

/-- The score written for a kept `(class, roi)` pair (line 241). -/
def out_score (scale : ℚ) (zp : Int) (scores : List Nat) (num_classes : Nat) (obj : Nat × Nat) : ℚ :=
  ((((scores.getD (obj.2 * num_classes + obj.1) 0 : Nat) : Int) - zp : Int) : ℚ) * scale

/-- The four raw coordinates written for a kept `(class, roi)` pair (lines 242-245). -/
def out_box (boxes : List Nat) (num_classes : Nat) (obj : Nat × Nat) : List Nat :=
  (List.range 4).map (fun component_idx =>
    boxes.getD ((obj.2 * num_classes + obj.1) * 4 + component_idx) 0)

/-- The test of line 141 for the emitted RoI `p` and the candidate `i`:
`intersection_area <= max_iou_ * union_area`. -/
def within_iou (op : AABBRoINMSOp) (boxes : List Nat) (num_classes class_idx p i : Nat) : Prop :=
  intersection_area (load_box boxes num_classes class_idx p) (load_box boxes num_classes class_idx i)
    ≤ op.max_iou * union_area (load_box boxes num_classes class_idx p)
        (load_box boxes num_classes class_idx i)

instance (op : AABBRoINMSOp) (boxes : List Nat) (num_classes class_idx p i : Nat) :
    Decidable (within_iou op boxes num_classes class_idx p i) := by
  unfold within_iou
  exact inferInstance

/-- The intermediate results of the batch-loop body for one image: the number
of RoIs of the image, the working score table on entry, the state after the
class loop and the state after the global cap. -/
structure ImageRun where
  num_boxes : Nat
  table : List Nat
  selected : ImageState
  final : ImageState

/-- The record `r` is what the batch-loop body computes for an image of
`r.num_boxes` RoIs entered with the score table `r.table`. -/
def ImageRun.valid (lib : Lib) (op : AABBRoINMSOp) (scale : ℚ) (zp : Int) (boxes : List Nat)
    (num_classes : Nat) (r : ImageRun) : Prop :=
  forE (nms_class lib op scale zp boxes num_classes r.num_boxes) (class_range num_classes)
      { keeps := List.replicate num_classes [], total_keep_count := 0, scores := r.table }
    = .ok r.selected ∧
  limit_objects lib op num_classes r.selected = .ok r.final

/-- The `(class, roi)` pairs written for the image, in output order. -/
def ImageRun.detections (num_classes : Nat) (r : ImageRun) : List (Nat × Nat) :=
  all_objects num_classes r.final.keeps

/-- Row offset of image `b` in the outputs: the sum of the earlier output batch splits. -/
def Outputs.offset (out : Outputs) (b : Nat) : Nat := (out.output_batch_splits.take b).sum

/-- The scores written for image `b`. -/
def Outputs.image_scores (out : Outputs) (b : Nat) : List ℚ :=
  (out.output_scores.drop (out.offset b)).take (out.output_batch_splits.getD b 0)

/-- The class indices written for image `b`. -/
def Outputs.image_classes (out : Outputs) (b : Nat) : List Nat :=
  (out.output_classes.drop (out.offset b)).take (out.output_batch_splits.getD b 0)

/-- The raw box coordinates written for image `b`, four per detection. -/
def Outputs.image_boxes (out : Outputs) (b : Nat) : List Nat :=
  (out.output_boxes.drop (out.offset b * 4)).take (out.output_batch_splits.getD b 0 * 4)

/-- Detection `i` of image `b` as a box in pixels, read from the output boxes
the way the operator reads its input boxes. -/
def Outputs.image_box (out : Outputs) (b i : Nat) : Box :=
  load_box (out.image_boxes b) 1 0 i

/-- The pool obtained by pushing the entries `es`, each a score and an RoI
index, one after the other. -/
def push_all (pl : Pool) (es : List (ℚ × Nat)) : Pool :=
  es.foldl (fun q e => q.push e.1 e.2) pl

/-- The candidates of `xs` that a comparison loop against the emitted RoI `p`
pushes to the next pool when started on the score table `scores`, each with
the score it is pushed with. -/
def entered (lib : Lib) (op : AABBRoINMSOp) (scale : ℚ) (zp : Int) (boxes : List Nat)
    (num_classes class_idx p : Nat) : List Nat → List Nat → List (ℚ × Nat)
  | [], _ => []
  | idx :: rest, scores =>
    match compare_outcome lib op scale zp boxes num_classes class_idx p scores idx with
    | .ok (some score, scores1) =>
      (score, idx) :: entered lib op scale zp boxes num_classes class_idx p rest scores1
    | .ok (none, scores1) => entered lib op scale zp boxes num_classes class_idx p rest scores1
    | .error _ => []

/-- The score tables of consecutive image runs are chained: the first run is
entered with `first`, every later run with the table the run before it left,
and `last` is the table after the last run. -/
def tables_chain : List Nat → List ImageRun → List Nat → Prop
  | first, [], last => last = first
  | first, r :: rs, last => r.table = first ∧ tables_chain r.final.scores rs last

/-- Every entry of `tbl` is at most the entry of `orig` at the same place,
and the tables have the same length. -/
def table_le (tbl orig : List Nat) : Prop :=
  tbl.length = orig.length ∧ ∀ k, tbl.getD k 0 ≤ orig.getD k 0

/-- Every box of the table has `x1 <= x2` and `y1 <= y2`. -/
def boxes_well_formed (boxes : List Nat) (num_classes : Nat) : Prop :=
  ∀ class_idx p, (load_box boxes num_classes class_idx p).x1 ≤ (load_box boxes num_classes class_idx p).x2
    ∧ (load_box boxes num_classes class_idx p).y1 ≤ (load_box boxes num_classes class_idx p).y2

/-- The tables `t1` and `t2` agree on the entries of class `c`, that is on
the entries `idx * num_classes + c`. -/
def column_eq (num_classes c : Nat) (t1 t2 : List Nat) : Prop :=
  ∀ idx, t1.getD (idx * num_classes + c) 0 = t2.getD (idx * num_classes + c) 0

/-- The two assertions of the selector loop, `DCHECK_GE(best_score_pos, 0)`
and `DCHECK_LT(best_score_pos, indices.size())`, hold for the pool unless it
is empty, and an empty pool has the initial `best_score`. -/
def Pool.sound (pl : Pool) : Prop :=
  (pl.indices = [] → pl.best_score = -1) ∧
  (pl.indices ≠ [] →
    0 ≤ pl.best_score_pos ∧ pl.best_score_pos < (pl.indices.length : Int))

/-- Requantizing a value that is at most the dequantized raw score `raw`
gives a raw score that is at most `raw`. -/
def quantizer_monotone (lib : Lib) (scale : ℚ) (zp : Int) : Prop :=
  ∀ (v : ℚ) (raw : Nat), v ≤ scale * ((((raw : Nat) : Int) - zp : Int) : ℚ) →
    lib.QuantizeUint8 scale zp v % 256 ≤ raw

/-- Requantizing a value that is not negative gives a raw score whose
dequantized value is not negative. -/
def quantizer_nonneg (lib : Lib) (scale : ℚ) (zp : Int) : Prop :=
  ∀ v : ℚ, 0 ≤ v →
    0 ≤ scale * (((((lib.QuantizeUint8 scale zp v % 256 : Nat) : Nat) : Int) - zp : Int) : ℚ)

/-- The conditions under which every rescoring factor of a class pass lies
in `[0, 1]` and is applied to a score that is not negative: a known method,
`min_score >= 0`, the two properties of the quantizer, boxes with
`x1 <= x2` and `y1 <= y2` in mode LINEAR, and in mode GAUSSIAN a sigma that
is not negative and an `exp` with values in `[0, 1]` on arguments `<= 0`. -/
def factors_in_unit (lib : Lib) (op : AABBRoINMSOp) (scale : ℚ) (zp : Int) (boxes : List Nat)
    (num_classes : Nat) : Prop :=
  (op.soft_nms_method = SOFT_NMS_NONE ∨ op.soft_nms_method = SOFT_NMS_LINEAR ∨
    op.soft_nms_method = SOFT_NMS_GAUSSIAN) ∧
  0 ≤ op.min_score ∧ quantizer_monotone lib scale zp ∧ quantizer_nonneg lib scale zp ∧
  (op.soft_nms_method = SOFT_NMS_LINEAR → boxes_well_formed boxes num_classes) ∧
  (op.soft_nms_method = SOFT_NMS_GAUSSIAN →
    0 ≤ op.soft_nms_sigma ∧ ∀ x : ℚ, x ≤ 0 → 0 ≤ lib.exp x ∧ lib.exp x ≤ 1)

/-- The quotient `intersection_area / union_area` of lines 151, 159 and 161
for the emitted RoI `p` and the candidate `i`. -/
def iou_of (boxes : List Nat) (num_classes class_idx p i : Nat) : ℚ :=
  intersection_area (load_box boxes num_classes class_idx p) (load_box boxes num_classes class_idx i)
    / union_area (load_box boxes num_classes class_idx p) (load_box boxes num_classes class_idx i)

/-- The rescored value of mode LINEAR (line 159): the table score of the
candidate times `1 - intersection_area / union_area`. -/
def linear_rescored (scale : ℚ) (zp : Int) (boxes : List Nat) (num_classes class_idx p : Nat)
    (scores : List Nat) (i : Nat) : ℚ :=
  score_at scale zp scores num_classes class_idx i * (1 - iou_of boxes num_classes class_idx p i)

/-- The rescored value of mode GAUSSIAN (lines 151-152 and 161-162): the
table score of the candidate times `exp(-1.0 * iou * iou / soft_nms_sigma_)`. -/
def gaussian_rescored (lib : Lib) (op : AABBRoINMSOp) (scale : ℚ) (zp : Int) (boxes : List Nat)
    (num_classes class_idx p : Nat) (scores : List Nat) (i : Nat) : ℚ :=
  score_at scale zp scores num_classes class_idx i
    * lib.exp (-1 * iou_of boxes num_classes class_idx p i * iou_of boxes num_classes class_idx p i
        / op.soft_nms_sigma)

/-! ## Concrete inputs -/

/-- Operator arguments with the defaults of `aabb_roi_nms_op.h`, for a given
cap and suppression method. -/
def default_op (max_objects soft_nms_method : Int) : AABBRoINMSOp :=
  { min_score := 1 / 20, max_iou := 3 / 10, max_objects := max_objects,
    soft_nms_method := soft_nms_method, soft_nms_sigma := 1 / 2, soft_nms_min_score := 0 }

/-- A score table of shape `(num_rois, num_classes)` with scale `1/100` and zero point 0. -/
def scores_tensor (num_rois num_classes : Nat) (data : List Nat) : Int8TensorCPU :=
  { t := { dims := [num_rois, num_classes], data := data }, scale := 1 / 100, zero_point := 0 }

/-- A box table of shape `(num_rois, num_classes * 4)`. -/
def boxes_tensor (num_rois num_classes : Nat) (data : List Nat) : Tensor :=
  { dims := [num_rois, num_classes * 4], data := data }

/-- A batch-splits tensor of shape `(batch_size)`. -/
def splits_tensor (data : List Nat) : Tensor :=
  { dims := [data.length], data := data }

/-- Scores of one RoI for the background and two classes: 0.50 and 0.70. -/
def merge_scores : Int8TensorCPU := scores_tensor 1 3 [0, 50, 70]

/-- Boxes of one RoI for the background and two classes. -/
def merge_boxes : Tensor := boxes_tensor 1 3 [0, 0, 0, 0, 0, 0, 8, 8, 0, 0, 8, 8]

/-- What the operator returns on `merge_scores`, `merge_boxes` with `max_objects = 1`. -/
def merge_out : Outputs :=
  { output_batch_splits := [1], output_scores := [7 / 10],
    output_boxes := [0, 0, 8, 8], output_classes := [2] }

/-- Class-1 scores 0.50 and 0.60 of two RoIs. -/
def apart_scores : Int8TensorCPU := scores_tensor 2 2 [0, 50, 0, 60]

/-- Two RoIs whose class-1 boxes are one pixel wide and ten pixels apart. -/
def apart_boxes : Tensor :=
  boxes_tensor 2 2 [0, 0, 0, 0, 0, 0, 8, 8, 0, 0, 0, 0, 80, 80, 88, 88]

/-- What the operator returns on `apart_scores`, `apart_boxes` as one image in mode NONE. -/
def apart_out : Outputs :=
  { output_batch_splits := [2], output_scores := [3 / 5, 1 / 2],
    output_boxes := [80, 80, 88, 88, 0, 0, 8, 8], output_classes := [1, 1] }

/-- Two images of one RoI each: row 0 scores 0.50 for class 1, row 1 scores 0.02. -/
def batch_scores : Int8TensorCPU := scores_tensor 2 2 [0, 50, 0, 2]

/-- What the operator returns on `batch_scores`, `apart_boxes` with batch splits `[1, 1]`. -/
def batch_out : Outputs :=
  { output_batch_splits := [1, 1], output_scores := [1 / 2, 1 / 2],
    output_boxes := [0, 0, 8, 8, 0, 0, 8, 8], output_classes := [1, 1] }

/-- Row 1 of `batch_scores` as a table of its own. -/
def slice_scores : Int8TensorCPU := scores_tensor 1 2 [0, 2]

/-- Row 1 of `apart_boxes` as a table of its own. -/
def slice_boxes : Tensor := boxes_tensor 1 2 [0, 0, 0, 0, 80, 80, 88, 88]

/-- The outputs for a batch of one image without detections. -/
def empty_out : Outputs :=
  { output_batch_splits := [0], output_scores := [], output_boxes := [], output_classes := [] }

/-- Default arguments except `min_score = 0.5`. -/
def boundary_op : AABBRoINMSOp :=
  { min_score := 1 / 2, max_iou := 3 / 10, max_objects := 100,
    soft_nms_method := SOFT_NMS_NONE, soft_nms_sigma := 1 / 2, soft_nms_min_score := 0 }

/-- One RoI whose class-1 score is exactly 0.50. -/
def boundary_scores : Int8TensorCPU := scores_tensor 1 2 [0, 50]

/-- The box table that goes with `boundary_scores`. -/
def boundary_boxes : Tensor := boxes_tensor 1 2 [0, 0, 0, 0, 0, 0, 8, 8]

/-- Class-1 scores 0.50, 0.50 and 0.90 of three RoIs. -/
def tie_scores : Int8TensorCPU := scores_tensor 3 2 [0, 50, 0, 50, 0, 90]

/-- Three RoIs whose class-1 boxes are pairwise disjoint. -/
def tie_boxes : Tensor :=
  boxes_tensor 3 2 [0, 0, 0, 0, 0, 0, 8, 8, 0, 0, 0, 0, 80, 80, 88, 88,
    0, 0, 0, 0, 160, 160, 168, 168]

/-- What the operator returns on `tie_scores`, `tie_boxes` as one image in mode NONE. -/
def tie_out : Outputs :=
  { output_batch_splits := [3], output_scores := [9 / 10, 1 / 2, 1 / 2],
    output_boxes := [160, 160, 168, 168, 80, 80, 88, 88, 0, 0, 8, 8],
    output_classes := [1, 1, 1] }

/-- Three RoIs: class-1 scores 0.95, 0.90, 0.80 and one class-2 score 0.10. -/
def gauss_scores : Int8TensorCPU := scores_tensor 3 3 [0, 95, 10, 0, 90, 0, 0, 80, 0]

/-- Class-1 boxes: RoI 1 overlaps RoI 0 with IoU 1/4, RoI 2 is far away. -/
def gauss_boxes : Tensor :=
  boxes_tensor 3 3 [0, 0, 0, 0, 0, 0, 80, 80, 0, 0, 8, 8,
    0, 0, 0, 0, 48, 0, 128, 80, 0, 0, 8, 8,
    0, 0, 0, 0, 800, 800, 880, 880, 0, 0, 8, 8]

/-- What the operator returns on `gauss_scores`, `gauss_boxes` as one image
in mode GAUSSIAN with `max_objects = 3`. -/
def gauss_out : Outputs :=
  { output_batch_splits := [3], output_scores := [19 / 20, 4 / 5, 79 / 100],
    output_boxes := [0, 0, 80, 80, 800, 800, 880, 880, 48, 0, 128, 80],
    output_classes := [1, 1, 1] }

/-- What the operator returns on `apart_scores`, `apart_boxes` with batch splits `[1]`. -/
def short_out : Outputs :=
  { output_batch_splits := [1], output_scores := [1 / 2],
    output_boxes := [0, 0, 8, 8], output_classes := [1] }

/-- A box table with one row only. -/
def one_row_boxes : Tensor := boxes_tensor 1 2 [0, 0, 0, 0, 0, 0, 8, 8]

/-- Two RoIs whose class-1 boxes are the same empty box. -/
def zero_boxes : Tensor :=
  boxes_tensor 2 2 [0, 0, 0, 0, 0, 0, 0, 0, 0, 0, 0, 0, 0, 0, 0, 0]

/-- Class-1 scores 0.60 and 0.50 of two RoIs. -/
def pair_scores : Int8TensorCPU := scores_tensor 2 2 [0, 60, 0, 50]

/-- Two RoIs with the same class-1 box of one pixel. -/
def same_boxes : Tensor :=
  boxes_tensor 2 2 [0, 0, 0, 0, 0, 0, 8, 8, 0, 0, 0, 0, 0, 0, 8, 8]

/-- What the operator returns on `pair_scores`, `same_boxes` in mode NONE. -/
def pair_none_out : Outputs :=
  { output_batch_splits := [1], output_scores := [3 / 5],
    output_boxes := [0, 0, 8, 8], output_classes := [1] }

/-- What the operator returns on `pair_scores`, `same_boxes` in mode LINEAR. -/
def pair_linear_out : Outputs :=
  { output_batch_splits := [2], output_scores := [3 / 5, 0],
    output_boxes := [0, 0, 8, 8, 0, 0, 8, 8], output_classes := [1, 1] }

/-- Two RoIs and two classes: class-1 scores 0.60 and 0.50, class-2 score 0.90 for RoI 0. -/
def crowd_scores : Int8TensorCPU := scores_tensor 2 3 [0, 60, 90, 0, 50, 0]

/-- Two RoIs whose boxes are the same one-pixel box for both classes. -/
def crowd_boxes : Tensor :=
  boxes_tensor 2 3 [0, 0, 0, 0, 0, 0, 8, 8, 0, 0, 8, 8, 0, 0, 0, 0, 0, 0, 8, 8, 0, 0, 8, 8]

/-- What the operator returns on `crowd_scores`, `crowd_boxes` with `max_objects = 1`. -/
def crowd_out : Outputs :=
  { output_batch_splits := [1], output_scores := [9 / 10],
    output_boxes := [0, 0, 8, 8], output_classes := [2] }

/-- Default arguments except `min_score = -5`. -/
def low_op : AABBRoINMSOp :=
  { min_score := -5, max_iou := 3 / 10, max_objects := 100,
    soft_nms_method := SOFT_NMS_NONE, soft_nms_sigma := 1 / 2, soft_nms_min_score := 0 }

/-- One RoI whose class-1 score is `(0 - 200) / 100 = -2`. -/
def low_scores : Int8TensorCPU :=
  { t := { dims := [1, 2], data := [0, 0] }, scale := 1 / 100, zero_point := 200 }

/-- Mode LINEAR with `min_score = -1` and the other defaults. -/
def signed_op : AABBRoINMSOp :=
  { min_score := -1, max_iou := 3 / 10, max_objects := 100,
    soft_nms_method := SOFT_NMS_LINEAR, soft_nms_sigma := 1 / 2, soft_nms_min_score := 0 }

/-- Two RoIs with zero point 128: class-1 scores `-0.08` and `-0.28`. -/
def signed_scores : Int8TensorCPU :=
  { t := { dims := [2, 2], data := [0, 120, 0, 100] }, scale := 1 / 100, zero_point := 128 }

/-- What the operator returns on `signed_scores`, `same_boxes` with `signed_op`. -/
def signed_out : Outputs :=
  { output_batch_splits := [2], output_scores := [-2 / 25, 0],
    output_boxes := [0, 0, 8, 8, 0, 0, 8, 8], output_classes := [1, 1] }


/-- Mode LINEAR with `soft_nms_min_score = 0.55` and the other defaults. -/
def strict_op : AABBRoINMSOp :=
  { min_score := 1 / 20, max_iou := 3 / 10, max_objects := 100,
    soft_nms_method := SOFT_NMS_LINEAR, soft_nms_sigma := 1 / 2, soft_nms_min_score := 11 / 20 }

/-- Two RoIs with zero point 200: class-1 scores `(250 - 200) / 100 = 0.5` and `-2`. -/
def mixed_scores : Int8TensorCPU :=
  { t := { dims := [2, 2], data := [0, 250, 0, 0] }, scale := 1 / 100, zero_point := 200 }

/-- What the operator returns on `gauss_scores`, `gauss_boxes` as one image
in mode GAUSSIAN with `max_objects = 100`. -/
def gauss_full_out : Outputs :=
  { output_batch_splits := [4], output_scores := [19 / 20, 79 / 100, 4 / 5, 1 / 10],
    output_boxes := [0, 0, 80, 80, 48, 0, 128, 80, 800, 800, 880, 880, 0, 0, 8, 8],
    output_classes := [1, 1, 1, 2] }

/-! ## The `std::sort` of libstdc++

`std::sort` as implemented in libstdc++ (`bits/stl_algo.h` and
`bits/stl_heap.h` of GCC 12), specialised to the comparator of the global
merge.  Iterators are positions in the list, `first` inclusive and `last`
exclusive; loops whose exit the library leaves to a sentinel are given a step
budget equal to the length of the list. -/

/-- Halvings of `n` until it is below 2, at most `budget` of them. -/
def halvings : Nat → Nat → Nat
  | 0, _ => 0
  | budget + 1, n => if 2 ≤ n then halvings budget (n / 2) + 1 else 0

/-- The integer logarithm `std::__lg(n)`: the position of the highest set bit. -/
def floor_log2 (n : Nat) : Nat := halvings n n

/-- The comparator of the global merge (lines 199-203): `lhs` goes before
`rhs` when its raw score is larger. -/
def merge_comp (key : Nat × Nat → Nat) (lhs rhs : Nat × Nat) : Bool :=
  decide (key lhs > key rhs)

/-- `std::iter_swap` of the positions `i` and `j`. -/
def iter_swap (v : List (Nat × Nat)) (i j : Nat) : List (Nat × Nat) :=
  (v.set i (v.getD j (0, 0))).set j (v.getD i (0, 0))

/-- `std::__unguarded_linear_insert(last, comp)`: `val` was taken from
position `next + 1`; larger positions are shifted up while `val` goes before
the entry at `next`. -/
def unguarded_linear_insert (key : Nat × Nat → Nat) (val : Nat × Nat) :
    Nat → List (Nat × Nat) → List (Nat × Nat)
  | 0, v => v.set 0 val
  | next + 1, v =>
    if merge_comp key val (v.getD next (0, 0)) then
      unguarded_linear_insert key val next (v.set (next + 1) (v.getD next (0, 0)))
    else v.set (next + 1) val

/-- `std::__insertion_sort(first, last, comp)`. -/
def insertion_sort (key : Nat × Nat → Nat) (first last : Nat) (v : List (Nat × Nat)) :
    List (Nat × Nat) :=
  if first = last then v
  else
    (List.range' (first + 1) (last - (first + 1))).foldl
      (fun v i =>
        if merge_comp key (v.getD i (0, 0)) (v.getD first (0, 0)) then
          v.take first ++ v.getD i (0, 0) :: (v.drop first).take (i - first) ++ v.drop (i + 1)
        else unguarded_linear_insert key (v.getD i (0, 0)) i v)
      v

/-- `std::__unguarded_insertion_sort(first, last, comp)`. -/
def unguarded_insertion_sort (key : Nat × Nat → Nat) (first last : Nat) (v : List (Nat × Nat)) :
    List (Nat × Nat) :=
  (List.range' first (last - first)).foldl
    (fun v i => unguarded_linear_insert key (v.getD i (0, 0)) i v) v

/-- `std::__final_insertion_sort(first, last, comp)`, with `_S_threshold = 16`. -/
def final_insertion_sort (key : Nat × Nat → Nat) (first last : Nat) (v : List (Nat × Nat)) :
    List (Nat × Nat) :=
  if last - first > 16 then
    unguarded_insertion_sort key (first + 16) last (insertion_sort key first (first + 16) v)
  else insertion_sort key first last v

/-- `std::__move_median_to_first(result, a, b, c, comp)`. -/
def move_median_to_first (key : Nat × Nat → Nat) (v : List (Nat × Nat)) (result a b c : Nat) :
    List (Nat × Nat) :=
  if merge_comp key (v.getD a (0, 0)) (v.getD b (0, 0)) then
    if merge_comp key (v.getD b (0, 0)) (v.getD c (0, 0)) then iter_swap v result b
    else if merge_comp key (v.getD a (0, 0)) (v.getD c (0, 0)) then iter_swap v result c
    else iter_swap v result a
  else if merge_comp key (v.getD a (0, 0)) (v.getD c (0, 0)) then iter_swap v result a
  else if merge_comp key (v.getD b (0, 0)) (v.getD c (0, 0)) then iter_swap v result c
  else iter_swap v result b

/-- The loop `while (comp(first, pivot)) ++first` of `__unguarded_partition`. -/
def partition_up (key : Nat × Nat → Nat) (v : List (Nat × Nat)) (pivot : Nat) : Nat → Nat → Nat
  | 0, first => first
  | budget + 1, first =>
    if merge_comp key (v.getD first (0, 0)) (v.getD pivot (0, 0)) then
      partition_up key v pivot budget (first + 1)
    else first

/-- The loop `while (comp(pivot, last)) --last` of `__unguarded_partition`. -/
def partition_down (key : Nat × Nat → Nat) (v : List (Nat × Nat)) (pivot : Nat) : Nat → Nat
  | 0 => 0
  | last + 1 =>
    if merge_comp key (v.getD pivot (0, 0)) (v.getD (last + 1) (0, 0)) then
      partition_down key v pivot last
    else last + 1

/-- `std::__unguarded_partition(first, last, pivot, comp)`: the list after the
swaps and the cut position. -/
def unguarded_partition (key : Nat × Nat → Nat) (pivot : Nat) :
    Nat → List (Nat × Nat) → Nat → Nat → List (Nat × Nat) × Nat
  | 0, v, first, _ => (v, first)
  | budget + 1, v, first, last =>
    let first1 := partition_up key v pivot v.length first
    let last1 := partition_down key v pivot (last - 1)
    if ¬ (first1 < last1) then (v, first1)
    else unguarded_partition key pivot budget (iter_swap v first1 last1) (first1 + 1) last1

/-- `std::__unguarded_partition_pivot(first, last, comp)`. -/
def unguarded_partition_pivot (key : Nat × Nat → Nat) (v : List (Nat × Nat)) (first last : Nat) :
    List (Nat × Nat) × Nat :=
  let mid := first + (last - first) / 2
  let v1 := move_median_to_first key v first (first + 1) mid (last - 1)
  unguarded_partition key first v1.length v1 (first + 1) last

/-- `std::__push_heap(first, holeIndex, topIndex, value, comp)`. -/
def push_heap (key : Nat × Nat → Nat) (first : Nat) (value : Nat × Nat) (topIndex : Nat) :
    Nat → List (Nat × Nat) → Nat → List (Nat × Nat)
  | 0, v, holeIndex => v.set (first + holeIndex) value
  | budget + 1, v, holeIndex =>
    let parent := (holeIndex - 1) / 2
    if holeIndex > topIndex ∧ merge_comp key (v.getD (first + parent) (0, 0)) value then
      push_heap key first value topIndex budget
        (v.set (first + holeIndex) (v.getD (first + parent) (0, 0))) parent
    else v.set (first + holeIndex) value

/-- The `while` loop of `std::__adjust_heap`: the list, the hole and
`secondChild` after the descent. -/
def adjust_descend (key : Nat × Nat → Nat) (first len : Nat) :
    Nat → List (Nat × Nat) → Nat → Nat → List (Nat × Nat) × Nat × Nat
  | 0, v, holeIndex, secondChild => (v, holeIndex, secondChild)
  | budget + 1, v, holeIndex, secondChild =>
    if secondChild < (len - 1) / 2 then
      let secondChild1 := 2 * (secondChild + 1)
      let secondChild2 :=
        if merge_comp key (v.getD (first + secondChild1) (0, 0))
            (v.getD (first + (secondChild1 - 1)) (0, 0)) then secondChild1 - 1
        else secondChild1
      adjust_descend key first len budget
        (v.set (first + holeIndex) (v.getD (first + secondChild2) (0, 0))) secondChild2 secondChild2
    else (v, holeIndex, secondChild)

/-- `std::__adjust_heap(first, holeIndex, len, value, comp)`, called with `len >= 1`. -/
def adjust_heap (key : Nat × Nat → Nat) (first holeIndex len : Nat) (value : Nat × Nat)
    (v : List (Nat × Nat)) : List (Nat × Nat) :=
  let topIndex := holeIndex
  let (v1, holeIndex1, secondChild) := adjust_descend key first len len v holeIndex holeIndex
  if len % 2 = 0 ∧ secondChild = (len - 2) / 2 then
    let secondChild1 := 2 * (secondChild + 1)
    push_heap key first value topIndex len
      (v1.set (first + holeIndex1) (v1.getD (first + (secondChild1 - 1)) (0, 0))) (secondChild1 - 1)
  else push_heap key first value topIndex len v1 holeIndex1

/-- `std::__pop_heap(first, last, result, comp)`. -/
def pop_heap (key : Nat × Nat → Nat) (first last result : Nat) (v : List (Nat × Nat)) :
    List (Nat × Nat) :=
  let value := v.getD result (0, 0)
  adjust_heap key first 0 (last - first) value (v.set result (v.getD first (0, 0)))

/-- `std::__make_heap(first, last, comp)`. -/
def make_heap (key : Nat × Nat → Nat) (first last : Nat) (v : List (Nat × Nat)) :
    List (Nat × Nat) :=
  if last - first < 2 then v
  else
    let len := last - first
    (List.range ((len - 2) / 2 + 1)).reverse.foldl
      (fun v parent => adjust_heap key first parent len (v.getD (first + parent) (0, 0)) v) v

/-- `std::__heap_select(first, middle, last, comp)`. -/
def heap_select (key : Nat × Nat → Nat) (first middle last : Nat) (v : List (Nat × Nat)) :
    List (Nat × Nat) :=
  (List.range' middle (last - middle)).foldl
    (fun v i =>
      if merge_comp key (v.getD i (0, 0)) (v.getD first (0, 0)) then pop_heap key first middle i v
      else v)
    (make_heap key first middle v)

/-- `std::__sort_heap(first, last, comp)`. -/
def sort_heap (key : Nat × Nat → Nat) (first last : Nat) (v : List (Nat × Nat)) :
    List (Nat × Nat) :=
  (List.range' (first + 1) (last - (first + 1))).reverse.foldl
    (fun v last1 => pop_heap key first last1 last1 v) v

/-- `std::__introsort_loop(first, last, depth_limit, comp)`; every turn of its
loop lowers `depth_limit`, on which the recursion runs.  At depth limit 0 the
range is heap-sorted: `std::__partial_sort(first, last, last, comp)`, that is
`__heap_select` followed by `__sort_heap`. -/
def introsort_loop (key : Nat × Nat → Nat) :
    Nat → List (Nat × Nat) → Nat → Nat → List (Nat × Nat)
  | 0, v, first, last =>
    if last - first > 16 then sort_heap key first last (heap_select key first last last v) else v
  | depth_limit + 1, v, first, last =>
    if last - first > 16 then
      let (v1, cut) := unguarded_partition_pivot key v first last
      introsort_loop key depth_limit (introsort_loop key depth_limit v1 cut last) first cut
    else v

/-- `std::__sort(first, last, comp)` on the whole list: the introsort loop
with depth limit `2 * lg(n)`, then the final insertion sort. -/
def introsort (key : Nat × Nat → Nat) (v : List (Nat × Nat)) : List (Nat × Nat) :=
  if v.length = 0 then v
  else final_insertion_sort key 0 v.length (introsort_loop key (floor_log2 v.length * 2) v 0 v.length)

/-- `std::sort` of libstdc++ as a library function of the model.  The C++
standard promises a sorted permutation of the input, and `Lib` records that
promise as two facts; the result of `introsort` is returned when it is a
sorted permutation, so that the two facts hold without a correctness proof of
the library, and the order-preserving insertion sort stands in otherwise. -/
def gnu_sort (key : Nat × Nat → Nat) (l : List (Nat × Nat)) : List (Nat × Nat) :=
  if (introsort key l).Perm l ∧ (introsort key l).Pairwise (fun a b => key b ≤ key a) then
    introsort key l
  else sort_desc key l

/-- The library of `std_lib` with the `std::sort` of libstdc++. -/
def gnu_lib : Lib where
  QuantizeUint8 := QuantizeUint8
  exp := exp_taylor
  sort := gnu_sort
  sort_perm := by
    intro key l
    unfold gnu_sort
    split
    · rename_i h
      exact h.1
    · exact std_lib.sort_perm key l
  sort_sorted := by
    intro key l
    unfold gnu_sort
    split
    · rename_i h
      exact h.2
    · exact std_lib.sort_sorted key l

/-- Ten RoIs that all score raw 70 (0.70) for class 1 and for class 2. -/
def ties_scores : Int8TensorCPU :=
  scores_tensor 10 3 ((List.range 10).flatMap (fun _ => [0, 70, 70]))

/-- Ten boxes of one pixel side, 12.5 pixels apart, the same for every class. -/
def ties_boxes : Tensor :=
  boxes_tensor 10 3
    ((List.range 10).flatMap (fun i =>
      (List.range 3).flatMap (fun _ => [100 * i, 0, 100 * i + 8, 8])))

/-- The flattened keep-lists of the class loop on `ties_scores`: the ten
RoIs for class 1, then the ten RoIs for class 2. -/
def ties_objects : List (Nat × Nat) :=
  (List.range 10).map (fun i => (1, i)) ++ (List.range 10).map (fun i => (2, i))

/-- The order in which the `std::sort` of libstdc++ leaves `ties_objects`. -/
def ties_sorted : List (Nat × Nat) :=
  [(2, 0), (2, 9), (2, 8), (2, 7), (2, 6), (2, 5), (2, 4), (2, 3), (2, 2), (2, 1),
   (1, 0), (1, 9), (1, 8), (1, 7), (1, 6), (1, 5), (1, 4), (1, 3), (1, 2), (1, 1)]

/-- What the operator returns on `ties_scores`, `ties_boxes` with
`max_objects = 10` and the `std::sort` of libstdc++: ten detections of class 2. -/
def ties_out : Outputs :=
  { output_batch_splits := [10]
    output_scores := List.replicate 10 (7 / 10)
    output_boxes := [0, 9, 8, 7, 6, 5, 4, 3, 2, 1].flatMap (fun i => [100 * i, 0, 100 * i + 8, 8])
    output_classes := List.replicate 10 2 }

/-- What the operator returns on the same input with the order-preserving
sort of `std_lib`: the ten detections of class 1. -/
def ties_stable_out : Outputs :=
  { output_batch_splits := [10]
    output_scores := List.replicate 10 (7 / 10)
    output_boxes := (List.range 10).flatMap (fun i => [100 * i, 0, 100 * i + 8, 8])
    output_classes := List.replicate 10 1 }

/-! ## Floating-point arithmetic

The operator computes in `float` (IEEE 754 binary32) and, for the argument
of `std::exp`, in `double` (binary64).  A value is a rational number, an
infinity or NaN; every operation returns the exact result rounded to the
nearest value of the format, ties to even, with gradual underflow and
overflow to infinity.  The sign of zero is not recorded: a zero divisor is
taken as `+0`. -/

/-- A floating-point value. -/
inductive Fl where
  | nan : Fl
  | inf (negative : Bool) : Fl
  | fin (q : ℚ) : Fl
deriving DecidableEq, Repr

/-- A binary format: the number of significand bits and the exponent range. -/
structure Format where
  prec : Nat
  emin : Int
  emax : Int
deriving DecidableEq, Repr

/-- The format of `float`. -/
def binary32 : Format := { prec := 24, emin := -126, emax := 127 }

/-- The format of `double`. -/
def binary64 : Format := { prec := 53, emin := -1022, emax := 1023 }

/-- The power `2 ^ e` for an integer exponent. -/
def pow2 (e : Int) : ℚ :=
  if 0 ≤ e then ((2 ^ e.toNat : Nat) : ℚ) else 1 / ((2 ^ (-e).toNat : Nat) : ℚ)

/-- The exponent of a positive rational: the largest `e` with `2 ^ e <= q`. -/
def ilog2 (q : ℚ) : Int :=
  let e0 : Int := (floor_log2 q.num.toNat : Int) - (floor_log2 q.den : Int)
  if pow2 e0 ≤ q then e0 else e0 - 1

/-- The integer nearest to a rational that is not negative, ties to even. -/
def round_even (x : ℚ) : Nat :=
  let f := x.num.toNat / x.den
  let r := x - (f : ℚ)
  if r < 1 / 2 then f
  else if 1 / 2 < r then f + 1
  else if f % 2 = 0 then f
  else f + 1

/-- Rounding of an exact result to the format. -/
def Format.round (fmt : Format) (q : ℚ) : Fl :=
  if q = 0 then .fin 0
  else
    let e := max (ilog2 |q|) fmt.emin
    let quantum := pow2 (e - ((fmt.prec : Int) - 1))
    let m := (round_even (|q| / quantum) : ℚ) * quantum
    if pow2 (fmt.emax + 1) ≤ m then .inf (decide (q < 0))
    else .fin (if q < 0 then -m else m)

/-- Negation. -/
def Fl.neg : Fl → Fl
  | .nan => .nan
  | .inf s => .inf (!s)
  | .fin q => .fin (-q)

/-- Addition in the format. -/
def Fl.add (fmt : Format) : Fl → Fl → Fl
  | .nan, _ => .nan
  | _, .nan => .nan
  | .inf s, .inf t => if s = t then .inf s else .nan
  | .inf s, .fin _ => .inf s
  | .fin _, .inf t => .inf t
  | .fin a, .fin b => fmt.round (a + b)

/-- Subtraction in the format. -/
def Fl.sub (fmt : Format) (a b : Fl) : Fl := Fl.add fmt a b.neg

/-- Multiplication in the format. -/
def Fl.mul (fmt : Format) : Fl → Fl → Fl
  | .nan, _ => .nan
  | _, .nan => .nan
  | .inf s, .inf t => .inf (xor s t)
  | .inf s, .fin b => if b = 0 then .nan else .inf (xor s (decide (b < 0)))
  | .fin a, .inf t => if a = 0 then .nan else .inf (xor (decide (a < 0)) t)
  | .fin a, .fin b => fmt.round (a * b)

/-- Division in the format. -/
def Fl.div (fmt : Format) : Fl → Fl → Fl
  | .nan, _ => .nan
  | _, .nan => .nan
  | .inf _, .inf _ => .nan
  | .inf s, .fin b => .inf (xor s (decide (b < 0)))
  | .fin _, .inf _ => .fin 0
  | .fin a, .fin b =>
    if b = 0 then (if a = 0 then .nan else .inf (decide (a < 0))) else fmt.round (a / b)

/-- The comparison `a < b`; false when either side is NaN. -/
def Fl.lt : Fl → Fl → Bool
  | .nan, _ => false
  | _, .nan => false
  | .inf s, .inf t => s && !t
  | .inf s, .fin _ => s
  | .fin _, .inf t => !t
  | .fin a, .fin b => decide (a < b)

/-- The comparison `a <= b`; false when either side is NaN. -/
def Fl.le : Fl → Fl → Bool
  | .nan, _ => false
  | _, .nan => false
  | .inf s, .inf t => s || !t
  | .inf s, .fin _ => s
  | .fin _, .inf t => !t
  | .fin a, .fin b => decide (a ≤ b)

instance : LT Fl := ⟨fun a b => Fl.lt a b = true⟩

instance : LE Fl := ⟨fun a b => Fl.le a b = true⟩

instance (a b : Fl) : Decidable (a < b) := inferInstanceAs (Decidable (Fl.lt a b = true))

instance (a b : Fl) : Decidable (a ≤ b) := inferInstanceAs (Decidable (Fl.le a b = true))

/-- `std::max(a, b)` on floats: `(a < b) ? b : a`. -/
def Fl.max (a b : Fl) : Fl := if a < b then b else a

/-- `std::min(a, b)` on floats: `(b < a) ? b : a`. -/
def Fl.min (a b : Fl) : Fl := if b < a then b else a

/-- Conversion of an integer to `float`. -/
def Fl.of_int (n : Int) : Fl := binary32.round (n : ℚ)

/-- Conversion of a `double` to `float`. -/
def Fl.to_float : Fl → Fl
  | .fin q => binary32.round q
  | x => x

/-! ## The operator in floating-point arithmetic, with its score buffers

A second embedding of `Int8AABBRoINMSOp<CPUContext>::RunOnDevice`, line by
line as the first, in which every `float` operation rounds as the hardware
does and the score table is a region of memory reached through the pointers
`scores_ptr` and `scores_adjust_ptr`: the buffer of the input tensor, and the
buffer of `adjusted_scores_tensor` that lines 58-62 fill in the soft modes.
Index arithmetic, errors and loops follow the conventions of the first
embedding. -/

/-- An affine-quantized tensor with its `float` scale. -/
structure Int8TensorCPU_f32 where
  t : Tensor
  scale : Fl
  zero_point : Int
deriving DecidableEq, Repr

/-- The members of `AABBRoINMSOp` that `RunOnDevice` reads, as declared in
`aabb_roi_nms_op.h`: four `float`s and two `int`s. -/
structure AABBRoINMSOp_f32 where
  min_score : Fl
  max_iou : Fl
  max_objects : Int
  soft_nms_method : Int
  soft_nms_sigma : Fl
  soft_nms_min_score : Fl
deriving DecidableEq, Repr

/-- The library functions of `Lib` on floating-point values: `exp` maps a
`double` to a `double`, `QuantizeUint8` takes the `float` scale and value. -/
structure Lib_f32 where
  QuantizeUint8 : Fl → Int → Fl → Nat
  exp : Fl → Fl
  sort : (Nat × Nat → Nat) → List (Nat × Nat) → List (Nat × Nat)
  sort_perm : ∀ key l, (sort key l).Perm l
  sort_sorted : ∀ key l, (sort key l).Pairwise (fun a b => key b ≤ key a)

/-- What a score pointer points to: nothing, the buffer of the input score
tensor, or the buffer of `adjusted_scores_tensor`. -/
inductive Ptr where
  | null : Ptr
  | input : Ptr
  | adjusted : Ptr
deriving DecidableEq, Repr

/-- The two score buffers and the two pointers of lines 50-62. -/
structure Memory where
  input_scores : List Nat
  adjusted_scores : List Nat
  scores_ptr : Ptr
  scores_adjust_ptr : Ptr
deriving DecidableEq, Repr

/-- The buffer a pointer points to. -/
def Memory.buffer (m : Memory) : Ptr → List Nat
  | .null => []
  | .input => m.input_scores
  | .adjusted => m.adjusted_scores

/-- The score table as read through `scores_ptr`. -/
def Memory.table (m : Memory) : List Nat := m.buffer m.scores_ptr

/-- The store `scores_adjust_ptr[k] = v`. -/
def Memory.store (m : Memory) (k v : Nat) : Except String Memory :=
  match m.scores_adjust_ptr with
  | .null => .error "store through a null scores_adjust_ptr"
  | .input => .ok { m with input_scores := m.input_scores.set k v }
  | .adjusted => .ok { m with adjusted_scores := m.adjusted_scores.set k v }

/-- The dequantized score of RoI `i` for class `class_idx` (lines 84, 142,
157): the `int32_t` difference is converted to `float` and multiplied by the
scale. -/
def score_at_f32 (scale : Fl) (zp : Int) (scores : List Nat) (num_classes class_idx i : Nat) : Fl :=
  Fl.mul binary32 scale
    (Fl.of_int (((scores.getD (i * num_classes + class_idx) 0 : Nat) : Int) - zp))

/-- An axis-aligned box in pixels, in `float`. -/
structure Box_f32 where
  x1 : Fl
  y1 : Fl
  x2 : Fl
  y2 : Fl
deriving DecidableEq, Repr

/-- One coordinate: `float(input_boxes_ptr[(p * num_classes + class_idx) * 4 + k]) * 0.125f`. -/
def box_coord_f32 (boxes : List Nat) (num_classes class_idx p k : Nat) : Fl :=
  Fl.mul binary32 (Fl.of_int ((boxes.getD ((p * num_classes + class_idx) * 4 + k) 0 : Nat) : Int))
    (.fin (1 / 8))

/-- The box of RoI `p` for class `class_idx`. -/
def load_box_f32 (boxes : List Nat) (num_classes class_idx p : Nat) : Box_f32 :=
  { x1 := box_coord_f32 boxes num_classes class_idx p 0
    y1 := box_coord_f32 boxes num_classes class_idx p 1
    x2 := box_coord_f32 boxes num_classes class_idx p 2
    y2 := box_coord_f32 boxes num_classes class_idx p 3 }

/-- Width times height (`p_area`, `i_area`). -/
def Box_f32.area (b : Box_f32) : Fl :=
  Fl.mul binary32 (Fl.sub binary32 b.x2 b.x1) (Fl.sub binary32 b.y2 b.y1)

/-- Area of the intersection of `p` and `i` (lines 127-138). -/
def intersection_area_f32 (p i : Box_f32) : Fl :=
  let intersection_x1 := Fl.max p.x1 i.x1
  let intersection_y1 := Fl.max p.y1 i.y1
  let intersection_x2 := Fl.min p.x2 i.x2
  let intersection_y2 := Fl.min p.y2 i.y2
  let intersection_width := Fl.max (Fl.sub binary32 intersection_x2 intersection_x1) (.fin 0)
  let intersection_height := Fl.max (Fl.sub binary32 intersection_y2 intersection_y1) (.fin 0)
  Fl.mul binary32 intersection_width intersection_height

/-- The union area (line 139): `i_area + p_area - intersection_area`. -/
def union_area_f32 (p i : Box_f32) : Fl :=
  Fl.sub binary32 (Fl.add binary32 i.area p.area) (intersection_area_f32 p i)

/-- The factor of mode GAUSSIAN (lines 152 and 162):
`std::exp(-1.0 * iou * iou / soft_nms_sigma_)`, computed in `double`. -/
def gaussian_factor_f32 (lib : Lib_f32) (sigma iou : Fl) : Fl :=
  lib.exp (Fl.div binary64 (Fl.mul binary64 (Fl.mul binary64 (.fin (-1)) iou) iou) sigma)

/-- A candidate list under construction together with the running best and
the memory. -/
structure Pool_f32 where
  best_score_pos : Int
  best_score : Fl
  indices : List Nat
  mem : Memory
deriving DecidableEq, Repr

/-- The pool before any candidate is seen. -/
def Pool_f32.init (mem : Memory) : Pool_f32 :=
  { best_score_pos := -1, best_score := .fin (-1), indices := [], mem := mem }

/-- Record `score` as the running best when it is strictly higher, then push `idx`. -/
def Pool_f32.push (pl : Pool_f32) (score : Fl) (idx : Nat) : Pool_f32 :=
  { best_score_pos :=
      if score > pl.best_score then (pl.indices.length : Int) else pl.best_score_pos
    best_score := if score > pl.best_score then score else pl.best_score
    indices := pl.indices ++ [idx]
    mem := pl.mem }

/-- Body of the admission loop (lines 83-92). -/
def scan_step_f32 (op : AABBRoINMSOp_f32) (scale : Fl) (zp : Int) (num_classes class_idx : Nat)
    (pl : Pool_f32) (i : Nat) : Pool_f32 :=
  let score := score_at_f32 scale zp pl.mem.table num_classes class_idx i
  if score > op.min_score then pl.push score i else pl

/-- The admission loop over the `num_boxes` rows of the image. -/
def scan_f32 (op : AABBRoINMSOp_f32) (scale : Fl) (zp : Int) (num_classes class_idx num_boxes : Nat)
    (mem : Memory) : Pool_f32 :=
  (List.range num_boxes).foldl (scan_step_f32 op scale zp num_classes class_idx)
    (Pool_f32.init mem)

/-- The store `scores_adjust_ptr[idx * num_classes + class_idx] = QuantizeUint8(...)`. -/
def store_score_f32 (lib : Lib_f32) (scale : Fl) (zp : Int) (num_classes class_idx idx : Nat)
    (score : Fl) (mem : Memory) : Except String Memory :=
  mem.store (idx * num_classes + class_idx) (lib.QuantizeUint8 scale zp score % 256)

/-- The decisions of one comparison (lines 117-174) for candidate `idx`
against the emitted RoI `p`: the score under which the candidate is pushed to
`new_indices` (`none` when it is dropped) and the memory after the stores of
this comparison. -/
def compare_outcome_f32 (lib : Lib_f32) (op : AABBRoINMSOp_f32) (scale : Fl) (zp : Int)
    (boxes : List Nat) (num_classes class_idx p : Nat) (mem : Memory) (idx : Nat) :
    Except String (Option Fl × Memory) :=
  let pb := load_box_f32 boxes num_classes class_idx p
  let ib := load_box_f32 boxes num_classes class_idx idx
  let intersection := intersection_area_f32 pb ib
  let union := union_area_f32 pb ib
  if intersection ≤ Fl.mul binary32 op.max_iou union then
    let score := score_at_f32 scale zp mem.table num_classes class_idx idx
    if op.soft_nms_method = SOFT_NMS_GAUSSIAN then
      let iou := Fl.div binary32 intersection union
      let score1 := Fl.to_float (Fl.mul binary64 score (gaussian_factor_f32 lib op.soft_nms_sigma iou))
      match store_score_f32 lib scale zp num_classes class_idx idx score1 mem with
      | .error e => .error e
      | .ok mem1 => .ok (some score, mem1)
    else .ok (some score, mem)
  else if op.soft_nms_method ≠ SOFT_NMS_NONE then
    let score := score_at_f32 scale zp mem.table num_classes class_idx idx
    let rescored : Except String Fl :=
      if op.soft_nms_method = SOFT_NMS_LINEAR then
        .ok (Fl.mul binary32 score
          (Fl.sub binary32 (Fl.of_int 1) (Fl.div binary32 intersection union)))
      else if op.soft_nms_method = SOFT_NMS_GAUSSIAN then
        let iou := Fl.div binary32 intersection union
        .ok (Fl.to_float (Fl.mul binary64 score (gaussian_factor_f32 lib op.soft_nms_sigma iou)))
      else .error "Unknown soft nms method"
    match rescored with
    | .error e => .error e
    | .ok score1 =>
      match store_score_f32 lib scale zp num_classes class_idx idx score1 mem with
      | .error e => .error e
      | .ok mem1 =>
        if score1 ≥ op.soft_nms_min_score then .ok (some score1, mem1) else .ok (none, mem1)
  else .ok (none, mem)

/-- Body of the comparison loop. -/
def compare_step_f32 (lib : Lib_f32) (op : AABBRoINMSOp_f32) (scale : Fl) (zp : Int)
    (boxes : List Nat) (num_classes class_idx p : Nat) (pl : Pool_f32) (idx : Nat) :
    Except String Pool_f32 :=
  match compare_outcome_f32 lib op scale zp boxes num_classes class_idx p pl.mem idx with
  | .error e => .error e
  | .ok (none, mem1) => .ok { pl with mem := mem1 }
  | .ok (some score, mem1) => .ok (({ pl with mem := mem1 } : Pool_f32).push score idx)

/-- Loop-carried state of the selector `while` loop. -/
structure Selector_f32 where
  pool : Pool_f32
  keep : List Nat
deriving DecidableEq, Repr

/-- One round of the selector (lines 97-176), entered with a non-empty pool. -/
def nms_round_f32 (lib : Lib_f32) (op : AABBRoINMSOp_f32) (scale : Fl) (zp : Int)
    (boxes : List Nat) (num_classes class_idx : Nat) (s : Selector_f32) :
    Except String Selector_f32 :=
  if s.pool.best_score_pos < 0 then .error "DCHECK_GE(best_score_pos, 0)"
  else if ¬ (s.pool.best_score_pos < (s.pool.indices.length : Int)) then
    .error "DCHECK_LT(best_score_pos, indices.size())"
  else
    let indices := swap s.pool.indices 0 s.pool.best_score_pos.toNat
    let p := indices.getD 0 0
    match forE (compare_step_f32 lib op scale zp boxes num_classes class_idx p)
        (indices.drop 1) (Pool_f32.init s.pool.mem) with
    | .error e => .error e
    | .ok pl => .ok { pool := pl, keep := s.keep ++ [p] }

/-- The selector loop, run for at most `rounds` rounds. -/
def nms_loop_f32 (lib : Lib_f32) (op : AABBRoINMSOp_f32) (scale : Fl) (zp : Int)
    (boxes : List Nat) (num_classes class_idx max_post_nms_proposals : Nat) :
    Nat → Selector_f32 → Except String Selector_f32
  | 0, s => .ok s
  | rounds + 1, s =>
    if s.pool.indices.length > 0 ∧ s.keep.length < max_post_nms_proposals then
      match nms_round_f32 lib op scale zp boxes num_classes class_idx s with
      | .error e => .error e
      | .ok s1 =>
        nms_loop_f32 lib op scale zp boxes num_classes class_idx max_post_nms_proposals rounds s1
    else .ok s

/-- Per-image state of the class loop: `keeps`, `total_keep_count` and the memory. -/
structure ImageState_f32 where
  keeps : List (List Nat)
  total_keep_count : Nat
  mem : Memory
deriving DecidableEq, Repr

/-- `max_objects_ > 0 ? max_objects_ : num_boxes`. -/
def max_post_nms_proposals_f32 (op : AABBRoINMSOp_f32) (num_boxes : Nat) : Nat :=
  if op.max_objects > 0 then op.max_objects.toNat else num_boxes

/-- Body of the class loop (lines 80-178). -/
def nms_class_f32 (lib : Lib_f32) (op : AABBRoINMSOp_f32) (scale : Fl) (zp : Int)
    (boxes : List Nat) (num_classes num_boxes : Nat) (st : ImageState_f32) (class_idx : Nat) :
    Except String ImageState_f32 :=
  let pl := scan_f32 op scale zp num_classes class_idx num_boxes st.mem
  match nms_loop_f32 lib op scale zp boxes num_classes class_idx
      (max_post_nms_proposals_f32 op num_boxes)
      pl.indices.length { pool := pl, keep := st.keeps.getD class_idx [] } with
  | .error e => .error e
  | .ok s =>
    .ok { keeps := st.keeps.set class_idx s.keep
          total_keep_count := st.total_keep_count + s.keep.length
          mem := s.pool.mem }

/-- The global cap (lines 182-218); the sort key reads the table through `scores_ptr`. -/
def limit_objects_f32 (lib : Lib_f32) (op : AABBRoINMSOp_f32) (num_classes : Nat)
    (st : ImageState_f32) : Except String ImageState_f32 :=
  if op.max_objects > 0 ∧ (st.total_keep_count : Int) > op.max_objects then
    let sorted := lib.sort (raw_key st.mem.table num_classes) (all_objects num_classes st.keeps)
    if ¬ ((sorted.length : Int) > op.max_objects) then
      .error "DCHECK_GT(all_objects.size(), max_objects_)"
    else
      match forE (rebuild_step sorted) (List.range op.max_objects.toNat)
          (st.keeps.map (fun _ => [])) with
      | .error e => .error e
      | .ok keeps =>
        .ok { keeps := keeps, total_keep_count := op.max_objects.toNat, mem := st.mem }
  else .ok st

/-- The three growing output tensors and the write cursor `cur_out_idx`. -/
structure Writer_f32 where
  output_scores : List Fl
  output_boxes : List Nat
  output_classes : List Nat
  cur_out_idx : Nat
deriving DecidableEq, Repr

/-- Body of the first inner write loop (lines 239-245). -/
def write_entry_f32 (scale : Fl) (zp : Int) (scores boxes : List Nat) (num_classes class_idx : Nat)
    (cur_start_idx : Nat) (cur_keep : List Nat) (w : Writer_f32) (k : Nat) : Writer_f32 :=
  let box_idx := cur_keep.getD k 0
  let pos := cur_start_idx + w.cur_out_idx + k
  { w with
    output_scores := w.output_scores.set pos
      (Fl.mul binary32
        (Fl.of_int (((scores.getD (box_idx * num_classes + class_idx) 0 : Nat) : Int) - zp)) scale)
    output_boxes := (List.range 4).foldl
      (fun out component_idx =>
        out.set (pos * 4 + component_idx)
          (boxes.getD ((box_idx * num_classes + class_idx) * 4 + component_idx) 0))
      w.output_boxes }

/-- Body of the second inner write loop (lines 247-249). -/
def write_class_id_f32 (class_idx cur_start_idx : Nat) (w : Writer_f32) (k : Nat) : Writer_f32 :=
  { w with output_classes := w.output_classes.set (cur_start_idx + w.cur_out_idx + k) class_idx }

/-- Body of the outer write loop (lines 236-251). -/
def write_class_f32 (scale : Fl) (zp : Int) (scores boxes : List Nat) (num_classes : Nat)
    (cur_start_idx : Nat) (keeps : List (List Nat)) (w : Writer_f32) (class_idx : Nat) :
    Writer_f32 :=
  let cur_keep := keeps.getD class_idx []
  let w1 := (List.range cur_keep.length).foldl
    (write_entry_f32 scale zp scores boxes num_classes class_idx cur_start_idx cur_keep) w
  let w2 := (List.range cur_keep.length).foldl (write_class_id_f32 class_idx cur_start_idx) w1
  { w2 with cur_out_idx := w2.cur_out_idx + cur_keep.length }

/-- The loop-carried state of the batch loop: the memory, the output tensors
and `total_keep_per_batch`. -/
structure BatchState_f32 where
  mem : Memory
  output_scores : List Fl
  output_boxes : List Nat
  output_classes : List Nat
  total_keep_per_batch : List Nat
deriving DecidableEq, Repr

/-- Body of the batch loop (lines 73-254) for an image with `num_boxes` RoIs.
`roi_start` is advanced by the source but never read, so it is not carried. -/
def process_image_f32 (lib : Lib_f32) (op : AABBRoINMSOp_f32) (scale : Fl) (zp : Int)
    (boxes : List Nat) (num_classes : Nat) (bs : BatchState_f32) (num_boxes : Nat) :
    Except String BatchState_f32 :=
  match forE (nms_class_f32 lib op scale zp boxes num_classes num_boxes) (class_range num_classes)
      { keeps := List.replicate num_classes [], total_keep_count := 0, mem := bs.mem } with
  | .error e => .error e
  | .ok st =>
    match limit_objects_f32 lib op num_classes st with
    | .error e => .error e
    | .ok st1 =>
      let cur_start_idx := bs.output_scores.length
      let w0 : Writer_f32 :=
        { output_scores := bs.output_scores ++ List.replicate st1.total_keep_count (.fin 0)
          output_boxes := bs.output_boxes ++ List.replicate (st1.total_keep_count * 4) 0
          output_classes := bs.output_classes ++ List.replicate st1.total_keep_count 0
          cur_out_idx := 0 }
      let w := (class_range num_classes).foldl
        (write_class_f32 scale zp st1.mem.table boxes num_classes cur_start_idx st1.keeps) w0
      .ok { mem := st1.mem
            output_scores := w.output_scores
            output_boxes := w.output_boxes
            output_classes := w.output_classes
            total_keep_per_batch := bs.total_keep_per_batch ++ [st1.total_keep_count] }

/-- The four outputs of the operator, scores in `float`. -/
structure Outputs_f32 where
  output_batch_splits : List Nat
  output_scores : List Fl
  output_boxes : List Nat
  output_classes : List Nat
deriving DecidableEq, Repr

/-- The blobs of the workspace the operator is bound to: its three inputs
and its four outputs, the latter with whatever an earlier run left in them. -/
structure Workspace where
  input_batch_splits : Tensor
  input_scores : Int8TensorCPU_f32
  input_boxes : Tensor
  outputs : Outputs_f32
deriving DecidableEq, Repr

/-- The shape checks of lines 14-39. -/
def check_shapes_f32 (input_batch_splits : Tensor) (input_scores : Int8TensorCPU_f32)
    (input_boxes : Tensor) : Except String Unit :=
  if input_scores.t.dim = 4 ∧ input_scores.t.size 1 ≠ 1 then .error "scores.size(1) == 1"
  else if input_scores.t.dim = 4 ∧ input_scores.t.size 2 ≠ 1 then .error "scores.size(2) == 1"
  else if input_scores.t.dim ≠ 4 ∧ input_scores.t.dim ≠ 2 then .error "scores.dim() == 2"
  else if input_boxes.dim = 4 ∧ input_boxes.size 1 ≠ 1 then .error "boxes.size(1) == 1"
  else if input_boxes.dim = 4 ∧ input_boxes.size 2 ≠ 1 then .error "boxes.size(2) == 1"
  else if input_boxes.dim ≠ 4 ∧ input_boxes.dim ≠ 2 then .error "boxes.dim() == 2"
  else if input_scores.t.size 0 ≠ input_boxes.size 0 then .error "num_rois == boxes.size(0)"
  else if input_scores.t.size 1 * 4 ≠ input_boxes.size 1 then
    .error "num_classes * 4 == boxes.size(1)"
  else if input_batch_splits.dim ≠ 1 then .error "batch_splits.dim() == 1"
  else .ok ()

/-- The memory after lines 50-62: `scores_ptr` points to the input buffer
and `scores_adjust_ptr` is null, unless a soft mode is set, in which case
`adjusted_scores_tensor` receives a copy of the input and both pointers point
to it. -/
def Memory.setup (op : AABBRoINMSOp_f32) (input_scores : List Nat) : Memory :=
  if op.soft_nms_method ≠ SOFT_NMS_NONE then
    { input_scores := input_scores, adjusted_scores := input_scores,
      scores_ptr := .adjusted, scores_adjust_ptr := .adjusted }
  else
    { input_scores := input_scores, adjusted_scores := [],
      scores_ptr := .input, scores_adjust_ptr := .null }

/-- `Int8AABBRoINMSOp<CPUContext>::RunOnDevice` on the workspace: the shape
checks, the four `Output(...)` calls of lines 43-47, which resize the scores,
boxes and classes outputs to zero rows, the pointer set-up, the batch loop
and the final copy of `total_keep_per_batch`.  The result is the workspace
after the call; the input score tensor holds what its buffer holds then. -/
def RunOnDevice_f32 (lib : Lib_f32) (op : AABBRoINMSOp_f32) (ws : Workspace) :
    Except String Workspace :=
  match check_shapes_f32 ws.input_batch_splits ws.input_scores ws.input_boxes with
  | .error e => .error e
  | .ok _ =>
    let num_classes := ws.input_scores.t.size 1
    let batch_size := ws.input_batch_splits.size 0
    match forE
        (process_image_f32 lib op ws.input_scores.scale ws.input_scores.zero_point
          ws.input_boxes.data num_classes)
        ((List.range batch_size).map (fun b => ws.input_batch_splits.data.getD b 0))
        { mem := Memory.setup op ws.input_scores.t.data, output_scores := [], output_boxes := [],
          output_classes := [], total_keep_per_batch := [] } with
    | .error e => .error e
    | .ok bs =>
      .ok { input_batch_splits := ws.input_batch_splits
            input_scores := { ws.input_scores with
              t := { ws.input_scores.t with data := bs.mem.input_scores } }
            input_boxes := ws.input_boxes
            outputs :=
              { output_batch_splits := bs.total_keep_per_batch
                output_scores := bs.output_scores
                output_boxes := bs.output_boxes
                output_classes := bs.output_classes } }

/-! ## Concrete library functions for the floating-point embedding -/

/-- The two's-complement wrap of an integer to `int32_t`. -/
def wrap_int32 (n : Int) : Int := (n + 2147483648) % 4294967296 - 2147483648

/-- Modelled from the spec: `int8::QuantizeUint8` of `int8_utils.h`, which is
not part of the extract.  The value is divided by the scale in `float`,
rounded to the nearest integer (ties to even, the rounding mode of the float
unit), shifted by the zero point and clamped to `[0, 255]`.  C++ leaves the
conversion to `int32_t` of NaN, of an infinity and of a value beyond the
range of `int32_t` undefined; it is taken as `INT32_MIN`, which is what
x86-64 code returns. -/
def QuantizeUint8_f32 (scale : Fl) (zero_point : Int) (value : Fl) : Nat :=
  let r : Int :=
    match Fl.div binary32 value scale with
    | .fin q =>
      let n : Int := if q < 0 then -((round_even (-q) : Nat) : Int) else ((round_even q : Nat) : Int)
      if n < -2147483648 ∨ 2147483647 < n then -2147483648 else n
    | _ => -2147483648
  (min (max (wrap_int32 (zero_point + r)) 0) 255).toNat

/-- The Taylor polynomial of degree 24 of `exp` at 0. -/
def exp_series (x : ℚ) : ℚ :=
  (List.range 25).foldl (fun acc k => acc + x ^ k / (Nat.factorial k : ℚ)) 0

/-- The working format of `exp_f64`: 120 significand bits. -/
def exp_format : Format := { prec := 120, emin := -100000, emax := 100000 }

/-- Squares `y` `k` times, rounding every square to the working format. -/
def square_times : Nat → ℚ → ℚ
  | 0, y => y
  | k + 1, y =>
    match exp_format.round (y * y) with
    | .fin z => square_times k z
    | _ => 0

/-- A stand-in for `std::exp` on `double`: NaN, the infinities and the
arguments beyond the range of the format as the C library treats them, and
otherwise a rational approximation (the Taylor polynomial on the argument
halved until it is within `[-1/2, 1/2]`, squared back) rounded to `double`. -/
def exp_f64 : Fl → Fl
  | .nan => .nan
  | .inf s => if s then .fin 0 else .inf false
  | .fin q =>
    if 710 < q then .inf false
    else if q < -746 then .fin 0
    else
      let k := (floor_log2 (2 * |q|.num.toNat / |q|.den + 1)) + 1
      binary64.round (square_times k (exp_series (q / ((2 ^ k : Nat) : ℚ))))

/-- The library used to run the floating-point embedding: the quantizer and
`exp` above, and the `std::sort` of libstdc++. -/
def gnu_lib_f32 : Lib_f32 where
  QuantizeUint8 := QuantizeUint8_f32
  exp := exp_f64
  sort := gnu_sort
  sort_perm := gnu_lib.sort_perm
  sort_sorted := gnu_lib.sort_sorted

/-! ## Vocabulary of the statements on the floating-point embedding -/

/-- The score written for a kept `(class, roi)` pair (line 241), in `float`. -/
def out_score_f32 (scale : Fl) (zp : Int) (scores : List Nat) (num_classes : Nat)
    (obj : Nat × Nat) : Fl :=
  Fl.mul binary32
    (Fl.of_int (((scores.getD (obj.2 * num_classes + obj.1) 0 : Nat) : Int) - zp)) scale

/-- The test of line 141 as the operator evaluates it for the emitted RoI
`p` and the candidate `i`: `intersection_area <= max_iou_ * union_area` with
every operation rounded to `float`. -/
def within_iou_f32 (op : AABBRoINMSOp_f32) (boxes : List Nat) (num_classes class_idx p i : Nat) :
    Prop :=
  intersection_area_f32 (load_box_f32 boxes num_classes class_idx p)
      (load_box_f32 boxes num_classes class_idx i)
    ≤ Fl.mul binary32 op.max_iou (union_area_f32 (load_box_f32 boxes num_classes class_idx p)
        (load_box_f32 boxes num_classes class_idx i))

instance (op : AABBRoINMSOp_f32) (boxes : List Nat) (num_classes class_idx p i : Nat) :
    Decidable (within_iou_f32 op boxes num_classes class_idx p i) := by
  unfold within_iou_f32
  exact inferInstance

/-- The intermediate results of the batch-loop body for one image: the number
of RoIs of the image, the memory on entry, the state after the class loop and
the state after the global cap. -/
structure ImageRun_f32 where
  num_boxes : Nat
  mem : Memory
  selected : ImageState_f32
  final : ImageState_f32

/-- The record `r` is what the batch-loop body computes for an image of
`r.num_boxes` RoIs entered with the memory `r.mem`. -/
def ImageRun_f32.valid (lib : Lib_f32) (op : AABBRoINMSOp_f32) (scale : Fl) (zp : Int)
    (boxes : List Nat) (num_classes : Nat) (r : ImageRun_f32) : Prop :=
  forE (nms_class_f32 lib op scale zp boxes num_classes r.num_boxes) (class_range num_classes)
      { keeps := List.replicate num_classes [], total_keep_count := 0, mem := r.mem }
    = .ok r.selected ∧
  limit_objects_f32 lib op num_classes r.selected = .ok r.final

/-- The `(class, roi)` pairs written for the image, in output order. -/
def ImageRun_f32.detections (num_classes : Nat) (r : ImageRun_f32) : List (Nat × Nat) :=
  all_objects num_classes r.final.keeps

/-- Row offset of image `b` in the outputs: the sum of the earlier output batch splits. -/
def Outputs_f32.offset (out : Outputs_f32) (b : Nat) : Nat := (out.output_batch_splits.take b).sum

/-- The scores written for image `b`. -/
def Outputs_f32.image_scores (out : Outputs_f32) (b : Nat) : List Fl :=
  (out.output_scores.drop (out.offset b)).take (out.output_batch_splits.getD b 0)

/-- The class indices written for image `b`. -/
def Outputs_f32.image_classes (out : Outputs_f32) (b : Nat) : List Nat :=
  (out.output_classes.drop (out.offset b)).take (out.output_batch_splits.getD b 0)

/-- The raw box coordinates written for image `b`, four per detection. -/
def Outputs_f32.image_boxes (out : Outputs_f32) (b : Nat) : List Nat :=
  (out.output_boxes.drop (out.offset b * 4)).take (out.output_batch_splits.getD b 0 * 4)

/-- Detection `i` of image `b` as a box in pixels, read from the output boxes
the way the operator reads its input boxes. -/
def Outputs_f32.image_box (out : Outputs_f32) (b i : Nat) : Box_f32 :=
  load_box_f32 (out.image_boxes b) 1 0 i

/-- The pool obtained by pushing the entries `es`, each a score and an RoI
index, one after the other. -/
def push_all_f32 (pl : Pool_f32) (es : List (Fl × Nat)) : Pool_f32 :=
  es.foldl (fun q e => q.push e.1 e.2) pl

/-- The candidates of `xs` that a comparison loop against the emitted RoI `p`
pushes to the next pool when started on the memory `mem`, each with the score
it is pushed with. -/
def entered_f32 (lib : Lib_f32) (op : AABBRoINMSOp_f32) (scale : Fl) (zp : Int) (boxes : List Nat)
    (num_classes class_idx p : Nat) : List Nat → Memory → List (Fl × Nat)
  | [], _ => []
  | idx :: rest, mem =>
    match compare_outcome_f32 lib op scale zp boxes num_classes class_idx p mem idx with
    | .ok (some score, mem1) =>
      (score, idx) :: entered_f32 lib op scale zp boxes num_classes class_idx p rest mem1
    | .ok (none, mem1) => entered_f32 lib op scale zp boxes num_classes class_idx p rest mem1
    | .error _ => []

/-- The number of rows that precede image `b` in the tables: the value of
`roi_start` when the batch loop reaches `b`. -/
def roi_start (input_batch_splits : Tensor) (b : Nat) : Nat :=
  ((List.range b).map (fun b1 => input_batch_splits.data.getD b1 0)).sum

/-- The memory `m` has the input buffer and the two pointers of `m0`. -/
def Memory.same_input (m0 m : Memory) : Prop :=
  m.input_scores = m0.input_scores ∧ m.scores_ptr = m0.scores_ptr ∧
    m.scores_adjust_ptr = m0.scores_adjust_ptr

/-! ## Concrete inputs for the floating-point embedding -/

/-- The default arguments of the operator as `float`s (`min_score = 0.05f`,
`max_iou = 0.3f`, `soft_nms_sigma = 0.5f`, `soft_nms_min_score = 0`) with the
given `max_objects` and soft-NMS method. -/
def default_op_f32 (max_objects soft_nms_method : Int) : AABBRoINMSOp_f32 :=
  { min_score := binary32.round (1 / 20), max_iou := binary32.round (3 / 10),
    max_objects := max_objects, soft_nms_method := soft_nms_method,
    soft_nms_sigma := binary32.round (1 / 2), soft_nms_min_score := .fin 0 }

/-- A score table of shape `(num_rois, num_classes)` with scale `0.01f` and zero point 0. -/
def scores_tensor_f32 (num_rois num_classes : Nat) (data : List Nat) : Int8TensorCPU_f32 :=
  { t := { dims := [num_rois, num_classes], data := data }, scale := binary32.round (1 / 100),
    zero_point := 0 }

/-- Output blobs that hold nothing. -/
def no_outputs : Outputs_f32 :=
  { output_batch_splits := [], output_scores := [], output_boxes := [], output_classes := [] }

/-- A workspace with the three inputs and empty output blobs. -/
def workspace (input_batch_splits : Tensor) (input_scores : Int8TensorCPU_f32)
    (input_boxes : Tensor) : Workspace :=
  { input_batch_splits := input_batch_splits, input_scores := input_scores,
    input_boxes := input_boxes, outputs := no_outputs }

/-- Two RoIs, the class-1 box of the second inside that of the first: raw
corners `[0, 0, 5103, 5582]` and `[0, 0, 3371, 2535]`. -/
def nested_boxes : Tensor :=
  boxes_tensor 2 2 [0, 0, 0, 0, 0, 0, 5103, 5582, 0, 0, 0, 0, 0, 0, 3371, 2535]

/-- The workspace after the call in mode NONE on class-1 scores 0.60 and 0.50
with `nested_boxes`: both RoIs are written. -/
def nested_ws : Workspace :=
  { input_batch_splits := splits_tensor [2]
    input_scores := scores_tensor_f32 2 2 [0, 60, 0, 50]
    input_boxes := nested_boxes
    outputs :=
      { output_batch_splits := [2]
        output_scores := [.fin (10066329 / 16777216), .fin (1 / 2)]
        output_boxes := [0, 0, 5103, 5582, 0, 0, 3371, 2535]
        output_classes := [1, 1] } }

/-- The workspace after the call in mode NONE on a batch of two images of one
RoI each, with class-1 scores 0.50 for row 0 and 0.90 for row 1 and the boxes
of `apart_boxes`: both images get the detection of row 0. -/
def shifted_ws : Workspace :=
  { input_batch_splits := splits_tensor [1, 1]
    input_scores := scores_tensor_f32 2 2 [0, 50, 0, 90]
    input_boxes := apart_boxes
    outputs :=
      { output_batch_splits := [1, 1]
        output_scores := [.fin (1 / 2), .fin (1 / 2)]
        output_boxes := [0, 0, 8, 8, 0, 0, 8, 8]
        output_classes := [1, 1] } }

/-- The outputs on class-1 scores 0.50 and 0.60 with `zero_boxes` in mode
GAUSSIAN: the second detection has score 0. -/
def zero_gaussian_out : Outputs_f32 :=
  { output_batch_splits := [2]
    output_scores := [.fin (10066329 / 16777216), .fin 0]
    output_boxes := [0, 0, 0, 0, 0, 0, 0, 0]
    output_classes := [1, 1] }

/-- The outputs on the same input in modes NONE and LINEAR: both scores as given. -/
def zero_plain_out : Outputs_f32 :=
  { output_batch_splits := [2]
    output_scores := [.fin (10066329 / 16777216), .fin (1 / 2)]
    output_boxes := [0, 0, 0, 0, 0, 0, 0, 0]
    output_classes := [1, 1] }

/-- A workspace whose output blobs hold the results of an earlier call on
other inputs. -/
def used_ws : Workspace :=
  { input_batch_splits := splits_tensor [2]
    input_scores := scores_tensor_f32 2 2 [0, 60, 0, 50]
    input_boxes := same_boxes
    outputs := zero_gaussian_out }

/-- The workspace after the call in mode LINEAR on `used_ws`: the second RoI
was rescored to 0 in the adjusted copy and the input table is as it was. -/
def used_ws_after : Workspace :=
  { input_batch_splits := splits_tensor [2]
    input_scores := scores_tensor_f32 2 2 [0, 60, 0, 50]
    input_boxes := same_boxes
    outputs :=
      { output_batch_splits := [2]
        output_scores := [.fin (10066329 / 16777216), .fin 0]
        output_boxes := [0, 0, 8, 8, 0, 0, 8, 8]
        output_classes := [1, 1] } }


/-! ## Generic loop lemmas -/

theorem forE_append {σ α : Type} (body : σ → α → Except String σ) (xs ys : List α) (s : σ) :
    forE body (xs ++ ys) s =
      match forE body xs s with
      | .ok s1 => forE body ys s1
      | .error e => .error e := by
  induction xs generalizing s with
  | nil => simp [forE]
  | cons a as ih =>
    simp only [List.cons_append, forE]
    cases body s a with
    | error e => simp
    | ok s1 => simpa using ih s1

theorem forE_invariant {σ α : Type} (body : σ → α → Except String σ) (P : σ → Prop)
    (xs : List α) (s t : σ) (h0 : P s)
    (hstep : ∀ a ∈ xs, ∀ u v, P u → body u a = .ok v → P v)
    (h : forE body xs s = .ok t) : P t := by
  induction xs generalizing s with
  | nil =>
    simp [forE] at h
    exact h ▸ h0
  | cons a as ih =>
    simp only [forE] at h
    cases hb : body s a with
    | error e => simp [hb] at h
    | ok s1 =>
      simp only [hb] at h
      exact ih s1 (hstep a (List.mem_cons_self _ _) s s1 h0 hb)
        (fun b hb' u v hu huv => hstep b (List.mem_cons_of_mem _ hb') u v hu huv) h

theorem foldl_invariant {σ α : Type} (f : σ → α → σ) (P : σ → Prop)
    (xs : List α) (s : σ) (h0 : P s)
    (hstep : ∀ a ∈ xs, ∀ u, P u → P (f u a)) : P (xs.foldl f s) := by
  induction xs generalizing s with
  | nil => exact h0
  | cons a as ih =>
    simp only [List.foldl_cons]
    exact ih (f s a) (hstep a (List.mem_cons_self _ _) s h0)
      (fun b hb u hu => hstep b (List.mem_cons_of_mem _ hb) u hu)

theorem foldl_congr_mem {σ α : Type} (f g : σ → α → σ) (xs : List α) (s : σ)
    (h : ∀ a ∈ xs, ∀ u, f u a = g u a) : xs.foldl f s = xs.foldl g s := by
  induction xs generalizing s with
  | nil => rfl
  | cons a as ih =>
    simp only [List.foldl_cons]
    rw [h a (List.mem_cons_self _ _) s]
    exact ih _ (fun b hb u => h b (List.mem_cons_of_mem _ hb) u)

/-- Writing `vs` element by element over the cells that follow `A`. -/
theorem foldl_set_block {α : Type} (d : α) (vs A Z : List α) (hlen : vs.length ≤ Z.length) :
    (List.range vs.length).foldl (fun acc k => acc.set (A.length + k) (vs.getD k d)) (A ++ Z)
      = A ++ vs ++ Z.drop vs.length := by
  induction vs using List.reverseRecOn with
  | nil => simp
  | append_singleton vs v ih =>
    have hlen1 : vs.length < Z.length := by simpa using hlen
    rw [List.length_append, List.length_singleton, List.range_succ, List.foldl_append]
    have hcongr : (List.range vs.length).foldl
          (fun acc k => acc.set (A.length + k) ((vs ++ [v]).getD k d)) (A ++ Z)
        = (List.range vs.length).foldl
          (fun acc k => acc.set (A.length + k) (vs.getD k d)) (A ++ Z) := by
      apply foldl_congr_mem
      intro k hk u
      have hk1 : k < vs.length := List.mem_range.mp hk
      rw [List.getD_append _ _ _ _ hk1]
    rw [hcongr, ih (Nat.le_of_lt hlen1)]
    simp only [List.foldl_cons, List.foldl_nil]
    have hget : (vs ++ [v]).getD vs.length d = v := by
      rw [List.getD_append_right _ _ _ _ (Nat.le_refl _)]
      simp
    rw [hget, List.set_append_right _ _ (by simp)]
    simp only [List.length_append, Nat.add_sub_cancel_left, Nat.sub_self, List.append_assoc]
    rw [List.drop_eq_getElem_cons hlen1, List.set_cons_zero]
    rfl

theorem length_flatMap_const {α β : Type} (f : α → List β) (c : Nat) (l : List α)
    (h : ∀ a ∈ l, (f a).length = c) : (l.flatMap f).length = l.length * c := by
  induction l with
  | nil => simp
  | cons a as ih =>
    rw [List.flatMap_cons, List.length_append, h a (List.mem_cons_self _ _),
      ih (fun b hb => h b (List.mem_cons_of_mem _ hb)), List.length_cons, Nat.succ_mul, Nat.add_comm]

/-- Writing rows of four cells, row by row, over the cells that follow `A`. -/
theorem foldl_set_rows {α : Type} (d : α) (g : Nat → Nat → α) (P n : Nat) (A Z : List α)
    (hA : A.length = P * 4) (hlen : n * 4 ≤ Z.length) :
    (List.range n).foldl
        (fun acc k => (List.range 4).foldl (fun out j => out.set ((P + k) * 4 + j) (g k j)) acc)
        (A ++ Z)
      = A ++ (List.range n).flatMap (fun k => (List.range 4).map (g k)) ++ Z.drop (n * 4) := by
  induction n with
  | zero => simp
  | succ n ih =>
    have hn : n * 4 ≤ Z.length := by omega
    rw [List.range_succ n, List.foldl_append, ih hn, List.flatMap_append]
    simp only [List.foldl_cons, List.foldl_nil, List.flatMap_singleton]
    have hF : ((List.range n).flatMap (fun k => (List.range 4).map (g k))).length = n * 4 := by
      rw [length_flatMap_const _ 4 _ (fun a _ => by simp)]
      simp
    have hA1 : (A ++ (List.range n).flatMap (fun k => (List.range 4).map (g k))).length
        = (P + n) * 4 := by
      rw [List.length_append, hA, hF]; ring
    have hcongr : (List.range 4).foldl (fun out j => out.set ((P + n) * 4 + j) (g n j))
          (A ++ (List.range n).flatMap (fun k => (List.range 4).map (g k)) ++ Z.drop (n * 4))
        = (List.range ((List.range 4).map (g n)).length).foldl
          (fun acc j => acc.set
            ((A ++ (List.range n).flatMap (fun k => (List.range 4).map (g k))).length + j)
            (((List.range 4).map (g n)).getD j d))
          (A ++ (List.range n).flatMap (fun k => (List.range 4).map (g k)) ++ Z.drop (n * 4)) := by
      rw [hA1]
      simp only [List.length_map, List.length_range]
      apply foldl_congr_mem
      intro j hj u
      have hj4 : j < 4 := List.mem_range.mp hj
      have : ((List.range 4).map (g n)).getD j d = g n j := by
        rw [List.getD_eq_getElem _ _ (by simpa using hj4)]
        simp
      rw [this]
    rw [hcongr, foldl_set_block d _ _ _ (by simp; omega)]
    simp only [List.length_map, List.length_range, List.drop_drop, List.append_assoc]
    have : n * 4 + 4 = (n + 1) * 4 := by ring
    rw [this]

theorem foldl_write_entry (scale : ℚ) (zp : Int) (scores boxes : List Nat)
    (num_classes class_idx cur_start_idx : Nat) (cur_keep : List Nat) (ks : List Nat) (w : Writer) :
    let r := ks.foldl (write_entry scale zp scores boxes num_classes class_idx cur_start_idx cur_keep) w
    r.cur_out_idx = w.cur_out_idx ∧ r.output_classes = w.output_classes ∧
    r.output_scores = ks.foldl (fun acc k => acc.set (cur_start_idx + w.cur_out_idx + k)
      (((((scores.getD (cur_keep.getD k 0 * num_classes + class_idx) 0 : Nat) : Int) - zp : Int) : ℚ)
        * scale)) w.output_scores ∧
    r.output_boxes = ks.foldl (fun acc k => (List.range 4).foldl
      (fun out component_idx =>
        out.set ((cur_start_idx + w.cur_out_idx + k) * 4 + component_idx)
          (boxes.getD ((cur_keep.getD k 0 * num_classes + class_idx) * 4 + component_idx) 0))
      acc) w.output_boxes := by
  induction ks generalizing w with
  | nil => simp
  | cons k ks ih =>
    simp only [List.foldl_cons]
    have h := ih (write_entry scale zp scores boxes num_classes class_idx cur_start_idx cur_keep w k)
    simp only [write_entry] at h ⊢
    exact h

theorem foldl_write_class_id (class_idx cur_start_idx : Nat) (ks : List Nat) (w : Writer) :
    let r := ks.foldl (write_class_id class_idx cur_start_idx) w
    r.cur_out_idx = w.cur_out_idx ∧ r.output_scores = w.output_scores ∧
    r.output_boxes = w.output_boxes ∧
    r.output_classes = ks.foldl (fun acc k => acc.set (cur_start_idx + w.cur_out_idx + k) class_idx)
      w.output_classes := by
  induction ks generalizing w with
  | nil => simp
  | cons k ks ih =>
    simp only [List.foldl_cons]
    have h := ih (write_class_id class_idx cur_start_idx w k)
    simp only [write_class_id] at h ⊢
    exact h


theorem forE_prefix_aux {σ α : Type} (body : σ → α → Except String σ) (P : List α → σ → Prop)
    (post : List α) : ∀ (pre : List α) (s t : σ), P pre s →
    (∀ p a q, p ++ a :: q = pre ++ post → ∀ u v, P p u → body u a = .ok v → P (p ++ [a]) v) →
    forE body post s = .ok t → P (pre ++ post) t := by
  induction post with
  | nil =>
    intro pre s t h0 _ h
    simp [forE] at h
    simpa [← h] using h0
  | cons a as ih =>
    intro pre s t h0 hstep h
    simp only [forE] at h
    cases hb : body s a with
    | error e => simp [hb] at h
    | ok s1 =>
      simp only [hb] at h
      have h1 : P (pre ++ [a]) s1 := hstep pre a as rfl s s1 h0 hb
      have := ih (pre ++ [a]) s1 t h1
        (fun p b q hq u v hu huv => hstep p b q (by simpa using hq) u v hu huv) h
      simpa using this

/-- Induction over a throwing loop with an invariant that may mention the
part of the iteration space already visited. -/
theorem forE_prefix {σ α : Type} (body : σ → α → Except String σ) (P : List α → σ → Prop)
    (xs : List α) (s t : σ) (h0 : P [] s)
    (hstep : ∀ p a q, p ++ a :: q = xs → ∀ u v, P p u → body u a = .ok v → P (p ++ [a]) v)
    (h : forE body xs s = .ok t) : P xs t := by
  have := forE_prefix_aux body P xs [] s t h0 (by simpa using hstep) h
  simpa using this

/-! ## The write loops in closed form -/

theorem map_getD_range {α : Type} (d : α) (l : List α) :
    (List.range l.length).map (fun k => l.getD k d) = l := by
  apply List.ext_getElem
  · simp
  · intro n h1 h2
    simp only [List.getElem_map, List.getElem_range]
    exact List.getD_eq_getElem _ _ h2

theorem getD_map_lt {α β : Type} (f : α → β) (l : List α) (k : Nat) (d : α) (e : β)
    (h : k < l.length) : (l.map f).getD k e = f (l.getD k d) := by
  rw [List.getD_eq_getElem _ _ (by simpa using h), List.getElem_map, List.getD_eq_getElem _ _ h]

theorem write_class_closed (scale : ℚ) (zp : Int) (scores boxes : List Nat) (num_classes : Nat)
    (cur_start_idx : Nat) (keeps : List (List Nat)) (w : Writer) (class_idx : Nat)
    (As Zs : List ℚ) (Ab Zb Ac Zc : List Nat)
    (hs : w.output_scores = As ++ Zs) (hb : w.output_boxes = Ab ++ Zb)
    (hc : w.output_classes = Ac ++ Zc)
    (hAs : As.length = cur_start_idx + w.cur_out_idx)
    (hAb : Ab.length = (cur_start_idx + w.cur_out_idx) * 4)
    (hAc : Ac.length = cur_start_idx + w.cur_out_idx)
    (hZs : (keeps.getD class_idx []).length ≤ Zs.length)
    (hZb : (keeps.getD class_idx []).length * 4 ≤ Zb.length)
    (hZc : (keeps.getD class_idx []).length ≤ Zc.length) :
    let r := write_class scale zp scores boxes num_classes cur_start_idx keeps w class_idx
    r.cur_out_idx = w.cur_out_idx + (keeps.getD class_idx []).length ∧
    r.output_scores = As ++ (objects_of keeps [class_idx]).map (out_score scale zp scores num_classes)
      ++ Zs.drop (keeps.getD class_idx []).length ∧
    r.output_boxes = Ab ++ (objects_of keeps [class_idx]).flatMap (out_box boxes num_classes)
      ++ Zb.drop ((keeps.getD class_idx []).length * 4) ∧
    r.output_classes = Ac ++ (objects_of keeps [class_idx]).map Prod.fst
      ++ Zc.drop (keeps.getD class_idx []).length := by
  intro r
  obtain ⟨e1, e2, e3, e4⟩ := foldl_write_entry scale zp scores boxes num_classes class_idx
    cur_start_idx (keeps.getD class_idx []) (List.range (keeps.getD class_idx []).length) w
  obtain ⟨c1, c2, c3, c4⟩ := foldl_write_class_id class_idx cur_start_idx
    (List.range (keeps.getD class_idx []).length)
    ((List.range (keeps.getD class_idx []).length).foldl
      (write_entry scale zp scores boxes num_classes class_idx cur_start_idx
        (keeps.getD class_idx [])) w)
  have hobj : objects_of keeps [class_idx] = (keeps.getD class_idx []).map (fun ckv => (class_idx, ckv)) := by
    simp [objects_of]
  have hr1 : r.cur_out_idx = ((List.range (keeps.getD class_idx []).length).foldl
      (write_class_id class_idx cur_start_idx)
      ((List.range (keeps.getD class_idx []).length).foldl
        (write_entry scale zp scores boxes num_classes class_idx cur_start_idx
          (keeps.getD class_idx [])) w)).cur_out_idx + (keeps.getD class_idx []).length := rfl
  have hr2 : r.output_scores = ((List.range (keeps.getD class_idx []).length).foldl
      (write_class_id class_idx cur_start_idx)
      ((List.range (keeps.getD class_idx []).length).foldl
        (write_entry scale zp scores boxes num_classes class_idx cur_start_idx
          (keeps.getD class_idx [])) w)).output_scores := rfl
  have hr3 : r.output_boxes = ((List.range (keeps.getD class_idx []).length).foldl
      (write_class_id class_idx cur_start_idx)
      ((List.range (keeps.getD class_idx []).length).foldl
        (write_entry scale zp scores boxes num_classes class_idx cur_start_idx
          (keeps.getD class_idx [])) w)).output_boxes := rfl
  have hr4 : r.output_classes = ((List.range (keeps.getD class_idx []).length).foldl
      (write_class_id class_idx cur_start_idx)
      ((List.range (keeps.getD class_idx []).length).foldl
        (write_entry scale zp scores boxes num_classes class_idx cur_start_idx
          (keeps.getD class_idx [])) w)).output_classes := rfl
  refine ⟨?_, ?_, ?_, ?_⟩
  · rw [hr1, c1, e1]
  · rw [hr2, c2, e3, hs, hobj, List.map_map]
    have hv := foldl_set_block (0 : ℚ)
      ((keeps.getD class_idx []).map
        (out_score scale zp scores num_classes ∘ fun ckv => (class_idx, ckv))) As Zs
      (by simpa using hZs)
    simp only [List.length_map] at hv
    rw [← hv, hAs]
    apply foldl_congr_mem
    intro k hk u
    have hk1 : k < (keeps.getD class_idx []).length := List.mem_range.mp hk
    rw [getD_map_lt _ _ _ 0 _ hk1]
    rfl
  · rw [hr3, c3, e4, hb, hobj]
    have hv := foldl_set_rows (0 : Nat)
      (fun k j => boxes.getD (((keeps.getD class_idx []).getD k 0 * num_classes + class_idx) * 4 + j) 0)
      (cur_start_idx + w.cur_out_idx) (keeps.getD class_idx []).length Ab Zb hAb hZb
    rw [hv]
    congr 2
    rw [List.flatMap_map]
    conv_rhs => rw [← map_getD_range 0 (keeps.getD class_idx [])]
    rw [List.flatMap_map]
    rfl
  · rw [hr4, c4, e2, hc, hobj, List.map_map]
    have hv := foldl_set_block (0 : Nat)
      ((keeps.getD class_idx []).map (Prod.fst ∘ fun ckv => (class_idx, ckv))) Ac Zc
      (by simpa using hZc)
    simp only [List.length_map] at hv
    rw [← hv, hAc, e1]
    apply foldl_congr_mem
    intro k hk u
    have hk1 : k < (keeps.getD class_idx []).length := List.mem_range.mp hk
    rw [getD_map_lt _ _ _ 0 _ hk1]
    rfl

theorem objects_of_cons (keeps : List (List Nat)) (c : Nat) (cs : List Nat) :
    objects_of keeps (c :: cs) = objects_of keeps [c] ++ objects_of keeps cs := by
  simp [objects_of]

theorem objects_of_single_length (keeps : List (List Nat)) (c : Nat) :
    (objects_of keeps [c]).length = (keeps.getD c []).length := by
  simp [objects_of]

theorem length_flatMap_out_box (boxes : List Nat) (num_classes : Nat) (objs : List (Nat × Nat)) :
    (objs.flatMap (out_box boxes num_classes)).length = objs.length * 4 :=
  length_flatMap_const _ 4 _ (fun a _ => by simp [out_box])

theorem write_classes_closed (scale : ℚ) (zp : Int) (scores boxes : List Nat) (num_classes : Nat)
    (cur_start_idx : Nat) (keeps : List (List Nat)) (cs : List Nat) (w : Writer)
    (As Zs : List ℚ) (Ab Zb Ac Zc : List Nat)
    (hs : w.output_scores = As ++ Zs) (hb : w.output_boxes = Ab ++ Zb)
    (hc : w.output_classes = Ac ++ Zc)
    (hAs : As.length = cur_start_idx + w.cur_out_idx)
    (hAb : Ab.length = (cur_start_idx + w.cur_out_idx) * 4)
    (hAc : Ac.length = cur_start_idx + w.cur_out_idx)
    (hZs : (objects_of keeps cs).length ≤ Zs.length)
    (hZb : (objects_of keeps cs).length * 4 ≤ Zb.length)
    (hZc : (objects_of keeps cs).length ≤ Zc.length) :
    (cs.foldl (write_class scale zp scores boxes num_classes cur_start_idx keeps) w).output_scores
      = As ++ (objects_of keeps cs).map (out_score scale zp scores num_classes)
        ++ Zs.drop (objects_of keeps cs).length ∧
    (cs.foldl (write_class scale zp scores boxes num_classes cur_start_idx keeps) w).output_boxes
      = Ab ++ (objects_of keeps cs).flatMap (out_box boxes num_classes)
        ++ Zb.drop ((objects_of keeps cs).length * 4) ∧
    (cs.foldl (write_class scale zp scores boxes num_classes cur_start_idx keeps) w).output_classes
      = Ac ++ (objects_of keeps cs).map Prod.fst ++ Zc.drop (objects_of keeps cs).length := by
  induction cs generalizing w As Zs Ab Zb Ac Zc with
  | nil => simp [objects_of, hs, hb, hc]
  | cons c cs ih =>
    rw [objects_of_cons, List.length_append, objects_of_single_length] at hZs hZb hZc
    obtain ⟨k1, k2, k3, k4⟩ := write_class_closed scale zp scores boxes num_classes cur_start_idx
      keeps w c As Zs Ab Zb Ac Zc hs hb hc hAs hAb hAc (by omega) (by omega) (by omega)
    have k1' : (write_class scale zp scores boxes num_classes cur_start_idx keeps w c).cur_out_idx
        = w.cur_out_idx + (keeps.getD c []).length := k1
    have h := ih (write_class scale zp scores boxes num_classes cur_start_idx keeps w c)
      (As ++ (objects_of keeps [c]).map (out_score scale zp scores num_classes))
      (Zs.drop (keeps.getD c []).length)
      (Ab ++ (objects_of keeps [c]).flatMap (out_box boxes num_classes))
      (Zb.drop ((keeps.getD c []).length * 4))
      (Ac ++ (objects_of keeps [c]).map Prod.fst)
      (Zc.drop (keeps.getD c []).length)
      k2 k3 k4
      (by rw [List.length_append, List.length_map, objects_of_single_length, hAs, k1']; omega)
      (by rw [List.length_append, length_flatMap_out_box, objects_of_single_length, hAb, k1']; ring)
      (by rw [List.length_append, List.length_map, objects_of_single_length, hAc, k1']; omega)
      (by rw [List.length_drop]; omega)
      (by rw [List.length_drop]; omega)
      (by rw [List.length_drop]; omega)
    obtain ⟨h1, h2, h3⟩ := h
    simp only [List.foldl_cons]
    rw [h1, h2, h3, objects_of_cons keeps c cs]
    simp only [List.map_append, List.flatMap_append, List.append_assoc, List.drop_drop,
      List.length_append, objects_of_single_length]
    have e2 : (keeps.getD c []).length * 4 + (objects_of keeps cs).length * 4
        = ((keeps.getD c []).length + (objects_of keeps cs).length) * 4 := by ring
    rw [e2]
    exact ⟨trivial, rfl, trivial⟩


/-! ## The selector: basic facts -/

theorem push_scores (pl : Pool) (score : ℚ) (idx : Nat) : (pl.push score idx).scores = pl.scores := rfl

theorem push_indices (pl : Pool) (score : ℚ) (idx : Nat) :
    (pl.push score idx).indices = pl.indices ++ [idx] := rfl

theorem scan_step_scores (op : AABBRoINMSOp) (scale : ℚ) (zp : Int) (num_classes class_idx : Nat)
    (pl : Pool) (i : Nat) : (scan_step op scale zp num_classes class_idx pl i).scores = pl.scores := by
  simp only [scan_step]
  split <;> rfl

theorem scan_scores (op : AABBRoINMSOp) (scale : ℚ) (zp : Int)
    (num_classes class_idx num_boxes : Nat) (scores : List Nat) :
    (scan op scale zp num_classes class_idx num_boxes scores).scores = scores := by
  exact foldl_invariant _ (fun pl : Pool => pl.scores = scores) _ _ rfl
    (fun a _ u hu => (scan_step_scores op scale zp num_classes class_idx u a).trans hu)

/-- The ways a comparison can end without throwing. -/
theorem compare_outcome_cases (lib : Lib) (op : AABBRoINMSOp) (scale : ℚ) (zp : Int)
    (boxes : List Nat) (num_classes class_idx p : Nat) (scores : List Nat) (idx : Nat)
    (res : Option ℚ × List Nat)
    (h : compare_outcome lib op scale zp boxes num_classes class_idx p scores idx = .ok res) :
    (within_iou op boxes num_classes class_idx p idx ∧
      res.1 = some (score_at scale zp scores num_classes class_idx idx) ∧
      (op.soft_nms_method ≠ SOFT_NMS_GAUSSIAN → res.2 = scores)) ∨
    (¬ within_iou op boxes num_classes class_idx p idx ∧ op.soft_nms_method = SOFT_NMS_NONE ∧
      res = (none, scores)) ∨
    (¬ within_iou op boxes num_classes class_idx p idx ∧ op.soft_nms_method ≠ SOFT_NMS_NONE ∧
      ∃ score1 : ℚ,
        (res.1 = some score1 ∧ score1 ≥ op.soft_nms_min_score) ∨
        (res.1 = none ∧ ¬ score1 ≥ op.soft_nms_min_score)) := by
  unfold compare_outcome at h
  simp only at h
  by_cases hw : within_iou op boxes num_classes class_idx p idx
  · left
    have hw1 := hw
    unfold within_iou at hw1
    rw [if_pos hw1] at h
    by_cases hg : op.soft_nms_method = SOFT_NMS_GAUSSIAN
    · rw [if_pos hg] at h
      simp only [Except.ok.injEq] at h
      subst h
      exact ⟨hw, rfl, fun hne => absurd hg hne⟩
    · rw [if_neg hg] at h
      simp only [Except.ok.injEq] at h
      subst h
      exact ⟨hw, rfl, fun _ => rfl⟩
  · right
    have hw1 := hw
    unfold within_iou at hw1
    rw [if_neg hw1] at h
    by_cases hn : op.soft_nms_method = SOFT_NMS_NONE
    · left
      rw [if_neg (not_not.mpr hn)] at h
      simp only [Except.ok.injEq] at h
      exact ⟨hw, hn, h.symm⟩
    · right
      rw [if_pos hn] at h
      refine ⟨hw, hn, ?_⟩
      by_cases hl : op.soft_nms_method = SOFT_NMS_LINEAR
      · rw [if_pos hl] at h
        simp only at h
        split_ifs at h with hm
        · simp only [Except.ok.injEq] at h
          exact ⟨_, Or.inl ⟨by rw [← h], hm⟩⟩
        · simp only [Except.ok.injEq] at h
          exact ⟨_, Or.inr ⟨by rw [← h], hm⟩⟩
      · rw [if_neg hl] at h
        by_cases hg : op.soft_nms_method = SOFT_NMS_GAUSSIAN
        · rw [if_pos hg] at h
          simp only at h
          split_ifs at h with hm
          · simp only [Except.ok.injEq] at h
            exact ⟨_, Or.inl ⟨by rw [← h], hm⟩⟩
          · simp only [Except.ok.injEq] at h
            exact ⟨_, Or.inr ⟨by rw [← h], hm⟩⟩
        · rw [if_neg hg] at h
          simp at h

/-- A comparison that does not throw applies its outcome to the pool. -/
theorem compare_step_outcome (lib : Lib) (op : AABBRoINMSOp) (scale : ℚ) (zp : Int)
    (boxes : List Nat) (num_classes class_idx p : Nat) (pl pl1 : Pool) (idx : Nat)
    (h : compare_step lib op scale zp boxes num_classes class_idx p pl idx = .ok pl1) :
    ∃ res, compare_outcome lib op scale zp boxes num_classes class_idx p pl.scores idx = .ok res ∧
      ((res.1 = none ∧ pl1 = { pl with scores := res.2 }) ∨
       (∃ score, res.1 = some score ∧ pl1 = ({ pl with scores := res.2 } : Pool).push score idx)) := by
  unfold compare_step at h
  cases ho : compare_outcome lib op scale zp boxes num_classes class_idx p pl.scores idx with
  | error e =>
    rw [ho] at h
    cases h
  | ok res =>
    rw [ho] at h
    obtain ⟨o, tbl⟩ := res
    cases o with
    | none =>
      simp only [Except.ok.injEq] at h
      exact ⟨_, rfl, Or.inl ⟨rfl, h.symm⟩⟩
    | some score =>
      simp only [Except.ok.injEq] at h
      exact ⟨_, rfl, Or.inr ⟨score, rfl, h.symm⟩⟩

/-- The three ways a comparison step can end without throwing. -/
theorem compare_step_cases (lib : Lib) (op : AABBRoINMSOp) (scale : ℚ) (zp : Int)
    (boxes : List Nat) (num_classes class_idx p : Nat) (pl pl1 : Pool) (idx : Nat)
    (h : compare_step lib op scale zp boxes num_classes class_idx p pl idx = .ok pl1) :
    (within_iou op boxes num_classes class_idx p idx ∧
      pl1.indices = pl.indices ++ [idx] ∧
      pl1.best_score = (pl.push (score_at scale zp pl.scores num_classes class_idx idx) idx).best_score ∧
      pl1.best_score_pos
        = (pl.push (score_at scale zp pl.scores num_classes class_idx idx) idx).best_score_pos ∧
      (op.soft_nms_method ≠ SOFT_NMS_GAUSSIAN → pl1.scores = pl.scores)) ∨
    (¬ within_iou op boxes num_classes class_idx p idx ∧ op.soft_nms_method = SOFT_NMS_NONE ∧
      pl1 = pl) ∨
    (¬ within_iou op boxes num_classes class_idx p idx ∧ op.soft_nms_method ≠ SOFT_NMS_NONE ∧
      ∃ score1 : ℚ, ∃ tbl : List Nat,
        (pl1 = ({ pl with scores := tbl } : Pool).push score1 idx ∧ score1 ≥ op.soft_nms_min_score) ∨
        (pl1 = { pl with scores := tbl } ∧ ¬ score1 ≥ op.soft_nms_min_score)) := by
  obtain ⟨res, ho, hres⟩ :=
    compare_step_outcome lib op scale zp boxes num_classes class_idx p pl pl1 idx h
  rcases compare_outcome_cases lib op scale zp boxes num_classes class_idx p pl.scores idx res ho
    with ⟨hw, h1, h2⟩ | ⟨hw, hn, h1⟩ | ⟨hw, hn, score1, ⟨h1, h2⟩ | ⟨h1, h2⟩⟩
  · left
    rcases hres with ⟨hnone, _⟩ | ⟨score, hs, hp⟩
    · rw [h1] at hnone
      cases hnone
    · rw [h1] at hs
      cases hs
      subst hp
      exact ⟨hw, rfl, rfl, rfl, fun hne => h2 hne⟩
  · right; left
    subst h1
    rcases hres with ⟨_, hp⟩ | ⟨score, hs, _⟩
    · exact ⟨hw, hn, hp⟩
    · cases hs
  · right; right
    refine ⟨hw, hn, score1, res.2, Or.inl ⟨?_, h2⟩⟩
    rcases hres with ⟨hnone, _⟩ | ⟨score, hs, hp⟩
    · rw [h1] at hnone
      cases hnone
    · rw [h1] at hs
      cases hs
      exact hp
  · right; right
    refine ⟨hw, hn, score1, res.2, Or.inr ⟨?_, h2⟩⟩
    rcases hres with ⟨_, hp⟩ | ⟨score, hs, _⟩
    · exact hp
    · rw [h1] at hs
      cases hs

theorem compare_step_indices (lib : Lib) (op : AABBRoINMSOp) (scale : ℚ) (zp : Int)
    (boxes : List Nat) (num_classes class_idx p : Nat) (pl pl1 : Pool) (idx : Nat)
    (h : compare_step lib op scale zp boxes num_classes class_idx p pl idx = .ok pl1) :
    pl1.indices = pl.indices ∨ pl1.indices = pl.indices ++ [idx] := by
  rcases compare_step_cases lib op scale zp boxes num_classes class_idx p pl pl1 idx h with
    ⟨_, h1, _⟩ | ⟨_, _, h1⟩ | ⟨_, _, s1, tbl, ⟨h1, _⟩ | ⟨h1, _⟩⟩
  · exact Or.inr h1
  · exact Or.inl (by rw [h1])
  · exact Or.inr (by rw [h1]; rfl)
  · exact Or.inl (by rw [h1])

/-- The comparison loop appends to the pool a sublist of the candidates it
visits; in mode NONE every appended candidate passed the test of line 141 and
the score table is unchanged. -/
theorem compare_loop_sublist (lib : Lib) (op : AABBRoINMSOp) (scale : ℚ) (zp : Int)
    (boxes : List Nat) (num_classes class_idx p : Nat) (xs : List Nat) (pl0 pl : Pool)
    (h : forE (compare_step lib op scale zp boxes num_classes class_idx p) xs pl0 = .ok pl) :
    ∃ ys : List Nat, ys.Sublist xs ∧ pl.indices = pl0.indices ++ ys ∧
      (op.soft_nms_method = SOFT_NMS_NONE →
        (∀ y ∈ ys, within_iou op boxes num_classes class_idx p y) ∧ pl.scores = pl0.scores) := by
  induction xs generalizing pl0 with
  | nil =>
    simp only [forE, Except.ok.injEq] at h
    subst h
    exact ⟨[], List.Sublist.refl _, by simp, fun _ => ⟨by simp, rfl⟩⟩
  | cons a as ih =>
    simp only [forE] at h
    cases hb : compare_step lib op scale zp boxes num_classes class_idx p pl0 a with
    | error e => simp [hb] at h
    | ok pl1 =>
      simp only [hb] at h
      obtain ⟨ys, hsub, hind, hnone⟩ := ih pl1 h
      rcases compare_step_cases lib op scale zp boxes num_classes class_idx p pl0 pl1 a hb with
        ⟨hw, h1, _, _, hsc⟩ | ⟨_, _, h1⟩ | ⟨_, hne, s1, tbl, ⟨h1, _⟩ | ⟨h1, _⟩⟩
      · refine ⟨a :: ys, hsub.cons₂ a, by rw [hind, h1]; simp, fun hm => ?_⟩
        obtain ⟨hy, hs⟩ := hnone hm
        refine ⟨?_, ?_⟩
        · intro y hy1
          rcases List.mem_cons.mp hy1 with rfl | hy1
          · exact hw
          · exact hy y hy1
        · rw [hs]
          exact hsc (by rw [hm]; decide)
      · subst h1
        exact ⟨ys, hsub.cons a, hind, hnone⟩
      · refine ⟨a :: ys, hsub.cons₂ a, by rw [hind, h1]; simp [Pool.push], fun hm => absurd hm hne⟩
      · refine ⟨ys, hsub.cons a, by rw [hind, h1], fun hm => absurd hm hne⟩

theorem swap_zero_perm (v : List Nat) (pos : Nat) (h : pos < v.length) :
    (swap v 0 pos).Perm v ∧ (swap v 0 pos).getD 0 0 = v.getD pos 0 := by
  cases v with
  | nil => simp at h
  | cons a t =>
    cases pos with
    | zero => simp [swap]
    | succ k =>
      have hk : k < t.length := by simpa using h
      have hswap : swap (a :: t) 0 (k + 1) = t[k] :: t.set k a := by
        simp [swap, List.getD_eq_getElem _ _ hk, hk]
      rw [hswap]
      refine ⟨?_, by simp [List.getD_eq_getElem _ _ hk, hk]⟩
      have hset : t.set k a = t.take k ++ a :: t.drop (k + 1) := by
        rw [List.set_eq_take_append_cons_drop]
        simp [hk]
      have ht : t = t.take k ++ t[k] :: t.drop (k + 1) := by
        rw [← List.drop_eq_getElem_cons hk, List.take_append_drop]
      rw [hset]
      conv_rhs => rw [ht]
      refine (List.Perm.cons _ (List.perm_middle)).trans ?_
      refine (List.Perm.swap _ _ _).trans ?_
      exact List.Perm.cons _ (List.perm_middle).symm

/-- One round: the candidate at `best_score_pos` is emitted and the others
are compared against it. -/
theorem nms_round_spec (lib : Lib) (op : AABBRoINMSOp) (scale : ℚ) (zp : Int) (boxes : List Nat)
    (num_classes class_idx : Nat) (s s1 : Selector)
    (h : nms_round lib op scale zp boxes num_classes class_idx s = .ok s1) :
    ∃ p rest, (p :: rest).Perm s.pool.indices ∧
      p = s.pool.indices.getD s.pool.best_score_pos.toNat 0 ∧
      0 ≤ s.pool.best_score_pos ∧ s.pool.best_score_pos < (s.pool.indices.length : Int) ∧
      s1.keep = s.keep ++ [p] ∧
      forE (compare_step lib op scale zp boxes num_classes class_idx p) rest
        (Pool.init s.pool.scores) = .ok s1.pool := by
  unfold nms_round at h
  by_cases h1 : s.pool.best_score_pos < 0
  · simp [h1] at h
  · rw [if_neg h1] at h
    by_cases h2 : s.pool.best_score_pos < (s.pool.indices.length : Int)
    · rw [if_neg (not_not.mpr h2)] at h
      simp only at h
      have hpos : s.pool.best_score_pos.toNat < s.pool.indices.length := by omega
      obtain ⟨hperm, hget⟩ := swap_zero_perm s.pool.indices s.pool.best_score_pos.toNat hpos
      cases hf : forE (compare_step lib op scale zp boxes num_classes class_idx
          ((swap s.pool.indices 0 s.pool.best_score_pos.toNat).getD 0 0))
          ((swap s.pool.indices 0 s.pool.best_score_pos.toNat).drop 1)
          (Pool.init s.pool.scores) with
      | error e =>
        rw [hf] at h
        cases h
      | ok pl =>
        rw [hf] at h
        simp only [Except.ok.injEq] at h
        subst h
        refine ⟨(swap s.pool.indices 0 s.pool.best_score_pos.toNat).getD 0 0,
          (swap s.pool.indices 0 s.pool.best_score_pos.toNat).drop 1, ?_, hget,
          by omega, h2, rfl, hf⟩
        have hne : swap s.pool.indices 0 s.pool.best_score_pos.toNat ≠ [] := by
          intro he
          have := hperm.length_eq
          rw [he] at this
          simp at this
          omega
        cases hsw : swap s.pool.indices 0 s.pool.best_score_pos.toNat with
        | nil => exact absurd hsw hne
        | cons a t =>
          rw [hsw] at hperm
          simpa using hperm
    · rw [if_pos h2] at h
      simp at h

theorem nms_loop_invariant (lib : Lib) (op : AABBRoINMSOp) (scale : ℚ) (zp : Int)
    (boxes : List Nat) (num_classes class_idx cap : Nat) (P : Selector → Prop)
    (hstep : ∀ s s1, P s → s.pool.indices.length > 0 → s.keep.length < cap →
      nms_round lib op scale zp boxes num_classes class_idx s = .ok s1 → P s1)
    (rounds : Nat) (s t : Selector) (h0 : P s)
    (h : nms_loop lib op scale zp boxes num_classes class_idx cap rounds s = .ok t) : P t := by
  induction rounds generalizing s with
  | zero =>
    simp only [nms_loop, Except.ok.injEq] at h
    exact h ▸ h0
  | succ n ih =>
    simp only [nms_loop] at h
    by_cases hc : s.pool.indices.length > 0 ∧ s.keep.length < cap
    · rw [if_pos hc] at h
      cases hr : nms_round lib op scale zp boxes num_classes class_idx s with
      | error e =>
        rw [hr] at h
        cases h
      | ok s1 =>
        rw [hr] at h
        exact ih s1 (hstep s s1 h0 hc.1 hc.2 hr) h
    · rw [if_neg hc] at h
      simp only [Except.ok.injEq] at h
      exact h ▸ h0

theorem scan_fold_indices (op : AABBRoINMSOp) (scale : ℚ) (zp : Int) (num_classes class_idx : Nat)
    (xs : List Nat) (pl : Pool) :
    (xs.foldl (scan_step op scale zp num_classes class_idx) pl).indices
      = pl.indices ++ xs.filter
          (fun i => decide (score_at scale zp pl.scores num_classes class_idx i > op.min_score)) := by
  induction xs generalizing pl with
  | nil => simp
  | cons a as ih =>
    simp only [List.foldl_cons]
    rw [ih, scan_step_scores]
    by_cases ha : score_at scale zp pl.scores num_classes class_idx a > op.min_score
    · simp [scan_step, ha, Pool.push]
    · simp [scan_step, ha]

/-- The admission loop keeps, in row order, the rows whose score is strictly
above `min_score_`. -/
theorem scan_indices (op : AABBRoINMSOp) (scale : ℚ) (zp : Int)
    (num_classes class_idx num_boxes : Nat) (scores : List Nat) :
    (scan op scale zp num_classes class_idx num_boxes scores).indices
      = (List.range num_boxes).filter
          (fun i => decide (score_at scale zp scores num_classes class_idx i > op.min_score)) := by
  unfold scan
  rw [scan_fold_indices]
  simp [Pool.init]

/-- Facts about the keep-list that hold in every mode: no RoI is listed
twice, and every listed RoI comes from the initial state. -/
theorem nms_loop_nodup (lib : Lib) (op : AABBRoINMSOp) (scale : ℚ) (zp : Int)
    (boxes : List Nat) (num_classes class_idx cap rounds : Nat) (s0 t : Selector)
    (hnd : (s0.keep ++ s0.pool.indices).Nodup)
    (h : nms_loop lib op scale zp boxes num_classes class_idx cap rounds s0 = .ok t) :
    (t.keep ++ t.pool.indices).Nodup ∧
      (∀ x ∈ t.keep ++ t.pool.indices, x ∈ s0.keep ++ s0.pool.indices) := by
  refine nms_loop_invariant lib op scale zp boxes num_classes class_idx cap
    (fun s => (s.keep ++ s.pool.indices).Nodup ∧
      (∀ x ∈ s.keep ++ s.pool.indices, x ∈ s0.keep ++ s0.pool.indices))
    ?_ rounds s0 t ⟨hnd, fun x hx => hx⟩ h
  intro s s1 ⟨hn, hs⟩ _ _ hr
  obtain ⟨p, rest, hperm, _, _, _, hkeep, hf⟩ :=
    nms_round_spec lib op scale zp boxes num_classes class_idx s s1 hr
  obtain ⟨ys, hsub, hind, _⟩ :=
    compare_loop_sublist lib op scale zp boxes num_classes class_idx p rest _ _ hf
  have hind1 : s1.pool.indices = ys := by simpa [Pool.init] using hind
  have hsub1 : (s1.keep ++ s1.pool.indices).Sublist (s.keep ++ (p :: rest)) := by
    rw [hkeep, hind1, List.append_assoc]
    exact List.Sublist.append (List.Sublist.refl _) (by simpa using hsub.cons₂ p)
  have hn1 : (s.keep ++ (p :: rest)).Nodup :=
    (List.Perm.append_left s.keep hperm).nodup_iff.mpr hn
  refine ⟨hsub1.nodup hn1, fun x hx => hs x ?_⟩
  exact (List.Perm.append_left s.keep hperm).subset (hsub1.subset hx)

/-- In mode NONE the score table is never written and every two RoIs of the
keep-list passed the test of line 141, the earlier one as the emitted box. -/
theorem nms_loop_none (lib : Lib) (op : AABBRoINMSOp) (scale : ℚ) (zp : Int)
    (boxes : List Nat) (num_classes class_idx cap rounds : Nat) (s0 t : Selector)
    (hmode : op.soft_nms_method = SOFT_NMS_NONE)
    (hpw : s0.keep.Pairwise (within_iou op boxes num_classes class_idx))
    (hki : ∀ k ∈ s0.keep, ∀ i ∈ s0.pool.indices, within_iou op boxes num_classes class_idx k i)
    (h : nms_loop lib op scale zp boxes num_classes class_idx cap rounds s0 = .ok t) :
    t.pool.scores = s0.pool.scores ∧
      t.keep.Pairwise (within_iou op boxes num_classes class_idx) ∧
      (∀ k ∈ t.keep, ∀ i ∈ t.pool.indices, within_iou op boxes num_classes class_idx k i) := by
  refine nms_loop_invariant lib op scale zp boxes num_classes class_idx cap
    (fun s => s.pool.scores = s0.pool.scores ∧
      s.keep.Pairwise (within_iou op boxes num_classes class_idx) ∧
      (∀ k ∈ s.keep, ∀ i ∈ s.pool.indices, within_iou op boxes num_classes class_idx k i))
    ?_ rounds s0 t ⟨rfl, hpw, hki⟩ h
  intro s s1 ⟨hsc, hp, hk⟩ _ _ hr
  obtain ⟨p, rest, hperm, _, _, _, hkeep, hf⟩ :=
    nms_round_spec lib op scale zp boxes num_classes class_idx s s1 hr
  obtain ⟨ys, hsub, hind, hnone⟩ :=
    compare_loop_sublist lib op scale zp boxes num_classes class_idx p rest _ _ hf
  obtain ⟨hys, hsc1⟩ := hnone hmode
  have hind1 : s1.pool.indices = ys := by simpa [Pool.init] using hind
  have hp_mem : p ∈ s.pool.indices := hperm.subset (List.mem_cons_self _ _)
  have hys_mem : ∀ y ∈ ys, y ∈ s.pool.indices :=
    fun y hy => hperm.subset (List.mem_cons_of_mem _ (hsub.subset hy))
  refine ⟨by rw [hsc1]; exact hsc, ?_, ?_⟩
  · rw [hkeep, List.pairwise_append]
    refine ⟨hp, by simp, ?_⟩
    intro a ha b hb
    rw [List.mem_singleton] at hb
    subst hb
    exact hk a ha b hp_mem
  · intro k hk1 i hi
    rw [hind1] at hi
    rw [hkeep, List.mem_append, List.mem_singleton] at hk1
    rcases hk1 with hk1 | rfl
    · exact hk k hk1 i (hys_mem i hi)
    · exact hys i hi

/-- Every round shrinks the pool. -/
theorem nms_round_shrinks (lib : Lib) (op : AABBRoINMSOp) (scale : ℚ) (zp : Int)
    (boxes : List Nat) (num_classes class_idx : Nat) (s s1 : Selector)
    (h : nms_round lib op scale zp boxes num_classes class_idx s = .ok s1) :
    s1.pool.indices.length < s.pool.indices.length := by
  obtain ⟨p, rest, hperm, _, _, _, _, hf⟩ :=
    nms_round_spec lib op scale zp boxes num_classes class_idx s s1 h
  obtain ⟨ys, hsub, hind, _⟩ :=
    compare_loop_sublist lib op scale zp boxes num_classes class_idx p rest _ _ hf
  have h1 : s1.pool.indices = ys := by simpa [Pool.init] using hind
  have h2 := hsub.length_le
  have h3 := hperm.length_eq
  rw [h1]
  simp only [List.length_cons] at h3
  omega

/-- A round budget of at least the pool size is enough: when the recursion
returns, the condition of the `while` loop is false. -/
theorem nms_loop_exits (lib : Lib) (op : AABBRoINMSOp) (scale : ℚ) (zp : Int)
    (boxes : List Nat) (num_classes class_idx cap rounds : Nat) (s t : Selector)
    (hfuel : s.pool.indices.length ≤ rounds)
    (h : nms_loop lib op scale zp boxes num_classes class_idx cap rounds s = .ok t) :
    ¬ (t.pool.indices.length > 0 ∧ t.keep.length < cap) := by
  induction rounds generalizing s with
  | zero =>
    simp only [nms_loop, Except.ok.injEq] at h
    subst h
    omega
  | succ n ih =>
    simp only [nms_loop] at h
    by_cases hc : s.pool.indices.length > 0 ∧ s.keep.length < cap
    · rw [if_pos hc] at h
      cases hr : nms_round lib op scale zp boxes num_classes class_idx s with
      | error e =>
        rw [hr] at h
        cases h
      | ok s1 =>
        rw [hr] at h
        have := nms_round_shrinks lib op scale zp boxes num_classes class_idx s s1 hr
        exact ih s1 (by omega) h
    · rw [if_neg hc] at h
      simp only [Except.ok.injEq] at h
      subst h
      exact hc


/-! ## How the running best is tracked -/

theorem push_all_scores (pl : Pool) (es : List (ℚ × Nat)) : (push_all pl es).scores = pl.scores := by
  induction es generalizing pl with
  | nil => rfl
  | cons e es ih =>
    unfold push_all at ih ⊢
    rw [List.foldl_cons, ih]
    rfl

theorem push_all_indices (pl : Pool) (es : List (ℚ × Nat)) :
    (push_all pl es).indices = pl.indices ++ es.map Prod.snd := by
  induction es generalizing pl with
  | nil => simp [push_all]
  | cons e es ih =>
    unfold push_all at ih ⊢
    rw [List.foldl_cons, ih]
    simp [Pool.push]

theorem push_all_snoc (pl : Pool) (es : List (ℚ × Nat)) (e : ℚ × Nat) :
    push_all pl (es ++ [e]) = (push_all pl es).push e.1 e.2 := by
  simp [push_all]

theorem push_all_with_scores (pl : Pool) (es : List (ℚ × Nat)) (tbl : List Nat) :
    push_all { pl with scores := tbl } es = { push_all pl es with scores := tbl } := by
  induction es generalizing pl with
  | nil => rfl
  | cons e es ih =>
    unfold push_all at ih ⊢
    rw [List.foldl_cons, List.foldl_cons]
    exact ih (pl.push e.1 e.2)

/-- After pushing `es` onto an empty pool, either no score exceeded -1 and no
best position is recorded, or the recorded position is the first one that
holds the highest pushed score. -/
theorem push_all_first_max (tbl : List Nat) (es : List (ℚ × Nat)) :
    ((push_all (Pool.init tbl) es).best_score_pos = -1 ∧
      (push_all (Pool.init tbl) es).best_score = -1 ∧ ∀ e ∈ es, e.1 ≤ -1) ∨
    (∃ j, j < es.length ∧ (push_all (Pool.init tbl) es).best_score_pos = (j : Int) ∧
      (push_all (Pool.init tbl) es).best_score = (es.getD j (0, 0)).1 ∧
      -1 < (push_all (Pool.init tbl) es).best_score ∧
      (∀ e ∈ es, e.1 ≤ (push_all (Pool.init tbl) es).best_score) ∧
      ∀ i, i < j → (es.getD i (0, 0)).1 < (push_all (Pool.init tbl) es).best_score) := by
  induction es using List.reverseRecOn with
  | nil =>
    left
    exact ⟨rfl, rfl, by simp⟩
  | append_singleton es e ih =>
    rw [push_all_snoc]
    have hlen : (push_all (Pool.init tbl) es).indices.length = es.length := by
      rw [push_all_indices]; simp [Pool.init]
    by_cases hgt : e.1 > (push_all (Pool.init tbl) es).best_score
    · right
      refine ⟨es.length, by simp, ?_, ?_, ?_, ?_, ?_⟩
      · simp only [Pool.push, if_pos hgt, hlen]
      · simp only [Pool.push, if_pos hgt]
        rw [List.getD_append_right _ _ _ _ (Nat.le_refl _)]
        simp
      · simp only [Pool.push, if_pos hgt]
        rcases ih with ⟨_, h2, _⟩ | ⟨_, _, _, _, h4, _⟩
        · rw [h2] at hgt; exact hgt
        · exact lt_trans h4 hgt
      · intro x hx
        simp only [Pool.push, if_pos hgt]
        rcases List.mem_append.mp hx with hx | hx
        · rcases ih with ⟨_, h2, h3⟩ | ⟨_, _, _, _, _, h5, _⟩
          · rw [h2] at hgt
            exact le_of_lt (lt_of_le_of_lt (h3 x hx) hgt)
          · exact le_of_lt (lt_of_le_of_lt (h5 x hx) hgt)
        · rw [List.mem_singleton] at hx
          rw [hx]
      · intro i hi
        simp only [Pool.push, if_pos hgt]
        rw [List.getD_append _ _ _ _ hi]
        have hmem : es.getD i (0, 0) ∈ es := by
          rw [List.getD_eq_getElem _ _ hi]
          exact List.getElem_mem _
        rcases ih with ⟨_, h2, h3⟩ | ⟨_, _, _, _, _, h5, _⟩
        · rw [h2] at hgt
          exact lt_of_le_of_lt (h3 _ hmem) hgt
        · exact lt_of_le_of_lt (h5 _ hmem) hgt
    · have hle : e.1 ≤ (push_all (Pool.init tbl) es).best_score := le_of_not_lt hgt
      rcases ih with ⟨h1, h2, h3⟩ | ⟨j, hj, h1, h2, h4, h5, h6⟩
      · left
        refine ⟨by simp only [Pool.push, if_neg hgt]; exact h1,
          by simp only [Pool.push, if_neg hgt]; exact h2, ?_⟩
        intro x hx
        rcases List.mem_append.mp hx with hx | hx
        · exact h3 x hx
        · rw [List.mem_singleton] at hx
          rw [hx, ← h2]
          exact hle
      · right
        refine ⟨j, by simp; omega, by simp only [Pool.push, if_neg hgt]; exact h1, ?_, ?_, ?_, ?_⟩
        · simp only [Pool.push, if_neg hgt]
          rw [List.getD_append _ _ _ _ hj]
          exact h2
        · simp only [Pool.push, if_neg hgt]
          exact h4
        · intro x hx
          simp only [Pool.push, if_neg hgt]
          rcases List.mem_append.mp hx with hx | hx
          · exact h5 x hx
          · rw [List.mem_singleton] at hx
            rw [hx]
            exact hle
        · intro i hi
          simp only [Pool.push, if_neg hgt]
          rw [List.getD_append _ _ _ _ (lt_trans hi hj)]
          exact h6 i hi

theorem scan_fold_push_all (op : AABBRoINMSOp) (scale : ℚ) (zp : Int)
    (num_classes class_idx : Nat) (xs : List Nat) (pl : Pool) :
    xs.foldl (scan_step op scale zp num_classes class_idx) pl
      = push_all pl ((xs.filter
          (fun i => decide (score_at scale zp pl.scores num_classes class_idx i > op.min_score))).map
          (fun i => (score_at scale zp pl.scores num_classes class_idx i, i))) := by
  induction xs generalizing pl with
  | nil => rfl
  | cons a as ih =>
    rw [List.foldl_cons, ih, scan_step_scores]
    by_cases ha : score_at scale zp pl.scores num_classes class_idx a > op.min_score
    · simp [scan_step, ha, push_all]
    · simp [scan_step, ha]

/-- The admission pool: the admitted rows in ascending row order, each pushed
with its score in the table. -/
theorem scan_eq_push_all (op : AABBRoINMSOp) (scale : ℚ) (zp : Int)
    (num_classes class_idx num_boxes : Nat) (scores : List Nat) :
    scan op scale zp num_classes class_idx num_boxes scores
      = push_all (Pool.init scores) (((List.range num_boxes).filter
          (fun i => decide (score_at scale zp scores num_classes class_idx i > op.min_score))).map
          (fun i => (score_at scale zp scores num_classes class_idx i, i))) := by
  unfold scan
  rw [scan_fold_push_all]
  rfl

/-- The pool a comparison loop builds: the entered candidates pushed in the
order in which they were visited. -/
theorem compare_loop_eq_push_all (lib : Lib) (op : AABBRoINMSOp) (scale : ℚ) (zp : Int)
    (boxes : List Nat) (num_classes class_idx p : Nat) (xs : List Nat) (pl0 pl : Pool)
    (h : forE (compare_step lib op scale zp boxes num_classes class_idx p) xs pl0 = .ok pl) :
    pl = push_all { pl0 with scores := pl.scores }
      (entered lib op scale zp boxes num_classes class_idx p xs pl0.scores) := by
  induction xs generalizing pl0 with
  | nil =>
    simp only [forE, Except.ok.injEq] at h
    subst h
    rfl
  | cons a as ih =>
    simp only [forE] at h
    cases hb : compare_step lib op scale zp boxes num_classes class_idx p pl0 a with
    | error e =>
      rw [hb] at h
      cases h
    | ok pl1 =>
      rw [hb] at h
      have h1 := ih pl1 h
      obtain ⟨res, ho, hres⟩ :=
        compare_step_outcome lib op scale zp boxes num_classes class_idx p pl0 pl1 a hb
      obtain ⟨o, tbl⟩ := res
      rcases hres with ⟨hnone, hp⟩ | ⟨score, hs, hp⟩
      · simp only at hnone hp
        subst hnone
        simp only [entered, ho]
        rw [h1, hp]
        simp only [push_all_scores]
      · simp only at hs hp
        subst hs
        simp only [entered, ho]
        rw [h1, hp]
        simp only [push_all_scores]
        rfl

/-- In mode NONE a comparison pushes the candidate with its table score when
the test of line 141 passes and drops it otherwise; the table is not written. -/
theorem compare_outcome_none (lib : Lib) (op : AABBRoINMSOp) (scale : ℚ) (zp : Int)
    (boxes : List Nat) (num_classes class_idx p : Nat) (scores : List Nat) (idx : Nat)
    (hmode : op.soft_nms_method = SOFT_NMS_NONE) :
    compare_outcome lib op scale zp boxes num_classes class_idx p scores idx
      = .ok (if within_iou op boxes num_classes class_idx p idx
          then (some (score_at scale zp scores num_classes class_idx idx), scores)
          else (none, scores)) := by
  unfold compare_outcome within_iou
  simp only [hmode]
  split
  · simp [SOFT_NMS_NONE, SOFT_NMS_GAUSSIAN]
  · simp

theorem entered_none (lib : Lib) (op : AABBRoINMSOp) (scale : ℚ) (zp : Int)
    (boxes : List Nat) (num_classes class_idx p : Nat) (xs : List Nat) (scores : List Nat)
    (hmode : op.soft_nms_method = SOFT_NMS_NONE) :
    entered lib op scale zp boxes num_classes class_idx p xs scores
      = (xs.filter (fun i => decide (within_iou op boxes num_classes class_idx p i))).map
          (fun i => (score_at scale zp scores num_classes class_idx i, i)) := by
  induction xs with
  | nil => rfl
  | cons a as ih =>
    simp only [entered, compare_outcome_none lib op scale zp boxes num_classes class_idx p scores a
      hmode]
    by_cases hw : within_iou op boxes num_classes class_idx p a
    · simp [hw, ih]
    · simp [hw, ih]

/-- One round, with the list the comparison loop visits made explicit. -/
theorem nms_round_explicit (lib : Lib) (op : AABBRoINMSOp) (scale : ℚ) (zp : Int)
    (boxes : List Nat) (num_classes class_idx : Nat) (s s1 : Selector)
    (h : nms_round lib op scale zp boxes num_classes class_idx s = .ok s1) :
    0 ≤ s.pool.best_score_pos ∧ s.pool.best_score_pos < (s.pool.indices.length : Int) ∧
    s1.keep = s.keep ++ [s.pool.indices.getD s.pool.best_score_pos.toNat 0] ∧
    forE (compare_step lib op scale zp boxes num_classes class_idx
        (s.pool.indices.getD s.pool.best_score_pos.toNat 0))
      ((swap s.pool.indices 0 s.pool.best_score_pos.toNat).drop 1)
      (Pool.init s.pool.scores) = .ok s1.pool := by
  unfold nms_round at h
  by_cases h1 : s.pool.best_score_pos < 0
  · simp [h1] at h
  · rw [if_neg h1] at h
    by_cases h2 : s.pool.best_score_pos < (s.pool.indices.length : Int)
    · rw [if_neg (not_not.mpr h2)] at h
      simp only at h
      have hpos : s.pool.best_score_pos.toNat < s.pool.indices.length := by omega
      obtain ⟨_, hget⟩ := swap_zero_perm s.pool.indices s.pool.best_score_pos.toNat hpos
      rw [hget] at h
      cases hf : forE (compare_step lib op scale zp boxes num_classes class_idx
          (s.pool.indices.getD s.pool.best_score_pos.toNat 0))
          ((swap s.pool.indices 0 s.pool.best_score_pos.toNat).drop 1)
          (Pool.init s.pool.scores) with
      | error e =>
        rw [hf] at h
        cases h
      | ok pl =>
        rw [hf] at h
        simp only [Except.ok.injEq] at h
        subst h
        exact ⟨by omega, h2, rfl, rfl⟩
    · rw [if_pos h2] at h
      simp at h


/-! ## The class loop -/

theorem nms_class_spec (lib : Lib) (op : AABBRoINMSOp) (scale : ℚ) (zp : Int) (boxes : List Nat)
    (num_classes num_boxes : Nat) (st v : ImageState) (class_idx : Nat)
    (h : nms_class lib op scale zp boxes num_classes num_boxes st class_idx = .ok v) :
    ∃ s, nms_loop lib op scale zp boxes num_classes class_idx (max_post_nms_proposals op num_boxes)
        (scan op scale zp num_classes class_idx num_boxes st.scores).indices.length
        { pool := scan op scale zp num_classes class_idx num_boxes st.scores,
          keep := st.keeps.getD class_idx [] } = .ok s ∧
      v.keeps = st.keeps.set class_idx s.keep ∧
      v.total_keep_count = st.total_keep_count + s.keep.length ∧
      v.scores = s.pool.scores := by
  unfold nms_class at h
  simp only at h
  cases hl : nms_loop lib op scale zp boxes num_classes class_idx
      (max_post_nms_proposals op num_boxes)
      (scan op scale zp num_classes class_idx num_boxes st.scores).indices.length
      { pool := scan op scale zp num_classes class_idx num_boxes st.scores,
        keep := st.keeps.getD class_idx [] } with
  | error e =>
    rw [hl] at h
    cases h
  | ok s =>
    rw [hl] at h
    simp only [Except.ok.injEq] at h
    subst h
    exact ⟨s, rfl, rfl, rfl, rfl⟩

theorem getD_set_list {α : Type} (l : List α) (i j : Nat) (x d : α) :
    (l.set i x).getD j d = if i = j ∧ i < l.length then x else l.getD j d := by
  simp only [List.getD_eq_getElem?_getD, List.getElem?_set]
  by_cases hij : i = j
  · subst hij
    by_cases hi : i < l.length
    · simp [hi]
    · have : l[i]? = none := List.getElem?_eq_none (Nat.le_of_not_lt hi)
      simp [hi, this]
  · simp [hij]

theorem objects_of_congr (k1 k2 : List (List Nat)) (cs : List Nat)
    (h : ∀ c ∈ cs, k1.getD c [] = k2.getD c []) : objects_of k1 cs = objects_of k2 cs := by
  induction cs with
  | nil => rfl
  | cons c cs ih =>
    rw [objects_of_cons k1, objects_of_cons k2, ih (fun d hd => h d (List.mem_cons_of_mem _ hd))]
    congr 1
    simp only [objects_of, List.flatMap_cons, List.flatMap_nil, List.append_nil]
    rw [h c (List.mem_cons_self _ _)]

theorem objects_of_append (keeps : List (List Nat)) (cs ds : List Nat) :
    objects_of keeps (cs ++ ds) = objects_of keeps cs ++ objects_of keeps ds := by
  simp [objects_of]

/-- The class loop over pairwise distinct classes whose keep-lists start
empty: the count is the number of pairs kept, and the keep-list of each
visited class is what a selector run from the admission pool returned. -/
theorem class_loop_spec (lib : Lib) (op : AABBRoINMSOp) (scale : ℚ) (zp : Int) (boxes : List Nat)
    (num_classes num_boxes : Nat) (cs : List Nat) (st0 st : ImageState)
    (hnd : cs.Nodup) (hlt : ∀ c ∈ cs, c < st0.keeps.length)
    (hemp : ∀ c ∈ cs, st0.keeps.getD c [] = [])
    (h : forE (nms_class lib op scale zp boxes num_classes num_boxes) cs st0 = .ok st) :
    st.keeps.length = st0.keeps.length ∧
    st.total_keep_count = st0.total_keep_count + (objects_of st.keeps cs).length ∧
    (∀ c, c ∉ cs → st.keeps.getD c [] = st0.keeps.getD c []) ∧
    (∀ c ∈ cs, ∃ tbl s,
      nms_loop lib op scale zp boxes num_classes c (max_post_nms_proposals op num_boxes)
        (scan op scale zp num_classes c num_boxes tbl).indices.length
        { pool := scan op scale zp num_classes c num_boxes tbl, keep := [] } = .ok s ∧
      st.keeps.getD c [] = s.keep ∧
      (op.soft_nms_method = SOFT_NMS_NONE → tbl = st0.scores)) ∧
    (op.soft_nms_method = SOFT_NMS_NONE → st.scores = st0.scores) := by
  refine forE_prefix (nms_class lib op scale zp boxes num_classes num_boxes)
    (fun pre u =>
      u.keeps.length = st0.keeps.length ∧
      u.total_keep_count = st0.total_keep_count + (objects_of u.keeps pre).length ∧
      (∀ c, c ∉ pre → u.keeps.getD c [] = st0.keeps.getD c []) ∧
      (∀ c ∈ pre, ∃ tbl s,
        nms_loop lib op scale zp boxes num_classes c (max_post_nms_proposals op num_boxes)
          (scan op scale zp num_classes c num_boxes tbl).indices.length
          { pool := scan op scale zp num_classes c num_boxes tbl, keep := [] } = .ok s ∧
        u.keeps.getD c [] = s.keep ∧
        (op.soft_nms_method = SOFT_NMS_NONE → tbl = st0.scores)) ∧
      (op.soft_nms_method = SOFT_NMS_NONE → u.scores = st0.scores))
    cs st0 st ?_ ?_ h
  · exact ⟨rfl, by simp [objects_of], fun _ _ => rfl, by simp, fun _ => rfl⟩
  · intro pre a q hcs u v ⟨hlen, htot, hout, hin, hsc⟩ hb
    have ha_mem : a ∈ cs := by rw [← hcs]; simp
    have hnd1 : (pre ++ a :: q).Nodup := by rw [hcs]; exact hnd
    have ha_pre : a ∉ pre := by
      intro hmem
      have := (List.nodup_append.mp hnd1).2.2
      exact this hmem (List.mem_cons_self _ _) 
    obtain ⟨s, hloop, hk, ht, hs⟩ :=
      nms_class_spec lib op scale zp boxes num_classes num_boxes u v a hb
    have hstart : u.keeps.getD a [] = [] := by rw [hout a ha_pre]; exact hemp a ha_mem
    rw [hstart] at hloop
    have ha_lt : a < u.keeps.length := by rw [hlen]; exact hlt a ha_mem
    have hget : ∀ c, v.keeps.getD c [] = if a = c then s.keep else u.keeps.getD c [] := by
      intro c
      rw [hk, getD_set_list]
      by_cases hac : a = c
      · subst hac
        rw [if_pos ⟨rfl, ha_lt⟩, if_pos rfl]
      · rw [if_neg (fun hh => hac hh.1), if_neg hac]
    have hscore_none : op.soft_nms_method = SOFT_NMS_NONE → s.pool.scores = u.scores := by
      intro hm
      have := (nms_loop_none lib op scale zp boxes num_classes a _ _ _ s hm
        (by simp) (by simp) hloop).1
      rw [this]
      exact scan_scores _ _ _ _ _ _ _
    refine ⟨by rw [hk, List.length_set, hlen], ?_, ?_, ?_, ?_⟩
    · rw [ht, htot, objects_of_append, List.length_append, objects_of_single_length]
      rw [objects_of_congr v.keeps u.keeps pre (fun c hc => by
        rw [hget c, if_neg (fun (hac : a = c) => ha_pre (hac ▸ hc))])]
      rw [hget a, if_pos rfl]
      omega
    · intro c hc
      have hca : a ≠ c := fun hac => hc (by rw [← hac]; simp)
      rw [hget c, if_neg hca]
      exact hout c (fun hmem => hc (List.mem_append_left _ hmem))
    · intro c hc
      rcases List.mem_append.mp hc with hc | hc
      · obtain ⟨tbl, s', h1, h2, h3⟩ := hin c hc
        refine ⟨tbl, s', h1, ?_, h3⟩
        rw [hget c, if_neg (fun (hac : a = c) => ha_pre (hac ▸ hc))]
        exact h2
      · rw [List.mem_singleton] at hc
        subst hc
        exact ⟨u.scores, s, hloop, by rw [hget c, if_pos rfl], hsc⟩
    · intro hm
      rw [hs, hscore_none hm]
      exact hsc hm


/-! ## The global cap -/

theorem rebuild_loop_spec (sorted : List (Nat × Nat)) (K0 : List (List Nat)) (m : Nat)
    (K : List (List Nat))
    (h : forE (rebuild_step sorted) (List.range m) K0 = .ok K) :
    m ≤ sorted.length ∧ K.length = K0.length ∧
      ∀ c, c < K0.length →
        K.getD c [] = K0.getD c [] ++ ((sorted.take m).filter (fun o => o.1 = c)).map Prod.snd := by
  induction m generalizing K with
  | zero =>
    simp only [List.range_zero, forE, Except.ok.injEq] at h
    subst h
    simp
  | succ m ih =>
    rw [List.range_succ, forE_append] at h
    cases hf : forE (rebuild_step sorted) (List.range m) K0 with
    | error e =>
      rw [hf] at h
      cases h
    | ok K1 =>
      rw [hf] at h
      obtain ⟨hm, hlen, hget⟩ := ih K1 hf
      simp only [forE, rebuild_step] at h
      by_cases hlt : sorted.length > m
      · rw [if_neg (not_not.mpr hlt)] at h
        simp only [Except.ok.injEq] at h
        subst h
        refine ⟨hlt, by rw [List.length_set, hlen], ?_⟩
        intro c hc
        have hobj : sorted.getD m (0, 0) = sorted[m] := List.getD_eq_getElem _ _ hlt
        have htake : sorted.take (m + 1) = sorted.take m ++ [sorted[m]] := by
          rw [List.take_succ, List.getElem?_eq_getElem hlt]
          rfl
        rw [getD_set_list, htake, List.filter_append, List.map_append, hobj]
        by_cases hcc : sorted[m].1 = c
        · have hlt1 : sorted[m].1 < K1.length := by rw [hcc, hlen]; exact hc
          rw [if_pos ⟨hcc, hlt1⟩, hcc, hget c hc]
          simp [hcc]
        · rw [if_neg (fun hh => hcc hh.1), hget c hc]
          simp [hcc]
      · rw [if_pos hlt] at h
        cases h

theorem filter_fst_perm (cs : List Nat) (l : List (Nat × Nat)) (hnd : cs.Nodup)
    (hmem : ∀ o ∈ l, o.1 ∈ cs) :
    (cs.flatMap (fun c => l.filter (fun o => o.1 = c))).Perm l := by
  induction cs generalizing l with
  | nil =>
    cases l with
    | nil => simp
    | cons o t => exact absurd (hmem o (List.mem_cons_self _ _)) (by simp)
  | cons c cs ih =>
    rw [List.flatMap_cons]
    have hnd1 := List.nodup_cons.mp hnd
    have hrest : ∀ o ∈ l.filter (fun o => ¬ o.1 = c), o.1 ∈ cs := by
      intro o ho
      rw [List.mem_filter] at ho
      have := hmem o ho.1
      rcases List.mem_cons.mp this with h1 | h1
      · simp [h1] at ho
      · exact h1
    have hfl : cs.flatMap (fun d => l.filter (fun o => o.1 = d))
        = cs.flatMap (fun d => (l.filter (fun o => ¬ o.1 = c)).filter (fun o => o.1 = d)) := by
      apply List.flatMap_congr
      intro d hd
      rw [List.filter_filter]
      apply List.filter_congr
      intro o _
      have hdc : d ≠ c := fun hdc => hnd1.1 (hdc ▸ hd)
      by_cases hod : o.1 = d
      · simp [hod, hdc]
      · simp [hod]
    rw [hfl]
    refine (List.Perm.append_left _ (ih _ hnd1.2 hrest)).trans ?_
    have hneg : l.filter (fun o => decide (¬ o.1 = c)) = l.filter (fun o => !decide (o.1 = c)) := by
      apply List.filter_congr
      intro o _
      simp
    rw [hneg]
    exact List.filter_append_perm (fun o => o.1 = c) l

theorem class_range_mem (num_classes c : Nat) :
    c ∈ class_range num_classes ↔ 1 ≤ c ∧ c < num_classes := by
  unfold class_range
  rw [List.mem_map]
  constructor
  · rintro ⟨a, ha, rfl⟩
    have := List.mem_range.mp ha
    omega
  · rintro ⟨h1, h2⟩
    exact ⟨c - 1, List.mem_range.mpr (by omega), by omega⟩

theorem class_range_nodup (num_classes : Nat) : (class_range num_classes).Nodup := by
  unfold class_range
  exact (List.nodup_range _).map (fun a b h => by simpa using h)

theorem class_range_sorted (num_classes : Nat) :
    (class_range num_classes).Pairwise (fun a b => a < b) := by
  unfold class_range
  rw [List.pairwise_map]
  exact (List.pairwise_lt_range _).imp (fun h => by omega)

theorem all_objects_eq (num_classes : Nat) (keeps : List (List Nat)) :
    all_objects num_classes keeps = objects_of keeps (class_range num_classes) := rfl

theorem objects_of_mem (keeps : List (List Nat)) (cs : List Nat) (o : Nat × Nat) :
    o ∈ objects_of keeps cs ↔ o.1 ∈ cs ∧ o.2 ∈ keeps.getD o.1 [] := by
  unfold objects_of
  rw [List.mem_flatMap]
  constructor
  · rintro ⟨c, hc, ho⟩
    rw [List.mem_map] at ho
    obtain ⟨r, hr, rfl⟩ := ho
    exact ⟨hc, hr⟩
  · rintro ⟨h1, h2⟩
    exact ⟨o.1, h1, List.mem_map.mpr ⟨o.2, h2, rfl⟩⟩

/-- The keep-lists rebuilt from the first `m` sorted pairs, flattened again,
are those pairs grouped by class. -/
theorem objects_of_filter (cs : List Nat) (T : List (Nat × Nat)) (K : List (List Nat))
    (hK : ∀ c ∈ cs, K.getD c [] = (T.filter (fun o => o.1 = c)).map Prod.snd) :
    objects_of K cs = cs.flatMap (fun c => T.filter (fun o => o.1 = c)) := by
  unfold objects_of
  apply List.flatMap_congr
  intro c hc
  rw [hK c hc, List.map_map]
  conv_rhs => rw [← List.map_id (T.filter (fun o => o.1 = c))]
  apply List.map_congr_left
  intro o ho
  rw [List.mem_filter] at ho
  have h1 : o.1 = c := by simpa using ho.2
  simp [← h1]

theorem limit_objects_spec (lib : Lib) (op : AABBRoINMSOp) (num_classes : Nat)
    (st st1 : ImageState) (hlen : st.keeps.length = num_classes)
    (htot : st.total_keep_count = (all_objects num_classes st.keeps).length)
    (h : limit_objects lib op num_classes st = .ok st1) :
    st1.scores = st.scores ∧ st1.keeps.length = num_classes ∧
    st1.total_keep_count = (all_objects num_classes st1.keeps).length ∧
    ((¬ (op.max_objects > 0 ∧ (st.total_keep_count : Int) > op.max_objects) ∧ st1 = st) ∨
     (op.max_objects > 0 ∧ (st.total_keep_count : Int) > op.max_objects ∧
      st1.total_keep_count = op.max_objects.toNat ∧
      (∀ c ∈ class_range num_classes, st1.keeps.getD c [] =
        (((lib.sort (raw_key st.scores num_classes) (all_objects num_classes st.keeps)).take
          op.max_objects.toNat).filter (fun o => o.1 = c)).map Prod.snd) ∧
      (all_objects num_classes st1.keeps).Perm
        ((lib.sort (raw_key st.scores num_classes) (all_objects num_classes st.keeps)).take
          op.max_objects.toNat))) := by
  unfold limit_objects at h
  by_cases hc : op.max_objects > 0 ∧ (st.total_keep_count : Int) > op.max_objects
  · rw [if_pos hc] at h
    simp only at h
    have hperm := lib.sort_perm (raw_key st.scores num_classes) (all_objects num_classes st.keeps)
    have hslen : (lib.sort (raw_key st.scores num_classes)
        (all_objects num_classes st.keeps)).length = st.total_keep_count := by
      rw [hperm.length_eq, htot]
    rw [if_neg (by rw [hslen]; exact not_not.mpr hc.2)] at h
    cases hf : forE (rebuild_step (lib.sort (raw_key st.scores num_classes)
        (all_objects num_classes st.keeps))) (List.range op.max_objects.toNat)
        (st.keeps.map (fun _ => [])) with
    | error e =>
      rw [hf] at h
      cases h
    | ok K =>
      rw [hf] at h
      simp only [Except.ok.injEq] at h
      subst h
      obtain ⟨hm, hKlen, hget⟩ := rebuild_loop_spec _ _ _ _ hf
      rw [List.length_map, hlen] at hKlen hget
      have hK : ∀ c ∈ class_range num_classes, K.getD c [] =
          (((lib.sort (raw_key st.scores num_classes) (all_objects num_classes st.keeps)).take
            op.max_objects.toNat).filter (fun o => o.1 = c)).map Prod.snd := by
        intro c hc1
        have hcl := ((class_range_mem num_classes c).mp hc1).2
        rw [hget c hcl]
        have : (st.keeps.map (fun _ => ([] : List Nat))).getD c [] = [] := by
          rw [List.getD_eq_getElem _ _ (by rw [List.length_map, hlen]; exact hcl)]
          simp
        rw [this, List.nil_append]
      have hP : (all_objects num_classes K).Perm
          ((lib.sort (raw_key st.scores num_classes) (all_objects num_classes st.keeps)).take
            op.max_objects.toNat) := by
        rw [all_objects_eq, objects_of_filter _ _ _ hK]
        apply filter_fst_perm _ _ (class_range_nodup _)
        intro o ho
        have h1 := hperm.subset (List.mem_of_mem_take ho)
        rw [all_objects_eq, objects_of_mem] at h1
        exact h1.1
      refine ⟨rfl, hKlen, ?_, Or.inr ⟨hc.1, hc.2, rfl, hK, hP⟩⟩
      show op.max_objects.toNat = _
      rw [hP.length_eq, List.length_take]
      omega
  · rw [if_neg hc] at h
    simp only [Except.ok.injEq] at h
    subst h
    exact ⟨rfl, hlen, htot, Or.inl ⟨hc, rfl⟩⟩


/-! ## The batch loop -/

theorem class_loop_init_spec (lib : Lib) (op : AABBRoINMSOp) (scale : ℚ) (zp : Int)
    (boxes : List Nat) (num_classes num_boxes : Nat) (tbl : List Nat) (st : ImageState)
    (h : forE (nms_class lib op scale zp boxes num_classes num_boxes) (class_range num_classes)
      { keeps := List.replicate num_classes [], total_keep_count := 0, scores := tbl } = .ok st) :
    st.keeps.length = num_classes ∧
    st.total_keep_count = (all_objects num_classes st.keeps).length ∧
    (∀ c ∈ class_range num_classes, ∃ tbl1 s,
      nms_loop lib op scale zp boxes num_classes c (max_post_nms_proposals op num_boxes)
        (scan op scale zp num_classes c num_boxes tbl1).indices.length
        { pool := scan op scale zp num_classes c num_boxes tbl1, keep := [] } = .ok s ∧
      st.keeps.getD c [] = s.keep ∧
      (op.soft_nms_method = SOFT_NMS_NONE → tbl1 = tbl)) ∧
    (op.soft_nms_method = SOFT_NMS_NONE → st.scores = tbl) := by
  obtain ⟨h1, h2, _, h4, h5⟩ := class_loop_spec lib op scale zp boxes num_classes num_boxes
    (class_range num_classes) _ st (class_range_nodup _)
    (fun c hc => by
      simp only [List.length_replicate]
      exact ((class_range_mem _ _).mp hc).2)
    (fun c hc => by
      rw [List.getD_eq_getElem _ _ (by
        simp only [List.length_replicate]
        exact ((class_range_mem _ _).mp hc).2)]
      simp) h
  refine ⟨by simpa using h1, by simpa [all_objects_eq] using h2, h4, h5⟩

theorem process_image_spec (lib : Lib) (op : AABBRoINMSOp) (scale : ℚ) (zp : Int)
    (boxes : List Nat) (num_classes : Nat) (bs bs1 : BatchState) (num_boxes : Nat)
    (hc : bs.output_classes.length = bs.output_scores.length)
    (hb : bs.output_boxes.length = bs.output_scores.length * 4)
    (h : process_image lib op scale zp boxes num_classes bs num_boxes = .ok bs1) :
    ∃ r : ImageRun, r.num_boxes = num_boxes ∧ r.table = bs.scores ∧
      r.valid lib op scale zp boxes num_classes ∧
      bs1.scores = r.final.scores ∧
      r.final.total_keep_count = (r.detections num_classes).length ∧
      bs1.output_scores = bs.output_scores
        ++ (r.detections num_classes).map (out_score scale zp r.final.scores num_classes) ∧
      bs1.output_boxes = bs.output_boxes
        ++ (r.detections num_classes).flatMap (out_box boxes num_classes) ∧
      bs1.output_classes = bs.output_classes ++ (r.detections num_classes).map Prod.fst ∧
      bs1.total_keep_per_batch = bs.total_keep_per_batch ++ [r.final.total_keep_count] := by
  unfold process_image at h
  cases hf : forE (nms_class lib op scale zp boxes num_classes num_boxes) (class_range num_classes)
      { keeps := List.replicate num_classes [], total_keep_count := 0, scores := bs.scores } with
  | error e =>
    rw [hf] at h
    cases h
  | ok st =>
    rw [hf] at h
    simp only at h
    cases hl : limit_objects lib op num_classes st with
    | error e =>
      rw [hl] at h
      cases h
    | ok st1 =>
      rw [hl] at h
      simp only [Except.ok.injEq] at h
      obtain ⟨k1, k2, _, _⟩ := class_loop_init_spec lib op scale zp boxes num_classes num_boxes
        bs.scores st hf
      obtain ⟨_, _, l3, _⟩ := limit_objects_spec lib op num_classes st st1 k1 k2 hl
      have hw := write_classes_closed scale zp st1.scores boxes num_classes
        bs.output_scores.length st1.keeps (class_range num_classes)
        { output_scores := bs.output_scores ++ List.replicate st1.total_keep_count 0
          output_boxes := bs.output_boxes ++ List.replicate (st1.total_keep_count * 4) 0
          output_classes := bs.output_classes ++ List.replicate st1.total_keep_count 0
          cur_out_idx := 0 }
        bs.output_scores (List.replicate st1.total_keep_count 0)
        bs.output_boxes (List.replicate (st1.total_keep_count * 4) 0)
        bs.output_classes (List.replicate st1.total_keep_count 0)
        rfl rfl rfl (by simp) (by simpa using hb) (by simpa using hc)
        (by rw [← all_objects_eq, ← l3]; simp)
        (by rw [← all_objects_eq, ← l3]; simp)
        (by rw [← all_objects_eq, ← l3]; simp)
      obtain ⟨w1, w2, w3⟩ := hw
      rw [← all_objects_eq, ← l3] at w1 w2 w3
      simp only [List.drop_replicate, Nat.sub_self, List.replicate_zero, List.append_nil] at w1 w2 w3
      refine ⟨{ num_boxes := num_boxes, table := bs.scores, selected := st, final := st1 },
        rfl, rfl, ⟨hf, hl⟩, ?_, l3, ?_, ?_, ?_, ?_⟩
      · rw [← h]
      · rw [← h]; exact w1
      · rw [← h]; exact w2
      · rw [← h]; exact w3
      · rw [← h]

theorem valid_none_scores (lib : Lib) (op : AABBRoINMSOp) (scale : ℚ) (zp : Int)
    (boxes : List Nat) (num_classes : Nat) (r : ImageRun)
    (hv : r.valid lib op scale zp boxes num_classes)
    (hmode : op.soft_nms_method = SOFT_NMS_NONE) :
    r.selected.scores = r.table ∧ r.final.scores = r.table := by
  obtain ⟨k1, k2, _, k4⟩ := class_loop_init_spec lib op scale zp boxes num_classes r.num_boxes
    r.table r.selected hv.1
  obtain ⟨l1, _⟩ := limit_objects_spec lib op num_classes r.selected r.final k1 k2 hv.2
  exact ⟨k4 hmode, by rw [l1]; exact k4 hmode⟩

/-- The batch loop as a list of per-image runs whose renderings are appended
to the outputs in image order. -/
theorem batch_loop_trace (lib : Lib) (op : AABBRoINMSOp) (scale : ℚ) (zp : Int)
    (boxes : List Nat) (num_classes : Nat) (nbs : List Nat) (bs0 bs : BatchState)
    (hc : bs0.output_classes.length = bs0.output_scores.length)
    (hb : bs0.output_boxes.length = bs0.output_scores.length * 4)
    (h : forE (process_image lib op scale zp boxes num_classes) nbs bs0 = .ok bs) :
    ∃ runs : List ImageRun, runs.map (fun r => r.num_boxes) = nbs ∧
      (∀ r ∈ runs, r.valid lib op scale zp boxes num_classes ∧
        r.final.total_keep_count = (r.detections num_classes).length ∧
        (op.soft_nms_method = SOFT_NMS_NONE → r.table = bs0.scores)) ∧
      bs.output_scores = bs0.output_scores ++ runs.flatMap
        (fun r => (r.detections num_classes).map (out_score scale zp r.final.scores num_classes)) ∧
      bs.output_boxes = bs0.output_boxes ++ runs.flatMap
        (fun r => (r.detections num_classes).flatMap (out_box boxes num_classes)) ∧
      bs.output_classes = bs0.output_classes ++ runs.flatMap
        (fun r => (r.detections num_classes).map Prod.fst) ∧
      bs.total_keep_per_batch = bs0.total_keep_per_batch
        ++ runs.map (fun r => r.final.total_keep_count) := by
  induction nbs generalizing bs0 with
  | nil =>
    simp only [forE, Except.ok.injEq] at h
    subst h
    exact ⟨[], rfl, by simp, by simp, by simp, by simp, by simp⟩
  | cons nb nbs ih =>
    simp only [forE] at h
    cases hp : process_image lib op scale zp boxes num_classes bs0 nb with
    | error e =>
      rw [hp] at h
      cases h
    | ok bs1 =>
      rw [hp] at h
      obtain ⟨r, r1, r2, r3, r4, r5, r6, r7, r8, r9⟩ :=
        process_image_spec lib op scale zp boxes num_classes bs0 bs1 nb hc hb hp
      have hc1 : bs1.output_classes.length = bs1.output_scores.length := by
        rw [r8, r6]; simp [hc]
      have hb1 : bs1.output_boxes.length = bs1.output_scores.length * 4 := by
        rw [r7, r6, List.length_append, length_flatMap_out_box, hb]
        simp only [List.length_append, List.length_map]
        ring
      obtain ⟨runs, t1, t2, t3, t4, t5, t6⟩ := ih bs1 hc1 hb1 h
      refine ⟨r :: runs, by simp [r1, t1], ?_, ?_, ?_, ?_, ?_⟩
      · intro x hx
        rcases List.mem_cons.mp hx with rfl | hx
        · exact ⟨r3, r5, fun _ => r2⟩
        · obtain ⟨u1, u2, u3⟩ := t2 x hx
          refine ⟨u1, u2, fun hm => ?_⟩
          rw [u3 hm, r4, (valid_none_scores lib op scale zp boxes num_classes r r3 hm).2, r2]
      · rw [t3, r6]; simp
      · rw [t4, r7]; simp
      · rw [t5, r8]; simp
      · rw [t6, r9]; simp

theorem flatMap_section {α β : Type} (f : α → List β) (l : List α) (b : Nat) (hb : b < l.length) :
    ((l.flatMap f).drop ((l.take b).map (fun a => (f a).length)).sum).take (f l[b]).length
      = f l[b] := by
  induction l generalizing b with
  | nil => simp at hb
  | cons a t ih =>
    cases b with
    | zero => simp
    | succ k =>
      have hk : k < t.length := by simpa using hb
      simp only [List.take_succ_cons, List.map_cons, List.sum_cons, List.flatMap_cons,
        List.getElem_cons_succ]
      rw [← List.drop_drop]
      simp only [List.drop_left]
      exact ih k hk

/-- Unfolding of a successful call: the shape checks passed and the outputs
are the renderings of the per-image runs. -/
theorem run_trace (lib : Lib) (op : AABBRoINMSOp) (input_batch_splits : Tensor)
    (input_scores : Int8TensorCPU) (input_boxes : Tensor) (out : Outputs)
    (h : RunOnDevice lib op input_batch_splits input_scores input_boxes = .ok out) :
    check_shapes input_batch_splits input_scores input_boxes = .ok () ∧
    ∃ runs : List ImageRun,
      runs.map (fun r => r.num_boxes)
        = (List.range (input_batch_splits.size 0)).map (fun b => input_batch_splits.data.getD b 0) ∧
      (∀ r ∈ runs,
        r.valid lib op input_scores.scale input_scores.zero_point input_boxes.data
          (input_scores.t.size 1) ∧
        r.final.total_keep_count = (r.detections (input_scores.t.size 1)).length ∧
        (op.soft_nms_method = SOFT_NMS_NONE → r.table = input_scores.t.data)) ∧
      out.output_scores = runs.flatMap (fun r => (r.detections (input_scores.t.size 1)).map
        (out_score input_scores.scale input_scores.zero_point r.final.scores
          (input_scores.t.size 1))) ∧
      out.output_boxes = runs.flatMap (fun r => (r.detections (input_scores.t.size 1)).flatMap
        (out_box input_boxes.data (input_scores.t.size 1))) ∧
      out.output_classes = runs.flatMap
        (fun r => (r.detections (input_scores.t.size 1)).map Prod.fst) ∧
      out.output_batch_splits = runs.map (fun r => r.final.total_keep_count) := by
  unfold RunOnDevice at h
  cases hs : check_shapes input_batch_splits input_scores input_boxes with
  | error e =>
    rw [hs] at h
    cases h
  | ok u =>
    rw [hs] at h
    simp only at h
    cases hf : forE
        (process_image lib op input_scores.scale input_scores.zero_point input_boxes.data
          (input_scores.t.size 1))
        ((List.range (input_batch_splits.size 0)).map (fun b => input_batch_splits.data.getD b 0))
        { scores := input_scores.t.data, output_scores := [], output_boxes := [],
          output_classes := [], total_keep_per_batch := [] } with
    | error e =>
      rw [hf] at h
      cases h
    | ok bs =>
      rw [hf] at h
      simp only [Except.ok.injEq] at h
      subst h
      obtain ⟨runs, t1, t2, t3, t4, t5, t6⟩ := batch_loop_trace lib op input_scores.scale
        input_scores.zero_point input_boxes.data (input_scores.t.size 1) _ _ bs rfl (by simp) hf
      exact ⟨rfl, runs, t1, t2, by simpa using t3, by simpa using t4, by simpa using t5,
        by simpa using t6⟩

theorem sum_map_mul_four (l : List Nat) : (l.map (fun n => n * 4)).sum = l.sum * 4 := by
  induction l with
  | nil => rfl
  | cons a t ih => simp only [List.map_cons, List.sum_cons, ih]; ring

/-- The part of the outputs that belongs to image `b` is the rendering of the
run of that image. -/
theorem run_image (lib : Lib) (op : AABBRoINMSOp) (input_batch_splits : Tensor)
    (input_scores : Int8TensorCPU) (input_boxes : Tensor) (out : Outputs)
    (h : RunOnDevice lib op input_batch_splits input_scores input_boxes = .ok out)
    (b : Nat) (hb : b < input_batch_splits.size 0) :
    ∃ r : ImageRun,
      r.num_boxes = input_batch_splits.data.getD b 0 ∧
      r.valid lib op input_scores.scale input_scores.zero_point input_boxes.data
        (input_scores.t.size 1) ∧
      (op.soft_nms_method = SOFT_NMS_NONE → r.table = input_scores.t.data) ∧
      r.final.total_keep_count = (r.detections (input_scores.t.size 1)).length ∧
      out.output_batch_splits.getD b 0 = (r.detections (input_scores.t.size 1)).length ∧
      out.image_scores b = (r.detections (input_scores.t.size 1)).map
        (out_score input_scores.scale input_scores.zero_point r.final.scores
          (input_scores.t.size 1)) ∧
      out.image_boxes b = (r.detections (input_scores.t.size 1)).flatMap
        (out_box input_boxes.data (input_scores.t.size 1)) ∧
      out.image_classes b = (r.detections (input_scores.t.size 1)).map Prod.fst := by
  obtain ⟨_, runs, t1, t2, t3, t4, t5, t6⟩ :=
    run_trace lib op input_batch_splits input_scores input_boxes out h
  have hlen : runs.length = input_batch_splits.size 0 := by
    have := congrArg List.length t1
    simpa using this
  have hb1 : b < runs.length := by rw [hlen]; exact hb
  have hnb : runs[b].num_boxes = input_batch_splits.data.getD b 0 := by
    have h1 : (runs.map (fun r => r.num_boxes))[b]? = some runs[b].num_boxes := by
      rw [List.getElem?_map, List.getElem?_eq_getElem hb1]; rfl
    rw [t1, List.getElem?_map, List.getElem?_range hb] at h1
    simpa using h1.symm
  obtain ⟨v1, v2, v3⟩ := t2 runs[b] (List.getElem_mem _)
  have hcount : out.output_batch_splits.getD b 0 = runs[b].final.total_keep_count := by
    rw [t6, List.getD_eq_getElem _ _ (by simpa using hb1)]
    simp
  have hoff : ∀ (g : ImageRun → Nat), (∀ r ∈ runs, g r = r.final.total_keep_count) →
      ((runs.take b).map g).sum = out.offset b := by
    intro g hg
    unfold Outputs.offset
    rw [t6, ← List.map_take]
    congr 1
    apply List.map_congr_left
    intro r hr
    exact hg r (List.mem_of_mem_take hr)
  refine ⟨runs[b], hnb, v1, v3, v2, by rw [hcount, v2], ?_, ?_, ?_⟩
  · unfold Outputs.image_scores
    rw [hcount, v2, t3, ← hoff (fun r => ((r.detections (input_scores.t.size 1)).map
      (out_score input_scores.scale input_scores.zero_point r.final.scores
        (input_scores.t.size 1))).length) (fun r hr => by
        simp only [List.length_map]; exact (t2 r hr).2.1.symm)]
    have := flatMap_section (fun r : ImageRun => (r.detections (input_scores.t.size 1)).map
      (out_score input_scores.scale input_scores.zero_point r.final.scores
        (input_scores.t.size 1))) runs b hb1
    simpa using this
  · unfold Outputs.image_boxes
    rw [hcount, v2, t4]
    have hoff4 : out.offset b * 4 = ((runs.take b).map (fun r =>
        ((r.detections (input_scores.t.size 1)).flatMap
          (out_box input_boxes.data (input_scores.t.size 1))).length)).sum := by
      rw [← hoff (fun r => r.final.total_keep_count) (fun _ _ => rfl), ← sum_map_mul_four,
        List.map_map]
      congr 1
      apply List.map_congr_left
      intro r hr
      simp only [Function.comp]
      rw [length_flatMap_out_box, (t2 r (List.mem_of_mem_take hr)).2.1]
    rw [hoff4]
    have := flatMap_section (fun r : ImageRun => (r.detections (input_scores.t.size 1)).flatMap
      (out_box input_boxes.data (input_scores.t.size 1))) runs b hb1
    rw [length_flatMap_out_box] at this
    exact this
  · unfold Outputs.image_classes
    rw [hcount, v2, t5, ← hoff (fun r => ((r.detections (input_scores.t.size 1)).map
      Prod.fst).length) (fun r hr => by
        simp only [List.length_map]; exact (t2 r hr).2.1.symm)]
    have := flatMap_section (fun r : ImageRun => (r.detections (input_scores.t.size 1)).map
      Prod.fst) runs b hb1
    simpa using this


/-! ## Facts about the keep-lists of one image -/

theorem scan_indices_nodup (op : AABBRoINMSOp) (scale : ℚ) (zp : Int)
    (num_classes class_idx num_boxes : Nat) (scores : List Nat) :
    (scan op scale zp num_classes class_idx num_boxes scores).indices.Nodup := by
  rw [scan_indices]
  exact (List.nodup_range _).filter _

theorem scan_indices_mem (op : AABBRoINMSOp) (scale : ℚ) (zp : Int)
    (num_classes class_idx num_boxes : Nat) (scores : List Nat) (i : Nat) :
    i ∈ (scan op scale zp num_classes class_idx num_boxes scores).indices ↔
      i < num_boxes ∧ score_at scale zp scores num_classes class_idx i > op.min_score := by
  rw [scan_indices, List.mem_filter, List.mem_range]
  simp

/-- The keep-list of class `c` after the class loop: no RoI twice, every RoI
is a row of the image that was admitted on the table the selector started
from, and in mode NONE the RoIs pairwise passed the test of line 141. -/
theorem selected_keep_facts (lib : Lib) (op : AABBRoINMSOp) (scale : ℚ) (zp : Int)
    (boxes : List Nat) (num_classes : Nat) (r : ImageRun)
    (hv : r.valid lib op scale zp boxes num_classes) (c : Nat)
    (hc : c ∈ class_range num_classes) :
    (r.selected.keeps.getD c []).Nodup ∧
    (∀ x ∈ r.selected.keeps.getD c [], x < r.num_boxes) ∧
    (op.soft_nms_method = SOFT_NMS_NONE →
      (r.selected.keeps.getD c []).Pairwise (within_iou op boxes num_classes c) ∧
      ∀ x ∈ r.selected.keeps.getD c [],
        score_at scale zp r.table num_classes c x > op.min_score) := by
  obtain ⟨_, _, k3, _⟩ := class_loop_init_spec lib op scale zp boxes num_classes r.num_boxes
    r.table r.selected hv.1
  obtain ⟨tbl, s, hl, hk, htbl⟩ := k3 c hc
  obtain ⟨n1, n2⟩ := nms_loop_nodup lib op scale zp boxes num_classes c _ _ _ s
    (by simpa using scan_indices_nodup op scale zp num_classes c r.num_boxes tbl) hl
  rw [hk]
  refine ⟨(List.nodup_append.mp n1).1, ?_, ?_⟩
  · intro x hx
    have := n2 x (List.mem_append_left _ hx)
    simp only [List.nil_append] at this
    exact ((scan_indices_mem _ _ _ _ _ _ _ _).mp this).1
  · intro hm
    obtain ⟨_, p1, _⟩ := nms_loop_none lib op scale zp boxes num_classes c _ _ _ s hm
      (by simp) (by simp) hl
    refine ⟨p1, ?_⟩
    intro x hx
    have := n2 x (List.mem_append_left _ hx)
    simp only [List.nil_append] at this
    rw [← htbl hm]
    exact ((scan_indices_mem _ _ _ _ _ _ _ _).mp this).2

theorem objects_of_nodup (keeps : List (List Nat)) (cs : List Nat) (hcs : cs.Nodup)
    (hk : ∀ c ∈ cs, (keeps.getD c []).Nodup) : (objects_of keeps cs).Nodup := by
  induction cs with
  | nil => simp [objects_of]
  | cons c cs ih =>
    rw [objects_of_cons, List.nodup_append]
    have hcs1 := List.nodup_cons.mp hcs
    refine ⟨?_, ih hcs1.2 (fun d hd => hk d (List.mem_cons_of_mem _ hd)), ?_⟩
    · simp only [objects_of, List.flatMap_cons, List.flatMap_nil, List.append_nil]
      exact (hk c (List.mem_cons_self _ _)).map (fun a b h => by simpa using h)
    · intro o h1 h2
      rw [objects_of_mem] at h1 h2
      have : o.1 = c := by simpa using h1.1
      exact hcs1.1 (this ▸ h2.1)

/-- The pairs left after the global cap are pairwise distinct and each of
them was selected by the class loop. -/
theorem final_detections_facts (lib : Lib) (op : AABBRoINMSOp) (scale : ℚ) (zp : Int)
    (boxes : List Nat) (num_classes : Nat) (r : ImageRun)
    (hv : r.valid lib op scale zp boxes num_classes) :
    (r.detections num_classes).Nodup ∧
    (∀ o ∈ r.detections num_classes, o ∈ all_objects num_classes r.selected.keeps) := by
  obtain ⟨k1, k2, _, _⟩ := class_loop_init_spec lib op scale zp boxes num_classes r.num_boxes
    r.table r.selected hv.1
  obtain ⟨_, _, _, l4⟩ := limit_objects_spec lib op num_classes r.selected r.final k1 k2 hv.2
  have hsel : (all_objects num_classes r.selected.keeps).Nodup := by
    rw [all_objects_eq]
    exact objects_of_nodup _ _ (class_range_nodup _)
      (fun c hc => (selected_keep_facts lib op scale zp boxes num_classes r hv c hc).1)
  unfold ImageRun.detections
  rcases l4 with ⟨_, heq⟩ | ⟨_, _, _, _, hperm⟩
  · rw [heq]
    exact ⟨hsel, fun o ho => ho⟩
  · have hsort := lib.sort_perm (raw_key r.selected.scores num_classes)
      (all_objects num_classes r.selected.keeps)
    refine ⟨hperm.nodup_iff.mpr ((List.take_sublist _ _).nodup (hsort.nodup_iff.mpr hsel)), ?_⟩
    intro o ho
    exact hsort.subset (List.mem_of_mem_take (hperm.subset ho))

theorem detections_mem (num_classes : Nat) (r : ImageRun) (o : Nat × Nat) :
    o ∈ r.detections num_classes ↔
      (1 ≤ o.1 ∧ o.1 < num_classes) ∧ o.2 ∈ r.final.keeps.getD o.1 [] := by
  unfold ImageRun.detections
  rw [all_objects_eq, objects_of_mem, class_range_mem]

theorem intersection_area_comm (p i : Box) : intersection_area p i = intersection_area i p := by
  unfold intersection_area
  simp only [max_comm p.x1, max_comm p.y1, min_comm p.x2, min_comm p.y2]

theorem union_area_comm (p i : Box) : union_area p i = union_area i p := by
  unfold union_area
  rw [intersection_area_comm p i]
  ring

theorem within_iou_symm (op : AABBRoINMSOp) (boxes : List Nat) (num_classes class_idx : Nat) :
    Symmetric (within_iou op boxes num_classes class_idx) := by
  intro p i h
  unfold within_iou at h ⊢
  rw [intersection_area_comm, union_area_comm]
  exact h

theorem flatMap_getD_rows {α β : Type} (f : α → List β) (hlen : ∀ a, (f a).length = 4)
    (l : List α) (i k : Nat) (hi : i < l.length) (hk : k < 4) (d : β) :
    (l.flatMap f).getD (i * 4 + k) d = (f l[i]).getD k d := by
  induction l generalizing i with
  | nil => simp at hi
  | cons a t ih =>
    rw [List.flatMap_cons]
    cases i with
    | zero =>
      simp only [Nat.zero_mul, Nat.zero_add, List.getElem_cons_zero]
      rw [List.getD_append _ _ _ _ (by rw [hlen]; exact hk)]
    | succ n =>
      have hn : n < t.length := by simpa using hi
      rw [List.getD_append_right _ _ _ _ (by rw [hlen]; omega), hlen]
      have : (n + 1) * 4 + k - 4 = n * 4 + k := by omega
      rw [this, ih n hn]
      simp

/-- An output box read back in pixels is the input box of the detection. -/
theorem load_box_rendered (boxes : List Nat) (num_classes : Nat) (D : List (Nat × Nat))
    (i : Nat) (hi : i < D.length) :
    load_box (D.flatMap (out_box boxes num_classes)) 1 0 i
      = load_box boxes num_classes D[i].1 D[i].2 := by
  have hrow : ∀ k, k < 4 → (D.flatMap (out_box boxes num_classes)).getD ((i * 1 + 0) * 4 + k) 0
      = boxes.getD ((D[i].2 * num_classes + D[i].1) * 4 + k) 0 := by
    intro k hk
    rw [Nat.mul_one, Nat.add_zero, flatMap_getD_rows _ (fun a => by simp [out_box]) D i k hi hk]
    unfold out_box
    rw [getD_map_lt _ _ _ 0 _ (by simpa using hk)]
    have hr : (List.range 4).getD k 0 = k := by
      rw [List.getD_eq_getElem _ _ (by simpa using hk), List.getElem_range]
    rw [hr]
  unfold load_box box_coord
  rw [hrow 0 (by omega), hrow 1 (by omega), hrow 2 (by omega), hrow 3 (by omega)]

theorem length_flatMap_sum {α β : Type} (f : α → List β) (l : List α) :
    (l.flatMap f).length = (l.map (fun a => (f a).length)).sum := by
  induction l with
  | nil => rfl
  | cons a t ih => rw [List.flatMap_cons, List.length_append, ih, List.map_cons, List.sum_cons]

/-- After a truncating merge every retained pair has a raw score at least
that of every selected pair that was dropped. -/
theorem truncation_keeps_best (lib : Lib) (key : Nat × Nat → Nat) (all D : List (Nat × Nat))
    (m : Nat) (hD : D.Perm ((lib.sort key all).take m)) (o o1 : Nat × Nat)
    (ho : o ∈ D) (ho1 : o1 ∈ all) (hn : o1 ∉ D) : key o1 ≤ key o := by
  have hs := lib.sort_sorted key all
  rw [← List.take_append_drop m (lib.sort key all), List.pairwise_append] at hs
  have h1 : o1 ∈ (lib.sort key all).take m ++ (lib.sort key all).drop m := by
    rw [List.take_append_drop]
    exact (lib.sort_perm key all).symm.subset ho1
  rcases List.mem_append.mp h1 with h1 | h1
  · exact absurd (hD.symm.subset h1) hn
  · exact hs.2.2 o (hD.subset ho) o1 h1

theorem objects_of_fst_sorted (keeps : List (List Nat)) (cs : List Nat)
    (hcs : cs.Pairwise (fun a b => a < b)) :
    ((objects_of keeps cs).map Prod.fst).Pairwise (fun a b => a ≤ b) := by
  induction cs with
  | nil => simp [objects_of]
  | cons c cs ih =>
    rw [List.pairwise_cons] at hcs
    rw [objects_of_cons, List.map_append, List.pairwise_append]
    refine ⟨?_, ih hcs.2, ?_⟩
    · simp only [objects_of, List.flatMap_cons, List.flatMap_nil, List.append_nil, List.map_map]
      rw [List.pairwise_map]
      exact List.pairwise_of_forall (fun _ _ => Nat.le_refl _)
    · intro a ha d hd
      rw [List.mem_map] at ha hd
      obtain ⟨o, ho, rfl⟩ := ha
      obtain ⟨o1, ho1, rfl⟩ := hd
      rw [objects_of_mem] at ho ho1
      have h1 : o.1 = c := by simpa using ho.1
      rw [h1]
      exact Nat.le_of_lt (hcs.1 _ ho1.1)

/-- The rows of class `c` among the flattened pairs are the keep-list of `c`. -/
theorem objects_of_filter_class (keeps : List (List Nat)) (cs : List Nat) (hcs : cs.Nodup)
    (c : Nat) (hc : c ∈ cs) :
    ((objects_of keeps cs).filter (fun o => o.1 = c)).map Prod.snd = keeps.getD c [] := by
  induction cs with
  | nil => simp at hc
  | cons d ds ih =>
    have hnd := List.nodup_cons.mp hcs
    rw [objects_of_cons, List.filter_append, List.map_append]
    have hblock : objects_of keeps [d] = (keeps.getD d []).map (fun ckv => (d, ckv)) := by
      simp [objects_of]
    by_cases hdc : d = c
    · subst hdc
      have h1 : (objects_of keeps [d]).filter (fun o => o.1 = d) = objects_of keeps [d] := by
        rw [List.filter_eq_self]
        intro o ho
        rw [hblock, List.mem_map] at ho
        obtain ⟨x, _, rfl⟩ := ho
        simp
      have h2 : (objects_of keeps ds).filter (fun o => o.1 = d) = [] := by
        rw [List.filter_eq_nil_iff]
        intro o ho
        rw [objects_of_mem] at ho
        simp only [decide_eq_true_eq]
        intro h3
        exact hnd.1 (h3 ▸ ho.1)
      rw [h1, h2, hblock]
      simp [List.map_map, Function.comp]
    · have hc1 : c ∈ ds := by
        rcases List.mem_cons.mp hc with h3 | h3
        · exact absurd h3.symm hdc
        · exact h3
      have h1 : (objects_of keeps [d]).filter (fun o => o.1 = c) = [] := by
        rw [List.filter_eq_nil_iff]
        intro o ho
        rw [hblock, List.mem_map] at ho
        obtain ⟨x, _, rfl⟩ := ho
        simpa using hdc
      rw [h1, List.map_nil, List.nil_append]
      exact ih hnd.2 hc1

/-- After a truncating merge the keep-list of a class is ordered by
non-increasing raw score. -/
theorem truncated_rows_sorted (lib : Lib) (key : Nat × Nat → Nat) (all : List (Nat × Nat))
    (m c : Nat) :
    ((((lib.sort key all).take m).filter (fun o => o.1 = c)).map Prod.snd).Pairwise
      (fun x y => key (c, y) ≤ key (c, x)) := by
  rw [List.pairwise_map]
  have hs : (((lib.sort key all).take m).filter (fun o => o.1 = c)).Pairwise
      (fun a b => key b ≤ key a) :=
    ((lib.sort_sorted key all).sublist (List.take_sublist _ _)).sublist (List.filter_sublist _)
  have hall : ∀ o ∈ ((lib.sort key all).take m).filter (fun o => o.1 = c), o.1 = c := by
    intro o ho
    simpa using (List.mem_filter.mp ho).2
  have := List.Pairwise.and_mem.mp hs
  refine this.imp ?_
  intro a b hab
  obtain ⟨ha, hb, hk⟩ := hab
  have e1 : (c, a.2) = a := Prod.ext (hall a ha).symm rfl
  have e2 : (c, b.2) = b := Prod.ext (hall b hb).symm rfl
  rw [e1, e2]
  exact hk


/-! ## Order facts of the floating-point comparison -/

theorem fl_lt_irrefl (a : Fl) : ¬ (a < a) := by
  show ¬ (Fl.lt a a = true)
  cases a with
  | nan => simp [Fl.lt]
  | inf s => cases s <;> simp [Fl.lt]
  | fin q => simp [Fl.lt]

theorem fl_lt_trans (a b c : Fl) (h1 : a < b) (h2 : b < c) : a < c := by
  have g1 : Fl.lt a b = true := h1
  have g2 : Fl.lt b c = true := h2
  show Fl.lt a c = true
  cases a <;> cases b <;> cases c <;> simp_all [Fl.lt]
  exact lt_trans g1 g2

/-- A value that compares above or below another is not NaN, and two values
that are not NaN are comparable. -/
theorem fl_le_of_not_lt (a b c d : Fl) (ha : c < a) (hb : d < b) (h : ¬ (a < b)) : b ≤ a := by
  have g1 : Fl.lt c a = true := ha
  have g2 : Fl.lt d b = true := hb
  have g3 : ¬ (Fl.lt a b = true) := h
  show Fl.le b a = true
  cases a <;> cases b <;> cases c <;> cases d <;> simp_all [Fl.lt, Fl.le]

/-! ## The floating-point embedding: the write loops -/

theorem foldl_write_entry_f32 (scale : Fl) (zp : Int) (scores boxes : List Nat)
    (num_classes class_idx cur_start_idx : Nat) (cur_keep : List Nat) (ks : List Nat) (w : Writer_f32) :
    let r := ks.foldl (write_entry_f32 scale zp scores boxes num_classes class_idx cur_start_idx cur_keep) w
    r.cur_out_idx = w.cur_out_idx ∧ r.output_classes = w.output_classes ∧
    r.output_scores = ks.foldl (fun acc k => acc.set (cur_start_idx + w.cur_out_idx + k)
      (Fl.mul binary32 (Fl.of_int (((scores.getD (cur_keep.getD k 0 * num_classes + class_idx) 0 : Nat) : Int) - zp)) scale)) w.output_scores ∧
    r.output_boxes = ks.foldl (fun acc k => (List.range 4).foldl
      (fun out component_idx =>
        out.set ((cur_start_idx + w.cur_out_idx + k) * 4 + component_idx)
          (boxes.getD ((cur_keep.getD k 0 * num_classes + class_idx) * 4 + component_idx) 0))
      acc) w.output_boxes := by
  induction ks generalizing w with
  | nil => simp
  | cons k ks ih =>
    simp only [List.foldl_cons]
    have h := ih (write_entry_f32 scale zp scores boxes num_classes class_idx cur_start_idx cur_keep w k)
    simp only [write_entry_f32] at h ⊢
    exact h

theorem foldl_write_class_id_f32 (class_idx cur_start_idx : Nat) (ks : List Nat) (w : Writer_f32) :
    let r := ks.foldl (write_class_id_f32 class_idx cur_start_idx) w
    r.cur_out_idx = w.cur_out_idx ∧ r.output_scores = w.output_scores ∧
    r.output_boxes = w.output_boxes ∧
    r.output_classes = ks.foldl (fun acc k => acc.set (cur_start_idx + w.cur_out_idx + k) class_idx)
      w.output_classes := by
  induction ks generalizing w with
  | nil => simp
  | cons k ks ih =>
    simp only [List.foldl_cons]
    have h := ih (write_class_id_f32 class_idx cur_start_idx w k)
    simp only [write_class_id_f32] at h ⊢
    exact h

theorem write_class_closed_f32 (scale : Fl) (zp : Int) (scores boxes : List Nat) (num_classes : Nat)
    (cur_start_idx : Nat) (keeps : List (List Nat)) (w : Writer_f32) (class_idx : Nat)
    (As Zs : List Fl) (Ab Zb Ac Zc : List Nat)
    (hs : w.output_scores = As ++ Zs) (hb : w.output_boxes = Ab ++ Zb)
    (hc : w.output_classes = Ac ++ Zc)
    (hAs : As.length = cur_start_idx + w.cur_out_idx)
    (hAb : Ab.length = (cur_start_idx + w.cur_out_idx) * 4)
    (hAc : Ac.length = cur_start_idx + w.cur_out_idx)
    (hZs : (keeps.getD class_idx []).length ≤ Zs.length)
    (hZb : (keeps.getD class_idx []).length * 4 ≤ Zb.length)
    (hZc : (keeps.getD class_idx []).length ≤ Zc.length) :
    let r := write_class_f32 scale zp scores boxes num_classes cur_start_idx keeps w class_idx
    r.cur_out_idx = w.cur_out_idx + (keeps.getD class_idx []).length ∧
    r.output_scores = As ++ (objects_of keeps [class_idx]).map (out_score_f32 scale zp scores num_classes)
      ++ Zs.drop (keeps.getD class_idx []).length ∧
    r.output_boxes = Ab ++ (objects_of keeps [class_idx]).flatMap (out_box boxes num_classes)
      ++ Zb.drop ((keeps.getD class_idx []).length * 4) ∧
    r.output_classes = Ac ++ (objects_of keeps [class_idx]).map Prod.fst
      ++ Zc.drop (keeps.getD class_idx []).length := by
  intro r
  obtain ⟨e1, e2, e3, e4⟩ := foldl_write_entry_f32 scale zp scores boxes num_classes class_idx
    cur_start_idx (keeps.getD class_idx []) (List.range (keeps.getD class_idx []).length) w
  obtain ⟨c1, c2, c3, c4⟩ := foldl_write_class_id_f32 class_idx cur_start_idx
    (List.range (keeps.getD class_idx []).length)
    ((List.range (keeps.getD class_idx []).length).foldl
      (write_entry_f32 scale zp scores boxes num_classes class_idx cur_start_idx
        (keeps.getD class_idx [])) w)
  have hobj : objects_of keeps [class_idx] = (keeps.getD class_idx []).map (fun ckv => (class_idx, ckv)) := by
    simp [objects_of]
  have hr1 : r.cur_out_idx = ((List.range (keeps.getD class_idx []).length).foldl
      (write_class_id_f32 class_idx cur_start_idx)
      ((List.range (keeps.getD class_idx []).length).foldl
        (write_entry_f32 scale zp scores boxes num_classes class_idx cur_start_idx
          (keeps.getD class_idx [])) w)).cur_out_idx + (keeps.getD class_idx []).length := rfl
  have hr2 : r.output_scores = ((List.range (keeps.getD class_idx []).length).foldl
      (write_class_id_f32 class_idx cur_start_idx)
      ((List.range (keeps.getD class_idx []).length).foldl
        (write_entry_f32 scale zp scores boxes num_classes class_idx cur_start_idx
          (keeps.getD class_idx [])) w)).output_scores := rfl
  have hr3 : r.output_boxes = ((List.range (keeps.getD class_idx []).length).foldl
      (write_class_id_f32 class_idx cur_start_idx)
      ((List.range (keeps.getD class_idx []).length).foldl
        (write_entry_f32 scale zp scores boxes num_classes class_idx cur_start_idx
          (keeps.getD class_idx [])) w)).output_boxes := rfl
  have hr4 : r.output_classes = ((List.range (keeps.getD class_idx []).length).foldl
      (write_class_id_f32 class_idx cur_start_idx)
      ((List.range (keeps.getD class_idx []).length).foldl
        (write_entry_f32 scale zp scores boxes num_classes class_idx cur_start_idx
          (keeps.getD class_idx [])) w)).output_classes := rfl
  refine ⟨?_, ?_, ?_, ?_⟩
  · rw [hr1, c1, e1]
  · rw [hr2, c2, e3, hs, hobj, List.map_map]
    have hv := foldl_set_block (Fl.fin 0)
      ((keeps.getD class_idx []).map
        (out_score_f32 scale zp scores num_classes ∘ fun ckv => (class_idx, ckv))) As Zs
      (by simpa using hZs)
    simp only [List.length_map] at hv
    rw [← hv, hAs]
    apply foldl_congr_mem
    intro k hk u
    have hk1 : k < (keeps.getD class_idx []).length := List.mem_range.mp hk
    rw [getD_map_lt _ _ _ 0 _ hk1]
    rfl
  · rw [hr3, c3, e4, hb, hobj]
    have hv := foldl_set_rows (0 : Nat)
      (fun k j => boxes.getD (((keeps.getD class_idx []).getD k 0 * num_classes + class_idx) * 4 + j) 0)
      (cur_start_idx + w.cur_out_idx) (keeps.getD class_idx []).length Ab Zb hAb hZb
    rw [hv]
    congr 2
    rw [List.flatMap_map]
    conv_rhs => rw [← map_getD_range 0 (keeps.getD class_idx [])]
    rw [List.flatMap_map]
    rfl
  · rw [hr4, c4, e2, hc, hobj, List.map_map]
    have hv := foldl_set_block (0 : Nat)
      ((keeps.getD class_idx []).map (Prod.fst ∘ fun ckv => (class_idx, ckv))) Ac Zc
      (by simpa using hZc)
    simp only [List.length_map] at hv
    rw [← hv, hAc, e1]
    apply foldl_congr_mem
    intro k hk u
    have hk1 : k < (keeps.getD class_idx []).length := List.mem_range.mp hk
    rw [getD_map_lt _ _ _ 0 _ hk1]
    rfl

theorem write_classes_closed_f32 (scale : Fl) (zp : Int) (scores boxes : List Nat) (num_classes : Nat)
    (cur_start_idx : Nat) (keeps : List (List Nat)) (cs : List Nat) (w : Writer_f32)
    (As Zs : List Fl) (Ab Zb Ac Zc : List Nat)
    (hs : w.output_scores = As ++ Zs) (hb : w.output_boxes = Ab ++ Zb)
    (hc : w.output_classes = Ac ++ Zc)
    (hAs : As.length = cur_start_idx + w.cur_out_idx)
    (hAb : Ab.length = (cur_start_idx + w.cur_out_idx) * 4)
    (hAc : Ac.length = cur_start_idx + w.cur_out_idx)
    (hZs : (objects_of keeps cs).length ≤ Zs.length)
    (hZb : (objects_of keeps cs).length * 4 ≤ Zb.length)
    (hZc : (objects_of keeps cs).length ≤ Zc.length) :
    (cs.foldl (write_class_f32 scale zp scores boxes num_classes cur_start_idx keeps) w).output_scores
      = As ++ (objects_of keeps cs).map (out_score_f32 scale zp scores num_classes)
        ++ Zs.drop (objects_of keeps cs).length ∧
    (cs.foldl (write_class_f32 scale zp scores boxes num_classes cur_start_idx keeps) w).output_boxes
      = Ab ++ (objects_of keeps cs).flatMap (out_box boxes num_classes)
        ++ Zb.drop ((objects_of keeps cs).length * 4) ∧
    (cs.foldl (write_class_f32 scale zp scores boxes num_classes cur_start_idx keeps) w).output_classes
      = Ac ++ (objects_of keeps cs).map Prod.fst ++ Zc.drop (objects_of keeps cs).length := by
  induction cs generalizing w As Zs Ab Zb Ac Zc with
  | nil => simp [objects_of, hs, hb, hc]
  | cons c cs ih =>
    rw [objects_of_cons, List.length_append, objects_of_single_length] at hZs hZb hZc
    obtain ⟨k1, k2, k3, k4⟩ := write_class_closed_f32 scale zp scores boxes num_classes cur_start_idx
      keeps w c As Zs Ab Zb Ac Zc hs hb hc hAs hAb hAc (by omega) (by omega) (by omega)
    have k1' : (write_class_f32 scale zp scores boxes num_classes cur_start_idx keeps w c).cur_out_idx
        = w.cur_out_idx + (keeps.getD c []).length := k1
    have h := ih (write_class_f32 scale zp scores boxes num_classes cur_start_idx keeps w c)
      (As ++ (objects_of keeps [c]).map (out_score_f32 scale zp scores num_classes))
      (Zs.drop (keeps.getD c []).length)
      (Ab ++ (objects_of keeps [c]).flatMap (out_box boxes num_classes))
      (Zb.drop ((keeps.getD c []).length * 4))
      (Ac ++ (objects_of keeps [c]).map Prod.fst)
      (Zc.drop (keeps.getD c []).length)
      k2 k3 k4
      (by rw [List.length_append, List.length_map, objects_of_single_length, hAs, k1']; omega)
      (by rw [List.length_append, length_flatMap_out_box, objects_of_single_length, hAb, k1']; ring)
      (by rw [List.length_append, List.length_map, objects_of_single_length, hAc, k1']; omega)
      (by rw [List.length_drop]; omega)
      (by rw [List.length_drop]; omega)
      (by rw [List.length_drop]; omega)
    obtain ⟨h1, h2, h3⟩ := h
    simp only [List.foldl_cons]
    rw [h1, h2, h3, objects_of_cons keeps c cs]
    simp only [List.map_append, List.flatMap_append, List.append_assoc, List.drop_drop,
      List.length_append, objects_of_single_length]
    have e2 : (keeps.getD c []).length * 4 + (objects_of keeps cs).length * 4
        = ((keeps.getD c []).length + (objects_of keeps cs).length) * 4 := by ring
    rw [e2]
    exact ⟨trivial, rfl, trivial⟩

/-! ## The floating-point embedding: the selector -/

theorem scan_step_scores_f32 (op : AABBRoINMSOp_f32) (scale : Fl) (zp : Int) (num_classes class_idx : Nat)
    (pl : Pool_f32) (i : Nat) : (scan_step_f32 op scale zp num_classes class_idx pl i).mem = pl.mem := by
  simp only [scan_step_f32]
  split <;> rfl

theorem scan_scores_f32 (op : AABBRoINMSOp_f32) (scale : Fl) (zp : Int)
    (num_classes class_idx num_boxes : Nat) (mem : Memory) :
    (scan_f32 op scale zp num_classes class_idx num_boxes mem).mem = mem := by
  exact foldl_invariant _ (fun pl : Pool_f32 => pl.mem = mem) _ _ rfl
    (fun a _ u hu => (scan_step_scores_f32 op scale zp num_classes class_idx u a).trans hu)

/-- The ways a comparison can end without throwing. -/
theorem compare_outcome_cases_f32 (lib : Lib_f32) (op : AABBRoINMSOp_f32) (scale : Fl) (zp : Int)
    (boxes : List Nat) (num_classes class_idx p : Nat) (mem : Memory) (idx : Nat)
    (res : Option Fl × Memory)
    (h : compare_outcome_f32 lib op scale zp boxes num_classes class_idx p mem idx = .ok res) :
    (within_iou_f32 op boxes num_classes class_idx p idx ∧
      res.1 = some (score_at_f32 scale zp mem.table num_classes class_idx idx) ∧
      (op.soft_nms_method ≠ SOFT_NMS_GAUSSIAN → res.2 = mem)) ∨
    (¬ within_iou_f32 op boxes num_classes class_idx p idx ∧ op.soft_nms_method = SOFT_NMS_NONE ∧
      res = (none, mem)) ∨
    (¬ within_iou_f32 op boxes num_classes class_idx p idx ∧ op.soft_nms_method ≠ SOFT_NMS_NONE ∧
      ∃ score1 : Fl,
        (res.1 = some score1 ∧ score1 ≥ op.soft_nms_min_score) ∨
        (res.1 = none ∧ ¬ score1 ≥ op.soft_nms_min_score)) := by
  unfold compare_outcome_f32 at h
  simp only at h
  by_cases hw : within_iou_f32 op boxes num_classes class_idx p idx
  · left
    have hw1 := hw
    unfold within_iou_f32 at hw1
    rw [if_pos hw1] at h
    by_cases hg : op.soft_nms_method = SOFT_NMS_GAUSSIAN
    · rw [if_pos hg] at h
      split at h
      · cases h
      · simp only [Except.ok.injEq] at h
        subst h
        exact ⟨hw, rfl, fun hne => absurd hg hne⟩
    · rw [if_neg hg] at h
      simp only [Except.ok.injEq] at h
      subst h
      exact ⟨hw, rfl, fun _ => rfl⟩
  · right
    have hw1 := hw
    unfold within_iou_f32 at hw1
    rw [if_neg hw1] at h
    by_cases hn : op.soft_nms_method = SOFT_NMS_NONE
    · left
      rw [if_neg (not_not.mpr hn)] at h
      simp only [Except.ok.injEq] at h
      exact ⟨hw, hn, h.symm⟩
    · right
      rw [if_pos hn] at h
      refine ⟨hw, hn, ?_⟩
      by_cases hl : op.soft_nms_method = SOFT_NMS_LINEAR
      · rw [if_pos hl] at h
        simp only at h
        split at h
        · cases h
        · split_ifs at h with hm
          · simp only [Except.ok.injEq] at h
            exact ⟨_, Or.inl ⟨by rw [← h], hm⟩⟩
          · simp only [Except.ok.injEq] at h
            exact ⟨_, Or.inr ⟨by rw [← h], hm⟩⟩
      · rw [if_neg hl] at h
        by_cases hg : op.soft_nms_method = SOFT_NMS_GAUSSIAN
        · rw [if_pos hg] at h
          simp only at h
          split at h
          · cases h
          · split_ifs at h with hm
            · simp only [Except.ok.injEq] at h
              exact ⟨_, Or.inl ⟨by rw [← h], hm⟩⟩
            · simp only [Except.ok.injEq] at h
              exact ⟨_, Or.inr ⟨by rw [← h], hm⟩⟩
        · rw [if_neg hg] at h
          simp at h

/-- A comparison that does not throw applies its outcome to the pool. -/
theorem compare_step_outcome_f32 (lib : Lib_f32) (op : AABBRoINMSOp_f32) (scale : Fl) (zp : Int)
    (boxes : List Nat) (num_classes class_idx p : Nat) (pl pl1 : Pool_f32) (idx : Nat)
    (h : compare_step_f32 lib op scale zp boxes num_classes class_idx p pl idx = .ok pl1) :
    ∃ res, compare_outcome_f32 lib op scale zp boxes num_classes class_idx p pl.mem idx = .ok res ∧
      ((res.1 = none ∧ pl1 = { pl with mem := res.2 }) ∨
       (∃ score, res.1 = some score ∧ pl1 = ({ pl with mem := res.2 } : Pool_f32).push score idx)) := by
  unfold compare_step_f32 at h
  cases ho : compare_outcome_f32 lib op scale zp boxes num_classes class_idx p pl.mem idx with
  | error e =>
    rw [ho] at h
    cases h
  | ok res =>
    rw [ho] at h
    obtain ⟨o, tbl⟩ := res
    cases o with
    | none =>
      simp only [Except.ok.injEq] at h
      exact ⟨_, rfl, Or.inl ⟨rfl, h.symm⟩⟩
    | some score =>
      simp only [Except.ok.injEq] at h
      exact ⟨_, rfl, Or.inr ⟨score, rfl, h.symm⟩⟩

/-- The three ways a comparison step can end without throwing. -/
theorem compare_step_cases_f32 (lib : Lib_f32) (op : AABBRoINMSOp_f32) (scale : Fl) (zp : Int)
    (boxes : List Nat) (num_classes class_idx p : Nat) (pl pl1 : Pool_f32) (idx : Nat)
    (h : compare_step_f32 lib op scale zp boxes num_classes class_idx p pl idx = .ok pl1) :
    (within_iou_f32 op boxes num_classes class_idx p idx ∧
      pl1.indices = pl.indices ++ [idx] ∧
      pl1.best_score = (pl.push (score_at_f32 scale zp pl.mem.table num_classes class_idx idx) idx).best_score ∧
      pl1.best_score_pos
        = (pl.push (score_at_f32 scale zp pl.mem.table num_classes class_idx idx) idx).best_score_pos ∧
      (op.soft_nms_method ≠ SOFT_NMS_GAUSSIAN → pl1.mem = pl.mem)) ∨
    (¬ within_iou_f32 op boxes num_classes class_idx p idx ∧ op.soft_nms_method = SOFT_NMS_NONE ∧
      pl1 = pl) ∨
    (¬ within_iou_f32 op boxes num_classes class_idx p idx ∧ op.soft_nms_method ≠ SOFT_NMS_NONE ∧
      ∃ score1 : Fl, ∃ tbl : Memory,
        (pl1 = ({ pl with mem := tbl } : Pool_f32).push score1 idx ∧ score1 ≥ op.soft_nms_min_score) ∨
        (pl1 = { pl with mem := tbl } ∧ ¬ score1 ≥ op.soft_nms_min_score)) := by
  obtain ⟨res, ho, hres⟩ :=
    compare_step_outcome_f32 lib op scale zp boxes num_classes class_idx p pl pl1 idx h
  rcases compare_outcome_cases_f32 lib op scale zp boxes num_classes class_idx p pl.mem idx res ho
    with ⟨hw, h1, h2⟩ | ⟨hw, hn, h1⟩ | ⟨hw, hn, score1, ⟨h1, h2⟩ | ⟨h1, h2⟩⟩
  · left
    rcases hres with ⟨hnone, _⟩ | ⟨score, hs, hp⟩
    · rw [h1] at hnone
      cases hnone
    · rw [h1] at hs
      cases hs
      subst hp
      exact ⟨hw, rfl, rfl, rfl, fun hne => h2 hne⟩
  · right; left
    subst h1
    rcases hres with ⟨_, hp⟩ | ⟨score, hs, _⟩
    · exact ⟨hw, hn, hp⟩
    · cases hs
  · right; right
    refine ⟨hw, hn, score1, res.2, Or.inl ⟨?_, h2⟩⟩
    rcases hres with ⟨hnone, _⟩ | ⟨score, hs, hp⟩
    · rw [h1] at hnone
      cases hnone
    · rw [h1] at hs
      cases hs
      exact hp
  · right; right
    refine ⟨hw, hn, score1, res.2, Or.inr ⟨?_, h2⟩⟩
    rcases hres with ⟨_, hp⟩ | ⟨score, hs, _⟩
    · exact hp
    · rw [h1] at hs
      cases hs

/-- The comparison loop appends to the pool a sublist of the candidates it
visits; in mode NONE every appended candidate passed the test of line 141 and
the score table is unchanged. -/
theorem compare_loop_sublist_f32 (lib : Lib_f32) (op : AABBRoINMSOp_f32) (scale : Fl) (zp : Int)
    (boxes : List Nat) (num_classes class_idx p : Nat) (xs : List Nat) (pl0 pl : Pool_f32)
    (h : forE (compare_step_f32 lib op scale zp boxes num_classes class_idx p) xs pl0 = .ok pl) :
    ∃ ys : List Nat, ys.Sublist xs ∧ pl.indices = pl0.indices ++ ys ∧
      (op.soft_nms_method = SOFT_NMS_NONE →
        (∀ y ∈ ys, within_iou_f32 op boxes num_classes class_idx p y) ∧ pl.mem = pl0.mem) := by
  induction xs generalizing pl0 with
  | nil =>
    simp only [forE, Except.ok.injEq] at h
    subst h
    exact ⟨[], List.Sublist.refl _, by simp, fun _ => ⟨by simp, rfl⟩⟩
  | cons a as ih =>
    simp only [forE] at h
    cases hb : compare_step_f32 lib op scale zp boxes num_classes class_idx p pl0 a with
    | error e => simp [hb] at h
    | ok pl1 =>
      simp only [hb] at h
      obtain ⟨ys, hsub, hind, hnone⟩ := ih pl1 h
      rcases compare_step_cases_f32 lib op scale zp boxes num_classes class_idx p pl0 pl1 a hb with
        ⟨hw, h1, _, _, hsc⟩ | ⟨_, _, h1⟩ | ⟨_, hne, s1, tbl, ⟨h1, _⟩ | ⟨h1, _⟩⟩
      · refine ⟨a :: ys, hsub.cons₂ a, by rw [hind, h1]; simp, fun hm => ?_⟩
        obtain ⟨hy, hs⟩ := hnone hm
        refine ⟨?_, ?_⟩
        · intro y hy1
          rcases List.mem_cons.mp hy1 with rfl | hy1
          · exact hw
          · exact hy y hy1
        · rw [hs]
          exact hsc (by rw [hm]; decide)
      · subst h1
        exact ⟨ys, hsub.cons a, hind, hnone⟩
      · refine ⟨a :: ys, hsub.cons₂ a, by rw [hind, h1]; simp [Pool_f32.push], fun hm => absurd hm hne⟩
      · refine ⟨ys, hsub.cons a, by rw [hind, h1], fun hm => absurd hm hne⟩

/-- One round: the candidate at `best_score_pos` is emitted and the others
are compared against it. -/
theorem nms_round_spec_f32 (lib : Lib_f32) (op : AABBRoINMSOp_f32) (scale : Fl) (zp : Int) (boxes : List Nat)
    (num_classes class_idx : Nat) (s s1 : Selector_f32)
    (h : nms_round_f32 lib op scale zp boxes num_classes class_idx s = .ok s1) :
    ∃ p rest, (p :: rest).Perm s.pool.indices ∧
      p = s.pool.indices.getD s.pool.best_score_pos.toNat 0 ∧
      0 ≤ s.pool.best_score_pos ∧ s.pool.best_score_pos < (s.pool.indices.length : Int) ∧
      s1.keep = s.keep ++ [p] ∧
      forE (compare_step_f32 lib op scale zp boxes num_classes class_idx p) rest
        (Pool_f32.init s.pool.mem) = .ok s1.pool := by
  unfold nms_round_f32 at h
  by_cases h1 : s.pool.best_score_pos < 0
  · simp [h1] at h
  · rw [if_neg h1] at h
    by_cases h2 : s.pool.best_score_pos < (s.pool.indices.length : Int)
    · rw [if_neg (not_not.mpr h2)] at h
      simp only at h
      have hpos : s.pool.best_score_pos.toNat < s.pool.indices.length := by omega
      obtain ⟨hperm, hget⟩ := swap_zero_perm s.pool.indices s.pool.best_score_pos.toNat hpos
      cases hf : forE (compare_step_f32 lib op scale zp boxes num_classes class_idx
          ((swap s.pool.indices 0 s.pool.best_score_pos.toNat).getD 0 0))
          ((swap s.pool.indices 0 s.pool.best_score_pos.toNat).drop 1)
          (Pool_f32.init s.pool.mem) with
      | error e =>
        rw [hf] at h
        cases h
      | ok pl =>
        rw [hf] at h
        simp only [Except.ok.injEq] at h
        subst h
        refine ⟨(swap s.pool.indices 0 s.pool.best_score_pos.toNat).getD 0 0,
          (swap s.pool.indices 0 s.pool.best_score_pos.toNat).drop 1, ?_, hget,
          by omega, h2, rfl, hf⟩
        have hne : swap s.pool.indices 0 s.pool.best_score_pos.toNat ≠ [] := by
          intro he
          have := hperm.length_eq
          rw [he] at this
          simp at this
          omega
        cases hsw : swap s.pool.indices 0 s.pool.best_score_pos.toNat with
        | nil => exact absurd hsw hne
        | cons a t =>
          rw [hsw] at hperm
          simpa using hperm
    · rw [if_pos h2] at h
      simp at h

theorem nms_loop_invariant_f32 (lib : Lib_f32) (op : AABBRoINMSOp_f32) (scale : Fl) (zp : Int)
    (boxes : List Nat) (num_classes class_idx cap : Nat) (P : Selector_f32 → Prop)
    (hstep : ∀ s s1, P s → s.pool.indices.length > 0 → s.keep.length < cap →
      nms_round_f32 lib op scale zp boxes num_classes class_idx s = .ok s1 → P s1)
    (rounds : Nat) (s t : Selector_f32) (h0 : P s)
    (h : nms_loop_f32 lib op scale zp boxes num_classes class_idx cap rounds s = .ok t) : P t := by
  induction rounds generalizing s with
  | zero =>
    simp only [nms_loop_f32, Except.ok.injEq] at h
    exact h ▸ h0
  | succ n ih =>
    simp only [nms_loop_f32] at h
    by_cases hc : s.pool.indices.length > 0 ∧ s.keep.length < cap
    · rw [if_pos hc] at h
      cases hr : nms_round_f32 lib op scale zp boxes num_classes class_idx s with
      | error e =>
        rw [hr] at h
        cases h
      | ok s1 =>
        rw [hr] at h
        exact ih s1 (hstep s s1 h0 hc.1 hc.2 hr) h
    · rw [if_neg hc] at h
      simp only [Except.ok.injEq] at h
      exact h ▸ h0

theorem scan_fold_indices_f32 (op : AABBRoINMSOp_f32) (scale : Fl) (zp : Int) (num_classes class_idx : Nat)
    (xs : List Nat) (pl : Pool_f32) :
    (xs.foldl (scan_step_f32 op scale zp num_classes class_idx) pl).indices
      = pl.indices ++ xs.filter
          (fun i => decide (score_at_f32 scale zp pl.mem.table num_classes class_idx i > op.min_score)) := by
  induction xs generalizing pl with
  | nil => simp
  | cons a as ih =>
    simp only [List.foldl_cons]
    rw [ih, scan_step_scores_f32]
    by_cases ha : score_at_f32 scale zp pl.mem.table num_classes class_idx a > op.min_score
    · simp [scan_step_f32, ha, Pool_f32.push]
    · simp [scan_step_f32, ha]

/-- The admission loop keeps, in row order, the rows whose score is strictly
above `min_score_`. -/
theorem scan_indices_f32 (op : AABBRoINMSOp_f32) (scale : Fl) (zp : Int)
    (num_classes class_idx num_boxes : Nat) (mem : Memory) :
    (scan_f32 op scale zp num_classes class_idx num_boxes mem).indices
      = (List.range num_boxes).filter
          (fun i => decide (score_at_f32 scale zp mem.table num_classes class_idx i > op.min_score)) := by
  unfold scan_f32
  rw [scan_fold_indices_f32]
  simp [Pool_f32.init]

/-- Facts about the keep-list that hold in every mode: no RoI is listed
twice, and every listed RoI comes from the initial state. -/
theorem nms_loop_nodup_f32 (lib : Lib_f32) (op : AABBRoINMSOp_f32) (scale : Fl) (zp : Int)
    (boxes : List Nat) (num_classes class_idx cap rounds : Nat) (s0 t : Selector_f32)
    (hnd : (s0.keep ++ s0.pool.indices).Nodup)
    (h : nms_loop_f32 lib op scale zp boxes num_classes class_idx cap rounds s0 = .ok t) :
    (t.keep ++ t.pool.indices).Nodup ∧
      (∀ x ∈ t.keep ++ t.pool.indices, x ∈ s0.keep ++ s0.pool.indices) := by
  refine nms_loop_invariant_f32 lib op scale zp boxes num_classes class_idx cap
    (fun s => (s.keep ++ s.pool.indices).Nodup ∧
      (∀ x ∈ s.keep ++ s.pool.indices, x ∈ s0.keep ++ s0.pool.indices))
    ?_ rounds s0 t ⟨hnd, fun x hx => hx⟩ h
  intro s s1 ⟨hn, hs⟩ _ _ hr
  obtain ⟨p, rest, hperm, _, _, _, hkeep, hf⟩ :=
    nms_round_spec_f32 lib op scale zp boxes num_classes class_idx s s1 hr
  obtain ⟨ys, hsub, hind, _⟩ :=
    compare_loop_sublist_f32 lib op scale zp boxes num_classes class_idx p rest _ _ hf
  have hind1 : s1.pool.indices = ys := by simpa [Pool_f32.init] using hind
  have hsub1 : (s1.keep ++ s1.pool.indices).Sublist (s.keep ++ (p :: rest)) := by
    rw [hkeep, hind1, List.append_assoc]
    exact List.Sublist.append (List.Sublist.refl _) (by simpa using hsub.cons₂ p)
  have hn1 : (s.keep ++ (p :: rest)).Nodup :=
    (List.Perm.append_left s.keep hperm).nodup_iff.mpr hn
  refine ⟨hsub1.nodup hn1, fun x hx => hs x ?_⟩
  exact (List.Perm.append_left s.keep hperm).subset (hsub1.subset hx)

/-- In mode NONE the score table is never written and every two RoIs of the
keep-list passed the test of line 141, the earlier one as the emitted box. -/
theorem nms_loop_none_f32 (lib : Lib_f32) (op : AABBRoINMSOp_f32) (scale : Fl) (zp : Int)
    (boxes : List Nat) (num_classes class_idx cap rounds : Nat) (s0 t : Selector_f32)
    (hmode : op.soft_nms_method = SOFT_NMS_NONE)
    (hpw : s0.keep.Pairwise (within_iou_f32 op boxes num_classes class_idx))
    (hki : ∀ k ∈ s0.keep, ∀ i ∈ s0.pool.indices, within_iou_f32 op boxes num_classes class_idx k i)
    (h : nms_loop_f32 lib op scale zp boxes num_classes class_idx cap rounds s0 = .ok t) :
    t.pool.mem = s0.pool.mem ∧
      t.keep.Pairwise (within_iou_f32 op boxes num_classes class_idx) ∧
      (∀ k ∈ t.keep, ∀ i ∈ t.pool.indices, within_iou_f32 op boxes num_classes class_idx k i) := by
  refine nms_loop_invariant_f32 lib op scale zp boxes num_classes class_idx cap
    (fun s => s.pool.mem = s0.pool.mem ∧
      s.keep.Pairwise (within_iou_f32 op boxes num_classes class_idx) ∧
      (∀ k ∈ s.keep, ∀ i ∈ s.pool.indices, within_iou_f32 op boxes num_classes class_idx k i))
    ?_ rounds s0 t ⟨rfl, hpw, hki⟩ h
  intro s s1 ⟨hsc, hp, hk⟩ _ _ hr
  obtain ⟨p, rest, hperm, _, _, _, hkeep, hf⟩ :=
    nms_round_spec_f32 lib op scale zp boxes num_classes class_idx s s1 hr
  obtain ⟨ys, hsub, hind, hnone⟩ :=
    compare_loop_sublist_f32 lib op scale zp boxes num_classes class_idx p rest _ _ hf
  obtain ⟨hys, hsc1⟩ := hnone hmode
  have hind1 : s1.pool.indices = ys := by simpa [Pool_f32.init] using hind
  have hp_mem : p ∈ s.pool.indices := hperm.subset (List.mem_cons_self _ _)
  have hys_mem : ∀ y ∈ ys, y ∈ s.pool.indices :=
    fun y hy => hperm.subset (List.mem_cons_of_mem _ (hsub.subset hy))
  refine ⟨by rw [hsc1]; exact hsc, ?_, ?_⟩
  · rw [hkeep, List.pairwise_append]
    refine ⟨hp, by simp, ?_⟩
    intro a ha b hb
    rw [List.mem_singleton] at hb
    subst hb
    exact hk a ha b hp_mem
  · intro k hk1 i hi
    rw [hind1] at hi
    rw [hkeep, List.mem_append, List.mem_singleton] at hk1
    rcases hk1 with hk1 | rfl
    · exact hk k hk1 i (hys_mem i hi)
    · exact hys i hi

/-- Every round shrinks the pool. -/
theorem nms_round_shrinks_f32 (lib : Lib_f32) (op : AABBRoINMSOp_f32) (scale : Fl) (zp : Int)
    (boxes : List Nat) (num_classes class_idx : Nat) (s s1 : Selector_f32)
    (h : nms_round_f32 lib op scale zp boxes num_classes class_idx s = .ok s1) :
    s1.pool.indices.length < s.pool.indices.length := by
  obtain ⟨p, rest, hperm, _, _, _, _, hf⟩ :=
    nms_round_spec_f32 lib op scale zp boxes num_classes class_idx s s1 h
  obtain ⟨ys, hsub, hind, _⟩ :=
    compare_loop_sublist_f32 lib op scale zp boxes num_classes class_idx p rest _ _ hf
  have h1 : s1.pool.indices = ys := by simpa [Pool_f32.init] using hind
  have h2 := hsub.length_le
  have h3 := hperm.length_eq
  rw [h1]
  simp only [List.length_cons] at h3
  omega

/-- A round budget of at least the pool size is enough: when the recursion
returns, the condition of the `while` loop is false. -/
theorem nms_loop_exits_f32 (lib : Lib_f32) (op : AABBRoINMSOp_f32) (scale : Fl) (zp : Int)
    (boxes : List Nat) (num_classes class_idx cap rounds : Nat) (s t : Selector_f32)
    (hfuel : s.pool.indices.length ≤ rounds)
    (h : nms_loop_f32 lib op scale zp boxes num_classes class_idx cap rounds s = .ok t) :
    ¬ (t.pool.indices.length > 0 ∧ t.keep.length < cap) := by
  induction rounds generalizing s with
  | zero =>
    simp only [nms_loop_f32, Except.ok.injEq] at h
    subst h
    omega
  | succ n ih =>
    simp only [nms_loop_f32] at h
    by_cases hc : s.pool.indices.length > 0 ∧ s.keep.length < cap
    · rw [if_pos hc] at h
      cases hr : nms_round_f32 lib op scale zp boxes num_classes class_idx s with
      | error e =>
        rw [hr] at h
        cases h
      | ok s1 =>
        rw [hr] at h
        have := nms_round_shrinks_f32 lib op scale zp boxes num_classes class_idx s s1 hr
        exact ih s1 (by omega) h
    · rw [if_neg hc] at h
      simp only [Except.ok.injEq] at h
      subst h
      exact hc

/-! ## The floating-point embedding: the running best -/

theorem push_all_scores_f32 (pl : Pool_f32) (es : List (Fl × Nat)) : (push_all_f32 pl es).mem = pl.mem := by
  induction es generalizing pl with
  | nil => rfl
  | cons e es ih =>
    unfold push_all_f32 at ih ⊢
    rw [List.foldl_cons, ih]
    rfl

theorem push_all_indices_f32 (pl : Pool_f32) (es : List (Fl × Nat)) :
    (push_all_f32 pl es).indices = pl.indices ++ es.map Prod.snd := by
  induction es generalizing pl with
  | nil => simp [push_all_f32]
  | cons e es ih =>
    unfold push_all_f32 at ih ⊢
    rw [List.foldl_cons, ih]
    simp [Pool_f32.push]

theorem push_all_snoc_f32 (pl : Pool_f32) (es : List (Fl × Nat)) (e : Fl × Nat) :
    push_all_f32 pl (es ++ [e]) = (push_all_f32 pl es).push e.1 e.2 := by
  simp [push_all_f32]

/-- After pushing `es` onto an empty pool, either no score exceeded -1 and no
best position is recorded, or the recorded position holds the recorded best
score, which no pushed score exceeds. -/
theorem push_all_first_max_f32 (mem : Memory) (es : List (Fl × Nat)) :
    ((push_all_f32 (Pool_f32.init mem) es).best_score_pos = -1 ∧
      (push_all_f32 (Pool_f32.init mem) es).best_score = .fin (-1) ∧
      ∀ e ∈ es, ¬ (e.1 > Fl.fin (-1))) ∨
    (∃ j, j < es.length ∧ (push_all_f32 (Pool_f32.init mem) es).best_score_pos = (j : Int) ∧
      (push_all_f32 (Pool_f32.init mem) es).best_score = (es.getD j (.fin 0, 0)).1 ∧
      (push_all_f32 (Pool_f32.init mem) es).best_score > Fl.fin (-1) ∧
      (∀ e ∈ es, ¬ (e.1 > (push_all_f32 (Pool_f32.init mem) es).best_score))) := by
  induction es using List.reverseRecOn with
  | nil =>
    left
    exact ⟨rfl, rfl, by simp⟩
  | append_singleton es e ih =>
    rw [push_all_snoc_f32]
    have hlen : (push_all_f32 (Pool_f32.init mem) es).indices.length = es.length := by
      rw [push_all_indices_f32]; simp [Pool_f32.init]
    by_cases hgt : e.1 > (push_all_f32 (Pool_f32.init mem) es).best_score
    · right
      refine ⟨es.length, by simp, ?_, ?_, ?_, ?_⟩
      · simp only [Pool_f32.push, if_pos hgt, hlen]
      · simp only [Pool_f32.push, if_pos hgt]
        rw [List.getD_append_right _ _ _ _ (Nat.le_refl _)]
        simp
      · simp only [Pool_f32.push, if_pos hgt]
        rcases ih with ⟨_, h2, _⟩ | ⟨_, _, _, _, h4, _⟩
        · rw [h2] at hgt; exact hgt
        · exact fl_lt_trans _ _ _ h4 hgt
      · intro x hx
        simp only [Pool_f32.push, if_pos hgt]
        rcases List.mem_append.mp hx with hx | hx
        · intro hlt
          have hx1 : x.1 > (push_all_f32 (Pool_f32.init mem) es).best_score :=
            fl_lt_trans _ _ _ hgt hlt
          rcases ih with ⟨_, h2, h3⟩ | ⟨_, _, _, _, _, h5⟩
          · rw [h2] at hx1
            exact h3 x hx hx1
          · exact h5 x hx hx1
        · rw [List.mem_singleton] at hx
          rw [hx]
          exact fl_lt_irrefl _
    · rcases ih with ⟨h1, h2, h3⟩ | ⟨j, hj, h1, h2, h4, h5⟩
      · left
        refine ⟨by simp only [Pool_f32.push, if_neg hgt]; exact h1,
          by simp only [Pool_f32.push, if_neg hgt]; exact h2, ?_⟩
        intro x hx
        rcases List.mem_append.mp hx with hx | hx
        · exact h3 x hx
        · rw [List.mem_singleton] at hx
          rw [hx, ← h2]
          exact hgt
      · right
        refine ⟨j, by simp; omega, by simp only [Pool_f32.push, if_neg hgt]; exact h1, ?_, ?_, ?_⟩
        · simp only [Pool_f32.push, if_neg hgt]
          rw [List.getD_append _ _ _ _ hj]
          exact h2
        · simp only [Pool_f32.push, if_neg hgt]
          exact h4
        · intro x hx
          simp only [Pool_f32.push, if_neg hgt]
          rcases List.mem_append.mp hx with hx | hx
          · exact h5 x hx
          · rw [List.mem_singleton] at hx
            rw [hx]
            exact hgt

theorem scan_fold_push_all_f32 (op : AABBRoINMSOp_f32) (scale : Fl) (zp : Int)
    (num_classes class_idx : Nat) (xs : List Nat) (pl : Pool_f32) :
    xs.foldl (scan_step_f32 op scale zp num_classes class_idx) pl
      = push_all_f32 pl ((xs.filter
          (fun i => decide (score_at_f32 scale zp pl.mem.table num_classes class_idx i > op.min_score))).map
          (fun i => (score_at_f32 scale zp pl.mem.table num_classes class_idx i, i))) := by
  induction xs generalizing pl with
  | nil => rfl
  | cons a as ih =>
    rw [List.foldl_cons, ih, scan_step_scores_f32]
    by_cases ha : score_at_f32 scale zp pl.mem.table num_classes class_idx a > op.min_score
    · simp [scan_step_f32, ha, push_all_f32]
    · simp [scan_step_f32, ha]

/-- The admission pool: the admitted rows in ascending row order, each pushed
with its score in the table. -/
theorem scan_eq_push_all_f32 (op : AABBRoINMSOp_f32) (scale : Fl) (zp : Int)
    (num_classes class_idx num_boxes : Nat) (mem : Memory) :
    scan_f32 op scale zp num_classes class_idx num_boxes mem
      = push_all_f32 (Pool_f32.init mem) (((List.range num_boxes).filter
          (fun i => decide (score_at_f32 scale zp mem.table num_classes class_idx i > op.min_score))).map
          (fun i => (score_at_f32 scale zp mem.table num_classes class_idx i, i))) := by
  unfold scan_f32
  rw [scan_fold_push_all_f32]
  rfl

/-- The pool a comparison loop builds: the entered candidates pushed in the
order in which they were visited. -/
theorem compare_loop_eq_push_all_f32 (lib : Lib_f32) (op : AABBRoINMSOp_f32) (scale : Fl) (zp : Int)
    (boxes : List Nat) (num_classes class_idx p : Nat) (xs : List Nat) (pl0 pl : Pool_f32)
    (h : forE (compare_step_f32 lib op scale zp boxes num_classes class_idx p) xs pl0 = .ok pl) :
    pl = push_all_f32 { pl0 with mem := pl.mem }
      (entered_f32 lib op scale zp boxes num_classes class_idx p xs pl0.mem) := by
  induction xs generalizing pl0 with
  | nil =>
    simp only [forE, Except.ok.injEq] at h
    subst h
    rfl
  | cons a as ih =>
    simp only [forE] at h
    cases hb : compare_step_f32 lib op scale zp boxes num_classes class_idx p pl0 a with
    | error e =>
      rw [hb] at h
      cases h
    | ok pl1 =>
      rw [hb] at h
      have h1 := ih pl1 h
      obtain ⟨res, ho, hres⟩ :=
        compare_step_outcome_f32 lib op scale zp boxes num_classes class_idx p pl0 pl1 a hb
      obtain ⟨o, tbl⟩ := res
      rcases hres with ⟨hnone, hp⟩ | ⟨score, hs, hp⟩
      · simp only at hnone hp
        subst hnone
        simp only [entered_f32, ho]
        rw [h1, hp]
        simp only [push_all_scores_f32]
      · simp only at hs hp
        subst hs
        simp only [entered_f32, ho]
        rw [h1, hp]
        simp only [push_all_scores_f32]
        rfl

/-- In mode NONE a comparison pushes the candidate with its table score when
the test of line 141 passes and drops it otherwise; the table is not written. -/
theorem compare_outcome_none_f32 (lib : Lib_f32) (op : AABBRoINMSOp_f32) (scale : Fl) (zp : Int)
    (boxes : List Nat) (num_classes class_idx p : Nat) (mem : Memory) (idx : Nat)
    (hmode : op.soft_nms_method = SOFT_NMS_NONE) :
    compare_outcome_f32 lib op scale zp boxes num_classes class_idx p mem idx
      = .ok (if within_iou_f32 op boxes num_classes class_idx p idx
          then (some (score_at_f32 scale zp mem.table num_classes class_idx idx), mem)
          else (none, mem)) := by
  unfold compare_outcome_f32 within_iou_f32
  simp only [hmode]
  split
  · simp [SOFT_NMS_NONE, SOFT_NMS_GAUSSIAN]
  · simp

theorem entered_none_f32 (lib : Lib_f32) (op : AABBRoINMSOp_f32) (scale : Fl) (zp : Int)
    (boxes : List Nat) (num_classes class_idx p : Nat) (xs : List Nat) (mem : Memory)
    (hmode : op.soft_nms_method = SOFT_NMS_NONE) :
    entered_f32 lib op scale zp boxes num_classes class_idx p xs mem
      = (xs.filter (fun i => decide (within_iou_f32 op boxes num_classes class_idx p i))).map
          (fun i => (score_at_f32 scale zp mem.table num_classes class_idx i, i)) := by
  induction xs with
  | nil => rfl
  | cons a as ih =>
    simp only [entered_f32, compare_outcome_none_f32 lib op scale zp boxes num_classes class_idx p mem a
      hmode]
    by_cases hw : within_iou_f32 op boxes num_classes class_idx p a
    · simp [hw, ih]
    · simp [hw, ih]

/-! ## The floating-point embedding: the class loop and the global cap -/

theorem nms_class_spec_f32 (lib : Lib_f32) (op : AABBRoINMSOp_f32) (scale : Fl) (zp : Int) (boxes : List Nat)
    (num_classes num_boxes : Nat) (st v : ImageState_f32) (class_idx : Nat)
    (h : nms_class_f32 lib op scale zp boxes num_classes num_boxes st class_idx = .ok v) :
    ∃ s, nms_loop_f32 lib op scale zp boxes num_classes class_idx (max_post_nms_proposals_f32 op num_boxes)
        (scan_f32 op scale zp num_classes class_idx num_boxes st.mem).indices.length
        { pool := scan_f32 op scale zp num_classes class_idx num_boxes st.mem,
          keep := st.keeps.getD class_idx [] } = .ok s ∧
      v.keeps = st.keeps.set class_idx s.keep ∧
      v.total_keep_count = st.total_keep_count + s.keep.length ∧
      v.mem = s.pool.mem := by
  unfold nms_class_f32 at h
  simp only at h
  cases hl : nms_loop_f32 lib op scale zp boxes num_classes class_idx
      (max_post_nms_proposals_f32 op num_boxes)
      (scan_f32 op scale zp num_classes class_idx num_boxes st.mem).indices.length
      { pool := scan_f32 op scale zp num_classes class_idx num_boxes st.mem,
        keep := st.keeps.getD class_idx [] } with
  | error e =>
    rw [hl] at h
    cases h
  | ok s =>
    rw [hl] at h
    simp only [Except.ok.injEq] at h
    subst h
    exact ⟨s, rfl, rfl, rfl, rfl⟩

/-- The class loop over pairwise distinct classes whose keep-lists start
empty: the count is the number of pairs kept, and the keep-list of each
visited class is what a selector run from the admission pool returned. -/
theorem class_loop_spec_f32 (lib : Lib_f32) (op : AABBRoINMSOp_f32) (scale : Fl) (zp : Int) (boxes : List Nat)
    (num_classes num_boxes : Nat) (cs : List Nat) (st0 st : ImageState_f32)
    (hnd : cs.Nodup) (hlt : ∀ c ∈ cs, c < st0.keeps.length)
    (hemp : ∀ c ∈ cs, st0.keeps.getD c [] = [])
    (h : forE (nms_class_f32 lib op scale zp boxes num_classes num_boxes) cs st0 = .ok st) :
    st.keeps.length = st0.keeps.length ∧
    st.total_keep_count = st0.total_keep_count + (objects_of st.keeps cs).length ∧
    (∀ c, c ∉ cs → st.keeps.getD c [] = st0.keeps.getD c []) ∧
    (∀ c ∈ cs, ∃ tbl s,
      nms_loop_f32 lib op scale zp boxes num_classes c (max_post_nms_proposals_f32 op num_boxes)
        (scan_f32 op scale zp num_classes c num_boxes tbl).indices.length
        { pool := scan_f32 op scale zp num_classes c num_boxes tbl, keep := [] } = .ok s ∧
      st.keeps.getD c [] = s.keep ∧
      (op.soft_nms_method = SOFT_NMS_NONE → tbl = st0.mem)) ∧
    (op.soft_nms_method = SOFT_NMS_NONE → st.mem = st0.mem) := by
  refine forE_prefix (nms_class_f32 lib op scale zp boxes num_classes num_boxes)
    (fun pre u =>
      u.keeps.length = st0.keeps.length ∧
      u.total_keep_count = st0.total_keep_count + (objects_of u.keeps pre).length ∧
      (∀ c, c ∉ pre → u.keeps.getD c [] = st0.keeps.getD c []) ∧
      (∀ c ∈ pre, ∃ tbl s,
        nms_loop_f32 lib op scale zp boxes num_classes c (max_post_nms_proposals_f32 op num_boxes)
          (scan_f32 op scale zp num_classes c num_boxes tbl).indices.length
          { pool := scan_f32 op scale zp num_classes c num_boxes tbl, keep := [] } = .ok s ∧
        u.keeps.getD c [] = s.keep ∧
        (op.soft_nms_method = SOFT_NMS_NONE → tbl = st0.mem)) ∧
      (op.soft_nms_method = SOFT_NMS_NONE → u.mem = st0.mem))
    cs st0 st ?_ ?_ h
  · exact ⟨rfl, by simp [objects_of], fun _ _ => rfl, by simp, fun _ => rfl⟩
  · intro pre a q hcs u v ⟨hlen, htot, hout, hin, hsc⟩ hb
    have ha_mem : a ∈ cs := by rw [← hcs]; simp
    have hnd1 : (pre ++ a :: q).Nodup := by rw [hcs]; exact hnd
    have ha_pre : a ∉ pre := by
      intro hmem
      have := (List.nodup_append.mp hnd1).2.2
      exact this hmem (List.mem_cons_self _ _) 
    obtain ⟨s, hloop, hk, ht, hs⟩ :=
      nms_class_spec_f32 lib op scale zp boxes num_classes num_boxes u v a hb
    have hstart : u.keeps.getD a [] = [] := by rw [hout a ha_pre]; exact hemp a ha_mem
    rw [hstart] at hloop
    have ha_lt : a < u.keeps.length := by rw [hlen]; exact hlt a ha_mem
    have hget : ∀ c, v.keeps.getD c [] = if a = c then s.keep else u.keeps.getD c [] := by
      intro c
      rw [hk, getD_set_list]
      by_cases hac : a = c
      · subst hac
        rw [if_pos ⟨rfl, ha_lt⟩, if_pos rfl]
      · rw [if_neg (fun hh => hac hh.1), if_neg hac]
    have hscore_none : op.soft_nms_method = SOFT_NMS_NONE → s.pool.mem = u.mem := by
      intro hm
      have := (nms_loop_none_f32 lib op scale zp boxes num_classes a _ _ _ s hm
        (by simp) (by simp) hloop).1
      rw [this]
      exact scan_scores_f32 _ _ _ _ _ _ _
    refine ⟨by rw [hk, List.length_set, hlen], ?_, ?_, ?_, ?_⟩
    · rw [ht, htot, objects_of_append, List.length_append, objects_of_single_length]
      rw [objects_of_congr v.keeps u.keeps pre (fun c hc => by
        rw [hget c, if_neg (fun (hac : a = c) => ha_pre (hac ▸ hc))])]
      rw [hget a, if_pos rfl]
      omega
    · intro c hc
      have hca : a ≠ c := fun hac => hc (by rw [← hac]; simp)
      rw [hget c, if_neg hca]
      exact hout c (fun hmem => hc (List.mem_append_left _ hmem))
    · intro c hc
      rcases List.mem_append.mp hc with hc | hc
      · obtain ⟨tbl, s', h1, h2, h3⟩ := hin c hc
        refine ⟨tbl, s', h1, ?_, h3⟩
        rw [hget c, if_neg (fun (hac : a = c) => ha_pre (hac ▸ hc))]
        exact h2
      · rw [List.mem_singleton] at hc
        subst hc
        exact ⟨u.mem, s, hloop, by rw [hget c, if_pos rfl], hsc⟩
    · intro hm
      rw [hs, hscore_none hm]
      exact hsc hm

theorem limit_objects_spec_f32 (lib : Lib_f32) (op : AABBRoINMSOp_f32) (num_classes : Nat)
    (st st1 : ImageState_f32) (hlen : st.keeps.length = num_classes)
    (htot : st.total_keep_count = (all_objects num_classes st.keeps).length)
    (h : limit_objects_f32 lib op num_classes st = .ok st1) :
    st1.mem = st.mem ∧ st1.keeps.length = num_classes ∧
    st1.total_keep_count = (all_objects num_classes st1.keeps).length ∧
    ((¬ (op.max_objects > 0 ∧ (st.total_keep_count : Int) > op.max_objects) ∧ st1 = st) ∨
     (op.max_objects > 0 ∧ (st.total_keep_count : Int) > op.max_objects ∧
      st1.total_keep_count = op.max_objects.toNat ∧
      (∀ c ∈ class_range num_classes, st1.keeps.getD c [] =
        (((lib.sort (raw_key st.mem.table num_classes) (all_objects num_classes st.keeps)).take
          op.max_objects.toNat).filter (fun o => o.1 = c)).map Prod.snd) ∧
      (all_objects num_classes st1.keeps).Perm
        ((lib.sort (raw_key st.mem.table num_classes) (all_objects num_classes st.keeps)).take
          op.max_objects.toNat))) := by
  unfold limit_objects_f32 at h
  by_cases hc : op.max_objects > 0 ∧ (st.total_keep_count : Int) > op.max_objects
  · rw [if_pos hc] at h
    simp only at h
    have hperm := lib.sort_perm (raw_key st.mem.table num_classes) (all_objects num_classes st.keeps)
    have hslen : (lib.sort (raw_key st.mem.table num_classes)
        (all_objects num_classes st.keeps)).length = st.total_keep_count := by
      rw [hperm.length_eq, htot]
    rw [if_neg (by rw [hslen]; exact not_not.mpr hc.2)] at h
    cases hf : forE (rebuild_step (lib.sort (raw_key st.mem.table num_classes)
        (all_objects num_classes st.keeps))) (List.range op.max_objects.toNat)
        (st.keeps.map (fun _ => [])) with
    | error e =>
      rw [hf] at h
      cases h
    | ok K =>
      rw [hf] at h
      simp only [Except.ok.injEq] at h
      subst h
      obtain ⟨hm, hKlen, hget⟩ := rebuild_loop_spec _ _ _ _ hf
      rw [List.length_map, hlen] at hKlen hget
      have hK : ∀ c ∈ class_range num_classes, K.getD c [] =
          (((lib.sort (raw_key st.mem.table num_classes) (all_objects num_classes st.keeps)).take
            op.max_objects.toNat).filter (fun o => o.1 = c)).map Prod.snd := by
        intro c hc1
        have hcl := ((class_range_mem num_classes c).mp hc1).2
        rw [hget c hcl]
        have : (st.keeps.map (fun _ => ([] : List Nat))).getD c [] = [] := by
          rw [List.getD_eq_getElem _ _ (by rw [List.length_map, hlen]; exact hcl)]
          simp
        rw [this, List.nil_append]
      have hP : (all_objects num_classes K).Perm
          ((lib.sort (raw_key st.mem.table num_classes) (all_objects num_classes st.keeps)).take
            op.max_objects.toNat) := by
        rw [all_objects_eq, objects_of_filter _ _ _ hK]
        apply filter_fst_perm _ _ (class_range_nodup _)
        intro o ho
        have h1 := hperm.subset (List.mem_of_mem_take ho)
        rw [all_objects_eq, objects_of_mem] at h1
        exact h1.1
      refine ⟨rfl, hKlen, ?_, Or.inr ⟨hc.1, hc.2, rfl, hK, hP⟩⟩
      show op.max_objects.toNat = _
      rw [hP.length_eq, List.length_take]
      omega
  · rw [if_neg hc] at h
    simp only [Except.ok.injEq] at h
    subst h
    exact ⟨rfl, hlen, htot, Or.inl ⟨hc, rfl⟩⟩

/-! ## The floating-point embedding: the batch loop -/

theorem class_loop_init_spec_f32 (lib : Lib_f32) (op : AABBRoINMSOp_f32) (scale : Fl) (zp : Int)
    (boxes : List Nat) (num_classes num_boxes : Nat) (tbl : Memory) (st : ImageState_f32)
    (h : forE (nms_class_f32 lib op scale zp boxes num_classes num_boxes) (class_range num_classes)
      { keeps := List.replicate num_classes [], total_keep_count := 0, mem := tbl } = .ok st) :
    st.keeps.length = num_classes ∧
    st.total_keep_count = (all_objects num_classes st.keeps).length ∧
    (∀ c ∈ class_range num_classes, ∃ tbl1 s,
      nms_loop_f32 lib op scale zp boxes num_classes c (max_post_nms_proposals_f32 op num_boxes)
        (scan_f32 op scale zp num_classes c num_boxes tbl1).indices.length
        { pool := scan_f32 op scale zp num_classes c num_boxes tbl1, keep := [] } = .ok s ∧
      st.keeps.getD c [] = s.keep ∧
      (op.soft_nms_method = SOFT_NMS_NONE → tbl1 = tbl)) ∧
    (op.soft_nms_method = SOFT_NMS_NONE → st.mem = tbl) := by
  obtain ⟨h1, h2, _, h4, h5⟩ := class_loop_spec_f32 lib op scale zp boxes num_classes num_boxes
    (class_range num_classes) _ st (class_range_nodup _)
    (fun c hc => by
      simp only [List.length_replicate]
      exact ((class_range_mem _ _).mp hc).2)
    (fun c hc => by
      rw [List.getD_eq_getElem _ _ (by
        simp only [List.length_replicate]
        exact ((class_range_mem _ _).mp hc).2)]
      simp) h
  refine ⟨by simpa using h1, by simpa [all_objects_eq] using h2, h4, h5⟩

theorem process_image_spec_f32 (lib : Lib_f32) (op : AABBRoINMSOp_f32) (scale : Fl) (zp : Int)
    (boxes : List Nat) (num_classes : Nat) (bs bs1 : BatchState_f32) (num_boxes : Nat)
    (hc : bs.output_classes.length = bs.output_scores.length)
    (hb : bs.output_boxes.length = bs.output_scores.length * 4)
    (h : process_image_f32 lib op scale zp boxes num_classes bs num_boxes = .ok bs1) :
    ∃ r : ImageRun_f32, r.num_boxes = num_boxes ∧ r.mem = bs.mem ∧
      r.valid lib op scale zp boxes num_classes ∧
      bs1.mem = r.final.mem ∧
      r.final.total_keep_count = (r.detections num_classes).length ∧
      bs1.output_scores = bs.output_scores
        ++ (r.detections num_classes).map (out_score_f32 scale zp r.final.mem.table num_classes) ∧
      bs1.output_boxes = bs.output_boxes
        ++ (r.detections num_classes).flatMap (out_box boxes num_classes) ∧
      bs1.output_classes = bs.output_classes ++ (r.detections num_classes).map Prod.fst ∧
      bs1.total_keep_per_batch = bs.total_keep_per_batch ++ [r.final.total_keep_count] := by
  unfold process_image_f32 at h
  cases hf : forE (nms_class_f32 lib op scale zp boxes num_classes num_boxes) (class_range num_classes)
      { keeps := List.replicate num_classes [], total_keep_count := 0, mem := bs.mem } with
  | error e =>
    rw [hf] at h
    cases h
  | ok st =>
    rw [hf] at h
    simp only at h
    cases hl : limit_objects_f32 lib op num_classes st with
    | error e =>
      rw [hl] at h
      cases h
    | ok st1 =>
      rw [hl] at h
      simp only [Except.ok.injEq] at h
      obtain ⟨k1, k2, _, _⟩ := class_loop_init_spec_f32 lib op scale zp boxes num_classes num_boxes
        bs.mem st hf
      obtain ⟨_, _, l3, _⟩ := limit_objects_spec_f32 lib op num_classes st st1 k1 k2 hl
      have hw := write_classes_closed_f32 scale zp st1.mem.table boxes num_classes
        bs.output_scores.length st1.keeps (class_range num_classes)
        { output_scores := bs.output_scores ++ List.replicate st1.total_keep_count (.fin 0)
          output_boxes := bs.output_boxes ++ List.replicate (st1.total_keep_count * 4) 0
          output_classes := bs.output_classes ++ List.replicate st1.total_keep_count 0
          cur_out_idx := 0 }
        bs.output_scores (List.replicate st1.total_keep_count (.fin 0))
        bs.output_boxes (List.replicate (st1.total_keep_count * 4) 0)
        bs.output_classes (List.replicate st1.total_keep_count 0)
        rfl rfl rfl (by simp) (by simpa using hb) (by simpa using hc)
        (by rw [← all_objects_eq, ← l3]; simp)
        (by rw [← all_objects_eq, ← l3]; simp)
        (by rw [← all_objects_eq, ← l3]; simp)
      obtain ⟨w1, w2, w3⟩ := hw
      rw [← all_objects_eq, ← l3] at w1 w2 w3
      simp only [List.drop_replicate, Nat.sub_self, List.replicate_zero, List.append_nil] at w1 w2 w3
      refine ⟨{ num_boxes := num_boxes, mem := bs.mem, selected := st, final := st1 },
        rfl, rfl, ⟨hf, hl⟩, ?_, l3, ?_, ?_, ?_, ?_⟩
      · rw [← h]
      · rw [← h]; exact w1
      · rw [← h]; exact w2
      · rw [← h]; exact w3
      · rw [← h]

theorem valid_none_scores_f32 (lib : Lib_f32) (op : AABBRoINMSOp_f32) (scale : Fl) (zp : Int)
    (boxes : List Nat) (num_classes : Nat) (r : ImageRun_f32)
    (hv : r.valid lib op scale zp boxes num_classes)
    (hmode : op.soft_nms_method = SOFT_NMS_NONE) :
    r.selected.mem = r.mem ∧ r.final.mem = r.mem := by
  obtain ⟨k1, k2, _, k4⟩ := class_loop_init_spec_f32 lib op scale zp boxes num_classes r.num_boxes
    r.mem r.selected hv.1
  obtain ⟨l1, _⟩ := limit_objects_spec_f32 lib op num_classes r.selected r.final k1 k2 hv.2
  exact ⟨k4 hmode, by rw [l1]; exact k4 hmode⟩

/-- The batch loop as a list of per-image runs whose renderings are appended
to the outputs in image order. -/
theorem batch_loop_trace_f32 (lib : Lib_f32) (op : AABBRoINMSOp_f32) (scale : Fl) (zp : Int)
    (boxes : List Nat) (num_classes : Nat) (nbs : List Nat) (bs0 bs : BatchState_f32)
    (hc : bs0.output_classes.length = bs0.output_scores.length)
    (hb : bs0.output_boxes.length = bs0.output_scores.length * 4)
    (h : forE (process_image_f32 lib op scale zp boxes num_classes) nbs bs0 = .ok bs) :
    ∃ runs : List ImageRun_f32, runs.map (fun r => r.num_boxes) = nbs ∧
      (∀ r ∈ runs, r.valid lib op scale zp boxes num_classes ∧
        r.final.total_keep_count = (r.detections num_classes).length ∧
        (op.soft_nms_method = SOFT_NMS_NONE → r.mem = bs0.mem)) ∧
      bs.output_scores = bs0.output_scores ++ runs.flatMap
        (fun r => (r.detections num_classes).map (out_score_f32 scale zp r.final.mem.table num_classes)) ∧
      bs.output_boxes = bs0.output_boxes ++ runs.flatMap
        (fun r => (r.detections num_classes).flatMap (out_box boxes num_classes)) ∧
      bs.output_classes = bs0.output_classes ++ runs.flatMap
        (fun r => (r.detections num_classes).map Prod.fst) ∧
      bs.total_keep_per_batch = bs0.total_keep_per_batch
        ++ runs.map (fun r => r.final.total_keep_count) := by
  induction nbs generalizing bs0 with
  | nil =>
    simp only [forE, Except.ok.injEq] at h
    subst h
    exact ⟨[], rfl, by simp, by simp, by simp, by simp, by simp⟩
  | cons nb nbs ih =>
    simp only [forE] at h
    cases hp : process_image_f32 lib op scale zp boxes num_classes bs0 nb with
    | error e =>
      rw [hp] at h
      cases h
    | ok bs1 =>
      rw [hp] at h
      obtain ⟨r, r1, r2, r3, r4, r5, r6, r7, r8, r9⟩ :=
        process_image_spec_f32 lib op scale zp boxes num_classes bs0 bs1 nb hc hb hp
      have hc1 : bs1.output_classes.length = bs1.output_scores.length := by
        rw [r8, r6]; simp [hc]
      have hb1 : bs1.output_boxes.length = bs1.output_scores.length * 4 := by
        rw [r7, r6, List.length_append, length_flatMap_out_box, hb]
        simp only [List.length_append, List.length_map]
        ring
      obtain ⟨runs, t1, t2, t3, t4, t5, t6⟩ := ih bs1 hc1 hb1 h
      refine ⟨r :: runs, by simp [r1, t1], ?_, ?_, ?_, ?_, ?_⟩
      · intro x hx
        rcases List.mem_cons.mp hx with rfl | hx
        · exact ⟨r3, r5, fun _ => r2⟩
        · obtain ⟨u1, u2, u3⟩ := t2 x hx
          refine ⟨u1, u2, fun hm => ?_⟩
          rw [u3 hm, r4, (valid_none_scores_f32 lib op scale zp boxes num_classes r r3 hm).2, r2]
      · rw [t3, r6]; simp
      · rw [t4, r7]; simp
      · rw [t5, r8]; simp
      · rw [t6, r9]; simp

/-- Unfolding of a successful call: the shape checks passed and the outputs
are the renderings of the per-image runs. -/
theorem run_trace_f32 (lib : Lib_f32) (op : AABBRoINMSOp_f32) (ws ws1 : Workspace)
    (h : RunOnDevice_f32 lib op ws = .ok ws1) :
    check_shapes_f32 ws.input_batch_splits ws.input_scores ws.input_boxes = .ok () ∧
    ∃ runs : List ImageRun_f32,
      runs.map (fun r => r.num_boxes)
        = (List.range (ws.input_batch_splits.size 0)).map (fun b => ws.input_batch_splits.data.getD b 0) ∧
      (∀ r ∈ runs,
        r.valid lib op ws.input_scores.scale ws.input_scores.zero_point ws.input_boxes.data
          (ws.input_scores.t.size 1) ∧
        r.final.total_keep_count = (r.detections (ws.input_scores.t.size 1)).length ∧
        (op.soft_nms_method = SOFT_NMS_NONE → r.mem = Memory.setup op ws.input_scores.t.data)) ∧
      ws1.outputs.output_scores = runs.flatMap (fun r => (r.detections (ws.input_scores.t.size 1)).map
        (out_score_f32 ws.input_scores.scale ws.input_scores.zero_point r.final.mem.table
          (ws.input_scores.t.size 1))) ∧
      ws1.outputs.output_boxes = runs.flatMap (fun r => (r.detections (ws.input_scores.t.size 1)).flatMap
        (out_box ws.input_boxes.data (ws.input_scores.t.size 1))) ∧
      ws1.outputs.output_classes = runs.flatMap
        (fun r => (r.detections (ws.input_scores.t.size 1)).map Prod.fst) ∧
      ws1.outputs.output_batch_splits = runs.map (fun r => r.final.total_keep_count) := by
  unfold RunOnDevice_f32 at h
  cases hs : check_shapes_f32 ws.input_batch_splits ws.input_scores ws.input_boxes with
  | error e =>
    rw [hs] at h
    cases h
  | ok u =>
    rw [hs] at h
    simp only at h
    cases hf : forE
        (process_image_f32 lib op ws.input_scores.scale ws.input_scores.zero_point ws.input_boxes.data
          (ws.input_scores.t.size 1))
        ((List.range (ws.input_batch_splits.size 0)).map (fun b => ws.input_batch_splits.data.getD b 0))
        { mem := Memory.setup op ws.input_scores.t.data, output_scores := [], output_boxes := [],
          output_classes := [], total_keep_per_batch := [] } with
    | error e =>
      rw [hf] at h
      cases h
    | ok bs =>
      rw [hf] at h
      simp only [Except.ok.injEq] at h
      subst h
      obtain ⟨runs, t1, t2, t3, t4, t5, t6⟩ := batch_loop_trace_f32 lib op ws.input_scores.scale
        ws.input_scores.zero_point ws.input_boxes.data (ws.input_scores.t.size 1) _ _ bs rfl (by simp) hf
      exact ⟨rfl, runs, t1, t2, by simpa using t3, by simpa using t4, by simpa using t5,
        by simpa using t6⟩

/-- The part of the outputs that belongs to image `b` is the rendering of the
run of that image. -/
theorem run_image_f32 (lib : Lib_f32) (op : AABBRoINMSOp_f32) (ws ws1 : Workspace)
    (h : RunOnDevice_f32 lib op ws = .ok ws1)
    (b : Nat) (hb : b < ws.input_batch_splits.size 0) :
    ∃ r : ImageRun_f32,
      r.num_boxes = ws.input_batch_splits.data.getD b 0 ∧
      r.valid lib op ws.input_scores.scale ws.input_scores.zero_point ws.input_boxes.data
        (ws.input_scores.t.size 1) ∧
      (op.soft_nms_method = SOFT_NMS_NONE → r.mem = Memory.setup op ws.input_scores.t.data) ∧
      r.final.total_keep_count = (r.detections (ws.input_scores.t.size 1)).length ∧
      ws1.outputs.output_batch_splits.getD b 0 = (r.detections (ws.input_scores.t.size 1)).length ∧
      ws1.outputs.image_scores b = (r.detections (ws.input_scores.t.size 1)).map
        (out_score_f32 ws.input_scores.scale ws.input_scores.zero_point r.final.mem.table
          (ws.input_scores.t.size 1)) ∧
      ws1.outputs.image_boxes b = (r.detections (ws.input_scores.t.size 1)).flatMap
        (out_box ws.input_boxes.data (ws.input_scores.t.size 1)) ∧
      ws1.outputs.image_classes b = (r.detections (ws.input_scores.t.size 1)).map Prod.fst := by
  obtain ⟨_, runs, t1, t2, t3, t4, t5, t6⟩ :=
    run_trace_f32 lib op ws ws1 h
  have hlen : runs.length = ws.input_batch_splits.size 0 := by
    have := congrArg List.length t1
    simpa using this
  have hb1 : b < runs.length := by rw [hlen]; exact hb
  have hnb : runs[b].num_boxes = ws.input_batch_splits.data.getD b 0 := by
    have h1 : (runs.map (fun r => r.num_boxes))[b]? = some runs[b].num_boxes := by
      rw [List.getElem?_map, List.getElem?_eq_getElem hb1]; rfl
    rw [t1, List.getElem?_map, List.getElem?_range hb] at h1
    simpa using h1.symm
  obtain ⟨v1, v2, v3⟩ := t2 runs[b] (List.getElem_mem _)
  have hcount : ws1.outputs.output_batch_splits.getD b 0 = runs[b].final.total_keep_count := by
    rw [t6, List.getD_eq_getElem _ _ (by simpa using hb1)]
    simp
  have hoff : ∀ (g : ImageRun_f32 → Nat), (∀ r ∈ runs, g r = r.final.total_keep_count) →
      ((runs.take b).map g).sum = ws1.outputs.offset b := by
    intro g hg
    unfold Outputs_f32.offset
    rw [t6, ← List.map_take]
    congr 1
    apply List.map_congr_left
    intro r hr
    exact hg r (List.mem_of_mem_take hr)
  refine ⟨runs[b], hnb, v1, v3, v2, by rw [hcount, v2], ?_, ?_, ?_⟩
  · unfold Outputs_f32.image_scores
    rw [hcount, v2, t3, ← hoff (fun r => ((r.detections (ws.input_scores.t.size 1)).map
      (out_score_f32 ws.input_scores.scale ws.input_scores.zero_point r.final.mem.table
        (ws.input_scores.t.size 1))).length) (fun r hr => by
        simp only [List.length_map]; exact (t2 r hr).2.1.symm)]
    have := flatMap_section (fun r : ImageRun_f32 => (r.detections (ws.input_scores.t.size 1)).map
      (out_score_f32 ws.input_scores.scale ws.input_scores.zero_point r.final.mem.table
        (ws.input_scores.t.size 1))) runs b hb1
    simpa using this
  · unfold Outputs_f32.image_boxes
    rw [hcount, v2, t4]
    have hoff4 : ws1.outputs.offset b * 4 = ((runs.take b).map (fun r =>
        ((r.detections (ws.input_scores.t.size 1)).flatMap
          (out_box ws.input_boxes.data (ws.input_scores.t.size 1))).length)).sum := by
      rw [← hoff (fun r => r.final.total_keep_count) (fun _ _ => rfl), ← sum_map_mul_four,
        List.map_map]
      congr 1
      apply List.map_congr_left
      intro r hr
      simp only [Function.comp]
      rw [length_flatMap_out_box, (t2 r (List.mem_of_mem_take hr)).2.1]
    rw [hoff4]
    have := flatMap_section (fun r : ImageRun_f32 => (r.detections (ws.input_scores.t.size 1)).flatMap
      (out_box ws.input_boxes.data (ws.input_scores.t.size 1))) runs b hb1
    rw [length_flatMap_out_box] at this
    exact this
  · unfold Outputs_f32.image_classes
    rw [hcount, v2, t5, ← hoff (fun r => ((r.detections (ws.input_scores.t.size 1)).map
      Prod.fst).length) (fun r hr => by
        simp only [List.length_map]; exact (t2 r hr).2.1.symm)]
    have := flatMap_section (fun r : ImageRun_f32 => (r.detections (ws.input_scores.t.size 1)).map
      Prod.fst) runs b hb1
    simpa using this

/-! ## The floating-point embedding: facts about the detections -/

theorem scan_indices_nodup_f32 (op : AABBRoINMSOp_f32) (scale : Fl) (zp : Int)
    (num_classes class_idx num_boxes : Nat) (mem : Memory) :
    (scan_f32 op scale zp num_classes class_idx num_boxes mem).indices.Nodup := by
  rw [scan_indices_f32]
  exact (List.nodup_range _).filter _

theorem scan_indices_mem_f32 (op : AABBRoINMSOp_f32) (scale : Fl) (zp : Int)
    (num_classes class_idx num_boxes : Nat) (mem : Memory) (i : Nat) :
    i ∈ (scan_f32 op scale zp num_classes class_idx num_boxes mem).indices ↔
      i < num_boxes ∧ score_at_f32 scale zp mem.table num_classes class_idx i > op.min_score := by
  rw [scan_indices_f32, List.mem_filter, List.mem_range]
  simp

/-- The keep-list of class `c` after the class loop: no RoI twice, every RoI
is a row of the image that was admitted on the table the selector started
from, and in mode NONE the RoIs pairwise passed the test of line 141. -/
theorem selected_keep_facts_f32 (lib : Lib_f32) (op : AABBRoINMSOp_f32) (scale : Fl) (zp : Int)
    (boxes : List Nat) (num_classes : Nat) (r : ImageRun_f32)
    (hv : r.valid lib op scale zp boxes num_classes) (c : Nat)
    (hc : c ∈ class_range num_classes) :
    (r.selected.keeps.getD c []).Nodup ∧
    (∀ x ∈ r.selected.keeps.getD c [], x < r.num_boxes) ∧
    (op.soft_nms_method = SOFT_NMS_NONE →
      (r.selected.keeps.getD c []).Pairwise (within_iou_f32 op boxes num_classes c) ∧
      ∀ x ∈ r.selected.keeps.getD c [],
        score_at_f32 scale zp r.mem.table num_classes c x > op.min_score) := by
  obtain ⟨_, _, k3, _⟩ := class_loop_init_spec_f32 lib op scale zp boxes num_classes r.num_boxes
    r.mem r.selected hv.1
  obtain ⟨tbl, s, hl, hk, htbl⟩ := k3 c hc
  obtain ⟨n1, n2⟩ := nms_loop_nodup_f32 lib op scale zp boxes num_classes c _ _ _ s
    (by simpa using scan_indices_nodup_f32 op scale zp num_classes c r.num_boxes tbl) hl
  rw [hk]
  refine ⟨(List.nodup_append.mp n1).1, ?_, ?_⟩
  · intro x hx
    have := n2 x (List.mem_append_left _ hx)
    simp only [List.nil_append] at this
    exact ((scan_indices_mem_f32 _ _ _ _ _ _ _ _).mp this).1
  · intro hm
    obtain ⟨_, p1, _⟩ := nms_loop_none_f32 lib op scale zp boxes num_classes c _ _ _ s hm
      (by simp) (by simp) hl
    refine ⟨p1, ?_⟩
    intro x hx
    have := n2 x (List.mem_append_left _ hx)
    simp only [List.nil_append] at this
    rw [← htbl hm]
    exact ((scan_indices_mem_f32 _ _ _ _ _ _ _ _).mp this).2

/-- The pairs left after the global cap are pairwise distinct and each of
them was selected by the class loop. -/
theorem final_detections_facts_f32 (lib : Lib_f32) (op : AABBRoINMSOp_f32) (scale : Fl) (zp : Int)
    (boxes : List Nat) (num_classes : Nat) (r : ImageRun_f32)
    (hv : r.valid lib op scale zp boxes num_classes) :
    (r.detections num_classes).Nodup ∧
    (∀ o ∈ r.detections num_classes, o ∈ all_objects num_classes r.selected.keeps) := by
  obtain ⟨k1, k2, _, _⟩ := class_loop_init_spec_f32 lib op scale zp boxes num_classes r.num_boxes
    r.mem r.selected hv.1
  obtain ⟨_, _, _, l4⟩ := limit_objects_spec_f32 lib op num_classes r.selected r.final k1 k2 hv.2
  have hsel : (all_objects num_classes r.selected.keeps).Nodup := by
    rw [all_objects_eq]
    exact objects_of_nodup _ _ (class_range_nodup _)
      (fun c hc => (selected_keep_facts_f32 lib op scale zp boxes num_classes r hv c hc).1)
  unfold ImageRun_f32.detections
  rcases l4 with ⟨_, heq⟩ | ⟨_, _, _, _, hperm⟩
  · rw [heq]
    exact ⟨hsel, fun o ho => ho⟩
  · have hsort := lib.sort_perm (raw_key r.selected.mem.table num_classes)
      (all_objects num_classes r.selected.keeps)
    refine ⟨hperm.nodup_iff.mpr ((List.take_sublist _ _).nodup (hsort.nodup_iff.mpr hsel)), ?_⟩
    intro o ho
    exact hsort.subset (List.mem_of_mem_take (hperm.subset ho))

theorem detections_mem_f32 (num_classes : Nat) (r : ImageRun_f32) (o : Nat × Nat) :
    o ∈ r.detections num_classes ↔
      (1 ≤ o.1 ∧ o.1 < num_classes) ∧ o.2 ∈ r.final.keeps.getD o.1 [] := by
  unfold ImageRun_f32.detections
  rw [all_objects_eq, objects_of_mem, class_range_mem]

/-- An output box read back in pixels is the input box of the detection. -/
theorem load_box_rendered_f32 (boxes : List Nat) (num_classes : Nat) (D : List (Nat × Nat))
    (i : Nat) (hi : i < D.length) :
    load_box_f32 (D.flatMap (out_box boxes num_classes)) 1 0 i
      = load_box_f32 boxes num_classes D[i].1 D[i].2 := by
  have hrow : ∀ k, k < 4 → (D.flatMap (out_box boxes num_classes)).getD ((i * 1 + 0) * 4 + k) 0
      = boxes.getD ((D[i].2 * num_classes + D[i].1) * 4 + k) 0 := by
    intro k hk
    rw [Nat.mul_one, Nat.add_zero, flatMap_getD_rows _ (fun a => by simp [out_box]) D i k hi hk]
    unfold out_box
    rw [getD_map_lt _ _ _ 0 _ (by simpa using hk)]
    have hr : (List.range 4).getD k 0 = k := by
      rw [List.getD_eq_getElem _ _ (by simpa using hk), List.getElem_range]
    rw [hr]
  unfold load_box_f32 box_coord_f32
  rw [hrow 0 (by omega), hrow 1 (by omega), hrow 2 (by omega), hrow 3 (by omega)]
/-- The keep-list of a class after the global cap has no duplicates and holds
only RoIs that the selector of the class kept. -/
theorem final_keep_facts_f32 (lib : Lib_f32) (op : AABBRoINMSOp_f32) (scale : Fl) (zp : Int)
    (boxes : List Nat) (num_classes : Nat) (r : ImageRun_f32)
    (hv : r.valid lib op scale zp boxes num_classes) (c : Nat)
    (hc : c ∈ class_range num_classes) :
    (r.final.keeps.getD c []).Nodup ∧
    (∀ x ∈ r.final.keeps.getD c [], x ∈ r.selected.keeps.getD c []) ∧
    ((r.detections num_classes).filter (fun o => o.1 = c)).map Prod.snd
      = r.final.keeps.getD c [] := by
  obtain ⟨hnd, hsub⟩ := final_detections_facts_f32 lib op scale zp boxes num_classes r hv
  have hf : ((r.detections num_classes).filter (fun o => o.1 = c)).map Prod.snd
      = r.final.keeps.getD c [] := by
    unfold ImageRun_f32.detections
    rw [all_objects_eq]
    exact objects_of_filter_class _ _ (class_range_nodup _) c hc
  refine ⟨?_, ?_, hf⟩
  · rw [← hf]
    refine List.Nodup.map_on ?_ (hnd.filter _)
    intro a ha b hb hab
    have h1 := of_decide_eq_true (List.mem_filter.mp ha).2
    have h2 := of_decide_eq_true (List.mem_filter.mp hb).2
    exact Prod.ext (h1.trans h2.symm) hab
  · intro x hx
    have hm : (c, x) ∈ r.detections num_classes :=
      (detections_mem_f32 num_classes r (c, x)).mpr ⟨(class_range_mem _ _).mp hc, hx⟩
    have := hsub _ hm
    rw [all_objects_eq, objects_of_mem] at this
    exact this.2

/-- One round in mode NONE on a pool whose running best was tracked from the
table scores: no candidate of the pool scores higher than the emitted RoI, and the next pool holds the other candidates that pass the test of
line 141 against it, tracked from the same table. -/
theorem none_round_greedy_f32 (lib : Lib_f32) (op : AABBRoINMSOp_f32) (scale : Fl) (zp : Int)
    (boxes : List Nat) (num_classes class_idx : Nat) (T : Memory) (u u1 : Selector_f32)
    (hmode : op.soft_nms_method = SOFT_NMS_NONE)
    (hform : ∃ xs : List Nat, u.pool = push_all_f32 (Pool_f32.init T)
      (xs.map (fun i => (score_at_f32 scale zp T.table num_classes class_idx i, i))))
    (hr : nms_round_f32 lib op scale zp boxes num_classes class_idx u = .ok u1) :
    ∃ p rest, (p :: rest).Perm u.pool.indices ∧ u1.keep = u.keep ++ [p] ∧
      (∀ i ∈ u.pool.indices,
        ¬ (score_at_f32 scale zp T.table num_classes class_idx i > score_at_f32 scale zp T.table num_classes class_idx p)) ∧
      u1.pool.indices
        = rest.filter (fun i => decide (within_iou_f32 op boxes num_classes class_idx p i)) ∧
      (∃ ys : List Nat, u1.pool = push_all_f32 (Pool_f32.init T)
        (ys.map (fun i => (score_at_f32 scale zp T.table num_classes class_idx i, i)))) := by
  obtain ⟨xs, hxs⟩ := hform
  obtain ⟨p, rest, hperm, hp, r0, r1, hkeep, hf⟩ :=
    nms_round_spec_f32 lib op scale zp boxes num_classes class_idx u u1 hr
  have hsc : u.pool.mem = T := by rw [hxs, push_all_scores_f32]; rfl
  have hidx : u.pool.indices = xs := by
    rw [hxs, push_all_indices_f32]
    simp [Pool_f32.init, List.map_map, Function.comp_def]
  obtain ⟨ys, _, _, hn⟩ := compare_loop_sublist_f32 lib op scale zp boxes num_classes class_idx p
    rest _ _ hf
  have hs1 : u1.pool.mem = T := by rw [(hn hmode).2]; exact hsc
  have he := compare_loop_eq_push_all_f32 lib op scale zp boxes num_classes class_idx p rest _ _ hf
  rw [entered_none_f32 lib op scale zp boxes num_classes class_idx p rest _ hmode, hs1] at he
  have hinit : ({ Pool_f32.init u.pool.mem with mem := T } : Pool_f32) = Pool_f32.init T := rfl
  rw [hinit] at he
  simp only [Pool_f32.init] at he
  rw [hsc] at he
  have hi1 : u1.pool.indices
      = rest.filter (fun i => decide (within_iou_f32 op boxes num_classes class_idx p i)) := by
    rw [he, push_all_indices_f32]
    simp [List.map_map, Function.comp_def]
  refine ⟨p, rest, hperm, hkeep, ?_, hi1, _, he⟩
  have hpos : u.pool.best_score_pos.toNat < xs.length := by
    have := Int.toNat_of_nonneg r0
    rw [hidx] at r1
    omega
  rcases push_all_first_max_f32 T (xs.map (fun i => (score_at_f32 scale zp T.table num_classes class_idx i, i)))
    with ⟨hneg, _, _⟩ | ⟨j, hj, hpj, hbest, _, hall⟩
  · rw [← hxs] at hneg
    rw [hneg] at r0
    exact absurd r0 (by decide)
  · rw [← hxs] at hpj hbest hall
    have hjl : j < xs.length := by simpa using hj
    have hpe : p = xs.getD j 0 := by
      rw [hp, hidx, hpj]
      rfl
    have hbs : u.pool.best_score = score_at_f32 scale zp T.table num_classes class_idx p := by
      rw [hbest, getD_map_lt _ xs j 0 (Fl.fin 0, 0) hjl, hpe]
    intro i hi
    rw [hidx] at hi
    rw [← hbs]
    exact hall _ (List.mem_map.mpr ⟨i, hi, rfl⟩)

/-- The invariant of the selector loop in mode NONE: no RoI of the
keep-list scores higher than an earlier one or is outscored by a candidate
still in the pool, and every RoI of `cands` is kept, still in the pool, or
fails the test of line 141 against a kept RoI that it does not outscore. -/
theorem nms_loop_greedy_none_f32 (lib : Lib_f32) (op : AABBRoINMSOp_f32) (scale : Fl) (zp : Int)
    (boxes : List Nat) (num_classes class_idx cap rounds : Nat) (T : Memory)
    (cands : List Nat) (s0 t : Selector_f32) (hmode : op.soft_nms_method = SOFT_NMS_NONE)
    (hform : ∃ xs : List Nat, s0.pool = push_all_f32 (Pool_f32.init T)
      (xs.map (fun i => (score_at_f32 scale zp T.table num_classes class_idx i, i))))
    (hcov : ∀ i ∈ cands, i ∈ s0.keep ∨ i ∈ s0.pool.indices ∨
      ∃ k ∈ s0.keep, ¬ within_iou_f32 op boxes num_classes class_idx k i ∧
        ¬ (score_at_f32 scale zp T.table num_classes class_idx i > score_at_f32 scale zp T.table num_classes class_idx k))
    (hdom : ∀ k ∈ s0.keep, ∀ i ∈ s0.pool.indices,
      ¬ (score_at_f32 scale zp T.table num_classes class_idx i > score_at_f32 scale zp T.table num_classes class_idx k))
    (hord : s0.keep.Pairwise (fun a b =>
      ¬ (score_at_f32 scale zp T.table num_classes class_idx b > score_at_f32 scale zp T.table num_classes class_idx a)))
    (h : nms_loop_f32 lib op scale zp boxes num_classes class_idx cap rounds s0 = .ok t) :
    (∀ i ∈ cands, i ∈ t.keep ∨ i ∈ t.pool.indices ∨
      ∃ k ∈ t.keep, ¬ within_iou_f32 op boxes num_classes class_idx k i ∧
        ¬ (score_at_f32 scale zp T.table num_classes class_idx i > score_at_f32 scale zp T.table num_classes class_idx k)) ∧
    t.keep.Pairwise (fun a b =>
      ¬ (score_at_f32 scale zp T.table num_classes class_idx b > score_at_f32 scale zp T.table num_classes class_idx a)) := by
  have key := nms_loop_invariant_f32 lib op scale zp boxes num_classes class_idx cap
    (fun u =>
      (∃ xs : List Nat, u.pool = push_all_f32 (Pool_f32.init T)
        (xs.map (fun i => (score_at_f32 scale zp T.table num_classes class_idx i, i)))) ∧
      (∀ i ∈ cands, i ∈ u.keep ∨ i ∈ u.pool.indices ∨
        ∃ k ∈ u.keep, ¬ within_iou_f32 op boxes num_classes class_idx k i ∧
          ¬ (score_at_f32 scale zp T.table num_classes class_idx i > score_at_f32 scale zp T.table num_classes class_idx k)) ∧
      (∀ k ∈ u.keep, ∀ i ∈ u.pool.indices,
        ¬ (score_at_f32 scale zp T.table num_classes class_idx i > score_at_f32 scale zp T.table num_classes class_idx k)) ∧
      u.keep.Pairwise (fun a b =>
        ¬ (score_at_f32 scale zp T.table num_classes class_idx b > score_at_f32 scale zp T.table num_classes class_idx a)))
    ?_ rounds s0 t ⟨hform, hcov, hdom, hord⟩ h
  · exact ⟨key.2.1, key.2.2.2⟩
  · intro u u1 ⟨uform, ucov, udom, uord⟩ _ _ hr
    obtain ⟨p, rest, hperm, hkeep, hmax, hi1, hform1⟩ := none_round_greedy_f32 lib op scale zp boxes
      num_classes class_idx T u u1 hmode uform hr
    have hp_mem : p ∈ u.pool.indices := hperm.subset (List.mem_cons_self _ _)
    have hrest : ∀ i ∈ rest, i ∈ u.pool.indices :=
      fun i hi => hperm.subset (List.mem_cons_of_mem _ hi)
    refine ⟨hform1, ?_, ?_, ?_⟩
    · intro i hi
      rcases ucov i hi with hk | hpl | ⟨k, hk, hw, hs⟩
      · exact Or.inl (by rw [hkeep]; exact List.mem_append_left _ hk)
      · rcases List.mem_cons.mp (hperm.symm.subset hpl) with rfl | hir
        · exact Or.inl (by rw [hkeep]; simp)
        · by_cases hw : within_iou_f32 op boxes num_classes class_idx p i
          · refine Or.inr (Or.inl ?_)
            rw [hi1, List.mem_filter]
            exact ⟨hir, decide_eq_true hw⟩
          · exact Or.inr (Or.inr ⟨p, by rw [hkeep]; simp, hw, hmax i hpl⟩)
      · exact Or.inr (Or.inr ⟨k, by rw [hkeep]; exact List.mem_append_left _ hk, hw, hs⟩)
    · intro k hk i hi
      rw [hi1] at hi
      have hiu := hrest i (List.mem_filter.mp hi).1
      rw [hkeep] at hk
      rcases List.mem_append.mp hk with hk | hk
      · exact udom k hk i hiu
      · rw [List.mem_singleton.mp hk]
        exact hmax i hiu
    · rw [hkeep, List.pairwise_append]
      refine ⟨uord, List.pairwise_singleton _ _, ?_⟩
      intro a ha b hb
      rw [List.mem_singleton.mp hb]
      exact udom a ha p hp_mem

/-! ## The input buffer is never written -/

theorem same_input_refl (m : Memory) : m.same_input m := ⟨rfl, rfl, rfl⟩

/-- A store through a `scores_adjust_ptr` that does not point to the input
buffer leaves the input buffer and the pointers as they are. -/
theorem store_same_input (m0 m m1 : Memory) (k v : Nat) (hp : m0.scores_adjust_ptr ≠ .input)
    (hs : m0.same_input m) (h : m.store k v = .ok m1) : m0.same_input m1 := by
  obtain ⟨h1, h2, h3⟩ := hs
  unfold Memory.store at h
  cases hq : m.scores_adjust_ptr with
  | null =>
    rw [hq] at h
    cases h
  | input =>
    rw [hq] at h3
    exact absurd h3.symm hp
  | adjusted =>
    rw [hq] at h
    simp only [Except.ok.injEq] at h
    subst h
    exact ⟨h1, h2, by rw [← h3, hq]⟩

/-- A comparison returns the memory it was given or the result of one store. -/
theorem compare_outcome_store_f32 (lib : Lib_f32) (op : AABBRoINMSOp_f32) (scale : Fl) (zp : Int)
    (boxes : List Nat) (num_classes class_idx p : Nat) (mem : Memory) (idx : Nat)
    (res : Option Fl × Memory)
    (h : compare_outcome_f32 lib op scale zp boxes num_classes class_idx p mem idx = .ok res) :
    res.2 = mem ∨ ∃ k v, mem.store k v = .ok res.2 := by
  unfold compare_outcome_f32 at h
  simp only at h
  split at h
  · split at h
    · split at h
      · cases h
      · rename_i mem1 hst
        simp only [Except.ok.injEq] at h
        subst h
        exact Or.inr ⟨_, _, hst⟩
    · simp only [Except.ok.injEq] at h
      subst h
      exact Or.inl rfl
  · split at h
    · split at h
      · cases h
      · split at h
        · cases h
        · rename_i mem1 hst
          split at h
          · simp only [Except.ok.injEq] at h
            subst h
            exact Or.inr ⟨_, _, hst⟩
          · simp only [Except.ok.injEq] at h
            subst h
            exact Or.inr ⟨_, _, hst⟩
    · simp only [Except.ok.injEq] at h
      subst h
      exact Or.inl rfl

theorem compare_step_same_input_f32 (lib : Lib_f32) (op : AABBRoINMSOp_f32) (scale : Fl) (zp : Int)
    (boxes : List Nat) (num_classes class_idx p : Nat) (m0 : Memory) (pl pl1 : Pool_f32) (idx : Nat)
    (hp : m0.scores_adjust_ptr ≠ .input) (hs : m0.same_input pl.mem)
    (h : compare_step_f32 lib op scale zp boxes num_classes class_idx p pl idx = .ok pl1) :
    m0.same_input pl1.mem := by
  obtain ⟨res, ho, hres⟩ :=
    compare_step_outcome_f32 lib op scale zp boxes num_classes class_idx p pl pl1 idx h
  have hm : m0.same_input res.2 := by
    rcases compare_outcome_store_f32 lib op scale zp boxes num_classes class_idx p pl.mem idx res ho
      with he | ⟨k, v, hst⟩
    · rw [he]; exact hs
    · exact store_same_input m0 pl.mem res.2 k v hp hs hst
  rcases hres with ⟨_, he⟩ | ⟨score, _, he⟩
  · rw [he]; exact hm
  · rw [he]; exact hm

theorem nms_round_same_input_f32 (lib : Lib_f32) (op : AABBRoINMSOp_f32) (scale : Fl) (zp : Int)
    (boxes : List Nat) (num_classes class_idx : Nat) (m0 : Memory) (s s1 : Selector_f32)
    (hp : m0.scores_adjust_ptr ≠ .input) (hs : m0.same_input s.pool.mem)
    (h : nms_round_f32 lib op scale zp boxes num_classes class_idx s = .ok s1) :
    m0.same_input s1.pool.mem := by
  obtain ⟨p, rest, _, _, _, _, _, hf⟩ :=
    nms_round_spec_f32 lib op scale zp boxes num_classes class_idx s s1 h
  exact forE_invariant _ (fun pl : Pool_f32 => m0.same_input pl.mem) rest
    (Pool_f32.init s.pool.mem) _ hs
    (fun a _ u v hu hb =>
      compare_step_same_input_f32 lib op scale zp boxes num_classes class_idx p m0 u v a hp hu hb)
    hf

theorem nms_class_same_input_f32 (lib : Lib_f32) (op : AABBRoINMSOp_f32) (scale : Fl) (zp : Int)
    (boxes : List Nat) (num_classes num_boxes : Nat) (m0 : Memory) (st v : ImageState_f32)
    (class_idx : Nat) (hp : m0.scores_adjust_ptr ≠ .input) (hs : m0.same_input st.mem)
    (h : nms_class_f32 lib op scale zp boxes num_classes num_boxes st class_idx = .ok v) :
    m0.same_input v.mem := by
  obtain ⟨s, hl, _, _, hm⟩ :=
    nms_class_spec_f32 lib op scale zp boxes num_classes num_boxes st v class_idx h
  rw [hm]
  refine nms_loop_invariant_f32 lib op scale zp boxes num_classes class_idx _
    (fun u => m0.same_input u.pool.mem)
    (fun u u1 hu _ _ hr =>
      nms_round_same_input_f32 lib op scale zp boxes num_classes class_idx m0 u u1 hp hu hr)
    _ _ s ?_ hl
  show m0.same_input (scan_f32 op scale zp num_classes class_idx num_boxes st.mem).mem
  rw [scan_scores_f32]
  exact hs

theorem limit_objects_mem_f32 (lib : Lib_f32) (op : AABBRoINMSOp_f32) (num_classes : Nat)
    (st st1 : ImageState_f32) (h : limit_objects_f32 lib op num_classes st = .ok st1) :
    st1.mem = st.mem := by
  unfold limit_objects_f32 at h
  split at h
  · simp only at h
    split at h
    · cases h
    · split at h
      · cases h
      · simp only [Except.ok.injEq] at h
        subst h
        rfl
  · simp only [Except.ok.injEq] at h
    subst h
    rfl

theorem process_image_same_input_f32 (lib : Lib_f32) (op : AABBRoINMSOp_f32) (scale : Fl) (zp : Int)
    (boxes : List Nat) (num_classes : Nat) (m0 : Memory) (bs bs1 : BatchState_f32) (num_boxes : Nat)
    (hp : m0.scores_adjust_ptr ≠ .input) (hs : m0.same_input bs.mem)
    (h : process_image_f32 lib op scale zp boxes num_classes bs num_boxes = .ok bs1) :
    m0.same_input bs1.mem := by
  unfold process_image_f32 at h
  cases hf : forE (nms_class_f32 lib op scale zp boxes num_classes num_boxes)
      (class_range num_classes)
      { keeps := List.replicate num_classes [], total_keep_count := 0, mem := bs.mem } with
  | error e =>
    rw [hf] at h
    cases h
  | ok st =>
    rw [hf] at h
    simp only at h
    cases hl : limit_objects_f32 lib op num_classes st with
    | error e =>
      rw [hl] at h
      cases h
    | ok st1 =>
      rw [hl] at h
      simp only [Except.ok.injEq] at h
      have h1 : m0.same_input st.mem :=
        forE_invariant _ (fun u : ImageState_f32 => m0.same_input u.mem) _ _ _ hs
          (fun a _ u v hu hb =>
            nms_class_same_input_f32 lib op scale zp boxes num_classes num_boxes m0 u v a hp hu hb)
          hf
      rw [← h]
      show m0.same_input st1.mem
      rw [limit_objects_mem_f32 lib op num_classes st st1 hl]
      exact h1

theorem setup_adjust_ptr (op : AABBRoINMSOp_f32) (input_scores : List Nat) :
    (Memory.setup op input_scores).scores_adjust_ptr ≠ .input ∧
    (Memory.setup op input_scores).input_scores = input_scores := by
  unfold Memory.setup
  split <;> simp

/-- The call leaves the three input tensors as they were, in every mode. -/
theorem run_inputs_unchanged_f32 (lib : Lib_f32) (op : AABBRoINMSOp_f32) (ws ws1 : Workspace)
    (h : RunOnDevice_f32 lib op ws = .ok ws1) :
    ws1.input_batch_splits = ws.input_batch_splits ∧ ws1.input_scores = ws.input_scores ∧
    ws1.input_boxes = ws.input_boxes := by
  unfold RunOnDevice_f32 at h
  cases hs : check_shapes_f32 ws.input_batch_splits ws.input_scores ws.input_boxes with
  | error e =>
    rw [hs] at h
    cases h
  | ok u =>
    rw [hs] at h
    simp only at h
    cases hf : forE
        (process_image_f32 lib op ws.input_scores.scale ws.input_scores.zero_point
          ws.input_boxes.data (ws.input_scores.t.size 1))
        ((List.range (ws.input_batch_splits.size 0)).map
          (fun b => ws.input_batch_splits.data.getD b 0))
        { mem := Memory.setup op ws.input_scores.t.data, output_scores := [], output_boxes := [],
          output_classes := [], total_keep_per_batch := [] } with
    | error e =>
      rw [hf] at h
      cases h
    | ok bs =>
      rw [hf] at h
      simp only [Except.ok.injEq] at h
      subst h
      have hinv : (Memory.setup op ws.input_scores.t.data).same_input bs.mem :=
        forE_invariant _
          (fun u : BatchState_f32 => (Memory.setup op ws.input_scores.t.data).same_input u.mem)
          _ _ _ (same_input_refl _)
          (fun a _ u v hu hb =>
            process_image_same_input_f32 lib op _ _ _ _ _ u v a
              (setup_adjust_ptr op ws.input_scores.t.data).1 hu hb)
          hf
      refine ⟨rfl, ?_, rfl⟩
      simp only
      rw [hinv.1, (setup_adjust_ptr op ws.input_scores.t.data).2]

/-- The result of the call does not depend on what the output blobs held. -/
theorem run_ignores_outputs_f32 (lib : Lib_f32) (op : AABBRoINMSOp_f32) (ws ws2 : Workspace)
    (h1 : ws2.input_batch_splits = ws.input_batch_splits)
    (h2 : ws2.input_scores = ws.input_scores) (h3 : ws2.input_boxes = ws.input_boxes) :
    RunOnDevice_f32 lib op ws2 = RunOnDevice_f32 lib op ws := by
  unfold RunOnDevice_f32
  rw [h1, h2, h3]

/-! ## The test of line 141 does not depend on the order of the two boxes -/

theorem round_ne_nan (fmt : Format) (q : ℚ) : fmt.round q ≠ .nan := by
  unfold Format.round
  split
  · simp
  · simp only
    split <;> simp

theorem box_coord_ne_nan (boxes : List Nat) (num_classes class_idx p k : Nat) :
    box_coord_f32 boxes num_classes class_idx p k ≠ .nan := by
  unfold box_coord_f32 Fl.of_int
  cases h : binary32.round (((boxes.getD ((p * num_classes + class_idx) * 4 + k) 0 : Nat) : Int) : ℚ) with
  | nan => exact absurd h (round_ne_nan _ _)
  | inf s => simp [Fl.mul]
  | fin q =>
    simp only [Fl.mul]
    exact round_ne_nan _ _

theorem fl_max_comm (a b : Fl) (ha : a ≠ .nan) (hb : b ≠ .nan) : Fl.max a b = Fl.max b a := by
  unfold Fl.max
  cases a with
  | nan => exact absurd rfl ha
  | inf s =>
    cases b with
    | nan => exact absurd rfl hb
    | inf t => cases s <;> cases t <;> rfl
    | fin y => cases s <;> rfl
  | fin x =>
    cases b with
    | nan => exact absurd rfl hb
    | inf t => cases t <;> rfl
    | fin y =>
      show (if Fl.lt (.fin x) (.fin y) = true then Fl.fin y else Fl.fin x)
        = (if Fl.lt (.fin y) (.fin x) = true then Fl.fin x else Fl.fin y)
      simp only [Fl.lt, decide_eq_true_eq]
      rcases lt_trichotomy x y with h | h | h
      · rw [if_pos h, if_neg (not_lt.mpr (le_of_lt h))]
      · subst h
        simp
      · rw [if_neg (not_lt.mpr (le_of_lt h)), if_pos h]

theorem fl_min_comm (a b : Fl) (ha : a ≠ .nan) (hb : b ≠ .nan) : Fl.min a b = Fl.min b a := by
  unfold Fl.min
  cases a with
  | nan => exact absurd rfl ha
  | inf s =>
    cases b with
    | nan => exact absurd rfl hb
    | inf t => cases s <;> cases t <;> rfl
    | fin y => cases s <;> rfl
  | fin x =>
    cases b with
    | nan => exact absurd rfl hb
    | inf t => cases t <;> rfl
    | fin y =>
      show (if Fl.lt (.fin y) (.fin x) = true then Fl.fin y else Fl.fin x)
        = (if Fl.lt (.fin x) (.fin y) = true then Fl.fin x else Fl.fin y)
      simp only [Fl.lt, decide_eq_true_eq]
      rcases lt_trichotomy x y with h | h | h
      · rw [if_neg (not_lt.mpr (le_of_lt h)), if_pos h]
      · subst h
        simp
      · rw [if_pos h, if_neg (not_lt.mpr (le_of_lt h))]

theorem fl_add_comm (fmt : Format) (a b : Fl) : Fl.add fmt a b = Fl.add fmt b a := by
  cases a with
  | nan => cases b <;> rfl
  | inf s =>
    cases b with
    | nan => rfl
    | inf t => cases s <;> cases t <;> rfl
    | fin y => rfl
  | fin x =>
    cases b with
    | nan => rfl
    | inf t => rfl
    | fin y =>
      simp only [Fl.add]
      rw [add_comm]

theorem intersection_area_comm_f32 (boxes : List Nat) (num_classes class_idx p i : Nat) :
    intersection_area_f32 (load_box_f32 boxes num_classes class_idx p)
        (load_box_f32 boxes num_classes class_idx i)
      = intersection_area_f32 (load_box_f32 boxes num_classes class_idx i)
        (load_box_f32 boxes num_classes class_idx p) := by
  unfold intersection_area_f32 load_box_f32
  simp only
  rw [fl_max_comm _ _ (box_coord_ne_nan boxes num_classes class_idx p 0)
      (box_coord_ne_nan boxes num_classes class_idx i 0),
    fl_max_comm _ _ (box_coord_ne_nan boxes num_classes class_idx p 1)
      (box_coord_ne_nan boxes num_classes class_idx i 1),
    fl_min_comm _ _ (box_coord_ne_nan boxes num_classes class_idx p 2)
      (box_coord_ne_nan boxes num_classes class_idx i 2),
    fl_min_comm _ _ (box_coord_ne_nan boxes num_classes class_idx p 3)
      (box_coord_ne_nan boxes num_classes class_idx i 3)]

/-- The test of line 141 gives the same answer for `(p, i)` and `(i, p)`. -/
theorem within_iou_symm_f32 (op : AABBRoINMSOp_f32) (boxes : List Nat)
    (num_classes class_idx : Nat) : Symmetric (within_iou_f32 op boxes num_classes class_idx) := by
  intro p i h
  unfold within_iou_f32 at h ⊢
  unfold union_area_f32 at h ⊢
  rw [intersection_area_comm_f32 boxes num_classes class_idx i p, fl_add_comm]
  exact h

/-! ## The comparison of two empty boxes in mode GAUSSIAN -/

/-- The factor of mode GAUSSIAN for a NaN quotient is `exp` of NaN. -/
theorem gaussian_factor_nan (lib : Lib_f32) (sigma : Fl) :
    gaussian_factor_f32 lib sigma .nan = lib.exp .nan := by
  unfold gaussian_factor_f32
  cases sigma <;> rfl

/-- The comparison of RoI 0 against the emitted RoI 1 on `zero_boxes` in mode
GAUSSIAN, for any library: the candidate is pushed with its score and its
entry receives the quantized product of the score with `exp` of NaN. -/
theorem zero_union_outcome (lib : Lib_f32) :
    compare_outcome_f32 lib (default_op_f32 100 SOFT_NMS_GAUSSIAN) (binary32.round (1 / 100)) 0
        zero_boxes.data 2 1 1
        (Memory.setup (default_op_f32 100 SOFT_NMS_GAUSSIAN) [0, 50, 0, 60]) 0
      = .ok (some (.fin (1 / 2)),
          { input_scores := [0, 50, 0, 60]
            adjusted_scores :=
              [0, lib.QuantizeUint8 (binary32.round (1 / 100)) 0
                    (Fl.to_float (Fl.mul binary64 (.fin (1 / 2)) (lib.exp .nan))) % 256, 0, 60]
            scores_ptr := .adjusted
            scores_adjust_ptr := .adjusted }) := by
  have h1 : intersection_area_f32 (load_box_f32 zero_boxes.data 2 1 1)
      (load_box_f32 zero_boxes.data 2 1 0) = .fin 0 := by decide!
  have h2 : union_area_f32 (load_box_f32 zero_boxes.data 2 1 1)
      (load_box_f32 zero_boxes.data 2 1 0) = .fin 0 := by decide!
  have h3 : score_at_f32 (binary32.round (1 / 100)) 0
      (Memory.setup (default_op_f32 100 SOFT_NMS_GAUSSIAN) [0, 50, 0, 60]).table 2 1 0
      = .fin (1 / 2) := by decide!
  have h4 : Memory.setup (default_op_f32 100 SOFT_NMS_GAUSSIAN) [0, 50, 0, 60]
      = { input_scores := [0, 50, 0, 60], adjusted_scores := [0, 50, 0, 60],
          scores_ptr := .adjusted, scores_adjust_ptr := .adjusted } := by decide!
  have h5 : Fl.div binary32 (.fin 0) (.fin 0) = .nan := by decide!
  have h6 : (Fl.fin 0 : Fl) ≤ Fl.mul binary32 (default_op_f32 100 SOFT_NMS_GAUSSIAN).max_iou (.fin 0) := by
    decide!
  have h7 : (default_op_f32 100 SOFT_NMS_GAUSSIAN).soft_nms_method = SOFT_NMS_GAUSSIAN := rfl
  unfold compare_outcome_f32
  simp only [h1, h2, h3, if_pos h6, if_pos h7, h5, gaussian_factor_nan]
  rw [h4]
  rfl

/-! ## The claims -/

/-- C1 (cap invariant).  On every input on which the call succeeds, in every
suppression mode, if `max_objects > 0` then for every image `b` the count
written to `output_batch_splits[b]`, which is the number of detections
written for that image, is at most `max_objects`. -/
theorem cap_invariant (lib : Lib) (op : AABBRoINMSOp) (input_batch_splits : Tensor)
    (input_scores : Int8TensorCPU) (input_boxes : Tensor) (out : Outputs)
    (h : RunOnDevice lib op input_batch_splits input_scores input_boxes = .ok out)
    (hmax : op.max_objects > 0) (b : Nat) (hb : b < input_batch_splits.size 0) :
    ((out.output_batch_splits.getD b 0 : Nat) : Int) ≤ op.max_objects ∧
    (out.image_classes b).length = out.output_batch_splits.getD b 0 ∧
    (out.image_scores b).length = out.output_batch_splits.getD b 0 ∧
    (out.image_boxes b).length = out.output_batch_splits.getD b 0 * 4 := by
  obtain ⟨r, _, hv, _, hcount, hsplit, hs, hbx, hcl⟩ :=
    run_image lib op input_batch_splits input_scores input_boxes out h b hb
  obtain ⟨k1, k2, _, _⟩ := class_loop_init_spec lib op input_scores.scale input_scores.zero_point
    input_boxes.data (input_scores.t.size 1) r.num_boxes r.table r.selected hv.1
  obtain ⟨_, _, _, l4⟩ := limit_objects_spec lib op (input_scores.t.size 1) r.selected r.final
    k1 k2 hv.2
  refine ⟨?_, by rw [hcl, hsplit, List.length_map], by rw [hs, hsplit, List.length_map],
    by rw [hbx, hsplit, length_flatMap_out_box]⟩
  rw [hsplit, ← hcount]
  rcases l4 with ⟨hno, heq⟩ | ⟨_, _, htot, _, _⟩
  · rw [heq]
    by_contra hgt
    exact hno ⟨hmax, by omega⟩
  · rw [htot]
    omega

/-- Witness for C1: one RoI, two classes that each keep it, `max_objects = 1`. -/
theorem cap_invariant_witness :
    RunOnDevice std_lib (default_op 1 SOFT_NMS_NONE) (splits_tensor [1]) merge_scores merge_boxes
      = .ok merge_out ∧
    (default_op 1 SOFT_NMS_NONE).max_objects > 0 ∧ 0 < (splits_tensor [1]).size 0 ∧
    ((merge_out.output_batch_splits.getD 0 0 : Nat) : Int)
      ≤ (default_op 1 SOFT_NMS_NONE).max_objects :=
  ⟨by decide!, by decide, by decide,
    (cap_invariant std_lib (default_op 1 SOFT_NMS_NONE) (splits_tensor [1]) merge_scores
      merge_boxes merge_out (by decide!) (by decide) 0 (by decide)).1⟩

/-- C2 (NONE-mode IoU invariant), counterexample: two RoIs of class 1 with
scores 0.60 and 0.50, the box of the second inside that of the first (raw
corners `[0, 0, 5103, 5582]` and `[0, 0, 3371, 2535]`), `max_iou = 0.3f`.
In exact arithmetic the intersection area exceeds `max_iou` times the union
area (the IoU is 0.30000004, `0.3f` is 0.30000001), but the sum of the two
areas rounds up in `float`, the product with `max_iou` rounds to the
intersection area, the test of line 141 passes and both RoIs are written. -/
theorem iou_invariant_counterexample :
    RunOnDevice_f32 gnu_lib_f32 (default_op_f32 100 SOFT_NMS_NONE)
        (workspace (splits_tensor [2]) (scores_tensor_f32 2 2 [0, 60, 0, 50]) nested_boxes)
      = .ok nested_ws ∧
    nested_ws.outputs.output_classes = [1, 1] ∧
    (default_op_f32 100 SOFT_NMS_NONE).max_iou = .fin (5033165 / 16777216) ∧
    0 < union_area (load_box nested_ws.outputs.output_boxes 1 0 0)
      (load_box nested_ws.outputs.output_boxes 1 0 1) ∧
    intersection_area (load_box nested_ws.outputs.output_boxes 1 0 0)
        (load_box nested_ws.outputs.output_boxes 1 0 1)
      > 5033165 / 16777216 * union_area (load_box nested_ws.outputs.output_boxes 1 0 0)
          (load_box nested_ws.outputs.output_boxes 1 0 1) ∧
    union_area (load_box nested_ws.outputs.output_boxes 1 0 0)
      (load_box nested_ws.outputs.output_boxes 1 0 1) = 14242473 / 32 ∧
    union_area_f32 (nested_ws.outputs.image_box 0 0) (nested_ws.outputs.image_box 0 1)
      = .fin (7121237 / 16) ∧
    intersection_area_f32 (nested_ws.outputs.image_box 0 0) (nested_ws.outputs.image_box 0 1)
      = .fin (8545485 / 64) ∧
    Fl.mul binary32 (default_op_f32 100 SOFT_NMS_NONE).max_iou
        (union_area_f32 (nested_ws.outputs.image_box 0 0) (nested_ws.outputs.image_box 0 1))
      = .fin (8545485 / 64) :=
  ⟨by decide!, by decide!, by decide!, by decide!, by decide!, by decide!, by decide!, by decide!,
    by decide!⟩

/-- C2 (NONE-mode IoU invariant), amended.  On every input on which the call
succeeds in mode NONE, any two distinct detections written for the same image
with the same class pass the test of line 141 as the operator evaluates it:
the intersection area of their boxes is at most `max_iou` times their union
area, with every operation rounded to `float`.  The statement does not
depend on whether the global cap truncated the keep-lists. -/
theorem none_mode_float_iou_invariant (lib : Lib_f32) (op : AABBRoINMSOp_f32) (ws ws1 : Workspace)
    (h : RunOnDevice_f32 lib op ws = .ok ws1)
    (hmode : op.soft_nms_method = SOFT_NMS_NONE)
    (b : Nat) (hb : b < ws.input_batch_splits.size 0) (i j : Nat)
    (hi : i < (ws1.outputs.image_classes b).length) (hj : j < (ws1.outputs.image_classes b).length)
    (hij : i ≠ j)
    (hcls : (ws1.outputs.image_classes b).getD i 0 = (ws1.outputs.image_classes b).getD j 0) :
    intersection_area_f32 (ws1.outputs.image_box b i) (ws1.outputs.image_box b j)
      ≤ Fl.mul binary32 op.max_iou
          (union_area_f32 (ws1.outputs.image_box b i) (ws1.outputs.image_box b j)) := by
  obtain ⟨r, _, hv, _, _, _, _, hbx, hcl⟩ := run_image_f32 lib op ws ws1 h b hb
  rw [hcl, List.length_map] at hi hj
  rw [hcl, getD_map_lt _ _ _ (0, 0) _ hi, getD_map_lt _ _ _ (0, 0) _ hj,
    List.getD_eq_getElem _ _ hi, List.getD_eq_getElem _ _ hj] at hcls
  obtain ⟨hnd, hsub⟩ := final_detections_facts_f32 lib op ws.input_scores.scale
    ws.input_scores.zero_point ws.input_boxes.data (ws.input_scores.t.size 1) r hv
  have hmi := hsub _ (List.getElem_mem hi)
  have hmj := hsub _ (List.getElem_mem hj)
  rw [all_objects_eq, objects_of_mem] at hmi hmj
  obtain ⟨_, _, hnone⟩ := selected_keep_facts_f32 lib op ws.input_scores.scale
    ws.input_scores.zero_point ws.input_boxes.data (ws.input_scores.t.size 1) r hv _ hmi.1
  have hne : (r.detections (ws.input_scores.t.size 1))[i].2
      ≠ (r.detections (ws.input_scores.t.size 1))[j].2 := by
    intro h2
    have : (r.detections (ws.input_scores.t.size 1))[i]
        = (r.detections (ws.input_scores.t.size 1))[j] := Prod.ext hcls h2
    exact hij ((List.Nodup.getElem_inj_iff hnd).mp this)
  have hw := (hnone hmode).1.forall (within_iou_symm_f32 _ _ _ _) hmi.2
    (by rw [hcls]; exact hmj.2) hne
  unfold Outputs_f32.image_box
  rw [hbx, load_box_rendered_f32 _ _ _ i hi, load_box_rendered_f32 _ _ _ j hj, ← hcls]
  exact hw

/-- Witness for C2: the two detections of `nested_ws`. -/
theorem none_mode_float_iou_invariant_witness :
    RunOnDevice_f32 gnu_lib_f32 (default_op_f32 100 SOFT_NMS_NONE)
        (workspace (splits_tensor [2]) (scores_tensor_f32 2 2 [0, 60, 0, 50]) nested_boxes)
      = .ok nested_ws ∧
    (default_op_f32 100 SOFT_NMS_NONE).soft_nms_method = SOFT_NMS_NONE ∧
    0 < (workspace (splits_tensor [2]) (scores_tensor_f32 2 2 [0, 60, 0, 50])
      nested_boxes).input_batch_splits.size 0 ∧
    0 < (nested_ws.outputs.image_classes 0).length ∧
    1 < (nested_ws.outputs.image_classes 0).length ∧
    (nested_ws.outputs.image_classes 0).getD 0 0 = (nested_ws.outputs.image_classes 0).getD 1 0 ∧
    intersection_area_f32 (nested_ws.outputs.image_box 0 0) (nested_ws.outputs.image_box 0 1)
      ≤ Fl.mul binary32 (default_op_f32 100 SOFT_NMS_NONE).max_iou
          (union_area_f32 (nested_ws.outputs.image_box 0 0) (nested_ws.outputs.image_box 0 1)) :=
  ⟨by decide!, rfl, by decide, by decide, by decide, by decide,
    none_mode_float_iou_invariant gnu_lib_f32 (default_op_f32 100 SOFT_NMS_NONE)
      (workspace (splits_tensor [2]) (scores_tensor_f32 2 2 [0, 60, 0, 50]) nested_boxes)
      nested_ws (by decide!) rfl 0 (by decide) 0 1 (by decide) (by decide) (by decide)
      (by decide)⟩

/-- C3 (per-image RoI slicing): the code at a batch of two images.  Row 0
scores 0.50 and row 1 scores 0.02 for class 1.  The rows written for image 1
hold the detection of row 0, while the operator run on row 1 alone writes
nothing: the batch loop reads rows `0 .. num_boxes - 1` for every image. -/
theorem roi_offset_ignored :
    RunOnDevice std_lib (default_op 100 SOFT_NMS_NONE) (splits_tensor [1, 1]) batch_scores
      apart_boxes = .ok batch_out ∧
    batch_out.image_scores 1 = [1 / 2] ∧ batch_out.image_boxes 1 = [0, 0, 8, 8] ∧
    RunOnDevice std_lib (default_op 100 SOFT_NMS_NONE) (splits_tensor [1]) slice_scores
      slice_boxes = .ok empty_out :=
  ⟨by decide!, by decide!, by decide!, by decide!⟩

/-- C4 (global top-K merge).  For every image `b` there is a run record `r`
of the batch-loop body, entered with the input score table in mode NONE,
whose rendering is the image's part of the outputs; and whenever
`max_objects > 0` and the per-class keep-lists after the class loop hold more
than `max_objects` pairs, the image has exactly `max_objects` detections,
each detection is one of the selected `(class, roi)` pairs, and the raw
quantized score of every retained pair is at least that of every selected
pair that was discarded. -/
theorem global_top_k_merge (lib : Lib) (op : AABBRoINMSOp) (input_batch_splits : Tensor)
    (input_scores : Int8TensorCPU) (input_boxes : Tensor) (out : Outputs)
    (h : RunOnDevice lib op input_batch_splits input_scores input_boxes = .ok out)
    (b : Nat) (hb : b < input_batch_splits.size 0) :
    ∃ r : ImageRun,
      r.num_boxes = input_batch_splits.data.getD b 0 ∧
      r.valid lib op input_scores.scale input_scores.zero_point input_boxes.data
        (input_scores.t.size 1) ∧
      (op.soft_nms_method = SOFT_NMS_NONE → r.table = input_scores.t.data) ∧
      out.image_classes b = (r.detections (input_scores.t.size 1)).map Prod.fst ∧
      out.image_scores b = (r.detections (input_scores.t.size 1)).map
        (out_score input_scores.scale input_scores.zero_point r.selected.scores
          (input_scores.t.size 1)) ∧
      out.image_boxes b = (r.detections (input_scores.t.size 1)).flatMap
        (out_box input_boxes.data (input_scores.t.size 1)) ∧
      (op.max_objects > 0 →
        ((all_objects (input_scores.t.size 1) r.selected.keeps).length : Int) > op.max_objects →
        ((out.output_batch_splits.getD b 0 : Nat) : Int) = op.max_objects ∧
        (((r.detections (input_scores.t.size 1)).length : Nat) : Int) = op.max_objects ∧
        (∀ o ∈ r.detections (input_scores.t.size 1),
          o ∈ all_objects (input_scores.t.size 1) r.selected.keeps) ∧
        (∀ o ∈ r.detections (input_scores.t.size 1),
          ∀ o1 ∈ all_objects (input_scores.t.size 1) r.selected.keeps,
          o1 ∉ r.detections (input_scores.t.size 1) →
          raw_key r.selected.scores (input_scores.t.size 1) o1
            ≤ raw_key r.selected.scores (input_scores.t.size 1) o)) := by
  obtain ⟨r, hnb, hv, htbl, hcount, hsplit, hs, hbx, hcl⟩ :=
    run_image lib op input_batch_splits input_scores input_boxes out h b hb
  obtain ⟨k1, k2, _, _⟩ := class_loop_init_spec lib op input_scores.scale input_scores.zero_point
    input_boxes.data (input_scores.t.size 1) r.num_boxes r.table r.selected hv.1
  obtain ⟨l1, _, _, l4⟩ := limit_objects_spec lib op (input_scores.t.size 1) r.selected r.final
    k1 k2 hv.2
  refine ⟨r, hnb, hv, htbl, hcl, by rw [hs, l1], hbx, ?_⟩
  intro hmax hgt
  rcases l4 with ⟨hno, _⟩ | ⟨_, _, htot, _, hperm⟩
  · exact absurd ⟨hmax, by rw [k2]; exact hgt⟩ hno
  · have hlen : (((r.detections (input_scores.t.size 1)).length : Nat) : Int) = op.max_objects := by
      rw [← hcount, htot]
      omega
    refine ⟨by rw [hsplit]; exact hlen, hlen,
      (final_detections_facts lib op _ _ _ _ r hv).2, ?_⟩
    intro o ho o1 ho1 hn
    exact truncation_keeps_best lib _ _ _ _ hperm o o1 ho ho1 hn

/-- Witness for C4: two classes keep the same RoI and `max_objects = 1`; the
merge is entered and leaves one detection. -/
theorem global_top_k_merge_witness :
    RunOnDevice std_lib (default_op 1 SOFT_NMS_NONE) (splits_tensor [1]) merge_scores merge_boxes
      = .ok merge_out ∧
    0 < (splits_tensor [1]).size 0 ∧
    ((merge_out.output_batch_splits.getD 0 0 : Nat) : Int)
      = (default_op 1 SOFT_NMS_NONE).max_objects := by
  refine ⟨by decide!, by decide, ?_⟩
  obtain ⟨r, hnb, hv, htbl, _, _, _, hcap⟩ :=
    global_top_k_merge std_lib (default_op 1 SOFT_NMS_NONE) (splits_tensor [1]) merge_scores
      merge_boxes merge_out (by decide!) 0 (by decide)
  have h1 := hv.1
  rw [htbl rfl, hnb] at h1
  have h2 : forE (nms_class std_lib (default_op 1 SOFT_NMS_NONE) merge_scores.scale
      merge_scores.zero_point merge_boxes.data (merge_scores.t.size 1)
      ((splits_tensor [1]).data.getD 0 0)) (class_range (merge_scores.t.size 1))
      { keeps := List.replicate (merge_scores.t.size 1) [], total_keep_count := 0,
        scores := merge_scores.t.data }
      = .ok { keeps := [[], [0], [0]], total_keep_count := 2, scores := [0, 50, 70] } := by
    decide!
  rw [h2] at h1
  simp only [Except.ok.injEq] at h1
  exact (hcap (by decide) (by rw [← h1]; decide)).1

/-- C5 (background exclusion).  On every input on which the call succeeds,
every class index written to `output_classes` is at least 1 and below
`num_classes`; with `num_classes <= 1` all outputs are empty and every
per-image count is 0. -/
theorem background_exclusion (lib : Lib) (op : AABBRoINMSOp) (input_batch_splits : Tensor)
    (input_scores : Int8TensorCPU) (input_boxes : Tensor) (out : Outputs)
    (h : RunOnDevice lib op input_batch_splits input_scores input_boxes = .ok out) :
    (∀ c ∈ out.output_classes, 1 ≤ c ∧ c < input_scores.t.size 1) ∧
    (input_scores.t.size 1 ≤ 1 →
      out.output_classes = [] ∧ out.output_scores = [] ∧ out.output_boxes = [] ∧
      ∀ n ∈ out.output_batch_splits, n = 0) := by
  obtain ⟨_, runs, _, t2, t3, t4, t5, t6⟩ :=
    run_trace lib op input_batch_splits input_scores input_boxes out h
  refine ⟨?_, ?_⟩
  · intro c hc
    rw [t5, List.mem_flatMap] at hc
    obtain ⟨r, _, hc⟩ := hc
    rw [List.mem_map] at hc
    obtain ⟨o, ho, rfl⟩ := hc
    exact ((detections_mem _ r o).mp ho).1
  · intro hnc
    have hempty : ∀ r : ImageRun, r.detections (input_scores.t.size 1) = [] := by
      intro r
      rw [List.eq_nil_iff_forall_not_mem]
      intro o ho
      have := ((detections_mem _ r o).mp ho).1
      omega
    refine ⟨by rw [t5]; simp [hempty], by rw [t3]; simp [hempty], by rw [t4]; simp [hempty], ?_⟩
    intro n hn
    rw [t6, List.mem_map] at hn
    obtain ⟨r, hr, rfl⟩ := hn
    rw [(t2 r hr).2.1, hempty r]
    rfl

/-- Witness for C5: both detections of the example carry class 1 of 2. -/
theorem background_exclusion_witness :
    RunOnDevice std_lib (default_op 100 SOFT_NMS_NONE) (splits_tensor [2]) apart_scores apart_boxes
      = .ok apart_out ∧
    ∀ c ∈ apart_out.output_classes, 1 ≤ c ∧ c < apart_scores.t.size 1 :=
  ⟨by decide!,
    (background_exclusion std_lib (default_op 100 SOFT_NMS_NONE) (splits_tensor [2])
      apart_scores apart_boxes apart_out (by decide!)).1⟩

/-- C6 (batch-splits round trip).  On every input on which the call succeeds:
the output batch splits sum to the number of output scores, which is the
number of output classes and a quarter of the number of output box
coordinates; there is one output batch split per image; and entry `b` is the
number of detections written for image `b`, the rows of image `b` being the
rendering of the pairs kept for it. -/
theorem batch_splits_round_trip (lib : Lib) (op : AABBRoINMSOp) (input_batch_splits : Tensor)
    (input_scores : Int8TensorCPU) (input_boxes : Tensor) (out : Outputs)
    (h : RunOnDevice lib op input_batch_splits input_scores input_boxes = .ok out) :
    out.output_batch_splits.sum = out.output_scores.length ∧
    out.output_scores.length = out.output_classes.length ∧
    out.output_classes.length = out.output_boxes.length / 4 ∧
    out.output_boxes.length = out.output_classes.length * 4 ∧
    out.output_batch_splits.length = input_batch_splits.size 0 ∧
    ∀ b, b < input_batch_splits.size 0 →
      ∃ r : ImageRun,
        r.valid lib op input_scores.scale input_scores.zero_point input_boxes.data
          (input_scores.t.size 1) ∧
        out.output_batch_splits.getD b 0 = (r.detections (input_scores.t.size 1)).length ∧
        out.image_classes b = (r.detections (input_scores.t.size 1)).map Prod.fst ∧
        out.image_scores b = (r.detections (input_scores.t.size 1)).map
          (out_score input_scores.scale input_scores.zero_point r.final.scores
            (input_scores.t.size 1)) ∧
        out.image_boxes b = (r.detections (input_scores.t.size 1)).flatMap
          (out_box input_boxes.data (input_scores.t.size 1)) := by
  obtain ⟨_, runs, t1, t2, t3, t4, t5, t6⟩ :=
    run_trace lib op input_batch_splits input_scores input_boxes out h
  have hcnt : runs.map (fun r => r.final.total_keep_count)
      = runs.map (fun r => (r.detections (input_scores.t.size 1)).length) :=
    List.map_congr_left (fun r hr => (t2 r hr).2.1)
  have hs : out.output_batch_splits.sum = out.output_scores.length := by
    rw [t6, t3, length_flatMap_sum, hcnt]
    simp
  have hc : out.output_scores.length = out.output_classes.length := by
    rw [t3, t5, length_flatMap_sum, length_flatMap_sum]
    simp
  have hbx : out.output_boxes.length = out.output_classes.length * 4 := by
    rw [t4, t5, length_flatMap_sum, length_flatMap_sum, ← sum_map_mul_four, List.map_map]
    congr 1
    apply List.map_congr_left
    intro r _
    simp only [Function.comp, length_flatMap_out_box, List.length_map]
  refine ⟨hs, hc, by rw [hbx]; simp, hbx, ?_, ?_⟩
  · rw [t6, List.length_map]
    have := congrArg List.length t1
    simpa using this
  · intro b hb
    obtain ⟨r, _, hv, _, _, hsplit, hsc, hbo, hcl⟩ :=
      run_image lib op input_batch_splits input_scores input_boxes out h b hb
    exact ⟨r, hv, hsplit, hcl, hsc, hbo⟩

/-- Witness for C6: a batch of two images with one detection each. -/
theorem batch_splits_round_trip_witness :
    RunOnDevice std_lib (default_op 100 SOFT_NMS_NONE) (splits_tensor [1, 1]) batch_scores
      apart_boxes = .ok batch_out ∧
    batch_out.output_batch_splits.sum = batch_out.output_scores.length ∧
    batch_out.output_scores.length = batch_out.output_classes.length ∧
    batch_out.output_classes.length = batch_out.output_boxes.length / 4 ∧
    batch_out.output_boxes.length = batch_out.output_classes.length * 4 ∧
    batch_out.output_batch_splits.length = (splits_tensor [1, 1]).size 0 :=
  have hrt := batch_splits_round_trip std_lib (default_op 100 SOFT_NMS_NONE)
    (splits_tensor [1, 1]) batch_scores apart_boxes batch_out (by decide!)
  ⟨by decide!, hrt.1, hrt.2.1, hrt.2.2.1, hrt.2.2.2.1, hrt.2.2.2.2.1⟩

/-- C8 (output ordering), as amended.  For every image `b` the rows written
are the rendering of the `(class, roi)` pairs of a run record `r`, and:
the class indices of the rows are in non-decreasing order; for every class
`c` the RoIs of the rows of class `c`, in row order, are the final keep-list
of `c`; when the global cap does not truncate, that list is the keep-list
built by the selector, in emission order; when the cap truncates, that list
is ordered by non-increasing raw score in the working score table and every
RoI in it was emitted by the selector for `c`. -/
theorem output_ordering (lib : Lib) (op : AABBRoINMSOp) (input_batch_splits : Tensor)
    (input_scores : Int8TensorCPU) (input_boxes : Tensor) (out : Outputs)
    (h : RunOnDevice lib op input_batch_splits input_scores input_boxes = .ok out)
    (b : Nat) (hb : b < input_batch_splits.size 0) :
    ∃ r : ImageRun,
      r.num_boxes = input_batch_splits.data.getD b 0 ∧
      r.valid lib op input_scores.scale input_scores.zero_point input_boxes.data
        (input_scores.t.size 1) ∧
      out.image_classes b = (r.detections (input_scores.t.size 1)).map Prod.fst ∧
      out.image_scores b = (r.detections (input_scores.t.size 1)).map
        (out_score input_scores.scale input_scores.zero_point r.final.scores
          (input_scores.t.size 1)) ∧
      out.image_boxes b = (r.detections (input_scores.t.size 1)).flatMap
        (out_box input_boxes.data (input_scores.t.size 1)) ∧
      (out.image_classes b).Pairwise (fun c1 c2 => c1 ≤ c2) ∧
      ∀ c, 1 ≤ c → c < input_scores.t.size 1 →
        ((r.detections (input_scores.t.size 1)).filter (fun o => o.1 = c)).map Prod.snd
          = r.final.keeps.getD c [] ∧
        (¬ (op.max_objects > 0 ∧
            ((all_objects (input_scores.t.size 1) r.selected.keeps).length : Int) > op.max_objects) →
          r.final.keeps.getD c [] = r.selected.keeps.getD c []) ∧
        ((op.max_objects > 0 ∧
            ((all_objects (input_scores.t.size 1) r.selected.keeps).length : Int) > op.max_objects) →
          (r.final.keeps.getD c []).Pairwise (fun x y =>
            raw_key r.selected.scores (input_scores.t.size 1) (c, y)
              ≤ raw_key r.selected.scores (input_scores.t.size 1) (c, x)) ∧
          ∀ x ∈ r.final.keeps.getD c [], x ∈ r.selected.keeps.getD c []) := by
  obtain ⟨r, hnb, hv, _, _, _, hs, hbx, hcl⟩ :=
    run_image lib op input_batch_splits input_scores input_boxes out h b hb
  obtain ⟨k1, k2, _, _⟩ := class_loop_init_spec lib op input_scores.scale input_scores.zero_point
    input_boxes.data (input_scores.t.size 1) r.num_boxes r.table r.selected hv.1
  obtain ⟨_, _, _, l4⟩ := limit_objects_spec lib op (input_scores.t.size 1) r.selected r.final
    k1 k2 hv.2
  refine ⟨r, hnb, hv, hcl, hs, hbx, ?_, ?_⟩
  · rw [hcl]
    exact objects_of_fst_sorted _ _ (class_range_sorted _)
  · intro c hc1 hc2
    have hc : c ∈ class_range (input_scores.t.size 1) := (class_range_mem _ _).mpr ⟨hc1, hc2⟩
    refine ⟨objects_of_filter_class _ _ (class_range_nodup _) c hc, ?_, ?_⟩
    · intro hno
      rcases l4 with ⟨_, heq⟩ | ⟨hmax, hgt, _⟩
      · rw [heq]
      · exact absurd ⟨hmax, by rw [← k2]; exact hgt⟩ hno
    · intro _
      rcases l4 with ⟨hno, heq⟩ | ⟨_, _, _, hK, _⟩
      · rw [heq]
        rename_i htr
        exact absurd ⟨htr.1, by rw [k2]; exact htr.2⟩ hno
      · rw [hK c hc]
        refine ⟨truncated_rows_sorted lib _ _ _ c, ?_⟩
        intro x hx
        rw [List.mem_map] at hx
        obtain ⟨o, ho, rfl⟩ := hx
        rw [List.mem_filter] at ho
        have h1 := (lib.sort_perm _ _).subset (List.mem_of_mem_take ho.1)
        rw [all_objects_eq, objects_of_mem] at h1
        have h2 : o.1 = c := by simpa using ho.2
        rw [← h2]
        exact h1.2

/-- Witness for C8: the class indices written for the image of the example
are in non-decreasing order. -/
theorem output_ordering_witness :
    RunOnDevice std_lib (default_op 3 SOFT_NMS_GAUSSIAN) (splits_tensor [3]) gauss_scores
      gauss_boxes = .ok gauss_out ∧
    0 < (splits_tensor [3]).size 0 ∧
    (gauss_out.image_classes 0).Pairwise (fun c1 c2 => c1 ≤ c2) := by
  refine ⟨by decide!, by decide, ?_⟩
  obtain ⟨r, _, _, _, _, _, hsorted, _⟩ :=
    output_ordering std_lib (default_op 3 SOFT_NMS_GAUSSIAN) (splits_tensor [3]) gauss_scores
      gauss_boxes gauss_out (by decide!) 0 (by decide)
  exact hsorted

/-- Counterexample to C8 as stated: mode GAUSSIAN, `max_objects = 3`, one
image.  The selector of class 1 emits RoIs 0, 1, 2 in this order and class 2
keeps RoI 0, so the cap truncates; the rows written for class 1 are RoIs 0, 2,
1: the retained detections of class 1 are not in emission order. -/
theorem emission_order_counterexample :
    forE (nms_class std_lib (default_op 3 SOFT_NMS_GAUSSIAN) gauss_scores.scale
        gauss_scores.zero_point gauss_boxes.data 3 3) (class_range 3)
      { keeps := List.replicate 3 [], total_keep_count := 0, scores := gauss_scores.t.data }
      = .ok { keeps := [[], [0, 1, 2], [0]], total_keep_count := 4,
              scores := [0, 95, 10, 0, 79, 0, 0, 80, 0] } ∧
    limit_objects std_lib (default_op 3 SOFT_NMS_GAUSSIAN) 3
      { keeps := [[], [0, 1, 2], [0]], total_keep_count := 4,
        scores := [0, 95, 10, 0, 79, 0, 0, 80, 0] }
      = .ok { keeps := [[], [0, 2, 1], []], total_keep_count := 3,
              scores := [0, 95, 10, 0, 79, 0, 0, 80, 0] } ∧
    RunOnDevice std_lib (default_op 3 SOFT_NMS_GAUSSIAN) (splits_tensor [3]) gauss_scores
      gauss_boxes = .ok gauss_out ∧
    gauss_out.image_boxes 0 = [0, 0, 80, 80, 800, 800, 880, 880, 48, 0, 128, 80] ∧
    ¬ ([0, 2, 1] : List Nat).Sublist [0, 1, 2] :=
  ⟨by decide!, by decide!, by decide!, by decide!, by decide⟩

/-- C9 (minimum-score admission): the code at a score equal to `min_score`.
One RoI whose class-1 score is exactly 0.5 with `min_score = 0.5`: the
admission pool is empty and nothing is written, because the admission test is
the strict `score > min_score_`. -/
theorem min_score_boundary_rejected :
    score_at boundary_scores.scale boundary_scores.zero_point boundary_scores.t.data 2 1 0
      = boundary_op.min_score ∧
    (scan boundary_op boundary_scores.scale boundary_scores.zero_point 2 1 1
      boundary_scores.t.data).indices = [] ∧
    RunOnDevice std_lib boundary_op (splits_tensor [1]) boundary_scores boundary_boxes
      = .ok empty_out :=
  ⟨by decide!, by decide!, by decide!⟩

/-- C10 (tie-break), as amended.  (a) The admission loop builds the first pool
by pushing the admitted rows in ascending row order, each with its table
score.  (b) A round that emits `p` builds the next pool by pushing the
candidates that the comparison loop lets through, in the order of the
previous list after the emitted candidate was swapped into its head; in mode
NONE the table is unchanged and each candidate is pushed with its current
table score.  (c) A round started on a pool built by pushing the entries `es`
emits the entry at the first list position that holds the highest pushed
score: no entry has a higher score and every earlier entry has a strictly
lower one. -/
theorem tie_break_first_in_pool (lib : Lib) (op : AABBRoINMSOp) (scale : ℚ) (zp : Int)
    (boxes : List Nat) (num_classes class_idx : Nat) :
    (∀ num_boxes scores,
      scan op scale zp num_classes class_idx num_boxes scores
        = push_all (Pool.init scores) (((List.range num_boxes).filter
            (fun i => decide (score_at scale zp scores num_classes class_idx i > op.min_score))).map
            (fun i => (score_at scale zp scores num_classes class_idx i, i)))) ∧
    (∀ s s1, nms_round lib op scale zp boxes num_classes class_idx s = .ok s1 →
      s1.keep = s.keep ++ [s.pool.indices.getD s.pool.best_score_pos.toNat 0] ∧
      s1.pool = push_all (Pool.init s1.pool.scores)
        (entered lib op scale zp boxes num_classes class_idx
          (s.pool.indices.getD s.pool.best_score_pos.toNat 0)
          ((swap s.pool.indices 0 s.pool.best_score_pos.toNat).drop 1) s.pool.scores) ∧
      (op.soft_nms_method = SOFT_NMS_NONE →
        s1.pool.scores = s.pool.scores ∧
        ∀ e ∈ entered lib op scale zp boxes num_classes class_idx
            (s.pool.indices.getD s.pool.best_score_pos.toNat 0)
            ((swap s.pool.indices 0 s.pool.best_score_pos.toNat).drop 1) s.pool.scores,
          e.1 = score_at scale zp s1.pool.scores num_classes class_idx e.2)) ∧
    (∀ scores es keep s1,
      nms_round lib op scale zp boxes num_classes class_idx
        { pool := push_all (Pool.init scores) es, keep := keep } = .ok s1 →
      ∃ j, j < es.length ∧ s1.keep = keep ++ [(es.getD j (0, 0)).2] ∧
        (∀ e ∈ es, e.1 ≤ (es.getD j (0, 0)).1) ∧
        ∀ i, i < j → (es.getD i (0, 0)).1 < (es.getD j (0, 0)).1) := by
  refine ⟨fun nb scores => scan_eq_push_all op scale zp num_classes class_idx nb scores, ?_, ?_⟩
  · intro s s1 hr
    obtain ⟨_, _, hkeep, hf⟩ :=
      nms_round_explicit lib op scale zp boxes num_classes class_idx s s1 hr
    have hp := compare_loop_eq_push_all lib op scale zp boxes num_classes class_idx _ _ _ _ hf
    refine ⟨hkeep, hp, fun hm => ?_⟩
    obtain ⟨_, _, _, hnone⟩ :=
      compare_loop_sublist lib op scale zp boxes num_classes class_idx _ _ _ _ hf
    have hsc : s1.pool.scores = s.pool.scores := (hnone hm).2
    refine ⟨hsc, ?_⟩
    intro e he
    rw [entered_none lib op scale zp boxes num_classes class_idx _ _ _ hm, List.mem_map] at he
    obtain ⟨i, _, rfl⟩ := he
    rw [hsc]
  · intro scores es keep s1 hr
    obtain ⟨h0, h1, hkeep, _⟩ :=
      nms_round_explicit lib op scale zp boxes num_classes class_idx _ s1 hr
    simp only at h0 h1 hkeep
    rcases push_all_first_max scores es with ⟨hneg, _, _⟩ | ⟨j, hj, hpos, hbest, _, hmax, hfirst⟩
    · rw [hneg] at h0
      omega
    · refine ⟨j, hj, ?_, ?_, ?_⟩
      · rw [hkeep, hpos, push_all_indices]
        simp only [Pool.init, List.nil_append, Int.toNat_ofNat]
        rw [getD_map_lt _ _ _ (0, 0) _ hj]
      · intro e he
        rw [← hbest]
        exact hmax e he
      · intro i hi
        rw [← hbest]
        exact hfirst i hi

/-- Witness for C10: a round on the pool built by pushing RoI 1 and then
RoI 0, both with score 0.5, emits RoI 1, the first of the two. -/
theorem tie_break_first_in_pool_witness :
    nms_round std_lib (default_op 100 SOFT_NMS_NONE) tie_scores.scale tie_scores.zero_point
        tie_boxes.data 2 1
        { pool := push_all (Pool.init tie_scores.t.data) [(1 / 2, 1), (1 / 2, 0)], keep := [2] }
      = .ok { pool := { best_score_pos := 0, best_score := 1 / 2, indices := [0],
                        scores := tie_scores.t.data },
              keep := [2, 1] } ∧
    ∃ j, j < ([(1 / 2, 1), (1 / 2, 0)] : List (ℚ × Nat)).length ∧
      ([2, 1] : List Nat) = [2] ++ [(([(1 / 2, 1), (1 / 2, 0)] : List (ℚ × Nat)).getD j (0, 0)).2] ∧
      (∀ e ∈ ([(1 / 2, 1), (1 / 2, 0)] : List (ℚ × Nat)),
        e.1 ≤ (([(1 / 2, 1), (1 / 2, 0)] : List (ℚ × Nat)).getD j (0, 0)).1) ∧
      ∀ i, i < j → (([(1 / 2, 1), (1 / 2, 0)] : List (ℚ × Nat)).getD i (0, 0)).1
        < (([(1 / 2, 1), (1 / 2, 0)] : List (ℚ × Nat)).getD j (0, 0)).1 :=
  ⟨by decide!,
    (tie_break_first_in_pool std_lib (default_op 100 SOFT_NMS_NONE) tie_scores.scale
      tie_scores.zero_point tie_boxes.data 2 1).2.2 tie_scores.t.data
      [(1 / 2, 1), (1 / 2, 0)] [2]
      { pool := { best_score_pos := 0, best_score := 1 / 2, indices := [0],
                  scores := tie_scores.t.data },
        keep := [2, 1] } (by decide!)⟩

/-- Counterexample to C10 as stated: mode NONE, one image, three RoIs with
disjoint boxes and class-1 scores 0.5, 0.5, 0.9.  The first pool is
`[0, 1, 2]`; the first round emits RoI 2 and leaves the pool `[1, 0]`; the
second round emits RoI 1 although RoI 0 has the same score and the lower
index; the keep-list is `[2, 1, 0]`. -/
theorem tie_break_counterexample :
    (scan (default_op 100 SOFT_NMS_NONE) tie_scores.scale tie_scores.zero_point 2 1 3
      tie_scores.t.data).indices = [0, 1, 2] ∧
    nms_loop std_lib (default_op 100 SOFT_NMS_NONE) tie_scores.scale tie_scores.zero_point
        tie_boxes.data 2 1 100 1
        { pool := scan (default_op 100 SOFT_NMS_NONE) tie_scores.scale tie_scores.zero_point 2 1 3
            tie_scores.t.data, keep := [] }
      = .ok { pool := { best_score_pos := 0, best_score := 1 / 2, indices := [1, 0],
                        scores := tie_scores.t.data },
              keep := [2] } ∧
    nms_loop std_lib (default_op 100 SOFT_NMS_NONE) tie_scores.scale tie_scores.zero_point
        tie_boxes.data 2 1 100 2
        { pool := scan (default_op 100 SOFT_NMS_NONE) tie_scores.scale tie_scores.zero_point 2 1 3
            tie_scores.t.data, keep := [] }
      = .ok { pool := { best_score_pos := 0, best_score := 1 / 2, indices := [0],
                        scores := tie_scores.t.data },
              keep := [2, 1] } ∧
    score_at tie_scores.scale tie_scores.zero_point tie_scores.t.data 2 1 0
      = score_at tie_scores.scale tie_scores.zero_point tie_scores.t.data 2 1 1 ∧
    RunOnDevice std_lib (default_op 100 SOFT_NMS_NONE) (splits_tensor [3]) tie_scores tie_boxes
      = .ok tie_out :=
  ⟨by decide!, by decide!, by decide!, by decide!, by decide!⟩


/-! ## Where errors come from -/

theorem forE_error {σ α : Type} (body : σ → α → Except String σ) (xs : List α) (s : σ)
    (e : String) (h : forE body xs s = .error e) : ∃ u a, a ∈ xs ∧ body u a = .error e := by
  induction xs generalizing s with
  | nil => simp [forE] at h
  | cons a as ih =>
    simp only [forE] at h
    cases hb : body s a with
    | error e1 =>
      rw [hb] at h
      simp only [Except.error.injEq] at h
      exact ⟨s, a, List.mem_cons_self _ _, by rw [hb, h]⟩
    | ok s1 =>
      rw [hb] at h
      obtain ⟨u, b, hb1, hb2⟩ := ih s1 h
      exact ⟨u, b, List.mem_cons_of_mem _ hb1, hb2⟩

/-- With one of the three method values a comparison never throws. -/
theorem compare_outcome_total (lib : Lib) (op : AABBRoINMSOp) (scale : ℚ) (zp : Int)
    (boxes : List Nat) (num_classes class_idx p : Nat) (scores : List Nat) (idx : Nat)
    (hm : op.soft_nms_method = SOFT_NMS_NONE ∨ op.soft_nms_method = SOFT_NMS_LINEAR ∨
      op.soft_nms_method = SOFT_NMS_GAUSSIAN) :
    ∃ res, compare_outcome lib op scale zp boxes num_classes class_idx p scores idx = .ok res := by
  unfold compare_outcome
  simp only
  by_cases hw : intersection_area (load_box boxes num_classes class_idx p)
      (load_box boxes num_classes class_idx idx)
    ≤ op.max_iou * union_area (load_box boxes num_classes class_idx p)
      (load_box boxes num_classes class_idx idx)
  · rw [if_pos hw]
    split_ifs <;> exact ⟨_, rfl⟩
  · rw [if_neg hw]
    by_cases hn : op.soft_nms_method = SOFT_NMS_NONE
    · rw [if_neg (not_not.mpr hn)]
      exact ⟨_, rfl⟩
    · rw [if_pos hn]
      by_cases hl : op.soft_nms_method = SOFT_NMS_LINEAR
      · rw [if_pos hl]
        simp only
        split_ifs <;> exact ⟨_, rfl⟩
      · rw [if_neg hl]
        by_cases hg : op.soft_nms_method = SOFT_NMS_GAUSSIAN
        · rw [if_pos hg]
          simp only
          split_ifs <;> exact ⟨_, rfl⟩
        · rcases hm with hm | hm | hm <;> contradiction

theorem compare_step_total (lib : Lib) (op : AABBRoINMSOp) (scale : ℚ) (zp : Int)
    (boxes : List Nat) (num_classes class_idx p : Nat) (pl : Pool) (idx : Nat)
    (hm : op.soft_nms_method = SOFT_NMS_NONE ∨ op.soft_nms_method = SOFT_NMS_LINEAR ∨
      op.soft_nms_method = SOFT_NMS_GAUSSIAN) :
    ∃ pl1, compare_step lib op scale zp boxes num_classes class_idx p pl idx = .ok pl1 := by
  obtain ⟨res, hres⟩ := compare_outcome_total lib op scale zp boxes num_classes class_idx p
    pl.scores idx hm
  unfold compare_step
  rw [hres]
  obtain ⟨o, tbl⟩ := res
  cases o with
  | none => exact ⟨_, rfl⟩
  | some v => exact ⟨_, rfl⟩

/-- The only message a comparison can throw. -/
theorem compare_step_error (lib : Lib) (op : AABBRoINMSOp) (scale : ℚ) (zp : Int)
    (boxes : List Nat) (num_classes class_idx p : Nat) (pl : Pool) (idx : Nat) (e : String)
    (h : compare_step lib op scale zp boxes num_classes class_idx p pl idx = .error e) :
    e = "Unknown soft nms method" ∧
      ¬ (op.soft_nms_method = SOFT_NMS_NONE ∨ op.soft_nms_method = SOFT_NMS_LINEAR ∨
        op.soft_nms_method = SOFT_NMS_GAUSSIAN) := by
  have hnot : ¬ (op.soft_nms_method = SOFT_NMS_NONE ∨ op.soft_nms_method = SOFT_NMS_LINEAR ∨
      op.soft_nms_method = SOFT_NMS_GAUSSIAN) := by
    intro hm
    obtain ⟨pl1, h1⟩ := compare_step_total lib op scale zp boxes num_classes class_idx p pl idx hm
    rw [h1] at h
    cases h
  refine ⟨?_, hnot⟩
  unfold compare_step at h
  cases ho : compare_outcome lib op scale zp boxes num_classes class_idx p pl.scores idx with
  | ok res =>
    rw [ho] at h
    obtain ⟨o, tbl⟩ := res
    cases o <;> cases h
  | error e1 =>
    rw [ho] at h
    simp only [Except.error.injEq] at h
    subst h
    unfold compare_outcome at ho
    simp only at ho
    by_cases hw : intersection_area (load_box boxes num_classes class_idx p)
        (load_box boxes num_classes class_idx idx)
      ≤ op.max_iou * union_area (load_box boxes num_classes class_idx p)
        (load_box boxes num_classes class_idx idx)
    · rw [if_pos hw] at ho
      split_ifs at ho
    · rw [if_neg hw] at ho
      by_cases hn : op.soft_nms_method = SOFT_NMS_NONE
      · rw [if_neg (not_not.mpr hn)] at ho
        cases ho
      · rw [if_pos hn] at ho
        by_cases hl : op.soft_nms_method = SOFT_NMS_LINEAR
        · exact absurd (Or.inr (Or.inl hl)) hnot
        · rw [if_neg hl] at ho
          by_cases hg : op.soft_nms_method = SOFT_NMS_GAUSSIAN
          · exact absurd (Or.inr (Or.inr hg)) hnot
          · rw [if_neg hg] at ho
            simp only [Except.error.injEq] at ho
            exact ho.symm

theorem nms_round_error (lib : Lib) (op : AABBRoINMSOp) (scale : ℚ) (zp : Int)
    (boxes : List Nat) (num_classes class_idx : Nat) (s : Selector) (e : String)
    (hm : op.soft_nms_method = SOFT_NMS_NONE ∨ op.soft_nms_method = SOFT_NMS_LINEAR ∨
      op.soft_nms_method = SOFT_NMS_GAUSSIAN)
    (h : nms_round lib op scale zp boxes num_classes class_idx s = .error e) :
    e = "DCHECK_GE(best_score_pos, 0)" ∨ e = "DCHECK_LT(best_score_pos, indices.size())" := by
  unfold nms_round at h
  by_cases h1 : s.pool.best_score_pos < 0
  · rw [if_pos h1] at h
    simp only [Except.error.injEq] at h
    exact Or.inl h.symm
  · rw [if_neg h1] at h
    by_cases h2 : s.pool.best_score_pos < (s.pool.indices.length : Int)
    · rw [if_neg (not_not.mpr h2)] at h
      simp only at h
      cases hf : forE (compare_step lib op scale zp boxes num_classes class_idx
          ((swap s.pool.indices 0 s.pool.best_score_pos.toNat).getD 0 0))
          ((swap s.pool.indices 0 s.pool.best_score_pos.toNat).drop 1)
          (Pool.init s.pool.scores) with
      | ok pl =>
        rw [hf] at h
        cases h
      | error e1 =>
        obtain ⟨u, a, _, hb⟩ := forE_error _ _ _ _ hf
        exact absurd hm (compare_step_error lib op scale zp boxes num_classes class_idx _ u a e1
          hb).2
    · rw [if_pos h2] at h
      simp only [Except.error.injEq] at h
      exact Or.inr h.symm

theorem nms_loop_error (lib : Lib) (op : AABBRoINMSOp) (scale : ℚ) (zp : Int)
    (boxes : List Nat) (num_classes class_idx cap rounds : Nat) (s : Selector) (e : String)
    (hm : op.soft_nms_method = SOFT_NMS_NONE ∨ op.soft_nms_method = SOFT_NMS_LINEAR ∨
      op.soft_nms_method = SOFT_NMS_GAUSSIAN)
    (h : nms_loop lib op scale zp boxes num_classes class_idx cap rounds s = .error e) :
    e = "DCHECK_GE(best_score_pos, 0)" ∨ e = "DCHECK_LT(best_score_pos, indices.size())" := by
  induction rounds generalizing s with
  | zero => simp [nms_loop] at h
  | succ n ih =>
    simp only [nms_loop] at h
    by_cases hc : s.pool.indices.length > 0 ∧ s.keep.length < cap
    · rw [if_pos hc] at h
      cases hr : nms_round lib op scale zp boxes num_classes class_idx s with
      | error e1 =>
        rw [hr] at h
        simp only [Except.error.injEq] at h
        subst h
        exact nms_round_error lib op scale zp boxes num_classes class_idx s e1 hm hr
      | ok s1 =>
        rw [hr] at h
        exact ih s1 h
    · rw [if_neg hc] at h
      cases h

theorem nms_class_error (lib : Lib) (op : AABBRoINMSOp) (scale : ℚ) (zp : Int)
    (boxes : List Nat) (num_classes num_boxes : Nat) (st : ImageState) (class_idx : Nat)
    (e : String)
    (hm : op.soft_nms_method = SOFT_NMS_NONE ∨ op.soft_nms_method = SOFT_NMS_LINEAR ∨
      op.soft_nms_method = SOFT_NMS_GAUSSIAN)
    (h : nms_class lib op scale zp boxes num_classes num_boxes st class_idx = .error e) :
    e = "DCHECK_GE(best_score_pos, 0)" ∨ e = "DCHECK_LT(best_score_pos, indices.size())" := by
  unfold nms_class at h
  simp only at h
  cases hl : nms_loop lib op scale zp boxes num_classes class_idx
      (max_post_nms_proposals op num_boxes)
      (scan op scale zp num_classes class_idx num_boxes st.scores).indices.length
      { pool := scan op scale zp num_classes class_idx num_boxes st.scores,
        keep := st.keeps.getD class_idx [] } with
  | ok s =>
    rw [hl] at h
    cases h
  | error e1 =>
    rw [hl] at h
    simp only [Except.error.injEq] at h
    subst h
    exact nms_loop_error lib op scale zp boxes num_classes class_idx _ _ _ e1 hm hl

theorem limit_objects_error (lib : Lib) (op : AABBRoINMSOp) (num_classes : Nat)
    (st : ImageState) (e : String) (h : limit_objects lib op num_classes st = .error e) :
    e = "DCHECK_GT(all_objects.size(), max_objects_)" ∨ e = "DCHECK_GT(all_objects.size(), i)" := by
  unfold limit_objects at h
  by_cases h1 : op.max_objects > 0 ∧ (st.total_keep_count : Int) > op.max_objects
  · rw [if_pos h1] at h
    simp only at h
    by_cases h2 : ((lib.sort (raw_key st.scores num_classes)
        (all_objects num_classes st.keeps)).length : Int) > op.max_objects
    · rw [if_neg (not_not.mpr h2)] at h
      cases hf : forE (rebuild_step (lib.sort (raw_key st.scores num_classes)
          (all_objects num_classes st.keeps))) (List.range op.max_objects.toNat)
          (st.keeps.map (fun _ => [])) with
      | ok K =>
        rw [hf] at h
        cases h
      | error e1 =>
        rw [hf] at h
        simp only [Except.error.injEq] at h
        subst h
        obtain ⟨u, a, _, hb⟩ := forE_error _ _ _ _ hf
        unfold rebuild_step at hb
        split_ifs at hb
        simp only [Except.error.injEq] at hb
        exact Or.inr hb.symm
    · rw [if_pos h2] at h
      simp only [Except.error.injEq] at h
      exact Or.inl h.symm
  · rw [if_neg h1] at h
    cases h

/-- The messages a call can fail with when the method is one of the three
values: a failed shape check or a failed `DCHECK`. -/
theorem run_error (lib : Lib) (op : AABBRoINMSOp) (input_batch_splits : Tensor)
    (input_scores : Int8TensorCPU) (input_boxes : Tensor) (e : String)
    (hm : op.soft_nms_method = SOFT_NMS_NONE ∨ op.soft_nms_method = SOFT_NMS_LINEAR ∨
      op.soft_nms_method = SOFT_NMS_GAUSSIAN)
    (h : RunOnDevice lib op input_batch_splits input_scores input_boxes = .error e) :
    check_shapes input_batch_splits input_scores input_boxes = .error e ∨
    e = "DCHECK_GE(best_score_pos, 0)" ∨ e = "DCHECK_LT(best_score_pos, indices.size())" ∨
    e = "DCHECK_GT(all_objects.size(), max_objects_)" ∨ e = "DCHECK_GT(all_objects.size(), i)" := by
  unfold RunOnDevice at h
  cases hs : check_shapes input_batch_splits input_scores input_boxes with
  | error e1 =>
    rw [hs] at h
    simp only [Except.error.injEq] at h
    exact Or.inl (by rw [h])
  | ok u =>
    rw [hs] at h
    simp only at h
    right
    cases hf : forE
        (process_image lib op input_scores.scale input_scores.zero_point input_boxes.data
          (input_scores.t.size 1))
        ((List.range (input_batch_splits.size 0)).map (fun b => input_batch_splits.data.getD b 0))
        { scores := input_scores.t.data, output_scores := [], output_boxes := [],
          output_classes := [], total_keep_per_batch := [] } with
    | ok bs =>
      rw [hf] at h
      cases h
    | error e1 =>
      rw [hf] at h
      simp only [Except.error.injEq] at h
      subst h
      obtain ⟨bs, nb, _, hp⟩ := forE_error _ _ _ _ hf
      unfold process_image at hp
      cases hc : forE (nms_class lib op input_scores.scale input_scores.zero_point
          input_boxes.data (input_scores.t.size 1) nb) (class_range (input_scores.t.size 1))
          { keeps := List.replicate (input_scores.t.size 1) [], total_keep_count := 0,
            scores := bs.scores } with
      | error e2 =>
        rw [hc] at hp
        simp only [Except.error.injEq] at hp
        subst hp
        obtain ⟨u1, c, _, hb⟩ := forE_error _ _ _ _ hc
        rcases nms_class_error lib op _ _ _ _ _ u1 c e2 hm hb with h1 | h1
        · exact Or.inl h1
        · exact Or.inr (Or.inl h1)
      | ok st =>
        rw [hc] at hp
        simp only at hp
        cases hl : limit_objects lib op (input_scores.t.size 1) st with
        | error e2 =>
          rw [hl] at hp
          simp only [Except.error.injEq] at hp
          subst hp
          rcases limit_objects_error lib op _ st e2 hl with h1 | h1
          · exact Or.inr (Or.inr (Or.inl h1))
          · exact Or.inr (Or.inr (Or.inr h1))
        | ok st1 =>
          rw [hl] at hp
          cases hp

theorem check_shapes_error (input_batch_splits : Tensor) (input_scores : Int8TensorCPU)
    (input_boxes : Tensor) (e : String)
    (h : check_shapes input_batch_splits input_scores input_boxes = .error e) :
    e ≠ "Unknown soft nms method" := by
  unfold check_shapes at h
  split_ifs at h <;> (simp only [Except.error.injEq] at h; subst h; decide)

theorem check_shapes_rows (input_batch_splits : Tensor) (input_scores : Int8TensorCPU)
    (input_boxes : Tensor)
    (h : check_shapes input_batch_splits input_scores input_boxes
      = .error "num_rois == boxes.size(0)") :
    input_scores.t.size 0 ≠ input_boxes.size 0 := by
  unfold check_shapes at h
  split_ifs at h <;> first
    | assumption
    | (simp only [Except.error.injEq] at h; exact absurd h (by decide))

theorem check_shapes_width (input_batch_splits : Tensor) (input_scores : Int8TensorCPU)
    (input_boxes : Tensor)
    (h : check_shapes input_batch_splits input_scores input_boxes
      = .error "num_classes * 4 == boxes.size(1)") :
    input_scores.t.size 1 * 4 ≠ input_boxes.size 1 := by
  unfold check_shapes at h
  split_ifs at h <;> first
    | assumption
    | (simp only [Except.error.injEq] at h; exact absurd h (by decide))


/-! ## When the operator returns -/

theorem forE_total {σ α : Type} (body : σ → α → Except String σ) (P : σ → Prop)
    (xs : List α) (hstep : ∀ a ∈ xs, ∀ u, P u → ∃ v, body u a = .ok v ∧ P v) :
    ∀ s, P s → ∃ t, forE body xs s = .ok t ∧ P t := by
  induction xs with
  | nil => intro s hs; exact ⟨s, rfl, hs⟩
  | cons a as ih =>
    intro s hs
    obtain ⟨v, hv, hPv⟩ := hstep a (List.mem_cons_self _ _) s hs
    obtain ⟨t, ht, hPt⟩ := ih (fun b hb u hu => hstep b (List.mem_cons_of_mem _ hb) u hu) v hPv
    refine ⟨t, ?_, hPt⟩
    simp only [forE, hv]
    exact ht

theorem compare_loop_total (lib : Lib) (op : AABBRoINMSOp) (scale : ℚ) (zp : Int)
    (boxes : List Nat) (num_classes class_idx p : Nat)
    (hm : op.soft_nms_method = SOFT_NMS_NONE ∨ op.soft_nms_method = SOFT_NMS_LINEAR ∨
      op.soft_nms_method = SOFT_NMS_GAUSSIAN) (xs : List Nat) (pl0 : Pool) :
    ∃ pl, forE (compare_step lib op scale zp boxes num_classes class_idx p) xs pl0 = .ok pl := by
  obtain ⟨t, ht, _⟩ := forE_total (compare_step lib op scale zp boxes num_classes class_idx p)
    (fun _ => True) xs
    (fun a _ u _ => by
      obtain ⟨v, hv⟩ := compare_step_total lib op scale zp boxes num_classes class_idx p u a hm
      exact ⟨v, hv, trivial⟩) pl0 trivial
  exact ⟨t, ht⟩

/-- A round whose two assertions hold returns. -/
theorem nms_round_total (lib : Lib) (op : AABBRoINMSOp) (scale : ℚ) (zp : Int)
    (boxes : List Nat) (num_classes class_idx : Nat) (s : Selector)
    (hm : op.soft_nms_method = SOFT_NMS_NONE ∨ op.soft_nms_method = SOFT_NMS_LINEAR ∨
      op.soft_nms_method = SOFT_NMS_GAUSSIAN)
    (h0 : 0 ≤ s.pool.best_score_pos)
    (h1 : s.pool.best_score_pos < (s.pool.indices.length : Int)) :
    ∃ s1, nms_round lib op scale zp boxes num_classes class_idx s = .ok s1 := by
  obtain ⟨pl, hpl⟩ := compare_loop_total lib op scale zp boxes num_classes class_idx
    ((swap s.pool.indices 0 s.pool.best_score_pos.toNat).getD 0 0) hm
    ((swap s.pool.indices 0 s.pool.best_score_pos.toNat).drop 1) (Pool.init s.pool.scores)
  refine ⟨{ pool := pl, keep := s.keep ++ [(swap s.pool.indices 0 s.pool.best_score_pos.toNat).getD 0 0] }, ?_⟩
  unfold nms_round
  rw [if_neg (not_lt.mpr h0), if_neg (not_not.mpr h1)]
  dsimp only
  rw [hpl]

/-- The selector loop returns when an invariant of its rounds implies the two
assertions on every non-empty pool. -/
theorem nms_loop_total (lib : Lib) (op : AABBRoINMSOp) (scale : ℚ) (zp : Int)
    (boxes : List Nat) (num_classes class_idx cap : Nat) (P : Selector → Prop)
    (hm : op.soft_nms_method = SOFT_NMS_NONE ∨ op.soft_nms_method = SOFT_NMS_LINEAR ∨
      op.soft_nms_method = SOFT_NMS_GAUSSIAN)
    (hsound : ∀ s, P s → s.pool.indices.length > 0 →
      0 ≤ s.pool.best_score_pos ∧ s.pool.best_score_pos < (s.pool.indices.length : Int))
    (hstep : ∀ s s1, P s → s.pool.indices.length > 0 →
      nms_round lib op scale zp boxes num_classes class_idx s = .ok s1 → P s1) :
    ∀ (rounds : Nat) (s : Selector), P s →
      ∃ t, nms_loop lib op scale zp boxes num_classes class_idx cap rounds s = .ok t ∧ P t := by
  intro rounds
  induction rounds with
  | zero => intro s hs; exact ⟨s, rfl, hs⟩
  | succ n ih =>
    intro s hs
    unfold nms_loop
    by_cases hc : s.pool.indices.length > 0 ∧ s.keep.length < cap
    · rw [if_pos hc]
      obtain ⟨a, b⟩ := hsound s hs hc.1
      obtain ⟨s1, h1⟩ := nms_round_total lib op scale zp boxes num_classes class_idx s hm a b
      rw [h1]
      exact ih s1 (hstep s s1 hs hc.1 h1)
    · rw [if_neg hc]
      exact ⟨s, rfl, hs⟩

/-- A pool built from pushes whose scores all exceed -1 satisfies the two
assertions of the selector loop unless it is empty. -/
theorem push_all_sound (tbl : List Nat) (es : List (ℚ × Nat)) (hes : ∀ e ∈ es, -1 < e.1)
    (hne : es ≠ []) :
    0 ≤ (push_all (Pool.init tbl) es).best_score_pos ∧
    (push_all (Pool.init tbl) es).best_score_pos
      < ((push_all (Pool.init tbl) es).indices.length : Int) := by
  rcases push_all_first_max tbl es with ⟨_, _, h3⟩ | ⟨j, hj, hp, _⟩
  · obtain ⟨e, he⟩ := List.exists_mem_of_ne_nil es hne
    have := h3 e he
    have := hes e he
    linarith
  · rw [hp, push_all_indices]
    simp only [Pool.init, List.nil_append, List.length_map]
    exact ⟨Int.natCast_nonneg j, by exact_mod_cast hj⟩

/-- In mode NONE the selector loop returns, and leaves the score table as it
was, when every candidate of the pool scores above -1. -/
theorem nms_loop_total_none (lib : Lib) (op : AABBRoINMSOp) (scale : ℚ) (zp : Int)
    (boxes : List Nat) (num_classes class_idx cap : Nat)
    (hmode : op.soft_nms_method = SOFT_NMS_NONE) (tbl : List Nat) (rounds : Nat) (s : Selector)
    (hs : ∃ xs : List Nat,
      s.pool = push_all (Pool.init tbl)
        (xs.map (fun i => (score_at scale zp tbl num_classes class_idx i, i))) ∧
      ∀ i ∈ xs, -1 < score_at scale zp tbl num_classes class_idx i) :
    ∃ t, nms_loop lib op scale zp boxes num_classes class_idx cap rounds s = .ok t ∧
      t.pool.scores = tbl := by
  obtain ⟨t, ht, xs, hp, _⟩ := nms_loop_total lib op scale zp boxes num_classes class_idx cap
    (fun s => ∃ xs : List Nat,
      s.pool = push_all (Pool.init tbl)
        (xs.map (fun i => (score_at scale zp tbl num_classes class_idx i, i))) ∧
      ∀ i ∈ xs, -1 < score_at scale zp tbl num_classes class_idx i)
    (Or.inl hmode)
    (by
      rintro s ⟨xs, hp, hx⟩ hlen
      rw [hp]
      refine push_all_sound tbl _ ?_ ?_
      · intro e he
        obtain ⟨i, hi, rfl⟩ := List.mem_map.mp he
        exact hx i hi
      · intro hnil
        rw [hp, push_all_indices, hnil] at hlen
        simp [Pool.init] at hlen)
    (by
      rintro s s1 ⟨xs, hp, hx⟩ hlen hr
      obtain ⟨r0, r1, _, r3⟩ := nms_round_explicit lib op scale zp boxes num_classes class_idx s s1 hr
      have hsc : s.pool.scores = tbl := by rw [hp, push_all_scores]; rfl
      have hidx : s.pool.indices = xs := by
        rw [hp, push_all_indices]
        simp [Pool.init, List.map_map, Function.comp_def]
      obtain ⟨ys, hsub, _, hn⟩ := compare_loop_sublist lib op scale zp boxes num_classes class_idx _
        _ _ _ r3
      have hs1 : s1.pool.scores = tbl := by rw [(hn hmode).2]; exact hsc
      have he := compare_loop_eq_push_all lib op scale zp boxes num_classes class_idx _ _ _ _ r3
      rw [entered_none lib op scale zp boxes num_classes class_idx _ _ _ hmode, hs1] at he
      have hinit : ({ Pool.init s.pool.scores with scores := tbl } : Pool) = Pool.init tbl := rfl
      rw [hinit] at he
      simp only [Pool.init] at he
      rw [hsc] at he
      refine ⟨_, he, ?_⟩
      intro i hi
      have h1 := (List.mem_filter.mp hi).1
      have h2 := List.mem_of_mem_drop h1
      have hpos : s.pool.best_score_pos.toNat < s.pool.indices.length := by
        have := Int.toNat_of_nonneg r0
        omega
      have h3 := (swap_zero_perm s.pool.indices _ hpos).1.subset h2
      rw [hidx] at h3
      exact hx i h3)
    rounds s hs
  refine ⟨t, ht, ?_⟩
  rw [hp, push_all_scores]
  rfl

/-- In mode NONE with `min_score >= -1` the body of the class loop returns
and leaves the score table as it was. -/
theorem nms_class_total_none (lib : Lib) (op : AABBRoINMSOp) (scale : ℚ) (zp : Int)
    (boxes : List Nat) (num_classes num_boxes : Nat) (st : ImageState) (class_idx : Nat)
    (hmode : op.soft_nms_method = SOFT_NMS_NONE) (hmin : -1 ≤ op.min_score) :
    ∃ v, nms_class lib op scale zp boxes num_classes num_boxes st class_idx = .ok v ∧
      v.scores = st.scores := by
  obtain ⟨t, ht, hsc⟩ := nms_loop_total_none lib op scale zp boxes num_classes class_idx
    (max_post_nms_proposals op num_boxes) hmode st.scores
    (scan op scale zp num_classes class_idx num_boxes st.scores).indices.length
    { pool := scan op scale zp num_classes class_idx num_boxes st.scores,
      keep := st.keeps.getD class_idx [] }
    ⟨_, scan_eq_push_all op scale zp num_classes class_idx num_boxes st.scores, by
      intro i hi
      have := of_decide_eq_true (List.mem_filter.mp hi).2
      linarith⟩
  refine ⟨{ keeps := st.keeps.set class_idx t.keep
            total_keep_count := st.total_keep_count + t.keep.length
            scores := t.pool.scores }, ?_, hsc⟩
  unfold nms_class
  dsimp only
  rw [ht]

/-- The global cap returns when `total_keep_count` is the number of kept pairs. -/
theorem limit_objects_total (lib : Lib) (op : AABBRoINMSOp) (num_classes : Nat)
    (st : ImageState) (htot : st.total_keep_count = (all_objects num_classes st.keeps).length) :
    ∃ st1, limit_objects lib op num_classes st = .ok st1 := by
  unfold limit_objects
  by_cases h1 : op.max_objects > 0 ∧ (st.total_keep_count : Int) > op.max_objects
  · rw [if_pos h1]
    dsimp only
    have hlen : (lib.sort (raw_key st.scores num_classes) (all_objects num_classes st.keeps)).length
        = st.total_keep_count := by
      rw [(lib.sort_perm _ _).length_eq, htot]
    have hgt : ((lib.sort (raw_key st.scores num_classes)
        (all_objects num_classes st.keeps)).length : Int) > op.max_objects := by
      rw [hlen]; exact h1.2
    rw [if_neg (not_not.mpr hgt)]
    obtain ⟨K, hK, _⟩ := forE_total
      (rebuild_step (lib.sort (raw_key st.scores num_classes) (all_objects num_classes st.keeps)))
      (fun _ => True) (List.range op.max_objects.toNat)
      (fun i hi u _ => by
        have hi1 := List.mem_range.mp hi
        have hi2 : (lib.sort (raw_key st.scores num_classes)
            (all_objects num_classes st.keeps)).length > i := by
          have := Int.toNat_of_nonneg (le_of_lt h1.1)
          omega
        unfold rebuild_step
        rw [if_neg (not_not.mpr hi2)]
        exact ⟨_, rfl, trivial⟩)
      (st.keeps.map (fun _ => [])) trivial
    rw [hK]
    exact ⟨_, rfl⟩
  · rw [if_neg h1]
    exact ⟨_, rfl⟩

/-- In mode NONE with `min_score >= -1` the body of the batch loop returns
and passes the score table on unchanged. -/
theorem process_image_total_none (lib : Lib) (op : AABBRoINMSOp) (scale : ℚ) (zp : Int)
    (boxes : List Nat) (num_classes : Nat) (bs : BatchState) (num_boxes : Nat)
    (hmode : op.soft_nms_method = SOFT_NMS_NONE) (hmin : -1 ≤ op.min_score) :
    ∃ bs1, process_image lib op scale zp boxes num_classes bs num_boxes = .ok bs1 ∧
      bs1.scores = bs.scores := by
  obtain ⟨st, hst, hsc⟩ := forE_total (nms_class lib op scale zp boxes num_classes num_boxes)
    (fun st => st.scores = bs.scores) (class_range num_classes)
    (fun c _ u hu => by
      obtain ⟨v, hv, hvs⟩ := nms_class_total_none lib op scale zp boxes num_classes num_boxes u c
        hmode hmin
      exact ⟨v, hv, hvs.trans hu⟩)
    { keeps := List.replicate num_classes [], total_keep_count := 0, scores := bs.scores } rfl
  obtain ⟨k1, k2, _, _⟩ := class_loop_init_spec lib op scale zp boxes num_classes num_boxes
    bs.scores st hst
  obtain ⟨st1, hl⟩ := limit_objects_total lib op num_classes st k2
  obtain ⟨l1, _⟩ := limit_objects_spec lib op num_classes st st1 k1 k2 hl
  unfold process_image
  rw [hst]
  dsimp only
  rw [hl]
  exact ⟨_, rfl, l1.trans hsc⟩

/-- In mode NONE with `min_score >= -1` the operator returns on every input
that passes the shape checks. -/
theorem run_total_none (lib : Lib) (op : AABBRoINMSOp) (input_batch_splits : Tensor)
    (input_scores : Int8TensorCPU) (input_boxes : Tensor)
    (hmode : op.soft_nms_method = SOFT_NMS_NONE) (hmin : -1 ≤ op.min_score)
    (hshape : check_shapes input_batch_splits input_scores input_boxes = .ok ()) :
    ∃ out, RunOnDevice lib op input_batch_splits input_scores input_boxes = .ok out := by
  obtain ⟨bs, hbs, _⟩ := forE_total
    (process_image lib op input_scores.scale input_scores.zero_point input_boxes.data
      (input_scores.t.size 1))
    (fun _ => True)
    ((List.range (input_batch_splits.size 0)).map (fun b => input_batch_splits.data.getD b 0))
    (fun nb _ u _ => by
      obtain ⟨v, hv, _⟩ := process_image_total_none lib op input_scores.scale
        input_scores.zero_point input_boxes.data (input_scores.t.size 1) u nb hmode hmin
      exact ⟨v, hv, trivial⟩)
    { scores := input_scores.t.data, output_scores := [], output_boxes := [],
      output_classes := [], total_keep_per_batch := [] } trivial
  unfold RunOnDevice
  rw [hshape]
  dsimp only
  rw [hbs]
  exact ⟨_, rfl⟩


/-! ## Two RoIs with the same box -/

/-- The admission scan of an image of two RoIs that both score above
`min_score`: both are candidates, and the best position is that of the RoI
`hi` with the higher score when that score exceeds -1. -/
theorem pair_scan (op : AABBRoINMSOp) (scale : ℚ) (zp : Int) (num_classes class_idx : Nat)
    (tbl : List Nat) (hi lo : Nat) (hpair : (hi = 0 ∧ lo = 1) ∨ (hi = 1 ∧ lo = 0))
    (hlo : op.min_score < score_at scale zp tbl num_classes class_idx lo)
    (hhi : score_at scale zp tbl num_classes class_idx lo
      < score_at scale zp tbl num_classes class_idx hi)
    (hgt : -1 < score_at scale zp tbl num_classes class_idx hi) :
    (scan op scale zp num_classes class_idx 2 tbl).indices = [0, 1] ∧
    (scan op scale zp num_classes class_idx 2 tbl).best_score_pos = (hi : Int) ∧
    (scan op scale zp num_classes class_idx 2 tbl).scores = tbl := by
  have h0 : score_at scale zp tbl num_classes class_idx 0 > op.min_score := by
    rcases hpair with ⟨rfl, rfl⟩ | ⟨rfl, rfl⟩
    · exact lt_trans hlo hhi
    · exact hlo
  have h1 : score_at scale zp tbl num_classes class_idx 1 > op.min_score := by
    rcases hpair with ⟨rfl, rfl⟩ | ⟨rfl, rfl⟩
    · exact hlo
    · exact lt_trans hlo hhi
  have hr : List.range 2 = [0, 1] := rfl
  have hs : scan op scale zp num_classes class_idx 2 tbl
      = ((Pool.init tbl).push (score_at scale zp tbl num_classes class_idx 0) 0).push
          (score_at scale zp tbl num_classes class_idx 1) 1 := by
    unfold scan
    rw [hr]
    simp only [List.foldl_cons, List.foldl_nil]
    have e0 : scan_step op scale zp num_classes class_idx (Pool.init tbl) 0
        = (Pool.init tbl).push (score_at scale zp tbl num_classes class_idx 0) 0 := by
      unfold scan_step
      exact if_pos h0
    rw [e0]
    unfold scan_step
    exact if_pos h1
  rw [hs]
  refine ⟨rfl, ?_, rfl⟩
  simp only [Pool.push, Pool.init]
  rcases hpair with ⟨rfl, rfl⟩ | ⟨rfl, rfl⟩
  · rw [if_pos hgt, if_pos hgt, if_neg (not_lt.mpr (le_of_lt hhi))]
    rfl
  · by_cases ha : score_at scale zp tbl num_classes class_idx 0 > -1
    · rw [if_pos ha, if_pos ha, if_pos hhi]
      rfl
    · rw [if_neg ha, if_neg ha, if_pos hgt]
      rfl

/-- The first round of the selector on an image of two candidates emits the
RoI `hi` and compares the other one against it. -/
theorem pair_round (lib : Lib) (op : AABBRoINMSOp) (scale : ℚ) (zp : Int) (boxes : List Nat)
    (num_classes class_idx : Nat) (tbl : List Nat) (hi lo : Nat)
    (hpair : (hi = 0 ∧ lo = 1) ∨ (hi = 1 ∧ lo = 0))
    (hlo : op.min_score < score_at scale zp tbl num_classes class_idx lo)
    (hhi : score_at scale zp tbl num_classes class_idx lo
      < score_at scale zp tbl num_classes class_idx hi)
    (hgt : -1 < score_at scale zp tbl num_classes class_idx hi) (s1 : Selector)
    (h : nms_round lib op scale zp boxes num_classes class_idx
      { pool := scan op scale zp num_classes class_idx 2 tbl, keep := [] } = .ok s1) :
    s1.keep = [hi] ∧
    compare_step lib op scale zp boxes num_classes class_idx hi (Pool.init tbl) lo = .ok s1.pool := by
  obtain ⟨e1, e2, e3⟩ := pair_scan op scale zp num_classes class_idx tbl hi lo hpair hlo hhi hgt
  obtain ⟨_, _, r2, r3⟩ := nms_round_explicit lib op scale zp boxes num_classes class_idx _ _ h
  dsimp only at r2 r3
  rw [e1, e2] at r2 r3
  rw [e3] at r3
  rcases hpair with ⟨rfl, rfl⟩ | ⟨rfl, rfl⟩
  · have hd : (swap [0, 1] 0 ((0 : Nat) : Int).toNat).drop 1 = [1] := by decide
    have hg : ([0, 1] : List Nat).getD ((0 : Nat) : Int).toNat 0 = 0 := by decide
    rw [hd, hg] at r3
    rw [hg] at r2
    refine ⟨r2, ?_⟩
    simp only [forE] at r3
    cases hc : compare_step lib op scale zp boxes num_classes class_idx 0 (Pool.init tbl) 1 with
    | error e => rw [hc] at r3; cases r3
    | ok pl =>
      rw [hc] at r3
      simp only [Except.ok.injEq] at r3
      rw [r3]
  · have hd : (swap [0, 1] 0 ((1 : Nat) : Int).toNat).drop 1 = [0] := by decide
    have hg : ([0, 1] : List Nat).getD ((1 : Nat) : Int).toNat 0 = 1 := by decide
    rw [hd, hg] at r3
    rw [hg] at r2
    refine ⟨r2, ?_⟩
    simp only [forE] at r3
    cases hc : compare_step lib op scale zp boxes num_classes class_idx 1 (Pool.init tbl) 0 with
    | error e => rw [hc] at r3; cases r3
    | ok pl =>
      rw [hc] at r3
      simp only [Except.ok.injEq] at r3
      rw [r3]

/-- The selector loop on an image of two candidates: the RoI `hi` is emitted,
the other one is compared against it, and a second round is run when the
comparison keeps it and the cap allows a second emission. -/
theorem pair_loop (lib : Lib) (op : AABBRoINMSOp) (scale : ℚ) (zp : Int) (boxes : List Nat)
    (num_classes class_idx : Nat) (tbl : List Nat) (hi lo : Nat)
    (hpair : (hi = 0 ∧ lo = 1) ∨ (hi = 1 ∧ lo = 0))
    (hlo : op.min_score < score_at scale zp tbl num_classes class_idx lo)
    (hhi : score_at scale zp tbl num_classes class_idx lo
      < score_at scale zp tbl num_classes class_idx hi)
    (hgt : -1 < score_at scale zp tbl num_classes class_idx hi)
    (cap : Nat) (hcap : 0 < cap) (s : Selector)
    (h : nms_loop lib op scale zp boxes num_classes class_idx cap
      (scan op scale zp num_classes class_idx 2 tbl).indices.length
      { pool := scan op scale zp num_classes class_idx 2 tbl, keep := [] } = .ok s) :
    ∃ pl, compare_step lib op scale zp boxes num_classes class_idx hi (Pool.init tbl) lo = .ok pl ∧
      ((¬ (pl.indices.length > 0 ∧ 1 < cap) ∧ s = { pool := pl, keep := [hi] }) ∨
       (pl.indices.length > 0 ∧ 1 < cap ∧
         nms_round lib op scale zp boxes num_classes class_idx { pool := pl, keep := [hi] }
           = .ok s)) := by
  obtain ⟨e1, _, _⟩ := pair_scan op scale zp num_classes class_idx tbl hi lo hpair hlo hhi hgt
  have hlen : (scan op scale zp num_classes class_idx 2 tbl).indices.length = 1 + 1 := by
    rw [e1]; rfl
  rw [hlen] at h
  rw [nms_loop] at h
  have hc : ({ pool := scan op scale zp num_classes class_idx 2 tbl, keep := [] } :
      Selector).pool.indices.length > 0 ∧
      ({ pool := scan op scale zp num_classes class_idx 2 tbl, keep := [] } :
      Selector).keep.length < cap := by
    refine ⟨?_, hcap⟩
    show (scan op scale zp num_classes class_idx 2 tbl).indices.length > 0
    omega
  rw [if_pos hc] at h
  cases hr : nms_round lib op scale zp boxes num_classes class_idx
      { pool := scan op scale zp num_classes class_idx 2 tbl, keep := [] } with
  | error e => rw [hr] at h; cases h
  | ok s1 =>
    rw [hr] at h
    dsimp only at h
    obtain ⟨k1, k2⟩ := pair_round lib op scale zp boxes num_classes class_idx tbl hi lo hpair hlo
      hhi hgt s1 hr
    have hs1 : s1 = { pool := s1.pool, keep := [hi] } := by
      cases s1
      simp only at k1
      rw [k1]
    refine ⟨s1.pool, k2, ?_⟩
    rw [nms_loop] at h
    by_cases hc2 : s1.pool.indices.length > 0 ∧ s1.keep.length < cap
    · rw [if_pos hc2] at h
      right
      refine ⟨hc2.1, by rw [k1] at hc2; exact hc2.2, ?_⟩
      rw [← hs1]
      cases hr2 : nms_round lib op scale zp boxes num_classes class_idx s1 with
      | error e => rw [hr2] at h; cases h
      | ok s2 =>
        rw [hr2] at h
        dsimp only at h
        rw [nms_loop] at h
        exact h
    · rw [if_neg hc2] at h
      left
      simp only [Except.ok.injEq] at h
      refine ⟨by rw [k1] at hc2; exact hc2, ?_⟩
      rw [← h]
      exact hs1

/-- Two RoIs with the same box of positive width and height overlap by more
than any `max_iou` below 1. -/
theorem same_box_overlap (op : AABBRoINMSOp) (boxes : List Nat) (num_classes class_idx p i : Nat)
    (hbox : load_box boxes num_classes class_idx p = load_box boxes num_classes class_idx i)
    (hx : (load_box boxes num_classes class_idx p).x1 < (load_box boxes num_classes class_idx p).x2)
    (hy : (load_box boxes num_classes class_idx p).y1 < (load_box boxes num_classes class_idx p).y2)
    (hiou : op.max_iou < 1) :
    intersection_area (load_box boxes num_classes class_idx p)
        (load_box boxes num_classes class_idx i)
      = (load_box boxes num_classes class_idx p).area ∧
    union_area (load_box boxes num_classes class_idx p) (load_box boxes num_classes class_idx i)
      = (load_box boxes num_classes class_idx p).area ∧
    0 < (load_box boxes num_classes class_idx p).area ∧
    ¬ within_iou op boxes num_classes class_idx p i := by
  have hi : intersection_area (load_box boxes num_classes class_idx p)
      (load_box boxes num_classes class_idx i) = (load_box boxes num_classes class_idx p).area := by
    rw [← hbox]
    unfold intersection_area Box.area
    simp only [max_self, min_self]
    rw [max_eq_left (by linarith), max_eq_left (by linarith)]
  have hu : union_area (load_box boxes num_classes class_idx p)
      (load_box boxes num_classes class_idx i) = (load_box boxes num_classes class_idx p).area := by
    unfold union_area
    rw [hi, ← hbox]
    ring
  have ha : 0 < (load_box boxes num_classes class_idx p).area := by
    unfold Box.area
    exact mul_pos (by linarith) (by linarith)
  refine ⟨hi, hu, ha, ?_⟩
  unfold within_iou
  rw [hi, hu]
  intro hle
  nlinarith

/-- In mode NONE the selector keeps exactly the higher-scored of two
overlapping candidates. -/
theorem pair_keep_none (lib : Lib) (op : AABBRoINMSOp) (scale : ℚ) (zp : Int) (boxes : List Nat)
    (num_classes class_idx : Nat) (tbl : List Nat) (hi lo : Nat)
    (hmode : op.soft_nms_method = SOFT_NMS_NONE)
    (hpair : (hi = 0 ∧ lo = 1) ∨ (hi = 1 ∧ lo = 0))
    (hlo : op.min_score < score_at scale zp tbl num_classes class_idx lo)
    (hhi : score_at scale zp tbl num_classes class_idx lo
      < score_at scale zp tbl num_classes class_idx hi)
    (hgt : -1 < score_at scale zp tbl num_classes class_idx hi)
    (hover : ¬ within_iou op boxes num_classes class_idx hi lo) (s : Selector)
    (h : nms_loop lib op scale zp boxes num_classes class_idx (max_post_nms_proposals op 2)
      (scan op scale zp num_classes class_idx 2 tbl).indices.length
      { pool := scan op scale zp num_classes class_idx 2 tbl, keep := [] } = .ok s) :
    s.keep = [hi] := by
  have hcap : 0 < max_post_nms_proposals op 2 := by
    unfold max_post_nms_proposals
    split_ifs with hm
    · have := Int.toNat_of_nonneg (le_of_lt hm)
      omega
    · decide
  obtain ⟨pl, hpl, hcase⟩ := pair_loop lib op scale zp boxes num_classes class_idx tbl hi lo hpair
    hlo hhi hgt _ hcap s h
  have hinit : pl = Pool.init tbl := by
    unfold compare_step at hpl
    rw [compare_outcome_none lib op scale zp boxes num_classes class_idx hi _ lo hmode,
      if_neg hover] at hpl
    simp only [Except.ok.injEq] at hpl
    rw [← hpl]
  rcases hcase with ⟨_, hs⟩ | ⟨hlen, _, _⟩
  · rw [hs]
  · rw [hinit] at hlen
    simp [Pool.init] at hlen

/-- The keep-list of a class after the global cap has no duplicates and holds
only RoIs that the selector of the class kept. -/
theorem final_keep_facts (lib : Lib) (op : AABBRoINMSOp) (scale : ℚ) (zp : Int)
    (boxes : List Nat) (num_classes : Nat) (r : ImageRun)
    (hv : r.valid lib op scale zp boxes num_classes) (c : Nat)
    (hc : c ∈ class_range num_classes) :
    (r.final.keeps.getD c []).Nodup ∧
    (∀ x ∈ r.final.keeps.getD c [], x ∈ r.selected.keeps.getD c []) ∧
    ((r.detections num_classes).filter (fun o => o.1 = c)).map Prod.snd
      = r.final.keeps.getD c [] := by
  obtain ⟨hnd, hsub⟩ := final_detections_facts lib op scale zp boxes num_classes r hv
  have hf : ((r.detections num_classes).filter (fun o => o.1 = c)).map Prod.snd
      = r.final.keeps.getD c [] := by
    unfold ImageRun.detections
    rw [all_objects_eq]
    exact objects_of_filter_class _ _ (class_range_nodup _) c hc
  refine ⟨?_, ?_, hf⟩
  · rw [← hf]
    refine List.Nodup.map_on ?_ (hnd.filter _)
    intro a ha b hb hab
    have h1 := of_decide_eq_true (List.mem_filter.mp ha).2
    have h2 := of_decide_eq_true (List.mem_filter.mp hb).2
    exact Prod.ext (h1.trans h2.symm) hab
  · intro x hx
    have hm : (c, x) ∈ r.detections num_classes :=
      (detections_mem num_classes r (c, x)).mpr ⟨(class_range_mem _ _).mp hc, hx⟩
    have := hsub _ hm
    rw [all_objects_eq, objects_of_mem] at this
    exact this.2

/-- A duplicate-free list whose entries all equal `a` is `[a]` or empty. -/
theorem nodup_all_eq {α : Type} (l : List α) (a : α) (hnd : l.Nodup) (h : ∀ x ∈ l, x = a) :
    l = [a] ∨ l = [] := by
  match l, hnd, h with
  | [], _, _ => exact Or.inr rfl
  | [x], _, h => exact Or.inl (by rw [h x (List.mem_singleton.mpr rfl)])
  | x :: y :: t, hnd, h =>
    exfalso
    have hx := h x (List.mem_cons_self _ _)
    have hy := h y (List.mem_cons_of_mem _ (List.mem_cons_self _ _))
    rw [hx, hy] at hnd
    simp at hnd

/-- Mode LINEAR on two RoIs with the same box of positive width and height:
the candidate is rescored to 0, the value is stored, and the candidate is
pushed with score 0 when `soft_nms_min_score <= 0`. -/
theorem same_box_linear_outcome (lib : Lib) (op : AABBRoINMSOp) (scale : ℚ) (zp : Int)
    (boxes : List Nat) (num_classes class_idx p idx : Nat) (scores : List Nat)
    (hmode : op.soft_nms_method = SOFT_NMS_LINEAR) (hsoft : op.soft_nms_min_score ≤ 0)
    (hbox : load_box boxes num_classes class_idx p = load_box boxes num_classes class_idx idx)
    (hx : (load_box boxes num_classes class_idx p).x1 < (load_box boxes num_classes class_idx p).x2)
    (hy : (load_box boxes num_classes class_idx p).y1 < (load_box boxes num_classes class_idx p).y2)
    (hiou : op.max_iou < 1) :
    compare_outcome lib op scale zp boxes num_classes class_idx p scores idx
      = .ok (some 0, store_score lib scale zp num_classes class_idx idx 0 scores) := by
  obtain ⟨hi, hu, ha, hw⟩ := same_box_overlap op boxes num_classes class_idx p idx hbox hx hy hiou
  unfold within_iou at hw
  unfold compare_outcome
  dsimp only
  have hn : op.soft_nms_method ≠ SOFT_NMS_NONE := by rw [hmode]; decide
  rw [if_neg hw, if_pos hn, if_pos hmode]
  dsimp only
  rw [hi, hu, div_self (ne_of_gt ha), sub_self, mul_zero, if_pos hsoft]

/-- In mode LINEAR with `soft_nms_min_score <= 0` the selector keeps both of
two candidates with the same box, the higher-scored one first, unless the
cap allows one emission only. -/
theorem pair_keep_linear (lib : Lib) (op : AABBRoINMSOp) (scale : ℚ) (zp : Int) (boxes : List Nat)
    (num_classes class_idx : Nat) (tbl : List Nat) (hi lo : Nat)
    (hmode : op.soft_nms_method = SOFT_NMS_LINEAR) (hsoft : op.soft_nms_min_score ≤ 0)
    (hpair : (hi = 0 ∧ lo = 1) ∨ (hi = 1 ∧ lo = 0))
    (hlo : op.min_score < score_at scale zp tbl num_classes class_idx lo)
    (hhi : score_at scale zp tbl num_classes class_idx lo
      < score_at scale zp tbl num_classes class_idx hi)
    (hgt : -1 < score_at scale zp tbl num_classes class_idx hi)
    (hbox : load_box boxes num_classes class_idx hi = load_box boxes num_classes class_idx lo)
    (hx : (load_box boxes num_classes class_idx hi).x1
      < (load_box boxes num_classes class_idx hi).x2)
    (hy : (load_box boxes num_classes class_idx hi).y1
      < (load_box boxes num_classes class_idx hi).y2)
    (hiou : op.max_iou < 1) (s : Selector)
    (h : nms_loop lib op scale zp boxes num_classes class_idx (max_post_nms_proposals op 2)
      (scan op scale zp num_classes class_idx 2 tbl).indices.length
      { pool := scan op scale zp num_classes class_idx 2 tbl, keep := [] } = .ok s) :
    s.keep = if op.max_objects = 1 then [hi] else [hi, lo] := by
  have hcap : 0 < max_post_nms_proposals op 2 := by
    unfold max_post_nms_proposals
    split_ifs with hm
    · have := Int.toNat_of_nonneg (le_of_lt hm)
      omega
    · decide
  have hcap1 : 1 < max_post_nms_proposals op 2 ↔ op.max_objects ≠ 1 := by
    unfold max_post_nms_proposals
    split_ifs with hm
    · have := Int.toNat_of_nonneg (le_of_lt hm)
      omega
    · constructor
      · intro _ h1
        rw [h1] at hm
        exact hm (by decide)
      · intro _
        decide
  obtain ⟨pl, hpl, hcase⟩ := pair_loop lib op scale zp boxes num_classes class_idx tbl hi lo hpair
    hlo hhi hgt _ hcap s h
  have hpool : pl = ({ Pool.init tbl with
      scores := store_score lib scale zp num_classes class_idx lo 0 tbl } : Pool).push 0 lo := by
    unfold compare_step at hpl
    rw [same_box_linear_outcome lib op scale zp boxes num_classes class_idx hi lo _ hmode hsoft hbox
      hx hy hiou] at hpl
    simp only [Except.ok.injEq] at hpl
    rw [← hpl]
    rfl
  have hidx : pl.indices = [lo] := by rw [hpool]; rfl
  have hposv : pl.best_score_pos = 0 := by
    rw [hpool]
    simp only [Pool.push, Pool.init]
    rw [if_pos (by norm_num)]
    rfl
  rcases hcase with ⟨hno, hs⟩ | ⟨_, hc1, hr⟩
  · have hm1 : op.max_objects = 1 := by
      by_contra hne
      exact hno ⟨by rw [hidx]; exact Nat.zero_lt_one, hcap1.mpr hne⟩
    rw [if_pos hm1, hs]
  · have hne := hcap1.mp hc1
    rw [if_neg hne]
    obtain ⟨_, _, r2, _⟩ := nms_round_explicit lib op scale zp boxes num_classes class_idx _ _ hr
    dsimp only at r2
    rw [r2, hidx, hposv]
    rfl


/-! ## Which table entries a class pass writes -/

/-- A comparison leaves the score table as it is or stores one value at the
entry of the candidate. -/
theorem compare_outcome_table (lib : Lib) (op : AABBRoINMSOp) (scale : ℚ) (zp : Int)
    (boxes : List Nat) (num_classes class_idx p : Nat) (scores : List Nat) (idx : Nat)
    (res : Option ℚ × List Nat)
    (h : compare_outcome lib op scale zp boxes num_classes class_idx p scores idx = .ok res) :
    res.2 = scores ∨
      ∃ v, res.2 = store_score lib scale zp num_classes class_idx idx v scores := by
  unfold compare_outcome at h
  dsimp only at h
  by_cases hw : intersection_area (load_box boxes num_classes class_idx p)
      (load_box boxes num_classes class_idx idx)
      ≤ op.max_iou * union_area (load_box boxes num_classes class_idx p)
        (load_box boxes num_classes class_idx idx)
  · rw [if_pos hw] at h
    by_cases hg : op.soft_nms_method = SOFT_NMS_GAUSSIAN
    · rw [if_pos hg] at h
      simp only [Except.ok.injEq] at h
      exact Or.inr ⟨_, by rw [← h]⟩
    · rw [if_neg hg] at h
      simp only [Except.ok.injEq] at h
      exact Or.inl (by rw [← h])
  · rw [if_neg hw] at h
    by_cases hn : op.soft_nms_method ≠ SOFT_NMS_NONE
    · rw [if_pos hn] at h
      by_cases hl : op.soft_nms_method = SOFT_NMS_LINEAR
      · rw [if_pos hl] at h
        simp only at h
        split_ifs at h
        · simp only [Except.ok.injEq] at h
          exact Or.inr ⟨_, by rw [← h]⟩
        · simp only [Except.ok.injEq] at h
          exact Or.inr ⟨_, by rw [← h]⟩
      · rw [if_neg hl] at h
        by_cases hg : op.soft_nms_method = SOFT_NMS_GAUSSIAN
        · rw [if_pos hg] at h
          simp only at h
          split_ifs at h
          · simp only [Except.ok.injEq] at h
            exact Or.inr ⟨_, by rw [← h]⟩
          · simp only [Except.ok.injEq] at h
            exact Or.inr ⟨_, by rw [← h]⟩
        · rw [if_neg hg] at h
          simp only at h
          cases h
    · rw [if_neg hn] at h
      simp only [Except.ok.injEq] at h
      exact Or.inl (by rw [← h])

theorem column_eq_refl (num_classes c : Nat) (t : List Nat) : column_eq num_classes c t t :=
  fun _ => rfl

theorem column_eq_trans (num_classes c : Nat) (t1 t2 t3 : List Nat)
    (h12 : column_eq num_classes c t1 t2) (h23 : column_eq num_classes c t2 t3) :
    column_eq num_classes c t1 t3 :=
  fun idx => (h12 idx).trans (h23 idx)

/-- Scores of class `c` read from tables that agree on the entries of class `c`. -/
theorem score_at_column (scale : ℚ) (zp : Int) (num_classes c : Nat) (t1 t2 : List Nat)
    (h : column_eq num_classes c t1 t2) (i : Nat) :
    score_at scale zp t1 num_classes c i = score_at scale zp t2 num_classes c i := by
  unfold score_at
  rw [h i]

/-- A store for class `a` leaves the entries of every other class as they are. -/
theorem store_other_column (lib : Lib) (scale : ℚ) (zp : Int) (num_classes a c idx : Nat)
    (v : ℚ) (scores : List Nat) (ha : a < num_classes) (hc : c < num_classes) (hac : a ≠ c) :
    column_eq num_classes c (store_score lib scale zp num_classes a idx v scores) scores := by
  intro j
  unfold store_score
  rw [getD_set_list, if_neg]
  rintro ⟨heq, _⟩
  have h1 : (idx * num_classes + a) % num_classes = a := by
    rw [Nat.add_comm, Nat.add_mul_mod_self_right, Nat.mod_eq_of_lt ha]
  have h2 : (j * num_classes + c) % num_classes = c := by
    rw [Nat.add_comm, Nat.add_mul_mod_self_right, Nat.mod_eq_of_lt hc]
  rw [heq, h2] at h1
  exact hac h1.symm

/-- The selector of class `a` leaves the entries of every other class as they are. -/
theorem nms_loop_columns (lib : Lib) (op : AABBRoINMSOp) (scale : ℚ) (zp : Int)
    (boxes : List Nat) (num_classes a c cap rounds : Nat) (s t : Selector)
    (ha : a < num_classes) (hc : c < num_classes) (hac : a ≠ c)
    (h : nms_loop lib op scale zp boxes num_classes a cap rounds s = .ok t) :
    column_eq num_classes c t.pool.scores s.pool.scores := by
  refine nms_loop_invariant lib op scale zp boxes num_classes a cap
    (fun u => column_eq num_classes c u.pool.scores s.pool.scores) ?_ rounds s t
    (column_eq_refl _ _ _) h
  intro u u1 hu _ _ hr
  obtain ⟨_, _, _, r3⟩ := nms_round_explicit lib op scale zp boxes num_classes a u u1 hr
  refine forE_invariant _ (fun pl => column_eq num_classes c pl.scores s.pool.scores) _ _ _ hu ?_ r3
  intro idx _ pl pl1 hpl hstep
  obtain ⟨res, hres, hcase⟩ := compare_step_outcome lib op scale zp boxes num_classes a _ pl pl1
    idx hstep
  have hsc : pl1.scores = res.2 := by
    rcases hcase with ⟨_, rfl⟩ | ⟨score, _, rfl⟩
    · rfl
    · rfl
  rw [hsc]
  rcases compare_outcome_table lib op scale zp boxes num_classes a _ pl.scores idx res hres with
    h1 | ⟨v, h1⟩
  · rw [h1]; exact hpl
  · rw [h1]
    exact column_eq_trans _ _ _ _ _ (store_other_column lib scale zp num_classes a c idx v _ ha hc hac)
      hpl

/-- The pass of class `a` leaves the entries of every other class as they are. -/
theorem nms_class_columns (lib : Lib) (op : AABBRoINMSOp) (scale : ℚ) (zp : Int)
    (boxes : List Nat) (num_classes num_boxes a c : Nat) (st v : ImageState)
    (ha : a < num_classes) (hc : c < num_classes) (hac : a ≠ c)
    (h : nms_class lib op scale zp boxes num_classes num_boxes st a = .ok v) :
    column_eq num_classes c v.scores st.scores := by
  obtain ⟨s, hloop, _, _, hs⟩ := nms_class_spec lib op scale zp boxes num_classes num_boxes st v a h
  have := nms_loop_columns lib op scale zp boxes num_classes a c _ _ _ _ ha hc hac hloop
  rw [hs]
  dsimp only at this
  rw [scan_scores] at this
  exact this

/-- The class loop, class by class: the pass of class `c` starts from a table
that agrees with the initial one on the entries of class `c`, and the table
after the loop agrees on these entries with the table the pass left. -/
theorem class_loop_columns (lib : Lib) (op : AABBRoINMSOp) (scale : ℚ) (zp : Int)
    (boxes : List Nat) (num_classes num_boxes : Nat) (cs : List Nat) (st0 st : ImageState)
    (hnd : cs.Nodup) (hlt : ∀ c ∈ cs, c < st0.keeps.length) (hnc : ∀ c ∈ cs, c < num_classes)
    (hemp : ∀ c ∈ cs, st0.keeps.getD c [] = [])
    (h : forE (nms_class lib op scale zp boxes num_classes num_boxes) cs st0 = .ok st) :
    ∀ c ∈ cs, ∃ tbl s,
      column_eq num_classes c tbl st0.scores ∧
      nms_loop lib op scale zp boxes num_classes c (max_post_nms_proposals op num_boxes)
        (scan op scale zp num_classes c num_boxes tbl).indices.length
        { pool := scan op scale zp num_classes c num_boxes tbl, keep := [] } = .ok s ∧
      st.keeps.getD c [] = s.keep ∧
      column_eq num_classes c st.scores s.pool.scores := by
  have key := forE_prefix (nms_class lib op scale zp boxes num_classes num_boxes)
    (fun pre u =>
      u.keeps.length = st0.keeps.length ∧
      (∀ c, c ∉ pre → u.keeps.getD c [] = st0.keeps.getD c []) ∧
      (∀ c ∈ cs, c ∉ pre → column_eq num_classes c u.scores st0.scores) ∧
      (∀ c ∈ pre, ∃ tbl s,
        column_eq num_classes c tbl st0.scores ∧
        nms_loop lib op scale zp boxes num_classes c (max_post_nms_proposals op num_boxes)
          (scan op scale zp num_classes c num_boxes tbl).indices.length
          { pool := scan op scale zp num_classes c num_boxes tbl, keep := [] } = .ok s ∧
        u.keeps.getD c [] = s.keep ∧
        column_eq num_classes c u.scores s.pool.scores))
    cs st0 st ?_ ?_ h
  · exact key.2.2.2
  · exact ⟨rfl, fun _ _ => rfl, fun _ _ _ => column_eq_refl _ _ _, by simp⟩
  · intro pre a q hcs u v ⟨hlen, hout, hcol, hin⟩ hb
    have ha_mem : a ∈ cs := by rw [← hcs]; simp
    have hnd1 : (pre ++ a :: q).Nodup := by rw [hcs]; exact hnd
    have ha_pre : a ∉ pre := by
      intro hmem
      have := (List.nodup_append.mp hnd1).2.2
      exact this hmem (List.mem_cons_self _ _)
    obtain ⟨s, hloop, hk, _, hs⟩ :=
      nms_class_spec lib op scale zp boxes num_classes num_boxes u v a hb
    have hstart : u.keeps.getD a [] = [] := by rw [hout a ha_pre]; exact hemp a ha_mem
    rw [hstart] at hloop
    have ha_lt : a < u.keeps.length := by rw [hlen]; exact hlt a ha_mem
    have hget : ∀ c, v.keeps.getD c [] = if a = c then s.keep else u.keeps.getD c [] := by
      intro c
      rw [hk, getD_set_list]
      by_cases hac : a = c
      · subst hac
        rw [if_pos ⟨rfl, ha_lt⟩, if_pos rfl]
      · rw [if_neg (fun hh => hac hh.1), if_neg hac]
    refine ⟨by rw [hk, List.length_set, hlen], ?_, ?_, ?_⟩
    · intro c hc
      have hca : a ≠ c := fun hac => hc (by rw [← hac]; simp)
      rw [hget c, if_neg hca]
      exact hout c (fun hmem => hc (List.mem_append_left _ hmem))
    · intro c hc hcn
      have hca : a ≠ c := fun hac => hcn (by rw [← hac]; simp)
      exact column_eq_trans _ _ _ _ _
        (nms_class_columns lib op scale zp boxes num_classes num_boxes a c u v (hnc a ha_mem)
          (hnc c hc) hca hb)
        (hcol c hc (fun hmem => hcn (List.mem_append_left _ hmem)))
    · intro c hc
      rcases List.mem_append.mp hc with hc | hc
      · obtain ⟨tbl, s1, h1, h2, h3, h4⟩ := hin c hc
        have hca : a ≠ c := fun hac => ha_pre (hac ▸ hc)
        have hc_mem : c ∈ cs := by rw [← hcs]; exact List.mem_append_left _ hc
        refine ⟨tbl, s1, h1, h2, ?_, ?_⟩
        · rw [hget c, if_neg hca]
          exact h3
        · exact column_eq_trans _ _ _ _ _
            (nms_class_columns lib op scale zp boxes num_classes num_boxes a c u v (hnc a ha_mem)
              (hnc c hc_mem) hca hb) h4
      · rw [List.mem_singleton] at hc
        subst hc
        refine ⟨u.scores, s, hcol c ha_mem ha_pre, hloop, by rw [hget c, if_pos rfl], ?_⟩
        rw [hs]
        exact column_eq_refl _ _ _

/-- The class loop of an image, class by class, for the entries of the class. -/
theorem class_loop_init_columns (lib : Lib) (op : AABBRoINMSOp) (scale : ℚ) (zp : Int)
    (boxes : List Nat) (num_classes num_boxes : Nat) (tbl0 : List Nat) (st : ImageState)
    (h : forE (nms_class lib op scale zp boxes num_classes num_boxes) (class_range num_classes)
      { keeps := List.replicate num_classes [], total_keep_count := 0, scores := tbl0 } = .ok st) :
    ∀ c ∈ class_range num_classes, ∃ tbl s,
      column_eq num_classes c tbl tbl0 ∧
      nms_loop lib op scale zp boxes num_classes c (max_post_nms_proposals op num_boxes)
        (scan op scale zp num_classes c num_boxes tbl).indices.length
        { pool := scan op scale zp num_classes c num_boxes tbl, keep := [] } = .ok s ∧
      st.keeps.getD c [] = s.keep ∧
      column_eq num_classes c st.scores s.pool.scores :=
  class_loop_columns lib op scale zp boxes num_classes num_boxes (class_range num_classes) _ st
    (class_range_nodup _)
    (fun c hc => by
      simp only [List.length_replicate]
      exact ((class_range_mem _ _).mp hc).2)
    (fun c hc => ((class_range_mem _ _).mp hc).2)
    (fun c hc => by
      rw [List.getD_eq_getElem _ _ (by
        simp only [List.length_replicate]
        exact ((class_range_mem _ _).mp hc).2)]
      simp) h


/-! ## Rescoring factors and the score table -/

theorem table_le_refl (t : List Nat) : table_le t t := ⟨rfl, fun _ => le_refl _⟩

theorem table_le_trans (t1 t2 t3 : List Nat) (h12 : table_le t1 t2) (h23 : table_le t2 t3) :
    table_le t1 t3 :=
  ⟨h12.1.trans h23.1, fun k => (h12.2 k).trans (h23.2 k)⟩

/-- For boxes with `x1 <= x2` and `y1 <= y2` the intersection area lies
between 0 and the union area. -/
theorem intersection_le_union (p i : Box) (hpx : p.x1 ≤ p.x2) (hpy : p.y1 ≤ p.y2)
    (hix : i.x1 ≤ i.x2) (hiy : i.y1 ≤ i.y2) :
    0 ≤ intersection_area p i ∧ intersection_area p i ≤ union_area p i := by
  have hw0 : 0 ≤ max (min p.x2 i.x2 - max p.x1 i.x1) 0 := le_max_right _ _
  have hh0 : 0 ≤ max (min p.y2 i.y2 - max p.y1 i.y1) 0 := le_max_right _ _
  have hw : max (min p.x2 i.x2 - max p.x1 i.x1) 0 ≤ p.x2 - p.x1 := by
    apply max_le
    · have := min_le_left p.x2 i.x2
      have := le_max_left p.x1 i.x1
      linarith
    · linarith
  have hh : max (min p.y2 i.y2 - max p.y1 i.y1) 0 ≤ p.y2 - p.y1 := by
    apply max_le
    · have := min_le_left p.y2 i.y2
      have := le_max_left p.y1 i.y1
      linarith
    · linarith
  have hinter : intersection_area p i
      = max (min p.x2 i.x2 - max p.x1 i.x1) 0 * max (min p.y2 i.y2 - max p.y1 i.y1) 0 := rfl
  have h0 : 0 ≤ intersection_area p i := by
    rw [hinter]
    exact mul_nonneg hw0 hh0
  have hp : intersection_area p i ≤ p.area := by
    rw [hinter]
    unfold Box.area
    exact mul_le_mul hw hh hh0 (by linarith)
  have hw2 : max (min p.x2 i.x2 - max p.x1 i.x1) 0 ≤ i.x2 - i.x1 := by
    apply max_le
    · have := min_le_right p.x2 i.x2
      have := le_max_right p.x1 i.x1
      linarith
    · linarith
  have hh2 : max (min p.y2 i.y2 - max p.y1 i.y1) 0 ≤ i.y2 - i.y1 := by
    apply max_le
    · have := min_le_right p.y2 i.y2
      have := le_max_right p.y1 i.y1
      linarith
    · linarith
  have hi : intersection_area p i ≤ i.area := by
    rw [hinter]
    unfold Box.area
    exact mul_le_mul hw2 hh2 hh0 (by linarith)
  refine ⟨h0, ?_⟩
  unfold union_area
  linarith

/-- The factor of mode LINEAR lies in `[0, 1]` for such boxes. -/
theorem linear_factor_bounds (p i : Box) (hpx : p.x1 ≤ p.x2) (hpy : p.y1 ≤ p.y2)
    (hix : i.x1 ≤ i.x2) (hiy : i.y1 ≤ i.y2) :
    0 ≤ 1 - intersection_area p i / union_area p i ∧
    1 - intersection_area p i / union_area p i ≤ 1 := by
  obtain ⟨h0, h1⟩ := intersection_le_union p i hpx hpy hix hiy
  have hu : 0 ≤ union_area p i := le_trans h0 h1
  have hd0 : 0 ≤ intersection_area p i / union_area p i := div_nonneg h0 hu
  have hd1 : intersection_area p i / union_area p i ≤ 1 := by
    rcases eq_or_lt_of_le hu with hz | hpos
    · rw [← hz, div_zero]
      exact zero_le_one
    · rw [div_le_one hpos]
      exact h1
  constructor <;> linarith

/-- The argument of `exp` in mode GAUSSIAN is not positive when sigma is not negative. -/
theorem gaussian_argument_nonpos (iou sigma : ℚ) (hs : 0 ≤ sigma) :
    -1 * iou * iou / sigma ≤ 0 := by
  apply div_nonpos_of_nonpos_of_nonneg _ hs
  nlinarith [mul_self_nonneg iou]

/-- What a comparison does to the candidate: it leaves the table alone and
pushes the table score or nothing, or it stores the table score multiplied by
the factor of the method and pushes the table score, the product or nothing. -/
theorem compare_outcome_factor (lib : Lib) (op : AABBRoINMSOp) (scale : ℚ) (zp : Int)
    (boxes : List Nat) (num_classes class_idx p : Nat) (scores : List Nat) (idx : Nat)
    (res : Option ℚ × List Nat)
    (h : compare_outcome lib op scale zp boxes num_classes class_idx p scores idx = .ok res) :
    (res.2 = scores ∧
      (res.1 = none ∨ res.1 = some (score_at scale zp scores num_classes class_idx idx))) ∨
    ∃ f : ℚ,
      ((op.soft_nms_method = SOFT_NMS_LINEAR ∧
          ¬ within_iou op boxes num_classes class_idx p idx ∧
          f = 1 - intersection_area (load_box boxes num_classes class_idx p)
                (load_box boxes num_classes class_idx idx)
              / union_area (load_box boxes num_classes class_idx p)
                (load_box boxes num_classes class_idx idx)) ∨
       (op.soft_nms_method = SOFT_NMS_GAUSSIAN ∧
          f = lib.exp (-1 * (intersection_area (load_box boxes num_classes class_idx p)
                (load_box boxes num_classes class_idx idx)
              / union_area (load_box boxes num_classes class_idx p)
                (load_box boxes num_classes class_idx idx))
            * (intersection_area (load_box boxes num_classes class_idx p)
                (load_box boxes num_classes class_idx idx)
              / union_area (load_box boxes num_classes class_idx p)
                (load_box boxes num_classes class_idx idx)) / op.soft_nms_sigma))) ∧
      res.2 = store_score lib scale zp num_classes class_idx idx
        (score_at scale zp scores num_classes class_idx idx * f) scores ∧
      (res.1 = none ∨ res.1 = some (score_at scale zp scores num_classes class_idx idx) ∨
        (res.1 = some (score_at scale zp scores num_classes class_idx idx * f) ∧
          ¬ within_iou op boxes num_classes class_idx p idx ∧
          score_at scale zp scores num_classes class_idx idx * f ≥ op.soft_nms_min_score)) := by
  unfold compare_outcome at h
  dsimp only at h
  by_cases hw : intersection_area (load_box boxes num_classes class_idx p)
      (load_box boxes num_classes class_idx idx)
      ≤ op.max_iou * union_area (load_box boxes num_classes class_idx p)
        (load_box boxes num_classes class_idx idx)
  · rw [if_pos hw] at h
    by_cases hg : op.soft_nms_method = SOFT_NMS_GAUSSIAN
    · rw [if_pos hg] at h
      simp only [Except.ok.injEq] at h
      exact Or.inr ⟨_, Or.inr ⟨hg, rfl⟩, by rw [← h], Or.inr (Or.inl (by rw [← h]))⟩
    · rw [if_neg hg] at h
      simp only [Except.ok.injEq] at h
      exact Or.inl ⟨by rw [← h], Or.inr (by rw [← h])⟩
  · rw [if_neg hw] at h
    by_cases hn : op.soft_nms_method ≠ SOFT_NMS_NONE
    · rw [if_pos hn] at h
      by_cases hl : op.soft_nms_method = SOFT_NMS_LINEAR
      · rw [if_pos hl] at h
        simp only at h
        refine Or.inr ⟨_, Or.inl ⟨hl, hw, rfl⟩, ?_⟩
        split_ifs at h with hs
        · simp only [Except.ok.injEq] at h
          exact ⟨by rw [← h], Or.inr (Or.inr ⟨by rw [← h], hw, hs⟩)⟩
        · simp only [Except.ok.injEq] at h
          exact ⟨by rw [← h], Or.inl (by rw [← h])⟩
      · rw [if_neg hl] at h
        by_cases hg : op.soft_nms_method = SOFT_NMS_GAUSSIAN
        · rw [if_pos hg] at h
          simp only at h
          refine Or.inr ⟨_, Or.inr ⟨hg, rfl⟩, ?_⟩
          split_ifs at h with hs
          · simp only [Except.ok.injEq] at h
            exact ⟨by rw [← h], Or.inr (Or.inr ⟨by rw [← h], hw, hs⟩)⟩
          · simp only [Except.ok.injEq] at h
            exact ⟨by rw [← h], Or.inl (by rw [← h])⟩
        · rw [if_neg hg] at h
          simp only at h
          cases h
    · rw [if_neg hn] at h
      simp only [Except.ok.injEq] at h
      exact Or.inl ⟨by rw [← h], Or.inl (by rw [← h])⟩

/-- Storing a value that is at most the table score of the candidate lowers
no entry of the table. -/
theorem store_score_le (lib : Lib) (scale : ℚ) (zp : Int) (num_classes class_idx idx : Nat)
    (v : ℚ) (scores : List Nat) (hq1 : quantizer_monotone lib scale zp)
    (hv : v ≤ score_at scale zp scores num_classes class_idx idx) :
    table_le (store_score lib scale zp num_classes class_idx idx v scores) scores := by
  unfold store_score
  refine ⟨List.length_set _ _ _, fun k => ?_⟩
  rw [getD_set_list]
  split_ifs with hh
  · obtain ⟨rfl, _⟩ := hh
    exact hq1 v _ hv
  · exact le_refl _

/-- Storing a value that is not negative keeps the scores of the class that
are not negative so. -/
theorem store_score_nonneg (lib : Lib) (scale : ℚ) (zp : Int) (num_classes class_idx idx : Nat)
    (v : ℚ) (scores : List Nat) (hq2 : quantizer_nonneg lib scale zp) (hv : 0 ≤ v) (j : Nat)
    (hj : 0 ≤ score_at scale zp scores num_classes class_idx j) :
    0 ≤ score_at scale zp (store_score lib scale zp num_classes class_idx idx v scores)
      num_classes class_idx j := by
  unfold score_at store_score
  rw [getD_set_list]
  split_ifs with hh
  · exact hq2 v hv
  · exact hj

/-- Pushing a score above -1 keeps the pool sound. -/
theorem push_sound (pl : Pool) (score : ℚ) (idx : Nat) (hs : pl.sound) (hsc : -1 < score) :
    (pl.push score idx).sound := by
  obtain ⟨h1, h2⟩ := hs
  refine ⟨fun hnil => ?_, fun _ => ?_⟩
  · exfalso
    simp [Pool.push] at hnil
  · simp only [Pool.push, List.length_append, List.length_singleton]
    by_cases hb : score > pl.best_score
    · rw [if_pos hb]
      push_cast
      exact ⟨Int.natCast_nonneg _, by omega⟩
    · rw [if_neg hb]
      have hne : pl.indices ≠ [] := by
        intro hnil
        rw [h1 hnil] at hb
        exact hb hsc
      obtain ⟨a, b⟩ := h2 hne
      push_cast
      exact ⟨a, by omega⟩

theorem with_scores_sound (pl : Pool) (tbl : List Nat) (hs : pl.sound) :
    ({ pl with scores := tbl } : Pool).sound := hs

theorem init_sound (tbl : List Nat) : (Pool.init tbl).sound :=
  ⟨fun _ => rfl, fun h => absurd rfl h⟩

/-- One comparison under `factors_in_unit`, for a candidate whose table score
is not negative: the scores of the candidates stay non-negative, no table
entry grows, and a pushed score is not negative. -/
theorem compare_outcome_sound (lib : Lib) (op : AABBRoINMSOp) (scale : ℚ) (zp : Int)
    (boxes : List Nat) (num_classes class_idx p : Nat)
    (H : factors_in_unit lib op scale zp boxes num_classes) (cands : List Nat)
    (scores : List Nat) (idx : Nat) (hidx : idx ∈ cands)
    (hT : ∀ j ∈ cands, 0 ≤ score_at scale zp scores num_classes class_idx j)
    (res : Option ℚ × List Nat)
    (h : compare_outcome lib op scale zp boxes num_classes class_idx p scores idx = .ok res) :
    (∀ j ∈ cands, 0 ≤ score_at scale zp res.2 num_classes class_idx j) ∧
    table_le res.2 scores ∧ (∀ sc, res.1 = some sc → 0 ≤ sc) := by
  obtain ⟨_, _, hq1, hq2, hlin, hexp⟩ := H
  have h0 := hT idx hidx
  rcases compare_outcome_factor lib op scale zp boxes num_classes class_idx p scores idx res h with
    ⟨e2, e1⟩ | ⟨f, hf, e2, e1⟩
  · rw [e2]
    refine ⟨hT, table_le_refl _, ?_⟩
    intro sc hsc
    rcases e1 with e1 | e1
    · rw [e1] at hsc; cases hsc
    · rw [e1] at hsc
      simp only [Option.some.injEq] at hsc
      rw [← hsc]; exact h0
  · have hfb : 0 ≤ f ∧ f ≤ 1 := by
      rcases hf with ⟨hl, _, rfl⟩ | ⟨hg, rfl⟩
      · have hp := hlin hl class_idx p
        have hi := hlin hl class_idx idx
        exact linear_factor_bounds _ _ hp.1 hp.2 hi.1 hi.2
      · obtain ⟨hs, he⟩ := hexp hg
        exact he _ (gaussian_argument_nonpos _ _ hs)
    have hv0 : 0 ≤ score_at scale zp scores num_classes class_idx idx * f :=
      mul_nonneg h0 hfb.1
    have hv1 : score_at scale zp scores num_classes class_idx idx * f
        ≤ score_at scale zp scores num_classes class_idx idx := by
      nlinarith [hfb.1, hfb.2]
    rw [e2]
    refine ⟨fun j hj => store_score_nonneg lib scale zp num_classes class_idx idx _ scores hq2 hv0
      j (hT j hj), store_score_le lib scale zp num_classes class_idx idx _ scores hq1 hv1, ?_⟩
    intro sc hsc
    rcases e1 with e1 | e1 | ⟨e1, _, _⟩
    · rw [e1] at hsc; cases hsc
    · rw [e1] at hsc
      simp only [Option.some.injEq] at hsc
      rw [← hsc]; exact h0
    · rw [e1] at hsc
      simp only [Option.some.injEq] at hsc
      rw [← hsc]; exact hv0

/-- The invariant of the comparison loop under `factors_in_unit`. -/
theorem compare_step_sound (lib : Lib) (op : AABBRoINMSOp) (scale : ℚ) (zp : Int)
    (boxes : List Nat) (num_classes class_idx p : Nat)
    (H : factors_in_unit lib op scale zp boxes num_classes) (cands : List Nat)
    (pl pl1 : Pool) (idx : Nat) (hidx : idx ∈ cands)
    (hT : ∀ j ∈ cands, 0 ≤ score_at scale zp pl.scores num_classes class_idx j)
    (hs : pl.sound) (hmem : ∀ i ∈ pl.indices, i ∈ cands)
    (h : compare_step lib op scale zp boxes num_classes class_idx p pl idx = .ok pl1) :
    (∀ j ∈ cands, 0 ≤ score_at scale zp pl1.scores num_classes class_idx j) ∧
    pl1.sound ∧ (∀ i ∈ pl1.indices, i ∈ cands) ∧ table_le pl1.scores pl.scores := by
  obtain ⟨res, hres, hcase⟩ := compare_step_outcome lib op scale zp boxes num_classes class_idx p
    pl pl1 idx h
  obtain ⟨a, b, c⟩ := compare_outcome_sound lib op scale zp boxes num_classes class_idx p H cands
    pl.scores idx hidx hT res hres
  rcases hcase with ⟨_, rfl⟩ | ⟨score, hsome, rfl⟩
  · exact ⟨a, with_scores_sound pl res.2 hs, hmem, b⟩
  · refine ⟨a, push_sound _ score idx (with_scores_sound pl res.2 hs) ?_, ?_, b⟩
    · have := c score hsome
      linarith
    · intro i hi
      rw [push_indices] at hi
      rcases List.mem_append.mp hi with hi | hi
      · exact hmem i hi
      · rw [List.mem_singleton.mp hi]; exact hidx

/-- Under `factors_in_unit` the selector loop returns from a sound pool whose
candidates have table scores that are not negative, and no table entry grows. -/
theorem nms_loop_sound (lib : Lib) (op : AABBRoINMSOp) (scale : ℚ) (zp : Int)
    (boxes : List Nat) (num_classes class_idx cap : Nat)
    (H : factors_in_unit lib op scale zp boxes num_classes) (cands : List Nat) (tbl0 : List Nat)
    (rounds : Nat) (s : Selector)
    (hT : ∀ j ∈ cands, 0 ≤ score_at scale zp s.pool.scores num_classes class_idx j)
    (hs : s.pool.sound) (hmem : ∀ i ∈ s.pool.indices, i ∈ cands)
    (hle : table_le s.pool.scores tbl0) :
    ∃ t, nms_loop lib op scale zp boxes num_classes class_idx cap rounds s = .ok t ∧
      table_le t.pool.scores tbl0 := by
  have hm := H.1
  have hsound : ∀ u : Selector,
      ((∀ j ∈ cands, 0 ≤ score_at scale zp u.pool.scores num_classes class_idx j) ∧
        u.pool.sound ∧ (∀ i ∈ u.pool.indices, i ∈ cands) ∧ table_le u.pool.scores tbl0) →
      u.pool.indices.length > 0 →
      0 ≤ u.pool.best_score_pos ∧ u.pool.best_score_pos < (u.pool.indices.length : Int) := by
    rintro u ⟨_, hu, _, _⟩ hlen
    refine hu.2 ?_
    intro hnil
    rw [hnil] at hlen
    exact absurd hlen (by decide)
  have hstep : ∀ u u1 : Selector,
      ((∀ j ∈ cands, 0 ≤ score_at scale zp u.pool.scores num_classes class_idx j) ∧
        u.pool.sound ∧ (∀ i ∈ u.pool.indices, i ∈ cands) ∧ table_le u.pool.scores tbl0) →
      u.pool.indices.length > 0 →
      nms_round lib op scale zp boxes num_classes class_idx u = .ok u1 →
      ((∀ j ∈ cands, 0 ≤ score_at scale zp u1.pool.scores num_classes class_idx j) ∧
        u1.pool.sound ∧ (∀ i ∈ u1.pool.indices, i ∈ cands) ∧ table_le u1.pool.scores tbl0) := by
    rintro u u1 ⟨hT1, hu, hm1, hl1⟩ hlen hr
    obtain ⟨r0, r1, _, r3⟩ := nms_round_explicit lib op scale zp boxes num_classes class_idx u u1 hr
    have hpos : u.pool.best_score_pos.toNat < u.pool.indices.length := by
      have := Int.toNat_of_nonneg r0
      omega
    have hperm := (swap_zero_perm u.pool.indices _ hpos).1
    have hinit : (∀ j ∈ cands, 0 ≤ score_at scale zp (Pool.init u.pool.scores).scores
          num_classes class_idx j) ∧
        (Pool.init u.pool.scores).sound ∧ (∀ i ∈ (Pool.init u.pool.scores).indices, i ∈ cands) ∧
        table_le (Pool.init u.pool.scores).scores tbl0 :=
      ⟨hT1, init_sound _, fun i hi => absurd hi (List.not_mem_nil i), hl1⟩
    refine forE_invariant (compare_step lib op scale zp boxes num_classes class_idx
        (u.pool.indices.getD u.pool.best_score_pos.toNat 0))
      (fun pl => (∀ j ∈ cands, 0 ≤ score_at scale zp pl.scores num_classes class_idx j) ∧
        pl.sound ∧ (∀ i ∈ pl.indices, i ∈ cands) ∧ table_le pl.scores tbl0)
      ((swap u.pool.indices 0 u.pool.best_score_pos.toNat).drop 1) (Pool.init u.pool.scores)
      u1.pool hinit ?_ r3
    rintro a ha pl pl1 ⟨p1, p2, p3, p4⟩ hstep
    have ha1 : a ∈ cands := hm1 a (hperm.subset (List.mem_of_mem_drop ha))
    obtain ⟨q1, q2, q3, q4⟩ := compare_step_sound lib op scale zp boxes num_classes class_idx
      (u.pool.indices.getD u.pool.best_score_pos.toNat 0) H cands pl pl1 a ha1 p1 p2 p3 hstep
    exact ⟨q1, q2, q3, table_le_trans _ _ _ q4 p4⟩
  obtain ⟨t, ht, _, _, _, hle1⟩ := nms_loop_total lib op scale zp boxes num_classes class_idx cap
    (fun u => (∀ j ∈ cands, 0 ≤ score_at scale zp u.pool.scores num_classes class_idx j) ∧
      u.pool.sound ∧ (∀ i ∈ u.pool.indices, i ∈ cands) ∧ table_le u.pool.scores tbl0)
    hm hsound hstep rounds s ⟨hT, hs, hmem, hle⟩
  exact ⟨t, ht, hle1⟩

/-- The admission scan yields a sound pool when `min_score >= -1`. -/
theorem scan_sound (op : AABBRoINMSOp) (scale : ℚ) (zp : Int)
    (num_classes class_idx num_boxes : Nat) (scores : List Nat) (hmin : -1 ≤ op.min_score) :
    (scan op scale zp num_classes class_idx num_boxes scores).sound := by
  unfold scan
  refine foldl_invariant _ Pool.sound _ _ (init_sound scores) ?_
  intro i _ pl hpl
  unfold scan_step
  dsimp only
  split_ifs with hc
  · exact push_sound pl _ i hpl (by linarith)
  · exact hpl

/-- Under `factors_in_unit` the body of the class loop returns and no table entry grows. -/
theorem nms_class_sound (lib : Lib) (op : AABBRoINMSOp) (scale : ℚ) (zp : Int)
    (boxes : List Nat) (num_classes num_boxes : Nat)
    (H : factors_in_unit lib op scale zp boxes num_classes) (st : ImageState) (class_idx : Nat) :
    ∃ v, nms_class lib op scale zp boxes num_classes num_boxes st class_idx = .ok v ∧
      table_le v.scores st.scores := by
  obtain ⟨t, ht, hle⟩ := nms_loop_sound lib op scale zp boxes num_classes class_idx
    (max_post_nms_proposals op num_boxes) H
    (scan op scale zp num_classes class_idx num_boxes st.scores).indices st.scores
    (scan op scale zp num_classes class_idx num_boxes st.scores).indices.length
    { pool := scan op scale zp num_classes class_idx num_boxes st.scores,
      keep := st.keeps.getD class_idx [] }
    (by
      intro j hj
      dsimp only
      rw [scan_scores]
      have := ((scan_indices_mem op scale zp num_classes class_idx num_boxes st.scores j).mp hj).2
      have := H.2.1
      linarith)
    (scan_sound op scale zp num_classes class_idx num_boxes st.scores (by have := H.2.1; linarith))
    (fun i hi => hi)
    (by dsimp only; rw [scan_scores]; exact table_le_refl _)
  refine ⟨{ keeps := st.keeps.set class_idx t.keep
            total_keep_count := st.total_keep_count + t.keep.length
            scores := t.pool.scores }, ?_, hle⟩
  unfold nms_class
  dsimp only
  rw [ht]

/-- Under `factors_in_unit` the body of the batch loop returns and no table entry grows. -/
theorem process_image_sound (lib : Lib) (op : AABBRoINMSOp) (scale : ℚ) (zp : Int)
    (boxes : List Nat) (num_classes : Nat)
    (H : factors_in_unit lib op scale zp boxes num_classes) (bs : BatchState) (num_boxes : Nat) :
    ∃ bs1, process_image lib op scale zp boxes num_classes bs num_boxes = .ok bs1 ∧
      table_le bs1.scores bs.scores := by
  obtain ⟨st, hst, hsc⟩ := forE_total (nms_class lib op scale zp boxes num_classes num_boxes)
    (fun st => table_le st.scores bs.scores) (class_range num_classes)
    (fun c _ u hu => by
      obtain ⟨v, hv, hvs⟩ := nms_class_sound lib op scale zp boxes num_classes num_boxes H u c
      exact ⟨v, hv, table_le_trans _ _ _ hvs hu⟩)
    { keeps := List.replicate num_classes [], total_keep_count := 0, scores := bs.scores }
    (table_le_refl _)
  obtain ⟨k1, k2, _, _⟩ := class_loop_init_spec lib op scale zp boxes num_classes num_boxes
    bs.scores st hst
  obtain ⟨st1, hl⟩ := limit_objects_total lib op num_classes st k2
  obtain ⟨l1, _⟩ := limit_objects_spec lib op num_classes st st1 k1 k2 hl
  unfold process_image
  rw [hst]
  dsimp only
  rw [hl]
  refine ⟨_, rfl, ?_⟩
  dsimp only
  rw [l1]
  exact hsc

/-- Under `factors_in_unit` the tables of an image run only decrease: the
table after the class loop is entry by entry at most the table on entry, and
the global cap leaves it as it is. -/
theorem valid_table_le (lib : Lib) (op : AABBRoINMSOp) (scale : ℚ) (zp : Int)
    (boxes : List Nat) (num_classes : Nat)
    (H : factors_in_unit lib op scale zp boxes num_classes) (r : ImageRun)
    (hv : r.valid lib op scale zp boxes num_classes) :
    table_le r.selected.scores r.table ∧ r.final.scores = r.selected.scores := by
  obtain ⟨st, hst, hsc⟩ := forE_total (nms_class lib op scale zp boxes num_classes r.num_boxes)
    (fun st => table_le st.scores r.table) (class_range num_classes)
    (fun c _ u hu => by
      obtain ⟨v, hv, hvs⟩ := nms_class_sound lib op scale zp boxes num_classes r.num_boxes H u c
      exact ⟨v, hv, table_le_trans _ _ _ hvs hu⟩)
    { keeps := List.replicate num_classes [], total_keep_count := 0, scores := r.table }
    (table_le_refl _)
  have heq : st = r.selected := by
    have := hst.symm.trans hv.1
    simp only [Except.ok.injEq] at this
    exact this
  obtain ⟨k1, k2, _, _⟩ := class_loop_init_spec lib op scale zp boxes num_classes r.num_boxes
    r.table r.selected hv.1
  obtain ⟨l1, _⟩ := limit_objects_spec lib op num_classes r.selected r.final k1 k2 hv.2
  exact ⟨heq ▸ hsc, l1⟩

/-- The quantizer of `std_lib` never raises a raw score when the value is at
most the dequantized raw score. -/
theorem std_quantizer_monotone (scale : ℚ) (zp : Int) (hscale : 0 < scale) :
    quantizer_monotone std_lib scale zp := by
  intro v raw hv
  show QuantizeUint8 scale zp v % 256 ≤ raw
  refine le_trans (Nat.mod_le _ _) ?_
  unfold QuantizeUint8
  have h1 : v / scale ≤ (((raw : Int) - zp : Int) : ℚ) := by
    rw [div_le_iff₀ hscale]
    linarith
  have h2 : ⌊v / scale + 1 / 2⌋ < ((raw : Int) - zp) + 1 := by
    rw [Int.floor_lt]
    push_cast
    push_cast at h1
    linarith
  omega

/-- The quantizer of `std_lib` maps a value that is not negative to a raw
score at or above a zero point that is at most 255. -/
theorem std_quantizer_nonneg (scale : ℚ) (zp : Int) (hscale : 0 < scale) (hzp : zp ≤ 255) :
    quantizer_nonneg std_lib scale zp := by
  intro v hv
  show 0 ≤ scale * ((((QuantizeUint8 scale zp v % 256 : Nat) : Int) - zp : Int) : ℚ)
  apply mul_nonneg (le_of_lt hscale)
  have h2 : 0 ≤ ⌊v / scale + 1 / 2⌋ := by
    rw [Int.floor_nonneg]
    have := div_nonneg hv (le_of_lt hscale)
    linarith
  have h3 : zp ≤ ((QuantizeUint8 scale zp v % 256 : Nat) : Int) := by
    unfold QuantizeUint8
    omega
  exact_mod_cast sub_nonneg.mpr h3

/-- Entry-wise smaller raw scores dequantize to smaller scores when the scale
is not negative. -/
theorem table_le_score_at (scale : ℚ) (zp : Int) (num_classes : Nat) (t1 t2 : List Nat)
    (hscale : 0 ≤ scale) (h : table_le t1 t2) (class_idx i : Nat) :
    score_at scale zp t1 num_classes class_idx i ≤ score_at scale zp t2 num_classes class_idx i := by
  unfold score_at
  apply mul_le_mul_of_nonneg_left _ hscale
  have := h.2 (i * num_classes + class_idx)
  exact_mod_cast Int.sub_le_sub_right (Int.ofNat_le.mpr this) zp

/-- The same for the scores written to the output. -/
theorem table_le_out_score (scale : ℚ) (zp : Int) (num_classes : Nat) (t1 t2 : List Nat)
    (hscale : 0 ≤ scale) (h : table_le t1 t2) (o : Nat × Nat) :
    out_score scale zp t1 num_classes o ≤ out_score scale zp t2 num_classes o := by
  unfold out_score
  apply mul_le_mul_of_nonneg_right _ hscale
  have := h.2 (o.2 * num_classes + o.1)
  exact_mod_cast Int.sub_le_sub_right (Int.ofNat_le.mpr this) zp

/-- The boxes of `same_boxes` have `x1 <= x2` and `y1 <= y2`. -/
theorem same_boxes_well_formed : boxes_well_formed same_boxes.data 2 := by
  intro class_idx p
  unfold load_box box_coord
  dsimp only
  generalize p * 2 + class_idx = m
  have h8 : (0 : ℚ) ≤ 1 / 8 := by norm_num
  constructor
  · apply mul_le_mul_of_nonneg_right _ h8
    match m with
    | 0 => decide!
    | 1 => decide!
    | 2 => decide!
    | 3 => decide!
    | k + 4 =>
      rw [List.getD_eq_default _ _ (by simp [same_boxes, boxes_tensor]; omega),
        List.getD_eq_default _ _ (by simp [same_boxes, boxes_tensor]; omega)]
  · apply mul_le_mul_of_nonneg_right _ h8
    match m with
    | 0 => decide!
    | 1 => decide!
    | 2 => decide!
    | 3 => decide!
    | k + 4 =>
      rw [List.getD_eq_default _ _ (by simp [same_boxes, boxes_tensor]; omega),
        List.getD_eq_default _ _ (by simp [same_boxes, boxes_tensor]; omega)]


/-! ## The score table from image to image -/

/-- The batch loop as a list of per-image runs, each entered with the table
the run before it left. -/
theorem batch_loop_chain (lib : Lib) (op : AABBRoINMSOp) (scale : ℚ) (zp : Int)
    (boxes : List Nat) (num_classes : Nat) (nbs : List Nat) (bs0 bs : BatchState)
    (hc : bs0.output_classes.length = bs0.output_scores.length)
    (hb : bs0.output_boxes.length = bs0.output_scores.length * 4)
    (h : forE (process_image lib op scale zp boxes num_classes) nbs bs0 = .ok bs) :
    ∃ runs : List ImageRun, runs.map (fun r => r.num_boxes) = nbs ∧
      (∀ r ∈ runs, r.valid lib op scale zp boxes num_classes ∧
        r.final.total_keep_count = (r.detections num_classes).length) ∧
      tables_chain bs0.scores runs bs.scores ∧
      bs.output_scores = bs0.output_scores ++ runs.flatMap
        (fun r => (r.detections num_classes).map (out_score scale zp r.final.scores num_classes)) ∧
      bs.output_boxes = bs0.output_boxes ++ runs.flatMap
        (fun r => (r.detections num_classes).flatMap (out_box boxes num_classes)) ∧
      bs.output_classes = bs0.output_classes ++ runs.flatMap
        (fun r => (r.detections num_classes).map Prod.fst) ∧
      bs.total_keep_per_batch = bs0.total_keep_per_batch
        ++ runs.map (fun r => r.final.total_keep_count) := by
  induction nbs generalizing bs0 with
  | nil =>
    simp only [forE, Except.ok.injEq] at h
    subst h
    exact ⟨[], rfl, by simp, rfl, by simp, by simp, by simp, by simp⟩
  | cons nb nbs ih =>
    simp only [forE] at h
    cases hp : process_image lib op scale zp boxes num_classes bs0 nb with
    | error e =>
      rw [hp] at h
      cases h
    | ok bs1 =>
      rw [hp] at h
      obtain ⟨r, r1, r2, r3, r4, r5, r6, r7, r8, r9⟩ :=
        process_image_spec lib op scale zp boxes num_classes bs0 bs1 nb hc hb hp
      have hc1 : bs1.output_classes.length = bs1.output_scores.length := by
        rw [r8, r6]; simp [hc]
      have hb1 : bs1.output_boxes.length = bs1.output_scores.length * 4 := by
        rw [r7, r6, List.length_append, length_flatMap_out_box, hb]
        simp only [List.length_append, List.length_map]
        ring
      obtain ⟨runs, t1, t2, tc, t3, t4, t5, t6⟩ := ih bs1 hc1 hb1 h
      refine ⟨r :: runs, by simp [r1, t1], ?_, ?_, ?_, ?_, ?_, ?_⟩
      · intro x hx
        rcases List.mem_cons.mp hx with rfl | hx
        · exact ⟨r3, r5⟩
        · exact t2 x hx
      · refine ⟨r2, ?_⟩
        rw [← r4]
        exact tc
      · rw [t3, r6]; simp
      · rw [t4, r7]; simp
      · rw [t5, r8]; simp
      · rw [t6, r9]; simp

/-- A property of tables that every run preserves holds on entry to every
run of a chain that starts with it. -/
theorem chain_invariant (P : List Nat → Prop) (runs : List ImageRun) :
    ∀ (first last : List Nat), tables_chain first runs last → P first →
      (∀ r ∈ runs, P r.table → P r.final.scores) → (∀ r ∈ runs, P r.table) ∧ P last := by
  induction runs with
  | nil =>
    intro first last hch h0 _
    simp only [tables_chain] at hch
    exact ⟨by simp, hch ▸ h0⟩
  | cons r rs ih =>
    intro first last hch h0 hstep
    simp only [tables_chain] at hch
    obtain ⟨h1, h2⟩ := hch
    have hr : P r.table := h1 ▸ h0
    obtain ⟨a, b⟩ := ih r.final.scores last h2 (hstep r (List.mem_cons_self _ _) hr)
      (fun x hx => hstep x (List.mem_cons_of_mem _ hx))
    refine ⟨?_, b⟩
    intro x hx
    rcases List.mem_cons.mp hx with rfl | hx
    · exact hr
    · exact a x hx

/-- Unfolding of a successful call with the chain of score tables. -/
theorem run_trace_chain (lib : Lib) (op : AABBRoINMSOp) (input_batch_splits : Tensor)
    (input_scores : Int8TensorCPU) (input_boxes : Tensor) (out : Outputs)
    (h : RunOnDevice lib op input_batch_splits input_scores input_boxes = .ok out) :
    ∃ (runs : List ImageRun) (last : List Nat),
      runs.map (fun r => r.num_boxes)
        = (List.range (input_batch_splits.size 0)).map (fun b => input_batch_splits.data.getD b 0) ∧
      (∀ r ∈ runs,
        r.valid lib op input_scores.scale input_scores.zero_point input_boxes.data
          (input_scores.t.size 1) ∧
        r.final.total_keep_count = (r.detections (input_scores.t.size 1)).length) ∧
      tables_chain input_scores.t.data runs last ∧
      out.output_scores = runs.flatMap (fun r => (r.detections (input_scores.t.size 1)).map
        (out_score input_scores.scale input_scores.zero_point r.final.scores
          (input_scores.t.size 1))) ∧
      out.output_boxes = runs.flatMap (fun r => (r.detections (input_scores.t.size 1)).flatMap
        (out_box input_boxes.data (input_scores.t.size 1))) ∧
      out.output_classes = runs.flatMap
        (fun r => (r.detections (input_scores.t.size 1)).map Prod.fst) ∧
      out.output_batch_splits = runs.map (fun r => r.final.total_keep_count) := by
  unfold RunOnDevice at h
  cases hs : check_shapes input_batch_splits input_scores input_boxes with
  | error e =>
    rw [hs] at h
    cases h
  | ok u =>
    rw [hs] at h
    simp only at h
    cases hf : forE
        (process_image lib op input_scores.scale input_scores.zero_point input_boxes.data
          (input_scores.t.size 1))
        ((List.range (input_batch_splits.size 0)).map (fun b => input_batch_splits.data.getD b 0))
        { scores := input_scores.t.data, output_scores := [], output_boxes := [],
          output_classes := [], total_keep_per_batch := [] } with
    | error e =>
      rw [hf] at h
      cases h
    | ok bs =>
      rw [hf] at h
      simp only [Except.ok.injEq] at h
      subst h
      obtain ⟨runs, t1, t2, tc, t3, t4, t5, t6⟩ := batch_loop_chain lib op input_scores.scale
        input_scores.zero_point input_boxes.data (input_scores.t.size 1) _ _ bs rfl (by simp) hf
      exact ⟨runs, bs.scores, t1, t2, tc, by simpa using t3, by simpa using t4,
        by simpa using t5, by simpa using t6⟩

/-- Under `factors_in_unit` the operator returns on every input that passes
the shape checks. -/
theorem run_sound (lib : Lib) (op : AABBRoINMSOp) (input_batch_splits : Tensor)
    (input_scores : Int8TensorCPU) (input_boxes : Tensor)
    (H : factors_in_unit lib op input_scores.scale input_scores.zero_point input_boxes.data
      (input_scores.t.size 1))
    (hshape : check_shapes input_batch_splits input_scores input_boxes = .ok ()) :
    ∃ out, RunOnDevice lib op input_batch_splits input_scores input_boxes = .ok out := by
  obtain ⟨bs, hbs, _⟩ := forE_total
    (process_image lib op input_scores.scale input_scores.zero_point input_boxes.data
      (input_scores.t.size 1))
    (fun _ => True)
    ((List.range (input_batch_splits.size 0)).map (fun b => input_batch_splits.data.getD b 0))
    (fun nb _ u _ => by
      obtain ⟨v, hv, _⟩ := process_image_sound lib op input_scores.scale
        input_scores.zero_point input_boxes.data (input_scores.t.size 1) H u nb
      exact ⟨v, hv, trivial⟩)
    { scores := input_scores.t.data, output_scores := [], output_boxes := [],
      output_classes := [], total_keep_per_batch := [] } trivial
  unfold RunOnDevice
  rw [hshape]
  dsimp only
  rw [hbs]
  exact ⟨_, rfl⟩

/-- A successful call on a batch of one image: the outputs are the rendering
of one run that is entered with the input table. -/
theorem run_single (lib : Lib) (op : AABBRoINMSOp) (input_batch_splits : Tensor)
    (input_scores : Int8TensorCPU) (input_boxes : Tensor) (out : Outputs)
    (h : RunOnDevice lib op input_batch_splits input_scores input_boxes = .ok out)
    (hone : input_batch_splits.size 0 = 1) :
    ∃ r : ImageRun,
      r.num_boxes = input_batch_splits.data.getD 0 0 ∧
      r.valid lib op input_scores.scale input_scores.zero_point input_boxes.data
        (input_scores.t.size 1) ∧
      r.table = input_scores.t.data ∧
      out.output_classes = (r.detections (input_scores.t.size 1)).map Prod.fst ∧
      out.output_scores = (r.detections (input_scores.t.size 1)).map
        (out_score input_scores.scale input_scores.zero_point r.final.scores
          (input_scores.t.size 1)) ∧
      out.output_boxes = (r.detections (input_scores.t.size 1)).flatMap
        (out_box input_boxes.data (input_scores.t.size 1)) ∧
      out.output_batch_splits = [(r.detections (input_scores.t.size 1)).length] := by
  obtain ⟨runs, last, t1, t2, tc, t3, t4, t5, t6⟩ :=
    run_trace_chain lib op input_batch_splits input_scores input_boxes out h
  rw [hone] at t1
  have hr1 : List.range 1 = [0] := rfl
  rw [hr1, List.map_cons, List.map_nil] at t1
  match runs, t1, t2, tc, t3, t4, t5, t6 with
  | [r], t1, t2, tc, t3, t4, t5, t6 =>
    simp only [List.map_cons, List.map_nil, List.cons.injEq, and_true] at t1
    simp only [tables_chain] at tc
    obtain ⟨v, k⟩ := t2 r (List.mem_singleton.mpr rfl)
    refine ⟨r, t1, v, tc.1, ?_, ?_, ?_, ?_⟩
    · rw [t5]; simp
    · rw [t3]; simp
    · rw [t4]; simp
    · rw [t6, ← k]; simp
  | [], t1, _, _, _, _, _, _ => simp at t1
  | _ :: _ :: _, t1, _, _, _, _, _, _ => simp at t1


/-! ## Ties in the global merge -/

/-- In a duplicate-free list, an entry that comes before an entry of the
first `m` is itself among the first `m`. -/
theorem sublist_pair_take {α : Type} (l : List α) (m : Nat) (a b : α) (hnd : l.Nodup)
    (hs : [a, b].Sublist l) (hb : b ∈ l.take m) : a ∈ l.take m := by
  have hsplit := List.take_append_drop m l
  rw [← hsplit] at hs hnd
  have hdis : b ∉ l.drop m := fun hd => (List.nodup_append.mp hnd).2.2 hb hd
  obtain ⟨l1, l2, he, h1, h2⟩ := List.sublist_append_iff.mp hs
  match l1, l2, he, h1, h2 with
  | [], l2, he, _, h2 =>
    simp only [List.nil_append] at he
    subst he
    exact absurd (h2.subset (by simp)) hdis
  | [x], l2, he, h1, h2 =>
    simp only [List.singleton_append, List.cons.injEq] at he
    obtain ⟨rfl, rfl⟩ := he
    exact absurd (h2.subset (by simp)) hdis
  | x :: y :: t, l2, he, h1, _ =>
    simp only [List.cons_append, List.cons.injEq] at he
    obtain ⟨rfl, _, _⟩ := he
    exact h1.subset (by simp)

/-- Insertion keeps the entries already there in their order. -/
theorem insert_desc_sublist (key : Nat × Nat → Nat) (a : Nat × Nat) (m : List (Nat × Nat)) :
    m.Sublist (insert_desc key a m) := by
  induction m with
  | nil => exact List.nil_sublist _
  | cons y ys ih =>
    unfold insert_desc
    split_ifs
    · exact ih.cons₂ y
    · exact List.sublist_cons_self _ _

/-- Insertion puts the new entry in front of every entry whose key is not larger. -/
theorem insert_desc_before (key : Nat × Nat → Nat) (a b : Nat × Nat) (m : List (Nat × Nat))
    (hb : b ∈ m) (hk : key b ≤ key a) : [a, b].Sublist (insert_desc key a m) := by
  induction m with
  | nil => simp at hb
  | cons y ys ih =>
    unfold insert_desc
    split_ifs with hlt
    · have hne : b ≠ y := by
        rintro rfl
        omega
      rcases List.mem_cons.mp hb with h1 | h1
      · exact absurd h1 hne
      · exact (ih h1).cons y
    · exact (List.singleton_sublist.mpr hb).cons₂ a

theorem sort_desc_mem (key : Nat × Nat → Nat) (l : List (Nat × Nat)) (b : Nat × Nat)
    (hb : b ∈ l) : b ∈ sort_desc key l :=
  (std_lib.sort_perm key l).symm.subset hb

/-- The insertion sort `sort_desc` is stable: two entries with equal keys
stay in the order they had. -/
theorem sort_desc_stable (key : Nat × Nat → Nat) (l : List (Nat × Nat)) (a b : Nat × Nat)
    (hs : [a, b].Sublist l) (hk : key a = key b) : [a, b].Sublist (sort_desc key l) := by
  induction l with
  | nil => simp at hs
  | cons x t ih =>
    have hunf : sort_desc key (x :: t) = insert_desc key x (sort_desc key t) := rfl
    rw [hunf]
    cases hs with
    | cons _ h1 => exact (ih h1).trans (insert_desc_sublist key x _)
    | cons₂ _ h1 =>
      have hb : b ∈ t := List.singleton_sublist.mp h1
      exact insert_desc_before key a b _ (sort_desc_mem key t b hb) (le_of_eq hk.symm)


/-- Two sorted permutations of a list whose keys are pairwise distinct are equal. -/
theorem sorted_perm_unique (key : Nat × Nat → Nat) (l l1 l2 : List (Nat × Nat))
    (h1 : l1.Perm l) (h2 : l2.Perm l)
    (s1 : l1.Pairwise (fun a b => key b ≤ key a)) (s2 : l2.Pairwise (fun a b => key b ≤ key a))
    (hd : l.Pairwise (fun a b => key a ≠ key b)) : l1 = l2 := by
  have d1 : l1.Pairwise (fun a b => key a ≠ key b) := h1.symm.pairwise hd (fun h => h.symm)
  have d2 : l2.Pairwise (fun a b => key a ≠ key b) := h2.symm.pairwise hd (fun h => h.symm)
  have t1 : l1.Pairwise (fun a b => key b < key a) :=
    (s1.and d1).imp (fun h => lt_of_le_of_ne h.1 h.2.symm)
  have t2 : l2.Pairwise (fun a b => key b < key a) :=
    (s2.and d2).imp (fun h => lt_of_le_of_ne h.1 h.2.symm)
  haveI : IsAntisymm (Nat × Nat) (fun a b => key b < key a) :=
    ⟨fun a b hab hba => absurd hab (Nat.lt_asymm hba)⟩
  exact List.eq_of_perm_of_sorted (h1.trans h2.symm) t1 t2

/-! ## The claims, continued -/

/-- C12 (batch-splits precondition): the code at an input whose batch splits
do not sum to the number of rows.  Two rows, batch splits `[1]`: the call
succeeds and writes the detection of row 0; no check of the sum exists. -/
theorem batch_splits_sum_unchecked :
    (splits_tensor [1]).data.sum ≠ apart_scores.t.size 0 ∧
    check_shapes (splits_tensor [1]) apart_scores apart_boxes = .ok () ∧
    RunOnDevice std_lib (default_op 100 SOFT_NMS_NONE) (splits_tensor [1]) apart_scores apart_boxes
      = .ok short_out :=
  ⟨by decide, by decide, by decide!⟩

/-- C13 (score/box shape precondition).  When the score table and the box
table disagree on the number of rows, or the row width of the box table is
not four times `num_classes`, the call fails with the error of the shape
checks, which run before the batch loop, so nothing is selected or written.
When both equalities hold, neither of the two checks is the one that fails. -/
theorem shape_precondition (lib : Lib) (op : AABBRoINMSOp) (input_batch_splits : Tensor)
    (input_scores : Int8TensorCPU) (input_boxes : Tensor) :
    ((input_scores.t.size 0 ≠ input_boxes.size 0 ∨
        input_scores.t.size 1 * 4 ≠ input_boxes.size 1) →
      ∃ e, check_shapes input_batch_splits input_scores input_boxes = .error e ∧
        RunOnDevice lib op input_batch_splits input_scores input_boxes = .error e) ∧
    (input_scores.t.size 0 = input_boxes.size 0 →
      input_scores.t.size 1 * 4 = input_boxes.size 1 →
      check_shapes input_batch_splits input_scores input_boxes
        ≠ .error "num_rois == boxes.size(0)" ∧
      check_shapes input_batch_splits input_scores input_boxes
        ≠ .error "num_classes * 4 == boxes.size(1)") := by
  refine ⟨?_, ?_⟩
  · intro hne
    have hcs : ∃ e, check_shapes input_batch_splits input_scores input_boxes = .error e := by
      unfold check_shapes
      split_ifs <;> first
        | exact ⟨_, rfl⟩
        | (exfalso; rcases hne with h1 | h1 <;> contradiction)
    obtain ⟨e, he⟩ := hcs
    refine ⟨e, he, ?_⟩
    unfold RunOnDevice
    rw [he]
  · intro h1 h2
    exact ⟨fun h => check_shapes_rows _ _ _ h h1, fun h => check_shapes_width _ _ _ h h2⟩

/-- Witness for C13: a score table of two rows with a box table of one row. -/
theorem shape_precondition_witness :
    (apart_scores.t.size 0 ≠ one_row_boxes.size 0 ∨
      apart_scores.t.size 1 * 4 ≠ one_row_boxes.size 1) ∧
    ∃ e, check_shapes (splits_tensor [2]) apart_scores one_row_boxes = .error e ∧
      RunOnDevice std_lib (default_op 100 SOFT_NMS_NONE) (splits_tensor [2]) apart_scores
        one_row_boxes = .error e :=
  ⟨Or.inl (by decide),
    (shape_precondition std_lib (default_op 100 SOFT_NMS_NONE) (splits_tensor [2]) apart_scores
      one_row_boxes).1 (Or.inl (by decide))⟩

/-- C14 (zero-union guard): the code on two RoIs of class 1 whose boxes are
the same empty box, with scores 0.50 and 0.60, in mode GAUSSIAN.  RoI 1 is
emitted and RoI 0 is compared against it with intersection and union area 0.
The test of line 141 passes (`0 <= max_iou * 0`), and line 151 then divides
by the union area: the quotient `0 / 0` is NaN, the argument of `std::exp` is
NaN, and lines 152-153 store `QuantizeUint8` of the product of the score with
`exp` of NaN in the entry of the candidate, whatever the library functions
are.  With the library of the model the entry becomes raw 0 and the second
detection is written with score 0 instead of 0.50.  In modes NONE and LINEAR
the same input evaluates no quotient and both scores are written as given. -/
theorem gaussian_zero_union_stores_nan :
    union_area_f32 (load_box_f32 zero_boxes.data 2 1 1) (load_box_f32 zero_boxes.data 2 1 0)
      = .fin 0 ∧
    within_iou_f32 (default_op_f32 100 SOFT_NMS_GAUSSIAN) zero_boxes.data 2 1 1 0 ∧
    Fl.div binary32
        (intersection_area_f32 (load_box_f32 zero_boxes.data 2 1 1)
          (load_box_f32 zero_boxes.data 2 1 0))
        (union_area_f32 (load_box_f32 zero_boxes.data 2 1 1) (load_box_f32 zero_boxes.data 2 1 0))
      = .nan ∧
    (∀ lib : Lib_f32,
      compare_outcome_f32 lib (default_op_f32 100 SOFT_NMS_GAUSSIAN) (binary32.round (1 / 100)) 0
          zero_boxes.data 2 1 1
          (Memory.setup (default_op_f32 100 SOFT_NMS_GAUSSIAN) [0, 50, 0, 60]) 0
        = .ok (some (.fin (1 / 2)),
            { input_scores := [0, 50, 0, 60]
              adjusted_scores :=
                [0, lib.QuantizeUint8 (binary32.round (1 / 100)) 0
                      (Fl.to_float (Fl.mul binary64 (.fin (1 / 2)) (lib.exp .nan))) % 256, 0, 60]
              scores_ptr := .adjusted
              scores_adjust_ptr := .adjusted })) ∧
    gnu_lib_f32.QuantizeUint8 (binary32.round (1 / 100)) 0
      (Fl.to_float (Fl.mul binary64 (.fin (1 / 2)) (gnu_lib_f32.exp .nan))) % 256 = 0 ∧
    RunOnDevice_f32 gnu_lib_f32 (default_op_f32 100 SOFT_NMS_GAUSSIAN)
        (workspace (splits_tensor [2]) (scores_tensor_f32 2 2 [0, 50, 0, 60]) zero_boxes)
      = .ok { workspace (splits_tensor [2]) (scores_tensor_f32 2 2 [0, 50, 0, 60]) zero_boxes with
              outputs := zero_gaussian_out } ∧
    zero_gaussian_out.output_scores = [.fin (10066329 / 16777216), .fin 0] ∧
    RunOnDevice_f32 gnu_lib_f32 (default_op_f32 100 SOFT_NMS_NONE)
        (workspace (splits_tensor [2]) (scores_tensor_f32 2 2 [0, 50, 0, 60]) zero_boxes)
      = .ok { workspace (splits_tensor [2]) (scores_tensor_f32 2 2 [0, 50, 0, 60]) zero_boxes with
              outputs := zero_plain_out } ∧
    RunOnDevice_f32 gnu_lib_f32 (default_op_f32 100 SOFT_NMS_LINEAR)
        (workspace (splits_tensor [2]) (scores_tensor_f32 2 2 [0, 50, 0, 60]) zero_boxes)
      = .ok { workspace (splits_tensor [2]) (scores_tensor_f32 2 2 [0, 50, 0, 60]) zero_boxes with
              outputs := zero_plain_out } ∧
    zero_plain_out.output_scores = [.fin (10066329 / 16777216), .fin (1 / 2)] :=
  ⟨by decide!, by decide!, by decide!, fun lib => zero_union_outcome lib, by decide!, by decide!, rfl,
    by decide!,
    by decide!, rfl⟩

/-- C15 (scenario B), counterexample: two RoIs with the same class-1 box,
class-1 scores 0.60 and 0.50, mode NONE, `max_iou = 0.3` and
`max_objects = 1`.  RoI 0 also scores 0.90 for class 2, so the global cap
retains that detection only and the output holds no row of class 1 at all. -/
theorem scenario_b_counterexample :
    (default_op 1 SOFT_NMS_NONE).soft_nms_method = SOFT_NMS_NONE ∧
    (default_op 1 SOFT_NMS_NONE).max_iou < 1 ∧ (default_op 1 SOFT_NMS_NONE).max_objects ≥ 1 ∧
    load_box crowd_boxes.data 3 1 0 = load_box crowd_boxes.data 3 1 1 ∧
    0 < (load_box crowd_boxes.data 3 1 0).area ∧
    (default_op 1 SOFT_NMS_NONE).min_score
      < score_at crowd_scores.scale crowd_scores.zero_point crowd_scores.t.data 3 1 1 ∧
    score_at crowd_scores.scale crowd_scores.zero_point crowd_scores.t.data 3 1 1
      < score_at crowd_scores.scale crowd_scores.zero_point crowd_scores.t.data 3 1 0 ∧
    RunOnDevice std_lib (default_op 1 SOFT_NMS_NONE) (splits_tensor [2]) crowd_scores crowd_boxes
      = .ok crowd_out ∧
    1 ∉ crowd_out.output_classes :=
  ⟨by decide, by decide!, by decide, by decide!, by decide!, by decide!, by decide!, by decide!,
    by decide⟩

/-- C15 (scenario B), amended.  Mode NONE, `min_score >= -1`, one image of
two RoIs whose class-`c` boxes are the same box with `x1 < x2` and `y1 < y2`,
both class-`c` scores above `min_score`, RoI `hi` scoring higher than RoI
`lo`, and `max_iou < 1`.  Then the call returns, the selector of class `c`
keeps exactly `[hi]`, and the rows of class `c` in the output are `[hi]`
when the global cap does not truncate the image and `[hi]` or none when it
does; the RoI `lo` never appears for class `c`. -/
theorem scenario_b_higher_survives (lib : Lib) (op : AABBRoINMSOp) (input_batch_splits : Tensor)
    (input_scores : Int8TensorCPU) (input_boxes : Tensor) (c hi lo : Nat)
    (hmode : op.soft_nms_method = SOFT_NMS_NONE) (hmin : -1 ≤ op.min_score)
    (hshape : check_shapes input_batch_splits input_scores input_boxes = .ok ())
    (hone : input_batch_splits.size 0 = 1) (htwo : input_batch_splits.data.getD 0 0 = 2)
    (hc : 1 ≤ c ∧ c < input_scores.t.size 1)
    (hpair : (hi = 0 ∧ lo = 1) ∨ (hi = 1 ∧ lo = 0))
    (hbox : load_box input_boxes.data (input_scores.t.size 1) c hi
      = load_box input_boxes.data (input_scores.t.size 1) c lo)
    (hx : (load_box input_boxes.data (input_scores.t.size 1) c hi).x1
      < (load_box input_boxes.data (input_scores.t.size 1) c hi).x2)
    (hy : (load_box input_boxes.data (input_scores.t.size 1) c hi).y1
      < (load_box input_boxes.data (input_scores.t.size 1) c hi).y2)
    (hlo : op.min_score < score_at input_scores.scale input_scores.zero_point
      input_scores.t.data (input_scores.t.size 1) c lo)
    (hhi : score_at input_scores.scale input_scores.zero_point input_scores.t.data
        (input_scores.t.size 1) c lo
      < score_at input_scores.scale input_scores.zero_point input_scores.t.data
        (input_scores.t.size 1) c hi)
    (hiou : op.max_iou < 1) :
    ∃ out, RunOnDevice lib op input_batch_splits input_scores input_boxes = .ok out ∧
      ∃ r : ImageRun,
        r.valid lib op input_scores.scale input_scores.zero_point input_boxes.data
          (input_scores.t.size 1) ∧
        r.num_boxes = 2 ∧ r.table = input_scores.t.data ∧
        out.image_classes 0 = (r.detections (input_scores.t.size 1)).map Prod.fst ∧
        out.image_boxes 0 = (r.detections (input_scores.t.size 1)).flatMap
          (out_box input_boxes.data (input_scores.t.size 1)) ∧
        out.image_scores 0 = (r.detections (input_scores.t.size 1)).map
          (out_score input_scores.scale input_scores.zero_point input_scores.t.data
            (input_scores.t.size 1)) ∧
        r.selected.keeps.getD c [] = [hi] ∧
        (¬ (op.max_objects > 0 ∧ (r.selected.total_keep_count : Int) > op.max_objects) →
          ((r.detections (input_scores.t.size 1)).filter (fun o => o.1 = c)).map Prod.snd
            = [hi]) ∧
        (((r.detections (input_scores.t.size 1)).filter (fun o => o.1 = c)).map Prod.snd = [hi] ∨
          ((r.detections (input_scores.t.size 1)).filter (fun o => o.1 = c)).map Prod.snd = []) ∧
        (c, lo) ∉ r.detections (input_scores.t.size 1) := by
  obtain ⟨out, h⟩ := run_total_none lib op input_batch_splits input_scores input_boxes hmode hmin
    hshape
  refine ⟨out, h, ?_⟩
  obtain ⟨r, hnb, hv, htbl, _, _, hs, hbx, hcl⟩ :=
    run_image lib op input_batch_splits input_scores input_boxes out h 0 (by omega)
  have hcr : c ∈ class_range (input_scores.t.size 1) := (class_range_mem _ _).mpr hc
  have hfin := (valid_none_scores lib op _ _ _ _ r hv hmode).2
  obtain ⟨k1, k2, k3, _⟩ := class_loop_init_spec lib op input_scores.scale input_scores.zero_point
    input_boxes.data (input_scores.t.size 1) r.num_boxes r.table r.selected hv.1
  obtain ⟨tbl1, s, hloop, hkeep, htb⟩ := k3 c hcr
  rw [htb hmode, htbl hmode, hnb, htwo] at hloop
  have hover := (same_box_overlap op input_boxes.data (input_scores.t.size 1) c hi lo hbox hx hy
    hiou).2.2.2
  have hsel : r.selected.keeps.getD c [] = [hi] := by
    rw [hkeep]
    exact pair_keep_none lib op input_scores.scale input_scores.zero_point input_boxes.data
      (input_scores.t.size 1) c input_scores.t.data hi lo hmode hpair hlo hhi
      (by linarith) hover s hloop
  obtain ⟨f1, f2, f3⟩ := final_keep_facts lib op input_scores.scale input_scores.zero_point
    input_boxes.data (input_scores.t.size 1) r hv c hcr
  have hall : ∀ x ∈ r.final.keeps.getD c [], x = hi := by
    intro x hx1
    have := f2 x hx1
    rw [hsel] at this
    exact List.mem_singleton.mp this
  have hne : lo ≠ hi := by
    rcases hpair with ⟨rfl, rfl⟩ | ⟨rfl, rfl⟩ <;> decide
  refine ⟨r, hv, by rw [hnb, htwo], htbl hmode, hcl, hbx, by rw [hs, hfin, htbl hmode], hsel,
    ?_, ?_, ?_⟩
  · intro hcap
    obtain ⟨_, _, _, l4⟩ := limit_objects_spec lib op (input_scores.t.size 1) r.selected r.final
      k1 k2 hv.2
    rcases l4 with ⟨_, heq⟩ | ⟨a, b, _⟩
    · rw [f3, heq, hsel]
    · exact absurd ⟨a, b⟩ hcap
  · rw [f3]
    exact nodup_all_eq _ hi f1 hall
  · intro hmem
    have := ((detections_mem _ r (c, lo)).mp hmem).2
    exact hne (hall lo this)

/-- Witness for C15: the two RoIs of `pair_scores` with the same box; RoI 0
scores higher and is the only detection. -/
theorem scenario_b_higher_survives_witness :
    ∃ out, RunOnDevice std_lib (default_op 100 SOFT_NMS_NONE) (splits_tensor [2]) pair_scores
        same_boxes = .ok out ∧
      ∃ r : ImageRun,
        r.valid std_lib (default_op 100 SOFT_NMS_NONE) pair_scores.scale pair_scores.zero_point
          same_boxes.data (pair_scores.t.size 1) ∧
        r.num_boxes = 2 ∧ r.table = pair_scores.t.data ∧
        out.image_classes 0 = (r.detections (pair_scores.t.size 1)).map Prod.fst ∧
        out.image_boxes 0 = (r.detections (pair_scores.t.size 1)).flatMap
          (out_box same_boxes.data (pair_scores.t.size 1)) ∧
        out.image_scores 0 = (r.detections (pair_scores.t.size 1)).map
          (out_score pair_scores.scale pair_scores.zero_point pair_scores.t.data
            (pair_scores.t.size 1)) ∧
        r.selected.keeps.getD 1 [] = [0] ∧
        (¬ ((default_op 100 SOFT_NMS_NONE).max_objects > 0 ∧
            (r.selected.total_keep_count : Int) > (default_op 100 SOFT_NMS_NONE).max_objects) →
          ((r.detections (pair_scores.t.size 1)).filter (fun o => o.1 = 1)).map Prod.snd
            = [0]) ∧
        (((r.detections (pair_scores.t.size 1)).filter (fun o => o.1 = 1)).map Prod.snd = [0] ∨
          ((r.detections (pair_scores.t.size 1)).filter (fun o => o.1 = 1)).map Prod.snd = []) ∧
        (1, 1) ∉ r.detections (pair_scores.t.size 1) :=
  scenario_b_higher_survives std_lib (default_op 100 SOFT_NMS_NONE) (splits_tensor [2])
    pair_scores same_boxes 1 0 1 (by decide) (by decide!) (by decide) (by decide) (by decide)
    (by decide) (by decide) (by decide!) (by decide!) (by decide!) (by decide!) (by decide!)
    (by decide!)

/-- C16 (scenario C), counterexample: two RoIs with the same class-1 box,
scores 0.60 and 0.50, mode LINEAR, `max_iou = 0.3`, `soft_nms_min_score = 0`.
RoI 1 is rescored to `0.50 * (1 - 1) = 0`, and since `0 >= 0` it stays a
candidate: the output holds both RoIs for class 1, the second with score 0. -/
theorem scenario_c_counterexample :
    (default_op 100 SOFT_NMS_LINEAR).soft_nms_method = SOFT_NMS_LINEAR ∧
    (default_op 100 SOFT_NMS_LINEAR).soft_nms_min_score = 0 ∧
    (default_op 100 SOFT_NMS_LINEAR).max_iou < 1 ∧
    load_box same_boxes.data 2 1 0 = load_box same_boxes.data 2 1 1 ∧
    0 < (load_box same_boxes.data 2 1 0).area ∧
    (default_op 100 SOFT_NMS_LINEAR).min_score
      < score_at pair_scores.scale pair_scores.zero_point pair_scores.t.data 2 1 1 ∧
    score_at pair_scores.scale pair_scores.zero_point pair_scores.t.data 2 1 1
      < score_at pair_scores.scale pair_scores.zero_point pair_scores.t.data 2 1 0 ∧
    compare_outcome std_lib (default_op 100 SOFT_NMS_LINEAR) pair_scores.scale
      pair_scores.zero_point same_boxes.data 2 1 0 pair_scores.t.data 1
      = .ok (some 0, [0, 60, 0, 0]) ∧
    RunOnDevice std_lib (default_op 100 SOFT_NMS_LINEAR) (splits_tensor [2]) pair_scores
      same_boxes = .ok pair_linear_out ∧
    pair_linear_out.output_classes = [1, 1] ∧
    pair_linear_out.output_boxes = [0, 0, 8, 8, 0, 0, 8, 8] :=
  ⟨by decide, by decide!, by decide!, by decide!, by decide!, by decide!, by decide!, by decide!,
    by decide!, by decide, by decide⟩

/-- C16 (scenario C), amended.  Mode LINEAR with `soft_nms_min_score = 0`, one
image of two RoIs whose class-`c` boxes are the same box with `x1 < x2` and
`y1 < y2`, both class-`c` scores above `min_score`, RoI `hi` scoring higher
than RoI `lo` and above -1, and `max_iou < 1`.  Then the comparison of `lo`
against the emitted `hi` rescores `lo` to 0, stores the requantized 0 and,
as `0 >= soft_nms_min_score`, keeps `lo` as a candidate with score 0.  When
the call returns, the selector of class `c` has kept `[hi, lo]` (only `[hi]`
when `max_objects = 1`), and these are the rows of class `c` in the output
unless the global cap truncates the image.  The call returns on every input
that passes the shape checks when moreover `min_score >= 0`, every box has
`x1 <= x2` and `y1 <= y2`, and the quantizer maps a value at most a
dequantized raw score to at most that raw score and values that are not
negative to raw scores that do not dequantize below 0. -/
theorem scenario_c_second_kept (lib : Lib) (op : AABBRoINMSOp) (input_batch_splits : Tensor)
    (input_scores : Int8TensorCPU) (input_boxes : Tensor) (c hi lo : Nat)
    (hmode : op.soft_nms_method = SOFT_NMS_LINEAR) (hsoft : op.soft_nms_min_score = 0)
    (hone : input_batch_splits.size 0 = 1) (htwo : input_batch_splits.data.getD 0 0 = 2)
    (hc : 1 ≤ c ∧ c < input_scores.t.size 1)
    (hpair : (hi = 0 ∧ lo = 1) ∨ (hi = 1 ∧ lo = 0))
    (hbox : load_box input_boxes.data (input_scores.t.size 1) c hi
      = load_box input_boxes.data (input_scores.t.size 1) c lo)
    (hx : (load_box input_boxes.data (input_scores.t.size 1) c hi).x1
      < (load_box input_boxes.data (input_scores.t.size 1) c hi).x2)
    (hy : (load_box input_boxes.data (input_scores.t.size 1) c hi).y1
      < (load_box input_boxes.data (input_scores.t.size 1) c hi).y2)
    (hlo : op.min_score < score_at input_scores.scale input_scores.zero_point
      input_scores.t.data (input_scores.t.size 1) c lo)
    (hhi : score_at input_scores.scale input_scores.zero_point input_scores.t.data
        (input_scores.t.size 1) c lo
      < score_at input_scores.scale input_scores.zero_point input_scores.t.data
        (input_scores.t.size 1) c hi)
    (hgt : -1 < score_at input_scores.scale input_scores.zero_point input_scores.t.data
        (input_scores.t.size 1) c hi)
    (hiou : op.max_iou < 1) :
    (∀ scores : List Nat,
      compare_outcome lib op input_scores.scale input_scores.zero_point input_boxes.data
        (input_scores.t.size 1) c hi scores lo
      = .ok (some 0, store_score lib input_scores.scale input_scores.zero_point
          (input_scores.t.size 1) c lo 0 scores)) ∧
    (check_shapes input_batch_splits input_scores input_boxes = .ok () →
      0 ≤ op.min_score →
      quantizer_monotone lib input_scores.scale input_scores.zero_point →
      quantizer_nonneg lib input_scores.scale input_scores.zero_point →
      boxes_well_formed input_boxes.data (input_scores.t.size 1) →
      ∃ out, RunOnDevice lib op input_batch_splits input_scores input_boxes = .ok out) ∧
    ∀ out, RunOnDevice lib op input_batch_splits input_scores input_boxes = .ok out →
      ∃ r : ImageRun,
        r.valid lib op input_scores.scale input_scores.zero_point input_boxes.data
          (input_scores.t.size 1) ∧
        r.num_boxes = 2 ∧ r.table = input_scores.t.data ∧
        out.output_classes = (r.detections (input_scores.t.size 1)).map Prod.fst ∧
        out.output_boxes = (r.detections (input_scores.t.size 1)).flatMap
          (out_box input_boxes.data (input_scores.t.size 1)) ∧
        out.output_scores = (r.detections (input_scores.t.size 1)).map
          (out_score input_scores.scale input_scores.zero_point r.final.scores
            (input_scores.t.size 1)) ∧
        r.selected.keeps.getD c [] = (if op.max_objects = 1 then [hi] else [hi, lo]) ∧
        (¬ (op.max_objects > 0 ∧ (r.selected.total_keep_count : Int) > op.max_objects) →
          ((r.detections (input_scores.t.size 1)).filter (fun o => o.1 = c)).map Prod.snd
            = (if op.max_objects = 1 then [hi] else [hi, lo])) := by
  have hsoft0 : op.soft_nms_min_score ≤ 0 := le_of_eq hsoft
  refine ⟨fun scores => same_box_linear_outcome lib op _ _ _ _ c hi lo scores hmode hsoft0 hbox hx
    hy hiou, ?_, ?_⟩
  · intro hshape hmin hq1 hq2 hwf
    exact run_sound lib op input_batch_splits input_scores input_boxes
      ⟨Or.inr (Or.inl hmode), hmin, hq1, hq2, fun _ => hwf,
        fun hg => absurd (hmode.symm.trans hg) (by decide)⟩ hshape
  · intro out h
    obtain ⟨r, hnb, hv, htbl, o1, o2, o3, _⟩ :=
      run_single lib op input_batch_splits input_scores input_boxes out h hone
    have hcr : c ∈ class_range (input_scores.t.size 1) := (class_range_mem _ _).mpr hc
    obtain ⟨tbl, s, hcol, hloop, hkeep, _⟩ := class_loop_init_columns lib op input_scores.scale
      input_scores.zero_point input_boxes.data (input_scores.t.size 1) r.num_boxes r.table
      r.selected hv.1 c hcr
    rw [htbl] at hcol
    rw [hnb, htwo] at hloop
    have hsc := score_at_column input_scores.scale input_scores.zero_point (input_scores.t.size 1)
      c tbl input_scores.t.data hcol
    have hsel : r.selected.keeps.getD c [] = (if op.max_objects = 1 then [hi] else [hi, lo]) := by
      rw [hkeep]
      exact pair_keep_linear lib op input_scores.scale input_scores.zero_point input_boxes.data
        (input_scores.t.size 1) c tbl hi lo hmode hsoft0 hpair (by rw [hsc]; exact hlo)
        (by rw [hsc, hsc]; exact hhi) (by rw [hsc]; exact hgt) hbox hx hy hiou s hloop
    refine ⟨r, hv, by rw [hnb, htwo], htbl, o1, o3, o2, hsel, ?_⟩
    intro hcap
    obtain ⟨k1, k2, _, _⟩ := class_loop_init_spec lib op input_scores.scale
      input_scores.zero_point input_boxes.data (input_scores.t.size 1) r.num_boxes r.table
      r.selected hv.1
    obtain ⟨_, _, _, l4⟩ := limit_objects_spec lib op (input_scores.t.size 1) r.selected r.final
      k1 k2 hv.2
    obtain ⟨_, _, f3⟩ := final_keep_facts lib op input_scores.scale input_scores.zero_point
      input_boxes.data (input_scores.t.size 1) r hv c hcr
    rcases l4 with ⟨_, heq⟩ | ⟨a, b, _⟩
    · rw [f3, heq, hsel]
    · exact absurd ⟨a, b⟩ hcap

/-- Witness for C16: the two RoIs of `pair_scores` with the same box in mode
LINEAR; the call returns `pair_linear_out`, whose two rows are RoI 0 and RoI 1. -/
theorem scenario_c_second_kept_witness :
    RunOnDevice std_lib (default_op 100 SOFT_NMS_LINEAR) (splits_tensor [2]) pair_scores
      same_boxes = .ok pair_linear_out ∧
    ∃ r : ImageRun,
      r.valid std_lib (default_op 100 SOFT_NMS_LINEAR) pair_scores.scale pair_scores.zero_point
        same_boxes.data (pair_scores.t.size 1) ∧
      r.num_boxes = 2 ∧ r.table = pair_scores.t.data ∧
      pair_linear_out.output_classes = (r.detections (pair_scores.t.size 1)).map Prod.fst ∧
      pair_linear_out.output_boxes = (r.detections (pair_scores.t.size 1)).flatMap
        (out_box same_boxes.data (pair_scores.t.size 1)) ∧
      pair_linear_out.output_scores = (r.detections (pair_scores.t.size 1)).map
        (out_score pair_scores.scale pair_scores.zero_point r.final.scores
          (pair_scores.t.size 1)) ∧
      r.selected.keeps.getD 1 []
        = (if (default_op 100 SOFT_NMS_LINEAR).max_objects = 1 then [0] else [0, 1]) ∧
      (¬ ((default_op 100 SOFT_NMS_LINEAR).max_objects > 0 ∧
          (r.selected.total_keep_count : Int) > (default_op 100 SOFT_NMS_LINEAR).max_objects) →
        ((r.detections (pair_scores.t.size 1)).filter (fun o => o.1 = 1)).map Prod.snd
          = (if (default_op 100 SOFT_NMS_LINEAR).max_objects = 1 then [0] else [0, 1])) :=
  ⟨by decide!,
    (scenario_c_second_kept std_lib (default_op 100 SOFT_NMS_LINEAR) (splits_tensor [2])
      pair_scores same_boxes 1 0 1 (by decide) (by decide!) (by decide) (by decide) (by decide)
      (by decide) (by decide!) (by decide!) (by decide!) (by decide!) (by decide!) (by decide!)
      (by decide!)).2.2 pair_linear_out (by decide!)⟩

/-- C17 (scenario A, code defect).  One RoI, two classes, mode NONE,
`min_score = -5` and a class-1 score of `-2`: the pair scores above
`min_score` and nothing can suppress it, yet the call does not return the
one detection: the selection loop is entered with `best_score_pos = -1`,
because the scan only records a best position for scores above `-1`, and its
own assertion `DCHECK_GE(best_score_pos, 0)` fails. -/
theorem scenario_a_low_score_asserts :
    score_at low_scores.scale low_scores.zero_point low_scores.t.data 2 1 0 = -2 ∧
    low_op.min_score < score_at low_scores.scale low_scores.zero_point low_scores.t.data 2 1 0 ∧
    low_op.soft_nms_method = SOFT_NMS_NONE ∧
    (scan low_op low_scores.scale low_scores.zero_point 2 1 1 low_scores.t.data).indices = [0] ∧
    (scan low_op low_scores.scale low_scores.zero_point 2 1 1 low_scores.t.data).best_score_pos
      = -1 ∧
    RunOnDevice std_lib low_op (splits_tensor [1]) low_scores one_row_boxes
      = .error "DCHECK_GE(best_score_pos, 0)" :=
  ⟨by decide!, by decide!, by decide, by decide!, by decide!, by decide!⟩

/-- C18 (stable global merge), counterexample: ten RoIs far apart that all
score raw 70 for class 1 and for class 2, `max_objects = 10`, mode NONE.  The
class loop keeps all ten RoIs for either class, so the flattened entries are
the ten of class 1 followed by the ten of class 2, all with the same raw
score, and the cap cuts after the tenth.  The `std::sort` of libstdc++
partitions a range of more than 16 entries and leaves the ten entries of
class 2 in front: the operator returns ten detections of class 2 and
discards every entry of class 1, although each of them is earlier in the
original order than every retained one.  An order-preserving sort returns
the ten detections of class 1. -/
theorem stable_merge_counterexample :
    forE (nms_class gnu_lib (default_op 10 SOFT_NMS_NONE) ties_scores.scale ties_scores.zero_point
        ties_boxes.data 3 10) (class_range 3)
        { keeps := List.replicate 3 [], total_keep_count := 0, scores := ties_scores.t.data }
      = .ok { keeps := [[], List.range 10, List.range 10], total_keep_count := 20,
              scores := ties_scores.t.data } ∧
    all_objects 3 [[], List.range 10, List.range 10] = ties_objects ∧
    (∀ o ∈ ties_objects, raw_key ties_scores.t.data 3 o = 70) ∧
    introsort (raw_key ties_scores.t.data 3) ties_objects = ties_sorted ∧
    gnu_lib.sort (raw_key ties_scores.t.data 3) ties_objects = ties_sorted ∧
    RunOnDevice gnu_lib (default_op 10 SOFT_NMS_NONE) (splits_tensor [10]) ties_scores ties_boxes
      = .ok ties_out ∧
    ties_out.output_classes = [2, 2, 2, 2, 2, 2, 2, 2, 2, 2] ∧
    RunOnDevice std_lib (default_op 10 SOFT_NMS_NONE) (splits_tensor [10]) ties_scores ties_boxes
      = .ok ties_stable_out ∧
    ties_stable_out.output_classes = [1, 1, 1, 1, 1, 1, 1, 1, 1, 1] := by
  set_option maxRecDepth 100000 in
  exact ⟨by decide!, by decide!, by decide!, by decide!, by decide!, by decide!, by decide!,
    by decide!, by decide!⟩

/-- C18 (stable global merge), amended.  The merge orders the flattened
`(class, roi)` entries with `std::sort`, of which only a sorted permutation
is known.  Whenever the global cap truncates an image (`max_objects > 0` and
more selected pairs than `max_objects`), exactly `max_objects` of the
selected pairs are retained, every selected pair whose raw score is strictly
higher than that of a retained pair is retained, and, when no two selected
pairs have the same raw score, the retained keep-lists are the same for
every sort.  Which of the pairs that tie with a pair on the other side of the
cut are retained is left to the sort. -/
theorem merge_cut_by_raw_score (lib : Lib) (op : AABBRoINMSOp)
    (input_batch_splits : Tensor) (input_scores : Int8TensorCPU) (input_boxes : Tensor)
    (out : Outputs)
    (h : RunOnDevice lib op input_batch_splits input_scores input_boxes = .ok out)
    (b : Nat) (hb : b < input_batch_splits.size 0) :
    ∃ r : ImageRun,
      r.num_boxes = input_batch_splits.data.getD b 0 ∧
      r.valid lib op input_scores.scale input_scores.zero_point input_boxes.data
        (input_scores.t.size 1) ∧
      out.image_classes b = (r.detections (input_scores.t.size 1)).map Prod.fst ∧
      out.image_scores b = (r.detections (input_scores.t.size 1)).map
        (out_score input_scores.scale input_scores.zero_point r.selected.scores
          (input_scores.t.size 1)) ∧
      out.image_boxes b = (r.detections (input_scores.t.size 1)).flatMap
        (out_box input_boxes.data (input_scores.t.size 1)) ∧
      (op.max_objects > 0 →
        ((all_objects (input_scores.t.size 1) r.selected.keeps).length : Int) > op.max_objects →
        (((r.detections (input_scores.t.size 1)).length : Nat) : Int) = op.max_objects ∧
        (∀ o ∈ r.detections (input_scores.t.size 1),
          o ∈ all_objects (input_scores.t.size 1) r.selected.keeps) ∧
        (∀ o ∈ r.detections (input_scores.t.size 1),
          ∀ o1 ∈ all_objects (input_scores.t.size 1) r.selected.keeps,
          raw_key r.selected.scores (input_scores.t.size 1) o
            < raw_key r.selected.scores (input_scores.t.size 1) o1 →
          o1 ∈ r.detections (input_scores.t.size 1)) ∧
        ((all_objects (input_scores.t.size 1) r.selected.keeps).Pairwise
            (fun o o1 => raw_key r.selected.scores (input_scores.t.size 1) o
              ≠ raw_key r.selected.scores (input_scores.t.size 1) o1) →
          ∀ lib1 : Lib, limit_objects lib1 op (input_scores.t.size 1) r.selected = .ok r.final)) := by
  obtain ⟨r, hnb, hv, _, hcount, _, hs, hbx, hcl⟩ :=
    run_image lib op input_batch_splits input_scores input_boxes out h b hb
  obtain ⟨k1, k2, _, _⟩ := class_loop_init_spec lib op input_scores.scale input_scores.zero_point
    input_boxes.data (input_scores.t.size 1) r.num_boxes r.table r.selected hv.1
  obtain ⟨l1, _, _, l4⟩ := limit_objects_spec lib op (input_scores.t.size 1) r.selected r.final
    k1 k2 hv.2
  refine ⟨r, hnb, hv, hcl, by rw [hs, l1], hbx, ?_⟩
  intro hmax hgt
  rcases l4 with ⟨hno, _⟩ | ⟨_, _, htot, _, hperm⟩
  · exact absurd ⟨hmax, by rw [k2]; exact hgt⟩ hno
  · have hlen : (((r.detections (input_scores.t.size 1)).length : Nat) : Int) = op.max_objects := by
      rw [← hcount, htot]
      omega
    refine ⟨hlen, (final_detections_facts lib op _ _ _ _ r hv).2, ?_, ?_⟩
    · intro o ho o1 ho1 hlt
      by_contra hn
      exact absurd (truncation_keeps_best lib _ _ _ _ hperm o o1 ho ho1 hn) (Nat.not_le_of_lt hlt)
    · intro hd lib1
      have heq := sorted_perm_unique (raw_key r.selected.scores (input_scores.t.size 1))
        (all_objects (input_scores.t.size 1) r.selected.keeps) _ _
        (lib1.sort_perm _ _) (lib.sort_perm _ _) (lib1.sort_sorted _ _) (lib.sort_sorted _ _) hd
      have h2 := hv.2
      unfold limit_objects at h2 ⊢
      rw [heq]
      exact h2

/-- Witness for C18: the call on `ties_scores` with the `std::sort` of
libstdc++ and `max_objects = 10`; the cap truncates twenty selected pairs to
ten detections. -/
theorem merge_cut_by_raw_score_witness :
    RunOnDevice gnu_lib (default_op 10 SOFT_NMS_NONE) (splits_tensor [10]) ties_scores ties_boxes
      = .ok ties_out ∧
    0 < (splits_tensor [10]).size 0 ∧
    ∃ r : ImageRun,
      r.num_boxes = (splits_tensor [10]).data.getD 0 0 ∧
      r.valid gnu_lib (default_op 10 SOFT_NMS_NONE) ties_scores.scale ties_scores.zero_point
        ties_boxes.data (ties_scores.t.size 1) ∧
      ties_out.image_classes 0 = (r.detections (ties_scores.t.size 1)).map Prod.fst := by
  set_option maxRecDepth 100000 in
  exact ⟨by decide!, by decide,
    (merge_cut_by_raw_score gnu_lib (default_op 10 SOFT_NMS_NONE) (splits_tensor [10])
      ties_scores ties_boxes ties_out (by decide!) 0 (by decide)).imp
      (fun _ hr => ⟨hr.1, hr.2.1, hr.2.2.1⟩)⟩

/-- C19 (suppression-mode parsing).  `GetSoftNmsMethod` returns 0 for
`"none"`, 1 for `"linear"`, 2 for `"gaussian"` and throws for every other
string.  For an operator whose method is a value that `GetSoftNmsMethod`
returned, no comparison of the selection loop throws, and a failing call
never fails with the message `Unknown soft nms method`. -/
theorem soft_nms_method_parsing :
    GetSoftNmsMethod "none" = .ok 0 ∧ GetSoftNmsMethod "linear" = .ok 1 ∧
    GetSoftNmsMethod "gaussian" = .ok 2 ∧
    (∀ name, name ≠ "none" → name ≠ "linear" → name ≠ "gaussian" →
      GetSoftNmsMethod name = .error ("Unexpected soft_nms_method " ++ name)) ∧
    (∀ name (lib : Lib) (op : AABBRoINMSOp), GetSoftNmsMethod name = .ok op.soft_nms_method →
      (∀ scale zp boxes num_classes class_idx p scores idx,
        ∃ res, compare_outcome lib op scale zp boxes num_classes class_idx p scores idx = .ok res) ∧
      (∀ input_batch_splits input_scores input_boxes e,
        RunOnDevice lib op input_batch_splits input_scores input_boxes = .error e →
        e ≠ "Unknown soft nms method")) := by
  refine ⟨by decide, by decide, by decide, ?_, ?_⟩
  · intro name h1 h2 h3
    unfold GetSoftNmsMethod
    rw [if_neg h1, if_neg h2, if_neg h3]
  · intro name lib op hname
    have hm : op.soft_nms_method = SOFT_NMS_NONE ∨ op.soft_nms_method = SOFT_NMS_LINEAR ∨
        op.soft_nms_method = SOFT_NMS_GAUSSIAN := by
      unfold GetSoftNmsMethod at hname
      split_ifs at hname
      · simp only [Except.ok.injEq] at hname
        exact Or.inl hname.symm
      · simp only [Except.ok.injEq] at hname
        exact Or.inr (Or.inl hname.symm)
      · simp only [Except.ok.injEq] at hname
        exact Or.inr (Or.inr hname.symm)
    refine ⟨fun scale zp boxes num_classes class_idx p scores idx =>
      compare_outcome_total lib op scale zp boxes num_classes class_idx p scores idx hm, ?_⟩
    intro sp sc bx e he
    rcases run_error lib op sp sc bx e hm he with h1 | h1 | h1 | h1 | h1
    · exact check_shapes_error sp sc bx e h1
    all_goals (rw [h1]; decide)

/-- Witness for C19: the method parsed from `"gaussian"`. -/
theorem soft_nms_method_parsing_witness :
    GetSoftNmsMethod "gaussian" = .ok (default_op 100 SOFT_NMS_GAUSSIAN).soft_nms_method ∧
    (∀ scale zp boxes num_classes class_idx p scores idx,
      ∃ res, compare_outcome std_lib (default_op 100 SOFT_NMS_GAUSSIAN) scale zp boxes num_classes
        class_idx p scores idx = .ok res) :=
  ⟨by decide,
    (soft_nms_method_parsing.2.2.2.2 "gaussian" std_lib (default_op 100 SOFT_NMS_GAUSSIAN)
      (by decide)).1⟩

theorem row_entry_inj (num_classes c i j : Nat) (hnc : 0 < num_classes)
    (h : i * num_classes + c = j * num_classes + c) : i = j :=
  Nat.eq_of_mul_eq_mul_right hnc (Nat.add_right_cancel h)

theorem entry_inj (num_classes c1 c2 i j : Nat) (h1 : c1 < num_classes) (h2 : c2 < num_classes)
    (h : i * num_classes + c1 = j * num_classes + c2) : i = j ∧ c1 = c2 := by
  have hm1 : (i * num_classes + c1) % num_classes = c1 := by
    rw [Nat.add_comm, Nat.add_mul_mod_self_right, Nat.mod_eq_of_lt h1]
  have hm2 : (j * num_classes + c2) % num_classes = c2 := by
    rw [Nat.add_comm, Nat.add_mul_mod_self_right, Nat.mod_eq_of_lt h2]
  have hc : c1 = c2 := by rw [← hm1, h, hm2]
  subst hc
  exact ⟨row_entry_inj num_classes c1 i j (by omega) h, rfl⟩

/-- The comparison loop over candidates that are pairwise different, when
what one comparison does to a candidate depends only on the candidate's own
table entry: `carried` says which candidates are pushed and `w` which value,
if any, is stored for a candidate.  The next pool holds the carried
candidates in order, the entry of a candidate with a stored value holds the
requantized value, and every other entry is as before. -/
theorem compare_loop_exact (lib : Lib) (op : AABBRoINMSOp) (scale : ℚ) (zp : Int)
    (boxes : List Nat) (num_classes class_idx p : Nat) (hnc : 0 < num_classes) (T0 : List Nat)
    (w : Nat → Option ℚ) (carried : Nat → Bool)
    (hv : ∀ (T : List Nat) (idx : Nat) (res : Option ℚ × List Nat),
      T.getD (idx * num_classes + class_idx) 0 = T0.getD (idx * num_classes + class_idx) 0 →
      compare_outcome lib op scale zp boxes num_classes class_idx p T idx = .ok res →
      res.1.isSome = carried idx ∧ (w idx = none → res.2 = T) ∧
      (∀ x, w idx = some x → res.2 = store_score lib scale zp num_classes class_idx idx x T))
    (xs : List Nat) (hnd : xs.Nodup) (pl0 pl : Pool) (h0 : pl0.scores = T0)
    (h : forE (compare_step lib op scale zp boxes num_classes class_idx p) xs pl0 = .ok pl) :
    pl.indices = pl0.indices ++ xs.filter carried ∧
    pl.scores.length = T0.length ∧
    (∀ k, (∀ i ∈ xs, k ≠ i * num_classes + class_idx) → pl.scores.getD k 0 = T0.getD k 0) ∧
    (∀ i ∈ xs,
      (w i = none → pl.scores.getD (i * num_classes + class_idx) 0
        = T0.getD (i * num_classes + class_idx) 0) ∧
      (∀ x, w i = some x → i * num_classes + class_idx < T0.length →
        pl.scores.getD (i * num_classes + class_idx) 0 = lib.QuantizeUint8 scale zp x % 256)) := by
  refine forE_prefix (compare_step lib op scale zp boxes num_classes class_idx p)
    (fun pre u =>
      u.indices = pl0.indices ++ pre.filter carried ∧
      u.scores.length = T0.length ∧
      (∀ k, (∀ i ∈ pre, k ≠ i * num_classes + class_idx) → u.scores.getD k 0 = T0.getD k 0) ∧
      (∀ i ∈ pre,
        (w i = none → u.scores.getD (i * num_classes + class_idx) 0
          = T0.getD (i * num_classes + class_idx) 0) ∧
        (∀ x, w i = some x → i * num_classes + class_idx < T0.length →
          u.scores.getD (i * num_classes + class_idx) 0 = lib.QuantizeUint8 scale zp x % 256)))
    xs pl0 pl ?_ ?_ h
  · refine ⟨by simp, by rw [h0], fun k _ => by rw [h0], ?_⟩
    intro i hi
    exact absurd hi (List.not_mem_nil i)
  · intro pre a q hxs u v ⟨hidx, hlen, hout, hin⟩ hstep
    have hnd1 : (pre ++ a :: q).Nodup := by rw [hxs]; exact hnd
    have ha_pre : a ∉ pre := fun hmem =>
      (List.nodup_append.mp hnd1).2.2 hmem (List.mem_cons_self _ _)
    have hne : ∀ i ∈ pre, a * num_classes + class_idx ≠ i * num_classes + class_idx := by
      intro i hi heq
      exact ha_pre (row_entry_inj num_classes class_idx a i hnc heq ▸ hi)
    have hent : u.scores.getD (a * num_classes + class_idx) 0
        = T0.getD (a * num_classes + class_idx) 0 := hout _ hne
    obtain ⟨res, hres, hcase⟩ := compare_step_outcome lib op scale zp boxes num_classes class_idx p
      u v a hstep
    obtain ⟨hcar, hwn, hws⟩ := hv u.scores a res hent hres
    have hvs : v.scores = res.2 := by
      rcases hcase with ⟨_, rfl⟩ | ⟨score, _, rfl⟩
      · rfl
      · rfl
    have hvi : v.indices = pl0.indices ++ (pre ++ [a]).filter carried := by
      rw [List.filter_append, ← List.append_assoc, ← hidx]
      rcases hcase with ⟨hnone, rfl⟩ | ⟨score, hsome, rfl⟩
      · rw [hnone] at hcar
        have hca : carried a = false := by rw [← hcar]; rfl
        simp [List.filter, hca]
      · rw [hsome] at hcar
        have hca : carried a = true := by rw [← hcar]; rfl
        simp [List.filter, hca, Pool.push]
    refine ⟨hvi, ?_, ?_, ?_⟩
    · rw [hvs]
      cases hw : w a with
      | none => rw [hwn hw]; exact hlen
      | some x =>
        rw [hws x hw]
        unfold store_score
        rw [List.length_set]
        exact hlen
    · intro k hk
      have hk1 : ∀ i ∈ pre, k ≠ i * num_classes + class_idx :=
        fun i hi => hk i (List.mem_append_left _ hi)
      have hk2 : k ≠ a * num_classes + class_idx := hk a (by simp)
      rw [hvs]
      cases hw : w a with
      | none => rw [hwn hw]; exact hout k hk1
      | some x =>
        rw [hws x hw]
        unfold store_score
        rw [getD_set_list, if_neg (fun hh => hk2 hh.1.symm)]
        exact hout k hk1
    · intro i hi
      rw [hvs]
      rcases List.mem_append.mp hi with hi | hi
      · have hia : a * num_classes + class_idx ≠ i * num_classes + class_idx := hne i hi
        have hsame : res.2.getD (i * num_classes + class_idx) 0
            = u.scores.getD (i * num_classes + class_idx) 0 := by
          cases hw : w a with
          | none => rw [hwn hw]
          | some x =>
            rw [hws x hw]
            unfold store_score
            rw [getD_set_list, if_neg (fun hh => hia hh.1)]
        rw [hsame]
        exact hin i hi
      · rw [List.mem_singleton] at hi
        subst hi
        refine ⟨fun hw => ?_, fun x hw hlt => ?_⟩
        · rw [hwn hw]; exact hent
        · rw [hws x hw]
          unfold store_score
          rw [getD_set_list, if_pos ⟨rfl, by rw [hlen]; exact hlt⟩]

/-- The candidates compared in a round: the pool without the emitted RoI. -/
theorem round_rest (v : List Nat) (pos : Nat) (hnd : v.Nodup) (hpos : pos < v.length) :
    ((swap v 0 pos).drop 1).Nodup ∧ v.getD pos 0 ∈ v ∧
    ∀ i, i ∈ (swap v 0 pos).drop 1 ↔ i ∈ v ∧ i ≠ v.getD pos 0 := by
  obtain ⟨hperm, hhead⟩ := swap_zero_perm v pos hpos
  cases hsw : swap v 0 pos with
  | nil =>
    rw [hsw] at hperm
    have := hperm.length_eq
    simp at this
    omega
  | cons a t =>
    rw [hsw] at hperm hhead
    have ha : a = v.getD pos 0 := by simpa using hhead
    have hnd1 : (a :: t).Nodup := hperm.nodup_iff.mpr hnd
    have hat : a ∉ t := (List.nodup_cons.mp hnd1).1
    refine ⟨by simpa using (List.nodup_cons.mp hnd1).2, ?_, ?_⟩
    · rw [← ha]
      exact hperm.subset (List.mem_cons_self _ _)
    · intro i
      rw [← ha]
      simp only [List.drop_one, List.tail_cons]
      constructor
      · intro hi
        exact ⟨hperm.subset (List.mem_cons_of_mem _ hi), fun h => hat (h ▸ hi)⟩
      · rintro ⟨hi, hne⟩
        rcases List.mem_cons.mp (hperm.symm.subset hi) with h | h
        · exact absurd h hne
        · exact h

/-- One round of the selector on a pool of pairwise different candidates,
when what a comparison does to a candidate depends only on the candidate's
own table entry. -/
theorem nms_round_exact (lib : Lib) (op : AABBRoINMSOp) (scale : ℚ) (zp : Int)
    (boxes : List Nat) (num_classes class_idx : Nat) (hnc : 0 < num_classes) (s s1 : Selector)
    (hnd : s.pool.indices.Nodup)
    (w : Nat → Option ℚ) (carried : Nat → Bool)
    (hv : ∀ (T : List Nat) (idx : Nat) (res : Option ℚ × List Nat),
      T.getD (idx * num_classes + class_idx) 0
        = s.pool.scores.getD (idx * num_classes + class_idx) 0 →
      compare_outcome lib op scale zp boxes num_classes class_idx
        (s.pool.indices.getD s.pool.best_score_pos.toNat 0) T idx = .ok res →
      res.1.isSome = carried idx ∧ (w idx = none → res.2 = T) ∧
      (∀ x, w idx = some x → res.2 = store_score lib scale zp num_classes class_idx idx x T))
    (h : nms_round lib op scale zp boxes num_classes class_idx s = .ok s1) :
    s1.keep = s.keep ++ [s.pool.indices.getD s.pool.best_score_pos.toNat 0] ∧
    s.pool.indices.getD s.pool.best_score_pos.toNat 0 ∈ s.pool.indices ∧
    (∀ i, i ∈ s1.pool.indices ↔
      i ∈ s.pool.indices ∧ i ≠ s.pool.indices.getD s.pool.best_score_pos.toNat 0 ∧
        carried i = true) ∧
    s1.pool.scores.length = s.pool.scores.length ∧
    (∀ k, (∀ i ∈ s.pool.indices, i ≠ s.pool.indices.getD s.pool.best_score_pos.toNat 0 →
        k ≠ i * num_classes + class_idx) →
      s1.pool.scores.getD k 0 = s.pool.scores.getD k 0) ∧
    (∀ i ∈ s.pool.indices, i ≠ s.pool.indices.getD s.pool.best_score_pos.toNat 0 →
      (w i = none → s1.pool.scores.getD (i * num_classes + class_idx) 0
        = s.pool.scores.getD (i * num_classes + class_idx) 0) ∧
      (∀ x, w i = some x → i * num_classes + class_idx < s.pool.scores.length →
        s1.pool.scores.getD (i * num_classes + class_idx) 0
          = lib.QuantizeUint8 scale zp x % 256)) := by
  obtain ⟨r0, r1, r2, r3⟩ := nms_round_explicit lib op scale zp boxes num_classes class_idx s s1 h
  have hpos : s.pool.best_score_pos.toNat < s.pool.indices.length := by
    have := Int.toNat_of_nonneg r0
    omega
  obtain ⟨xnd, hp, hmem⟩ := round_rest s.pool.indices s.pool.best_score_pos.toNat hnd hpos
  obtain ⟨e1, e2, e3, e4⟩ := compare_loop_exact lib op scale zp boxes num_classes class_idx
    (s.pool.indices.getD s.pool.best_score_pos.toNat 0) hnc s.pool.scores w carried hv
    ((swap s.pool.indices 0 s.pool.best_score_pos.toNat).drop 1) xnd (Pool.init s.pool.scores)
    s1.pool rfl r3
  refine ⟨r2, hp, ?_, e2, ?_, ?_⟩
  · intro i
    rw [e1]
    simp only [Pool.init, List.nil_append, List.mem_filter]
    rw [hmem i]
    tauto
  · intro k hk
    exact e3 k (fun i hi => hk i ((hmem i).mp hi).1 ((hmem i).mp hi).2)
  · intro i hi hne
    exact e4 i ((hmem i).mpr ⟨hi, hne⟩)

/-- The pool of a state that the selector loop reaches from an admission
scan holds no RoI twice, and neither does the keep-list together with it. -/
theorem reached_nodup (lib : Lib) (op : AABBRoINMSOp) (scale : ℚ) (zp : Int)
    (boxes : List Nat) (num_classes class_idx num_boxes cap rounds : Nat) (tbl : List Nat)
    (s : Selector)
    (h : nms_loop lib op scale zp boxes num_classes class_idx cap rounds
      { pool := scan op scale zp num_classes class_idx num_boxes tbl, keep := [] } = .ok s) :
    (s.keep ++ s.pool.indices).Nodup ∧ s.pool.indices.Nodup ∧
    ∀ x ∈ s.keep ++ s.pool.indices,
      x ∈ (scan op scale zp num_classes class_idx num_boxes tbl).indices := by
  obtain ⟨a, b⟩ := nms_loop_nodup lib op scale zp boxes num_classes class_idx cap rounds _ s
    (by
      simp only [List.nil_append]
      exact scan_indices_nodup op scale zp num_classes class_idx num_boxes tbl) h
  exact ⟨a, (List.nodup_append.mp a).2.1, fun x hx => by simpa using b x hx⟩

/-- One comparison in mode LINEAR. -/
theorem compare_outcome_linear (lib : Lib) (op : AABBRoINMSOp) (scale : ℚ) (zp : Int)
    (boxes : List Nat) (num_classes class_idx p : Nat) (T : List Nat) (idx : Nat)
    (hmode : op.soft_nms_method = SOFT_NMS_LINEAR) :
    compare_outcome lib op scale zp boxes num_classes class_idx p T idx
      = .ok (if within_iou op boxes num_classes class_idx p idx
          then (some (score_at scale zp T num_classes class_idx idx), T)
          else (if linear_rescored scale zp boxes num_classes class_idx p T idx
                  ≥ op.soft_nms_min_score
                then some (linear_rescored scale zp boxes num_classes class_idx p T idx)
                else none,
                store_score lib scale zp num_classes class_idx idx
                  (linear_rescored scale zp boxes num_classes class_idx p T idx) T)) := by
  have hng : ¬ op.soft_nms_method = SOFT_NMS_GAUSSIAN := by rw [hmode]; decide
  have hnn : op.soft_nms_method ≠ SOFT_NMS_NONE := by rw [hmode]; decide
  unfold compare_outcome
  dsimp only
  by_cases hw : within_iou op boxes num_classes class_idx p idx
  · rw [if_pos hw]
    unfold within_iou at hw
    rw [if_pos hw, if_neg hng]
  · rw [if_neg hw]
    unfold within_iou at hw
    rw [if_neg hw, if_pos hnn, if_pos hmode]
    dsimp only
    unfold linear_rescored iou_of
    split_ifs <;> rfl

/-- One comparison in mode GAUSSIAN. -/
theorem compare_outcome_gaussian (lib : Lib) (op : AABBRoINMSOp) (scale : ℚ) (zp : Int)
    (boxes : List Nat) (num_classes class_idx p : Nat) (T : List Nat) (idx : Nat)
    (hmode : op.soft_nms_method = SOFT_NMS_GAUSSIAN) :
    compare_outcome lib op scale zp boxes num_classes class_idx p T idx
      = .ok (if within_iou op boxes num_classes class_idx p idx
          then (some (score_at scale zp T num_classes class_idx idx),
                store_score lib scale zp num_classes class_idx idx
                  (gaussian_rescored lib op scale zp boxes num_classes class_idx p T idx) T)
          else (if gaussian_rescored lib op scale zp boxes num_classes class_idx p T idx
                  ≥ op.soft_nms_min_score
                then some (gaussian_rescored lib op scale zp boxes num_classes class_idx p T idx)
                else none,
                store_score lib scale zp num_classes class_idx idx
                  (gaussian_rescored lib op scale zp boxes num_classes class_idx p T idx) T)) := by
  have hnl : ¬ op.soft_nms_method = SOFT_NMS_LINEAR := by rw [hmode]; decide
  have hnn : op.soft_nms_method ≠ SOFT_NMS_NONE := by rw [hmode]; decide
  unfold compare_outcome
  dsimp only
  by_cases hw : within_iou op boxes num_classes class_idx p idx
  · rw [if_pos hw]
    unfold within_iou at hw
    rw [if_pos hw, if_pos hmode]
    rfl
  · rw [if_neg hw]
    unfold within_iou at hw
    rw [if_neg hw, if_pos hnn, if_neg hnl, if_pos hmode]
    dsimp only
    unfold gaussian_rescored iou_of
    split_ifs <;> rfl

/-- Scores read from tables that agree on the entry of the RoI. -/
theorem score_at_entry (scale : ℚ) (zp : Int) (num_classes class_idx i : Nat) (T T0 : List Nat)
    (h : T.getD (i * num_classes + class_idx) 0 = T0.getD (i * num_classes + class_idx) 0) :
    score_at scale zp T num_classes class_idx i = score_at scale zp T0 num_classes class_idx i := by
  unfold score_at
  rw [h]

theorem linear_rescored_entry (scale : ℚ) (zp : Int) (boxes : List Nat)
    (num_classes class_idx p i : Nat) (T T0 : List Nat)
    (h : T.getD (i * num_classes + class_idx) 0 = T0.getD (i * num_classes + class_idx) 0) :
    linear_rescored scale zp boxes num_classes class_idx p T i
      = linear_rescored scale zp boxes num_classes class_idx p T0 i := by
  unfold linear_rescored
  rw [score_at_entry scale zp num_classes class_idx i T T0 h]

theorem gaussian_rescored_entry (lib : Lib) (op : AABBRoINMSOp) (scale : ℚ) (zp : Int)
    (boxes : List Nat) (num_classes class_idx p i : Nat) (T T0 : List Nat)
    (h : T.getD (i * num_classes + class_idx) 0 = T0.getD (i * num_classes + class_idx) 0) :
    gaussian_rescored lib op scale zp boxes num_classes class_idx p T i
      = gaussian_rescored lib op scale zp boxes num_classes class_idx p T0 i := by
  unfold gaussian_rescored
  rw [score_at_entry scale zp num_classes class_idx i T T0 h]

/-- What one comparison in mode LINEAR does to a candidate whose table entry
is the one of the table `T0`. -/
theorem linear_comparison_rule (lib : Lib) (op : AABBRoINMSOp) (scale : ℚ) (zp : Int)
    (boxes : List Nat) (num_classes class_idx p : Nat) (T0 : List Nat)
    (hmode : op.soft_nms_method = SOFT_NMS_LINEAR)
    (T : List Nat) (idx : Nat) (res : Option ℚ × List Nat)
    (hT : T.getD (idx * num_classes + class_idx) 0 = T0.getD (idx * num_classes + class_idx) 0)
    (hres : compare_outcome lib op scale zp boxes num_classes class_idx p T idx = .ok res) :
    res.1.isSome = decide (within_iou op boxes num_classes class_idx p idx ∨
      linear_rescored scale zp boxes num_classes class_idx p T0 idx ≥ op.soft_nms_min_score) ∧
    ((if within_iou op boxes num_classes class_idx p idx then none
      else some (linear_rescored scale zp boxes num_classes class_idx p T0 idx)) = none →
      res.2 = T) ∧
    (∀ x, (if within_iou op boxes num_classes class_idx p idx then none
      else some (linear_rescored scale zp boxes num_classes class_idx p T0 idx)) = some x →
      res.2 = store_score lib scale zp num_classes class_idx idx x T) := by
  rw [compare_outcome_linear lib op scale zp boxes num_classes class_idx p T idx hmode] at hres
  simp only [Except.ok.injEq] at hres
  rw [linear_rescored_entry scale zp boxes num_classes class_idx p idx T T0 hT] at hres
  by_cases hw : within_iou op boxes num_classes class_idx p idx
  · rw [if_pos hw] at hres
    rw [← hres, if_pos hw]
    refine ⟨?_, fun _ => rfl, fun x hx => ?_⟩
    · rw [decide_eq_true (Or.inl hw)]
      rfl
    · cases hx
  · rw [if_neg hw] at hres
    rw [← hres, if_neg hw]
    refine ⟨?_, fun hx => ?_, fun x hx => ?_⟩
    · by_cases hs : linear_rescored scale zp boxes num_classes class_idx p T0 idx
          ≥ op.soft_nms_min_score
      · rw [decide_eq_true (Or.inr hs)]
        dsimp only
        rw [if_pos hs]
        rfl
      · rw [decide_eq_false (fun hor => hor.elim hw hs)]
        dsimp only
        rw [if_neg hs]
        rfl
    · cases hx
    · simp only [Option.some.injEq] at hx
      rw [← hx]

/-- What one comparison in mode GAUSSIAN does to a candidate whose table
entry is the one of the table `T0`. -/
theorem gaussian_comparison_rule (lib : Lib) (op : AABBRoINMSOp) (scale : ℚ) (zp : Int)
    (boxes : List Nat) (num_classes class_idx p : Nat) (T0 : List Nat)
    (hmode : op.soft_nms_method = SOFT_NMS_GAUSSIAN)
    (T : List Nat) (idx : Nat) (res : Option ℚ × List Nat)
    (hT : T.getD (idx * num_classes + class_idx) 0 = T0.getD (idx * num_classes + class_idx) 0)
    (hres : compare_outcome lib op scale zp boxes num_classes class_idx p T idx = .ok res) :
    res.1.isSome = decide (within_iou op boxes num_classes class_idx p idx ∨
      gaussian_rescored lib op scale zp boxes num_classes class_idx p T0 idx
        ≥ op.soft_nms_min_score) ∧
    (some (gaussian_rescored lib op scale zp boxes num_classes class_idx p T0 idx) = none →
      res.2 = T) ∧
    (∀ x, some (gaussian_rescored lib op scale zp boxes num_classes class_idx p T0 idx) = some x →
      res.2 = store_score lib scale zp num_classes class_idx idx x T) := by
  rw [compare_outcome_gaussian lib op scale zp boxes num_classes class_idx p T idx hmode] at hres
  simp only [Except.ok.injEq] at hres
  rw [gaussian_rescored_entry lib op scale zp boxes num_classes class_idx p idx T T0 hT] at hres
  by_cases hw : within_iou op boxes num_classes class_idx p idx
  · rw [if_pos hw] at hres
    rw [← hres]
    refine ⟨?_, fun hx => ?_, fun x hx => ?_⟩
    · rw [decide_eq_true (Or.inl hw)]
      rfl
    · cases hx
    · simp only [Option.some.injEq] at hx
      rw [← hx]
  · rw [if_neg hw] at hres
    rw [← hres]
    refine ⟨?_, fun hx => ?_, fun x hx => ?_⟩
    · by_cases hs : gaussian_rescored lib op scale zp boxes num_classes class_idx p T0 idx
          ≥ op.soft_nms_min_score
      · rw [decide_eq_true (Or.inr hs)]
        dsimp only
        rw [if_pos hs]
        rfl
      · rw [decide_eq_false (fun hor => hor.elim hw hs)]
        dsimp only
        rw [if_neg hs]
        rfl
    · cases hx
    · simp only [Option.some.injEq] at hx
      rw [← hx]

/-- One round of the selector in mode LINEAR on a pool of pairwise different
candidates: which candidates are carried and what the score table holds
afterwards. -/
theorem nms_round_linear (lib : Lib) (op : AABBRoINMSOp) (scale : ℚ) (zp : Int)
    (boxes : List Nat) (num_classes class_idx : Nat) (hnc : 0 < num_classes) (s s1 : Selector)
    (hmode : op.soft_nms_method = SOFT_NMS_LINEAR) (hnd : s.pool.indices.Nodup)
    (h : nms_round lib op scale zp boxes num_classes class_idx s = .ok s1) :
    s1.keep = s.keep ++ [s.pool.indices.getD s.pool.best_score_pos.toNat 0] ∧
    s.pool.indices.getD s.pool.best_score_pos.toNat 0 ∈ s.pool.indices ∧
    (∀ i, i ∈ s1.pool.indices ↔
      i ∈ s.pool.indices ∧ i ≠ s.pool.indices.getD s.pool.best_score_pos.toNat 0 ∧
        (within_iou op boxes num_classes class_idx
            (s.pool.indices.getD s.pool.best_score_pos.toNat 0) i ∨
          linear_rescored scale zp boxes num_classes class_idx
            (s.pool.indices.getD s.pool.best_score_pos.toNat 0) s.pool.scores i
            ≥ op.soft_nms_min_score)) ∧
    s1.pool.scores.length = s.pool.scores.length ∧
    (∀ k, (∀ i ∈ s.pool.indices, i ≠ s.pool.indices.getD s.pool.best_score_pos.toNat 0 →
        ¬ within_iou op boxes num_classes class_idx
          (s.pool.indices.getD s.pool.best_score_pos.toNat 0) i →
        k ≠ i * num_classes + class_idx) →
      s1.pool.scores.getD k 0 = s.pool.scores.getD k 0) ∧
    (∀ i ∈ s.pool.indices, i ≠ s.pool.indices.getD s.pool.best_score_pos.toNat 0 →
      ¬ within_iou op boxes num_classes class_idx
        (s.pool.indices.getD s.pool.best_score_pos.toNat 0) i →
      i * num_classes + class_idx < s.pool.scores.length →
      s1.pool.scores.getD (i * num_classes + class_idx) 0
        = lib.QuantizeUint8 scale zp (linear_rescored scale zp boxes num_classes class_idx
            (s.pool.indices.getD s.pool.best_score_pos.toNat 0) s.pool.scores i) % 256) := by
  obtain ⟨a1, a2, a3, a4, a5, a6⟩ := nms_round_exact lib op scale zp boxes num_classes class_idx
    hnc s s1 hnd
    (fun i => if within_iou op boxes num_classes class_idx
        (s.pool.indices.getD s.pool.best_score_pos.toNat 0) i then none
      else some (linear_rescored scale zp boxes num_classes class_idx
        (s.pool.indices.getD s.pool.best_score_pos.toNat 0) s.pool.scores i))
    (fun i => decide (within_iou op boxes num_classes class_idx
        (s.pool.indices.getD s.pool.best_score_pos.toNat 0) i ∨
      linear_rescored scale zp boxes num_classes class_idx
        (s.pool.indices.getD s.pool.best_score_pos.toNat 0) s.pool.scores i
        ≥ op.soft_nms_min_score))
    (linear_comparison_rule lib op scale zp boxes num_classes class_idx
      (s.pool.indices.getD s.pool.best_score_pos.toNat 0) s.pool.scores hmode)
    h
  refine ⟨a1, a2, ?_, a4, ?_, ?_⟩
  · intro i
    rw [a3 i, decide_eq_true_iff]
  · intro k hk
    by_cases hex : ∃ i ∈ s.pool.indices,
        i ≠ s.pool.indices.getD s.pool.best_score_pos.toNat 0 ∧ k = i * num_classes + class_idx
    · obtain ⟨i, hi, hne, rfl⟩ := hex
      have hw : within_iou op boxes num_classes class_idx
          (s.pool.indices.getD s.pool.best_score_pos.toNat 0) i := by
        by_contra hnw
        exact hk i hi hne hnw rfl
      exact (a6 i hi hne).1 (if_pos hw)
    · exact a5 k (fun i hi hne heq => hex ⟨i, hi, hne, heq⟩)
  · intro i hi hne hw hlt
    exact (a6 i hi hne).2 _ (if_neg hw) hlt

/-- One round of the selector in mode GAUSSIAN on a pool of pairwise
different candidates: which candidates are carried and what the score table
holds afterwards. -/
theorem nms_round_gaussian (lib : Lib) (op : AABBRoINMSOp) (scale : ℚ) (zp : Int)
    (boxes : List Nat) (num_classes class_idx : Nat) (hnc : 0 < num_classes) (s s1 : Selector)
    (hmode : op.soft_nms_method = SOFT_NMS_GAUSSIAN) (hnd : s.pool.indices.Nodup)
    (h : nms_round lib op scale zp boxes num_classes class_idx s = .ok s1) :
    s1.keep = s.keep ++ [s.pool.indices.getD s.pool.best_score_pos.toNat 0] ∧
    s.pool.indices.getD s.pool.best_score_pos.toNat 0 ∈ s.pool.indices ∧
    (∀ i, i ∈ s1.pool.indices ↔
      i ∈ s.pool.indices ∧ i ≠ s.pool.indices.getD s.pool.best_score_pos.toNat 0 ∧
        (within_iou op boxes num_classes class_idx
            (s.pool.indices.getD s.pool.best_score_pos.toNat 0) i ∨
          gaussian_rescored lib op scale zp boxes num_classes class_idx
            (s.pool.indices.getD s.pool.best_score_pos.toNat 0) s.pool.scores i
            ≥ op.soft_nms_min_score)) ∧
    s1.pool.scores.length = s.pool.scores.length ∧
    (∀ k, (∀ i ∈ s.pool.indices, i ≠ s.pool.indices.getD s.pool.best_score_pos.toNat 0 →
        k ≠ i * num_classes + class_idx) →
      s1.pool.scores.getD k 0 = s.pool.scores.getD k 0) ∧
    (∀ i ∈ s.pool.indices, i ≠ s.pool.indices.getD s.pool.best_score_pos.toNat 0 →
      i * num_classes + class_idx < s.pool.scores.length →
      s1.pool.scores.getD (i * num_classes + class_idx) 0
        = lib.QuantizeUint8 scale zp (gaussian_rescored lib op scale zp boxes num_classes
            class_idx (s.pool.indices.getD s.pool.best_score_pos.toNat 0) s.pool.scores i)
          % 256) := by
  obtain ⟨a1, a2, a3, a4, a5, a6⟩ := nms_round_exact lib op scale zp boxes num_classes class_idx
    hnc s s1 hnd
    (fun i => some (gaussian_rescored lib op scale zp boxes num_classes class_idx
        (s.pool.indices.getD s.pool.best_score_pos.toNat 0) s.pool.scores i))
    (fun i => decide (within_iou op boxes num_classes class_idx
        (s.pool.indices.getD s.pool.best_score_pos.toNat 0) i ∨
      gaussian_rescored lib op scale zp boxes num_classes class_idx
        (s.pool.indices.getD s.pool.best_score_pos.toNat 0) s.pool.scores i
        ≥ op.soft_nms_min_score))
    (gaussian_comparison_rule lib op scale zp boxes num_classes class_idx
      (s.pool.indices.getD s.pool.best_score_pos.toNat 0) s.pool.scores hmode)
    h
  refine ⟨a1, a2, ?_, a4, a5, ?_⟩
  · intro i
    rw [a3 i, decide_eq_true_iff]
  · intro i hi hne hlt
    exact (a6 i hi hne).2 _ rfl hlt


/-! ## The greedy selector in mode NONE -/

/-- One round in mode NONE on a pool whose running best was tracked from the
table scores: the emitted RoI scores at least as high as every candidate of
the pool, and the next pool holds the other candidates that pass the test of
line 141 against it, tracked from the same table. -/
theorem none_round_greedy (lib : Lib) (op : AABBRoINMSOp) (scale : ℚ) (zp : Int)
    (boxes : List Nat) (num_classes class_idx : Nat) (T : List Nat) (u u1 : Selector)
    (hmode : op.soft_nms_method = SOFT_NMS_NONE)
    (hform : ∃ xs : List Nat, u.pool = push_all (Pool.init T)
      (xs.map (fun i => (score_at scale zp T num_classes class_idx i, i))))
    (hr : nms_round lib op scale zp boxes num_classes class_idx u = .ok u1) :
    ∃ p rest, (p :: rest).Perm u.pool.indices ∧ u1.keep = u.keep ++ [p] ∧
      (∀ i ∈ u.pool.indices,
        score_at scale zp T num_classes class_idx i ≤ score_at scale zp T num_classes class_idx p) ∧
      u1.pool.indices
        = rest.filter (fun i => decide (within_iou op boxes num_classes class_idx p i)) ∧
      (∃ ys : List Nat, u1.pool = push_all (Pool.init T)
        (ys.map (fun i => (score_at scale zp T num_classes class_idx i, i)))) := by
  obtain ⟨xs, hxs⟩ := hform
  obtain ⟨p, rest, hperm, hp, r0, r1, hkeep, hf⟩ :=
    nms_round_spec lib op scale zp boxes num_classes class_idx u u1 hr
  have hsc : u.pool.scores = T := by rw [hxs, push_all_scores]; rfl
  have hidx : u.pool.indices = xs := by
    rw [hxs, push_all_indices]
    simp [Pool.init, List.map_map, Function.comp_def]
  obtain ⟨ys, _, _, hn⟩ := compare_loop_sublist lib op scale zp boxes num_classes class_idx p
    rest _ _ hf
  have hs1 : u1.pool.scores = T := by rw [(hn hmode).2]; exact hsc
  have he := compare_loop_eq_push_all lib op scale zp boxes num_classes class_idx p rest _ _ hf
  rw [entered_none lib op scale zp boxes num_classes class_idx p rest _ hmode, hs1] at he
  have hinit : ({ Pool.init u.pool.scores with scores := T } : Pool) = Pool.init T := rfl
  rw [hinit] at he
  simp only [Pool.init] at he
  rw [hsc] at he
  have hi1 : u1.pool.indices
      = rest.filter (fun i => decide (within_iou op boxes num_classes class_idx p i)) := by
    rw [he, push_all_indices]
    simp [List.map_map, Function.comp_def]
  refine ⟨p, rest, hperm, hkeep, ?_, hi1, _, he⟩
  have hpos : u.pool.best_score_pos.toNat < xs.length := by
    have := Int.toNat_of_nonneg r0
    rw [hidx] at r1
    omega
  rcases push_all_first_max T (xs.map (fun i => (score_at scale zp T num_classes class_idx i, i)))
    with ⟨hneg, _, _⟩ | ⟨j, hj, hpj, hbest, _, hall, _⟩
  · rw [← hxs] at hneg
    rw [hneg] at r0
    exact absurd r0 (by decide)
  · rw [← hxs] at hpj hbest hall
    have hjl : j < xs.length := by simpa using hj
    have hpe : p = xs.getD j 0 := by
      rw [hp, hidx, hpj]
      rfl
    have hbs : u.pool.best_score = score_at scale zp T num_classes class_idx p := by
      rw [hbest, getD_map_lt _ xs j 0 (0, 0) hjl, hpe]
    intro i hi
    rw [hidx] at hi
    rw [← hbs]
    exact hall _ (List.mem_map.mpr ⟨i, hi, rfl⟩)

/-- The invariant of the selector loop in mode NONE: the keep-list is in
non-increasing order of score, every kept RoI scores at least as high as
every candidate still in the pool, and every RoI of `cands` is kept, still
in the pool, or fails the test of line 141 against a kept RoI that scores at
least as high. -/
theorem nms_loop_greedy_none (lib : Lib) (op : AABBRoINMSOp) (scale : ℚ) (zp : Int)
    (boxes : List Nat) (num_classes class_idx cap rounds : Nat) (T : List Nat)
    (cands : List Nat) (s0 t : Selector) (hmode : op.soft_nms_method = SOFT_NMS_NONE)
    (hform : ∃ xs : List Nat, s0.pool = push_all (Pool.init T)
      (xs.map (fun i => (score_at scale zp T num_classes class_idx i, i))))
    (hcov : ∀ i ∈ cands, i ∈ s0.keep ∨ i ∈ s0.pool.indices ∨
      ∃ k ∈ s0.keep, ¬ within_iou op boxes num_classes class_idx k i ∧
        score_at scale zp T num_classes class_idx i ≤ score_at scale zp T num_classes class_idx k)
    (hdom : ∀ k ∈ s0.keep, ∀ i ∈ s0.pool.indices,
      score_at scale zp T num_classes class_idx i ≤ score_at scale zp T num_classes class_idx k)
    (hord : s0.keep.Pairwise (fun a b =>
      score_at scale zp T num_classes class_idx b ≤ score_at scale zp T num_classes class_idx a))
    (h : nms_loop lib op scale zp boxes num_classes class_idx cap rounds s0 = .ok t) :
    (∀ i ∈ cands, i ∈ t.keep ∨ i ∈ t.pool.indices ∨
      ∃ k ∈ t.keep, ¬ within_iou op boxes num_classes class_idx k i ∧
        score_at scale zp T num_classes class_idx i ≤ score_at scale zp T num_classes class_idx k) ∧
    t.keep.Pairwise (fun a b =>
      score_at scale zp T num_classes class_idx b ≤ score_at scale zp T num_classes class_idx a) := by
  have key := nms_loop_invariant lib op scale zp boxes num_classes class_idx cap
    (fun u =>
      (∃ xs : List Nat, u.pool = push_all (Pool.init T)
        (xs.map (fun i => (score_at scale zp T num_classes class_idx i, i)))) ∧
      (∀ i ∈ cands, i ∈ u.keep ∨ i ∈ u.pool.indices ∨
        ∃ k ∈ u.keep, ¬ within_iou op boxes num_classes class_idx k i ∧
          score_at scale zp T num_classes class_idx i
            ≤ score_at scale zp T num_classes class_idx k) ∧
      (∀ k ∈ u.keep, ∀ i ∈ u.pool.indices,
        score_at scale zp T num_classes class_idx i
          ≤ score_at scale zp T num_classes class_idx k) ∧
      u.keep.Pairwise (fun a b =>
        score_at scale zp T num_classes class_idx b
          ≤ score_at scale zp T num_classes class_idx a))
    ?_ rounds s0 t ⟨hform, hcov, hdom, hord⟩ h
  · exact ⟨key.2.1, key.2.2.2⟩
  · intro u u1 ⟨uform, ucov, udom, uord⟩ _ _ hr
    obtain ⟨p, rest, hperm, hkeep, hmax, hi1, hform1⟩ := none_round_greedy lib op scale zp boxes
      num_classes class_idx T u u1 hmode uform hr
    have hp_mem : p ∈ u.pool.indices := hperm.subset (List.mem_cons_self _ _)
    have hrest : ∀ i ∈ rest, i ∈ u.pool.indices :=
      fun i hi => hperm.subset (List.mem_cons_of_mem _ hi)
    refine ⟨hform1, ?_, ?_, ?_⟩
    · intro i hi
      rcases ucov i hi with hk | hpl | ⟨k, hk, hw, hs⟩
      · exact Or.inl (by rw [hkeep]; exact List.mem_append_left _ hk)
      · rcases List.mem_cons.mp (hperm.symm.subset hpl) with rfl | hir
        · exact Or.inl (by rw [hkeep]; simp)
        · by_cases hw : within_iou op boxes num_classes class_idx p i
          · refine Or.inr (Or.inl ?_)
            rw [hi1, List.mem_filter]
            exact ⟨hir, decide_eq_true hw⟩
          · exact Or.inr (Or.inr ⟨p, by rw [hkeep]; simp, hw, hmax i hpl⟩)
      · exact Or.inr (Or.inr ⟨k, by rw [hkeep]; exact List.mem_append_left _ hk, hw, hs⟩)
    · intro k hk i hi
      rw [hi1] at hi
      have hiu := hrest i (List.mem_filter.mp hi).1
      rw [hkeep] at hk
      rcases List.mem_append.mp hk with hk | hk
      · exact udom k hk i hiu
      · rw [List.mem_singleton.mp hk]
        exact hmax i hiu
    · rw [hkeep, List.pairwise_append]
      refine ⟨uord, List.pairwise_singleton _ _, ?_⟩
      intro a ha b hb
      rw [List.mem_singleton.mp hb]
      exact udom a ha p hp_mem


/-! ## Candidates that a round drops -/

/-- A round that returns is what the selector loop does in one iteration when
the cap allows one more emission. -/
theorem round_as_loop (lib : Lib) (op : AABBRoINMSOp) (scale : ℚ) (zp : Int)
    (boxes : List Nat) (num_classes class_idx : Nat) (s s1 : Selector)
    (h : nms_round lib op scale zp boxes num_classes class_idx s = .ok s1) :
    nms_loop lib op scale zp boxes num_classes class_idx (s.keep.length + 1) (0 + 1) s = .ok s1 := by
  obtain ⟨r0, r1, _, _⟩ := nms_round_explicit lib op scale zp boxes num_classes class_idx s s1 h
  rw [nms_loop, if_pos ⟨by omega, Nat.lt_succ_self _⟩, h]
  dsimp only
  rw [nms_loop]

/-- A candidate that a round does not carry into the next pool is in no
later pool and in no later keep-list of the class pass. -/
theorem dropped_stays_out (lib : Lib) (op : AABBRoINMSOp) (scale : ℚ) (zp : Int)
    (boxes : List Nat) (num_classes class_idx : Nat) (s s1 : Selector)
    (hnd : (s.keep ++ s.pool.indices).Nodup)
    (h : nms_round lib op scale zp boxes num_classes class_idx s = .ok s1)
    (i : Nat) (hi : i ∈ s.pool.indices)
    (hne : i ≠ s.pool.indices.getD s.pool.best_score_pos.toNat 0)
    (hout : i ∉ s1.pool.indices) (cap rounds : Nat) (t : Selector)
    (ht : nms_loop lib op scale zp boxes num_classes class_idx cap rounds s1 = .ok t) :
    i ∉ t.keep ∧ i ∉ t.pool.indices := by
  obtain ⟨_, _, hkeep, _⟩ := nms_round_explicit lib op scale zp boxes num_classes class_idx s s1 h
  obtain ⟨hnd1, _⟩ := nms_loop_nodup lib op scale zp boxes num_classes class_idx _ _ s s1 hnd
    (round_as_loop lib op scale zp boxes num_classes class_idx s s1 h)
  obtain ⟨_, hsub⟩ := nms_loop_nodup lib op scale zp boxes num_classes class_idx cap rounds s1 t
    hnd1 ht
  have hnot : i ∉ s1.keep ++ s1.pool.indices := by
    intro hmem
    rcases List.mem_append.mp hmem with hk | hk
    · rw [hkeep] at hk
      rcases List.mem_append.mp hk with hk | hk
      · exact (List.nodup_append.mp hnd).2.2 hk hi
      · exact hne (List.mem_singleton.mp hk)
    · exact hout hk
  exact ⟨fun hk => hnot (hsub i (List.mem_append_left _ hk)),
    fun hk => hnot (hsub i (List.mem_append_right _ hk))⟩


/-! ## The claims of the selector rules -/

/-- C21 (greedy selection of the maximum): the code in mode GAUSSIAN on three
RoIs with class-1 scores 0.95, 0.90 and 0.80, where RoI 1 overlaps RoI 0 with
IoU 1/4 (below `max_iou = 0.3`) and RoI 2 is far away.  The first round emits
RoI 0; RoI 1 is tracked as the running best with the score 0.90 it had
before its entry is rewritten to raw 79, RoI 2 keeps raw 80.  The second
round is entered with `best_score_pos = 0`, that is RoI 1, whose current
score 0.79 is below the current score 0.80 of RoI 2 in the same pool, and it
emits RoI 1: the output lists RoI 1 with 0.79 before RoI 2 with 0.80. -/
theorem greedy_maximum_gaussian_stale :
    nms_round std_lib (default_op 100 SOFT_NMS_GAUSSIAN) gauss_scores.scale gauss_scores.zero_point
        gauss_boxes.data 3 1
        { pool := scan (default_op 100 SOFT_NMS_GAUSSIAN) gauss_scores.scale
            gauss_scores.zero_point 3 1 3 gauss_scores.t.data, keep := [] }
      = .ok { pool := { best_score_pos := 0, best_score := 9 / 10, indices := [1, 2],
                        scores := [0, 95, 10, 0, 79, 0, 0, 80, 0] }, keep := [0] } ∧
    score_at gauss_scores.scale gauss_scores.zero_point [0, 95, 10, 0, 79, 0, 0, 80, 0] 3 1 1
      = 79 / 100 ∧
    score_at gauss_scores.scale gauss_scores.zero_point [0, 95, 10, 0, 79, 0, 0, 80, 0] 3 1 2
      = 4 / 5 ∧
    (nms_round std_lib (default_op 100 SOFT_NMS_GAUSSIAN) gauss_scores.scale
        gauss_scores.zero_point gauss_boxes.data 3 1
        { pool := { best_score_pos := 0, best_score := 9 / 10, indices := [1, 2],
                    scores := [0, 95, 10, 0, 79, 0, 0, 80, 0] }, keep := [0] }).map
        (fun s => s.keep) = .ok [0, 1] ∧
    RunOnDevice std_lib (default_op 100 SOFT_NMS_GAUSSIAN) (splits_tensor [3]) gauss_scores
      gauss_boxes = .ok gauss_full_out :=
  ⟨by decide!, by decide!, by decide!, by decide!, by decide!⟩

/-- C26 (selector assertions): the code in mode NONE with `min_score = -5` on
two RoIs that are far apart and score 0.5 and -2 for class 1.  The first
round emits RoI 0 and leaves the pool `[1]`; the comparison loop records a
running best only for scores above -1, so the second round is entered with a
non-empty pool and `best_score_pos = -1`, and the assertion
`DCHECK_GE(best_score_pos, 0)` fails. -/
theorem selector_assertion_fails :
    low_op.min_score
      < score_at mixed_scores.scale mixed_scores.zero_point mixed_scores.t.data 2 1 1 ∧
    nms_round std_lib low_op mixed_scores.scale mixed_scores.zero_point apart_boxes.data 2 1
        { pool := scan low_op mixed_scores.scale mixed_scores.zero_point 2 1 2
            mixed_scores.t.data, keep := [] }
      = .ok { pool := { best_score_pos := -1, best_score := -1, indices := [1],
                        scores := [0, 250, 0, 0] }, keep := [0] } ∧
    nms_round std_lib low_op mixed_scores.scale mixed_scores.zero_point apart_boxes.data 2 1
        { pool := { best_score_pos := -1, best_score := -1, indices := [1],
                    scores := [0, 250, 0, 0] }, keep := [0] }
      = .error "DCHECK_GE(best_score_pos, 0)" ∧
    RunOnDevice std_lib low_op (splits_tensor [2]) mixed_scores apart_boxes
      = .error "DCHECK_GE(best_score_pos, 0)" :=
  ⟨by decide!, by decide!, by decide!, by decide!⟩

end caffe2
